import Mathlib

/-!
# The greylock index: pages, the replicated B+-tree and the intersector

A shallow embedding of `src/src/index.cpp`.  Strings are byte sequences, the
transport is a replicated blob store, and every function that recurses over
stored pages or loops over iterators takes a `fuel` bound.
-/

set_option autoImplicit false

namespace Greylock

/-! ## Strings and integers -/

/-- A `std::string`: its bytes.  `<` on lists is the lexicographic order that
`std::string::operator<` computes, `length` is `size()`. -/
abbrev Str := List Nat

/-- The bytes of an ASCII literal. -/
def ascii (s : String) : Str := s.data.map Char.toNat

/-- Modulus of `size_t` and `uint64_t` arithmetic. -/
def SIZE_MOD : Nat := 2 ^ 64

/-- Unsigned 64-bit addition. -/
def add64 (a b : Nat) : Nat := (a + b) % SIZE_MOD

/-- Unsigned 64-bit subtraction: the difference when it is not negative, the
difference plus the modulus when it is. -/
def sub64 (a b : Nat) : Nat :=
  if b % SIZE_MOD ≤ a then (a - b % SIZE_MOD) % SIZE_MOD
  else (a + SIZE_MOD - b % SIZE_MOD) % SIZE_MOD

/-- The digit loop of `lexical_cast`: peels decimal digits off `value`, least
significant first, writing them right to left. -/
def lexical_cast_loop : Nat → Nat → Str → Str
  | 0, _, acc => acc
  | fuel + 1, value, acc =>
    if value = 0 then acc
    else lexical_cast_loop fuel (value / 10) ((48 + value % 10) :: acc)

/-- `lexical_cast(size_t)`: the decimal representation, `"0"` for zero. -/
def lexical_cast (value : Nat) : Str :=
  if value = 0 then [48] else lexical_cast_loop value value []

/-- `static size_t max_page_size = 4096`. -/
def max_page_size : Nat := 4096

/-- The errno value behind `-ENOENT`. -/
def ENOENT : Int := 2

/-- The errno value behind `-EIO`. -/
def EIO_code : Int := 5

/-- The transport code of a group that cannot be reached. -/
def NO_GROUP : Int := -6

/-! ## eurl, key, page -/

/-- `struct eurl`. -/
structure eurl where
  bucket : Str
  key : Str
deriving DecidableEq

instance : Inhabited eurl := ⟨⟨[], []⟩⟩

/-- `eurl::size`. -/
def eurl.size (u : eurl) : Nat := u.bucket.length + u.key.length

/-- `eurl::operator<`, as written: a disjunction of the component tests. -/
def eurl.lt (a b : eurl) : Bool := decide (a.bucket < b.bucket) || decide (a.key < b.key)

/-- `eurl::operator<=`, as written. -/
def eurl.le (a b : eurl) : Bool := decide (a.bucket ≤ b.bucket) || decide (a.key ≤ b.key)

/-- `eurl::empty`. -/
def eurl.empty (u : eurl) : Bool := u.key.isEmpty

/-- `struct key` of index.cpp: an id and the url it points at. -/
structure key where
  id : Str
  url : eurl
deriving DecidableEq

instance : Inhabited key := ⟨⟨[], default⟩⟩

/-- `key::size`. -/
def key.size (k : key) : Nat := k.id.length + k.url.size

/-- `key::operator<`: ids only. -/
def key.lt (a b : key) : Bool := decide (a.id < b.id)

/-- `key::operator<=`. -/
def key.le (a b : key) : Bool := decide (a.id ≤ b.id)

/-- `key::operator==`. -/
def key.eq (a b : key) : Bool := decide (a.id = b.id)

/-- `key::operator!=`. -/
def key.ne (a b : key) : Bool := decide (a.id ≠ b.id)

/-- `key::operator bool`: the id is not empty. -/
def key.to_bool (k : key) : Bool := decide (k.id.length ≠ 0)

/-- `PAGE_LEAF`. -/
def PAGE_LEAF : Nat := 1

/-- `struct page`. -/
structure page where
  flags : Nat
  objects : List key
  total_size : Nat
  next : eurl
deriving DecidableEq

/-- `page::page(bool leaf)`. -/
def page.new (leaf : Bool) : page :=
  { flags := if leaf then PAGE_LEAF else 0, objects := [], total_size := 0, next := default }

instance : Inhabited page := ⟨page.new false⟩

/-- `page::is_empty`. -/
def page.is_empty (p : page) : Bool := decide (p.objects.length = 0)

/-- `page::is_leaf`: `flags & PAGE_LEAF`. -/
def page.is_leaf (p : page) : Bool := decide (Nat.land p.flags PAGE_LEAF ≠ 0)

/-- `std::vector<key>::operator==`: same length and pairwise `key::operator==`. -/
def objects_eq : List key → List key → Bool
  | [], [] => true
  | a :: as, b :: bs => a.eq b && objects_eq as bs
  | _, _ => false

/-- `page::operator==`: flags and objects; `total_size` and `next` are not compared. -/
def page.eq (a b : page) : Bool := decide (a.flags = b.flags) && objects_eq a.objects b.objects

/-- `page::operator!=`. -/
def page.ne (a b : page) : Bool := decide (a.flags ≠ b.flags) || !objects_eq a.objects b.objects

/-- `std::lower_bound(objects.begin(), objects.end(), obj)`: the position of
the first element that is not less than `obj`, the size when there is none.
This is what the library returns on every range partitioned by `· < obj`,
in particular on every sorted range. -/
def lower_bound : List key → key → Nat
  | [], _ => 0
  | x :: xs, obj => if x.lt obj then lower_bound xs obj + 1 else 0

/-- `page::search_leaf`. -/
def page.search_leaf (p : page) (obj : key) : Int :=
  if !p.is_leaf then -1
  else
    let it := lower_bound p.objects obj
    if h : it < p.objects.length then
      if (p.objects.get ⟨it, h⟩).ne obj then -1 else (it : Int)
    else -1

/-- `page::search_node`. -/
def page.search_node (p : page) (obj : key) : Int :=
  match p.objects with
  | [] => -1
  | front :: _ =>
    if p.is_leaf then p.search_leaf obj
    else if obj.le front then 0
    else
      let it := lower_bound p.objects obj
      if h : it < p.objects.length then
        if (p.objects.get ⟨it, h⟩).eq obj then (it : Int) else (it : Int) - 1
      else (p.objects.length : Int) - 1

/-- `page::recalculate_size`. -/
def page.recalculate_size (p : page) : page :=
  { p with total_size := p.objects.foldl (fun acc obj => add64 acc obj.size) 0 }

/-- `page::remove`: drops the entry at `remove_pos`; the flag is the
compaction hint.  Callers pass a position inside `objects`. -/
def page.remove (p : page) (remove_pos : Nat) : page × Bool :=
  let total := sub64 p.total_size (p.objects.getD remove_pos default).size
  ({ p with objects := p.objects.eraseIdx remove_pos, total_size := total },
    decide (total < max_page_size / 3))

/-- The copy loop of `page::insert_and_split` over the remaining objects:
the copied vector, the running `total_size` and the `copied` flag. -/
def insert_copy (obj : key) : List key → Nat → List key × Nat × Bool
  | [], total => ([], total, false)
  | it :: rest, total =>
    if obj.le it then
      let total := add64 total obj.size
      if obj.eq it then (obj :: rest, sub64 total it.size, true)
      else (obj :: it :: rest, total, true)
    else
      let r := insert_copy obj rest total
      (it :: r.1, r.2.1, r.2.2)

/-- `page::insert_and_split(obj, other)`: the page, `other` and the return value. -/
def page.insert_and_split (p : page) (obj : key) (other : page) : page × page × Bool :=
  let r := insert_copy obj p.objects p.total_size
  let copy := if r.2.2 then r.1 else r.1 ++ [obj]
  let total := if r.2.2 then r.2.1 else add64 r.2.1 obj.size
  if total > max_page_size then
    let split_idx := copy.length / 2
    let other := page.recalculate_size
      { other with flags := p.flags, objects := copy.drop split_idx }
    let self := page.recalculate_size
      { p with objects := copy.take split_idx, total_size := total }
    (self, other, true)
  else
    ({ p with objects := copy, total_size := total }, other, false)

/-! ## Outcomes, blobs and the transport -/

/-- Why a run produced no value: the recursion bound was reached, the C++
behaviour is undefined (reading `front()` of an empty vector, dereferencing
past the end), or the serialization library threw. -/
inductive Fault where
  | fuel
  | undefined
  | exception
deriving DecidableEq

/-- A computation that may stop with a `Fault`. -/
abbrev Run (α : Type) := Except Fault α

/-- `struct index_meta`. -/
structure index_meta where
  page_index : Nat
  num_pages : Nat
  num_leaf_pages : Nat
  generation_number : Nat
deriving DecidableEq

instance : Inhabited index_meta := ⟨⟨0, 0, 0, 0⟩⟩

/-- What a stored blob decodes to: the serialization of a page or of an
index_meta (the codec is taken to round-trip exactly). -/
inductive blob where
  | page (p : page)
  | meta (m : index_meta)
deriving DecidableEq

/-- `page::save`. -/
def page.save (p : page) : blob := blob.page p

/-- `page::load`: decoding a blob of the other shape throws. -/
def page.load : blob → Run page
  | blob.page p => .ok p
  | blob.meta _ => .error Fault.exception

/-- Decoding an `index_meta`. -/
def index_meta.load : blob → Run index_meta
  | blob.meta m => .ok m
  | blob.page _ => .error Fault.exception

/-- Modelled from the spec: the replicated blob transport (`read`, `read_all`,
`write`, `remove`, `get_groups`, `set_groups`), which the repository only uses
through the elliptics client.  `groups` is the active group list, `down` the
groups that answer every request with code -6, `blobs` what each group
stores, newest first. -/
structure transport where
  groups : List Int
  down : List Int
  blobs : List ((Int × eurl) × blob)
deriving DecidableEq

/-- What group `g` stores under `u`. -/
def transport.lookup (t : transport) (g : Int) (u : eurl) : Option blob :=
  List.lookup (g, u) t.blobs

/-- `set_groups`. -/
def transport.set_groups (t : transport) (groups : List Int) : transport :=
  { t with groups := groups }

/-- Reading from the listed groups in turn; `last` is the code of the last failure. -/
def transport.read_from (t : transport) : List Int → eurl → Int → Except Int blob
  | [], _, last => .error last
  | g :: gs, u, _ =>
    if g ∈ t.down then transport.read_from t gs u NO_GROUP
    else match t.lookup g u with
      | some b => .ok b
      | none => transport.read_from t gs u (-ENOENT)

/-- `read(url)`: the first active group that holds the blob answers. -/
def transport.read (t : transport) (u : eurl) : Except Int blob :=
  t.read_from t.groups u NO_GROUP

/-- `read_all(url)`: one reply per active group, with the group id. -/
def transport.read_all (t : transport) (u : eurl) : List (Int × Except Int blob) :=
  t.groups.map fun g =>
    (g, if g ∈ t.down then .error NO_GROUP
        else match t.lookup g u with
          | some b => .ok b
          | none => .error (-ENOENT))

/-- `write(groups, url, data, cache)`: every listed group that is up stores
the blob; the replies are (group, status) in the order of the list. -/
def transport.write_to (t : transport) : List Int → eurl → blob → transport × List (Int × Int)
  | [], _, _ => (t, [])
  | g :: gs, u, b =>
    if g ∈ t.down then
      let r := transport.write_to t gs u b
      (r.1, (g, NO_GROUP) :: r.2)
    else
      let r := transport.write_to { t with blobs := ((g, u), b) :: t.blobs } gs u b
      (r.1, (g, 0) :: r.2)

/-- `write(url, data, cache)`: to the active groups. -/
def transport.write (t : transport) (u : eurl) (b : blob) : transport × List (Int × Int) :=
  t.write_to t.groups u b

/-- Removing `u` from the listed groups. -/
def transport.remove_from (t : transport) : List Int → eurl → transport × List (Int × Int)
  | [], _ => (t, [])
  | g :: gs, u =>
    if g ∈ t.down then
      let r := transport.remove_from t gs u
      (r.1, (g, NO_GROUP) :: r.2)
    else match t.lookup g u with
      | some _ =>
        let r := transport.remove_from
          { t with blobs := t.blobs.filter fun e => decide (e.1 ≠ (g, u)) } gs u
        (r.1, (g, 0) :: r.2)
      | none =>
        let r := transport.remove_from t gs u
        (r.1, (g, -ENOENT) :: r.2)

/-- `remove(url)`: from the active groups. -/
def transport.remove (t : transport) (u : eurl) : transport × List (Int × Int) :=
  t.remove_from t.groups u

/-! ## The index -/

/-- `struct recursion`. -/
structure recursion where
  page_start : key
  split_key : key
deriving DecidableEq

instance : Inhabited recursion := ⟨⟨default, default⟩⟩

/-- `struct remove_recursion`. -/
structure remove_recursion where
  page_start : key
  removed : Bool

instance : Inhabited remove_recursion := ⟨⟨default, false⟩⟩

/-- `class index`: the start key and the meta; the transport `m_t` is a
reference in the source and is threaded through every operation here. -/
structure index where
  m_sk : eurl
  m_meta : index_meta
deriving DecidableEq

/-- `index::meta_key`. -/
def index.meta_key (idx : index) : eurl :=
  { bucket := idx.m_sk.bucket, key := idx.m_sk.key ++ ascii ".meta" }

/-- `index::meta_write`: the replies are not looked at. -/
def index.meta_write (idx : index) (t : transport) : transport :=
  (t.write idx.meta_key (blob.meta idx.m_meta)).1

/-- `index::start_page_init`. -/
def index.start_page_init (idx : index) (t : transport) : transport × index :=
  ((t.write idx.m_sk (page.new false).save).1,
    { idx with m_meta := { idx.m_meta with num_pages := idx.m_meta.num_pages + 1 } })

/-- `index::generate_page_url`: the url and the index with `page_index` advanced. -/
def index.generate_page_url (idx : index) : eurl × index :=
  ({ bucket := idx.m_sk.bucket,
     key := idx.m_sk.key ++ ascii "." ++ lexical_cast idx.m_meta.page_index },
    { idx with m_meta := { idx.m_meta with page_index := idx.m_meta.page_index + 1 } })

/-- `index::check`: narrows the active groups to the ones that answered
without error; `-EIO` when none did. -/
def index.check (wr : transport × List (Int × Int)) : Int × transport :=
  let groups := (wr.2.filter fun r => decide (r.2 = 0)).map Prod.fst
  (if groups.isEmpty then - EIO_code else 0, wr.1.set_groups groups)

/-- The private `index::search(page_key, obj)`: the page the descent ends at
and the position in it, or a negative code. -/
def index.search_at : Nat → transport → eurl → key → Run (page × Int)
  | 0, _, _, _ => .error Fault.fuel
  | fuel + 1, t, page_key, obj =>
    match t.read page_key with
    | .error code => .ok (page.new false, code)
    | .ok b =>
      match page.load b with
      | .error e => .error e
      | .ok p =>
        let found_pos := p.search_node obj
        if found_pos < 0 then .ok (p, found_pos)
        else if p.is_leaf then .ok (p, found_pos)
        else index.search_at fuel t (p.objects.getD found_pos.toNat default).url obj

/-- The public `index::search(obj)`. -/
def index.search (fuel : Nat) (idx : index) (t : transport) (obj : key) : Run key :=
  match index.search_at fuel t idx.m_sk obj with
  | .error e => .error e
  | .ok found =>
    if found.2 < 0 then .ok default
    else .ok (found.1.objects.getD found.2.toNat default)

/-- The tail of the private `index::insert` once the page `p` and `split`
are settled: from `rec.page_start = p.objects.front()` to the final write,
with the root promotion when the page at the start key split. -/
def index.insert_finish (idx : index) (t : transport) (page_key : eurl) (p split : page) :
    Run (Int × transport × index × recursion) :=
  match p.objects with
  | [] => .error Fault.undefined
  | front :: _ =>
    match split.objects with
    | [] =>
      let c := index.check (t.write page_key p.save)
      .ok (c.1, c.2, idx, { page_start := front, split_key := default })
    | split_front :: _ =>
      let g := idx.generate_page_url
      let split_key : key := { id := split_front.id, url := g.1 }
      let r : recursion := { page_start := front, split_key := split_key }
      let split := { split with next := p.next }
      let p := { p with next := split_key.url }
      let c := index.check (t.write split_key.url split.save)
      if c.1 ≠ 0 then .ok (c.1, c.2, g.2, r)
      else
        let idx1 : index := { g.2 with m_meta := { g.2.m_meta with
          num_pages := g.2.m_meta.num_pages + 1,
          num_leaf_pages :=
            if p.is_leaf then g.2.m_meta.num_leaf_pages + 1 else g.2.m_meta.num_leaf_pages } }
        if page_key = idx.m_sk then
          let g2 := idx1.generate_page_url
          let old_root_key : key := { id := front.id, url := g2.1 }
          let c2 := index.check (c.2.write old_root_key.url p.save)
          if c2.1 ≠ 0 then .ok (c2.1, c2.2, g2.2, r)
          else
            let n1 := (page.new false).insert_and_split old_root_key (page.new false)
            let n2 := n1.1.insert_and_split split_key n1.2.1
            match n2.1.objects with
            | [] => .error Fault.undefined
            | root_front :: _ =>
              let new_root := { n2.1 with next := root_front.url }
              let c3 := index.check (c2.2.write idx.m_sk new_root.save)
              if c3.1 ≠ 0 then .ok (c3.1, c3.2, g2.2, r)
              else .ok (c3.1, c3.2,
                { g2.2 with m_meta := { g2.2.m_meta with
                    num_pages := g2.2.m_meta.num_pages + 1 } }, r)
        else
          let c2 := index.check (c.2.write page_key p.save)
          .ok (c2.1, c2.2, idx1, r)

/-- The branch of the private `index::insert` taken on an empty non-leaf
page: a first leaf is created and linked. -/
def index.insert_first_leaf (idx : index) (t : transport) (r : recursion) (page_key : eurl)
    (p : page) (obj : key) : Int × transport × index × recursion :=
  let g := idx.generate_page_url
  let leaf_key : key := { id := obj.id, url := g.1 }
  let l := (page.new true).insert_and_split obj (page.new false)
  let c := index.check (t.write leaf_key.url l.1.save)
  if c.1 ≠ 0 then (c.1, c.2, g.2, r)
  else
    let q := p.insert_and_split leaf_key l.2.1
    let p := { q.1 with next := leaf_key.url }
    let c2 := index.check (c.2.write page_key p.save)
    if c2.1 ≠ 0 then (c2.1, c2.2, g.2, r)
    else (0, c2.2,
      { g.2 with m_meta := { g.2.m_meta with
          num_pages := g.2.m_meta.num_pages + 1,
          num_leaf_pages := g.2.m_meta.num_leaf_pages + 1 } }, r)

/-- The private `index::insert(page_key, obj, rec)`: the returned code, the
transport, the index (its meta) and `rec` as the call leaves them.  The code
of the recursive call is dropped, as in the source. -/
def index.insert_at : Nat → index → transport → recursion → eurl → key →
    Run (Int × transport × index × recursion)
  | 0, _, _, _, _, _ => .error Fault.fuel
  | fuel + 1, idx, t, r, page_key, obj =>
    match t.read page_key with
    | .error code => .ok (code, t, idx, r)
    | .ok b =>
      match page.load b with
      | .error e => .error e
      | .ok p =>
        if !p.is_leaf then
          let found_pos := p.search_node obj
          if found_pos < 0 then .ok (index.insert_first_leaf idx t r page_key p obj)
          else
            let found := p.objects.getD found_pos.toNat default
            match index.insert_at fuel idx t r found.url obj with
            | .error e => .error e
            | .ok (_, t1, idx1, r1) =>
              let changed := found.ne r1.page_start
              let p1 := if changed then
                  { p with objects :=
                      p.objects.set found_pos.toNat { found with id := r1.page_start.id } }
                else p
              let s := if r1.split_key.to_bool then
                  p1.insert_and_split r1.split_key (page.new false)
                else (p1, page.new false, false)
              if !changed && !r1.split_key.to_bool then
                .ok (0, t1, idx1, { page_start := p.objects.headD default, split_key := default })
              else index.insert_finish idx1 t1 page_key s.1 s.2.1
        else
          let s := p.insert_and_split obj (page.new false)
          index.insert_finish idx t page_key s.1 s.2.1

/-- The public `index::insert(obj)`. -/
def index.insert (fuel : Nat) (idx : index) (t : transport) (obj : key) :
    Run (Int × transport × index) :=
  match index.insert_at fuel idx t default idx.m_sk obj with
  | .error e => .error e
  | .ok (ret, t1, idx1, _) =>
    if ret < 0 then .ok (ret, t1, idx1)
    else
      let idx2 : index := { idx1 with m_meta := { idx1.m_meta with
        generation_number := idx1.m_meta.generation_number + 1 } }
      .ok (0, idx2.meta_write t1, idx2)

/-- The tail of the private `index::remove` after the page was changed:
the frame is reset, then the page is written back, or removed when empty. -/
def index.remove_finish (idx : index) (t : transport) (r : remove_recursion) (page_key : eurl)
    (p : page) (found_pos : Nat) : Int × transport × index × remove_recursion :=
  let cleared : key := { r.page_start with id := [] }
  match p.objects with
  | front :: _ =>
    let r1 : remove_recursion :=
      { page_start := if found_pos = 0 then { cleared with id := front.id } else cleared,
        removed := false }
    let c := index.check (t.write page_key p.save)
    if c.1 ≠ 0 then (c.1, c.2, idx, r1) else (0, c.2, idx, r1)
  | [] =>
    let r1 : remove_recursion := { page_start := cleared, removed := true }
    let c := index.check (t.remove page_key)
    if c.1 ≠ 0 then (c.1, c.2, idx, r1)
    else (0, c.2,
      { idx with m_meta := { idx.m_meta with
          num_pages := sub64 idx.m_meta.num_pages 1,
          num_leaf_pages :=
            if p.is_leaf then sub64 idx.m_meta.num_leaf_pages 1
            else idx.m_meta.num_leaf_pages } }, r1)

/-- The private `index::remove(page_key, obj, rec)`. -/
def index.remove_at : Nat → index → transport → remove_recursion → eurl → key →
    Run (Int × transport × index × remove_recursion)
  | 0, _, _, _, _, _ => .error Fault.fuel
  | fuel + 1, idx, t, r, page_key, obj =>
    match t.read page_key with
    | .error code => .ok (code, t, idx, r)
    | .ok b =>
      match page.load b with
      | .error e => .error e
      | .ok p =>
        let found_pos := p.search_node obj
        if found_pos < 0 then .ok (- ENOENT, t, idx, r)
        else
          let found := p.objects.getD found_pos.toNat default
          if p.is_leaf || r.removed then
            .ok (index.remove_finish idx t r page_key (p.remove found_pos.toNat).1
              found_pos.toNat)
          else
            match index.remove_at fuel idx t r found.url obj with
            | .error e => .error e
            | .ok (err, t1, idx1, r1) =>
              if err < 0 then .ok (err, t1, idx1, r1)
              else if !r1.page_start.to_bool then .ok (0, t1, idx1, r1)
              else
                .ok (index.remove_finish idx1 t1 r1 page_key
                  { p with objects :=
                      p.objects.set found_pos.toNat { found with id := r1.page_start.id } }
                  found_pos.toNat)

/-- The public `index::remove(obj)`. -/
def index.remove (fuel : Nat) (idx : index) (t : transport) (obj : key) :
    Run (Int × transport × index) :=
  match index.remove_at fuel idx t default idx.m_sk obj with
  | .error e => .error e
  | .ok (ret, t1, idx1, _) =>
    if ret < 0 then .ok (ret, t1, idx1)
    else
      let idx2 : index := { idx1 with m_meta := { idx1.m_meta with
        generation_number := idx1.m_meta.generation_number + 1 } }
      .ok (0, idx2.meta_write t1, idx2)

/-! ## Iterators -/

/-- `class iterator`: a loaded page and a position in it. -/
structure iterator where
  m_page : page
  m_page_index : Nat
  m_page_internal_index : Nat

/-- `iterator::operator==`. -/
def iterator.eq (a b : iterator) : Bool :=
  a.m_page.eq b.m_page && decide (a.m_page_internal_index = b.m_page_internal_index)

/-- `iterator::operator!=`. -/
def iterator.ne (a b : iterator) : Bool :=
  a.m_page.ne b.m_page || decide (a.m_page_internal_index ≠ b.m_page_internal_index)

/-- `iterator::operator*` and `operator->`: the object under the position;
undefined past the end of the page. -/
def iterator.deref (it : iterator) : Run key :=
  match it.m_page.objects.get? it.m_page_internal_index with
  | some k => .ok k
  | none => .error Fault.undefined

/-- `iterator::try_loading_next_page`. -/
def iterator.try_loading_next_page (t : transport) (it : iterator) : Run iterator :=
  if it.m_page_internal_index ≥ it.m_page.objects.length then
    let it1 := { it with m_page_internal_index := 0, m_page_index := it.m_page_index + 1 }
    if it.m_page.next.empty then .ok { it1 with m_page := page.new false }
    else
      match t.read it.m_page.next with
      | .error _ => .ok { it1 with m_page := page.new false }
      | .ok b =>
        match page.load b with
        | .error e => .error e
        | .ok p => .ok { it1 with m_page := p }
  else .ok it

/-- `iterator::operator++()`. -/
def iterator.inc (t : transport) (it : iterator) : Run iterator :=
  iterator.try_loading_next_page t
    { it with m_page_internal_index := it.m_page_internal_index + 1 }

/-- `index::begin(k)`: the page the descent for the probe key `k` ends at, the
position clamped to 0 when the search failed. -/
def index.begin (fuel : Nat) (idx : index) (t : transport) (k : Str) : Run iterator :=
  match index.search_at fuel t idx.m_sk { id := k, url := default } with
  | .error e => .error e
  | .ok found =>
    .ok { m_page := found.1, m_page_index := 0,
          m_page_internal_index := if found.2 < 0 then 0 else found.2.toNat }

/-- `index::end()`. -/
def index.end_ : iterator :=
  { m_page := page.new false, m_page_index := 0, m_page_internal_index := 0 }

/-- The loop of `index::keys`: collects `*it` until `it` equals `end()`. -/
def index.keys_loop : Nat → transport → iterator → List key → Run (List key)
  | 0, _, _, _ => .error Fault.fuel
  | fuel + 1, t, it, ret =>
    if it.ne index.end_ then
      match it.deref with
      | .error e => .error e
      | .ok k =>
        match it.inc t with
        | .error e => .error e
        | .ok it1 => index.keys_loop fuel t it1 (ret ++ [k])
    else .ok ret

/-- `index::keys(start)`; `keys()` is `keys` at the empty string. -/
def index.keys (fuel : Nat) (idx : index) (t : transport) (start : Str) : Run (List key) :=
  match idx.begin fuel t start with
  | .error e => .error e
  | .ok it => index.keys_loop fuel t it []

/-- `class page_iterator`: a loaded page and the url it was read from. -/
structure page_iterator where
  m_page : page
  m_page_index : Nat
  m_url : eurl

/-- `page_iterator(t, url)`; the page stays empty when the read fails. -/
def page_iterator.at_url (t : transport) (url : eurl) : Run page_iterator :=
  match t.read url with
  | .error _ => .ok { m_page := page.new false, m_page_index := 0, m_url := url }
  | .ok b =>
    match page.load b with
    | .error e => .error e
    | .ok p => .ok { m_page := p, m_page_index := 0, m_url := url }

/-- `page_iterator::try_loading_next_page`, which is `operator++`. -/
def page_iterator.try_loading_next_page (t : transport) (it : page_iterator) :
    Run page_iterator :=
  if it.m_page.next.empty then
    .ok { m_page := page.new false, m_page_index := it.m_page_index + 1, m_url := default }
  else
    match t.read it.m_page.next with
    | .error _ =>
      .ok { m_page := page.new false, m_page_index := it.m_page_index + 1,
            m_url := it.m_page.next }
    | .ok b =>
      match page.load b with
      | .error e => .error e
      | .ok p =>
        .ok { m_page := p, m_page_index := it.m_page_index + 1, m_url := it.m_page.next }

/-- `index::page_begin`; the iterator is built in place, so it keeps its url. -/
def index.page_begin (idx : index) (t : transport) : Run page_iterator :=
  page_iterator.at_url t idx.m_sk

/-- `index::page_end`. -/
def index.page_end : page_iterator :=
  { m_page := page.new false, m_page_index := 0, m_url := default }

/-! ## Opening an index -/

/-- The first loop of the constructor: the metas of the groups that
answered, a default meta for a group whose read failed, nothing for a group
that answered -6. -/
def index.collect_meta : List (Int × Except Int blob) → Run (List (Int × index_meta))
  | [] => .ok []
  | (g, .ok b) :: rest =>
    match index_meta.load b with
    | .error e => .error e
    | .ok m =>
      match index.collect_meta rest with
      | .error e => .error e
      | .ok mg => .ok ((g, m) :: mg)
  | (g, .error code) :: rest =>
    if code = NO_GROUP then index.collect_meta rest
    else
      match index.collect_meta rest with
      | .error e => .error e
      | .ok mg => .ok ((g, default) :: mg)

/-- The second loop of the constructor: the highest generation number and
the meta adopted with it (the last one that reaches the running maximum). -/
def index.highest_generation : List (Int × index_meta) → Nat → index_meta → Nat × index_meta
  | [], highest, m => (highest, m)
  | (_, m1) :: rest, highest, m =>
    if m1.generation_number ≥ highest then
      index.highest_generation rest m1.generation_number m1
    else index.highest_generation rest highest m

/-- The recovery loop of the constructor: every page from `page_begin()` on
is written to the groups still being recovered. -/
def index.recover_loop : Nat → transport → page_iterator → List Int → Run (transport × List Int)
  | 0, _, _, _ => .error Fault.fuel
  | fuel + 1, t, it, recovery_groups =>
    if it.m_page.ne index.page_end.m_page then
      let wr := t.write_to recovery_groups it.m_url it.m_page.save
      let recovered := (wr.2.filter fun r => decide (r.2 = 0)).map Prod.fst
      if recovered.isEmpty then .ok (wr.1, recovered)
      else
        match it.try_loading_next_page wr.1 with
        | .error e => .error e
        | .ok it1 => index.recover_loop fuel wr.1 it1 recovered
    else .ok (t, recovery_groups)

/-- The constructor `index(t, sk)`. -/
def index.ctor (fuel : Nat) (t : transport) (sk : eurl) : Run (transport × index) :=
  let idx0 : index := { m_sk := sk, m_meta := default }
  match index.collect_meta (t.read_all idx0.meta_key) with
  | .error e => .error e
  | .ok [] =>
    let s := idx0.start_page_init t
    .ok (s.2.meta_write s.1, s.2)
  | .ok (m0 :: ms) =>
    let mg := m0 :: ms
    let h := index.highest_generation mg 0 default
    let idx1 : index := { m_sk := sk, m_meta := h.2 }
    let good_groups := (mg.filter fun e => decide (e.2.generation_number = h.1)).map Prod.fst
    let recovery_groups :=
      (mg.filter fun e => decide (e.2.generation_number ≠ h.1)).map Prod.fst
    let t1 := t.set_groups good_groups
    if h.1 = 0 then
      let s := idx1.start_page_init t1
      .ok (s.2.meta_write s.1, s.2)
    else if recovery_groups.isEmpty then .ok (t1, idx1)
    else
      match idx1.page_begin t1 with
      | .error e => .error e
      | .ok it =>
        match index.recover_loop fuel t1 it recovery_groups with
        | .error e => .error e
        | .ok r =>
          let t2 := r.1.set_groups (good_groups ++ r.2)
          .ok (idx1.meta_write t2, idx1)

/-- The destructor `~index()`. -/
def index.dtor (idx : index) (t : transport) : transport := idx.meta_write t

/-! ## The intersector -/

/-- `struct intersect::result`; `keys` is the `std::map<eurl, std::vector<key>>`
as the list of its entries in iteration order. -/
structure result where
  completed : Bool
  keys : List (eurl × List key)
deriving DecidableEq

/-- `std::map::find` under the comparator `eurl::operator<`: the position of
the first entry that is not less than `name`, when `name` is not less than
it either. -/
def keys_find : List (eurl × List key) → eurl → Option Nat
  | [], _ => none
  | e :: rest, name =>
    if e.1.lt name then (keys_find rest name).map (· + 1)
    else if name.lt e.1 then none else some 0

/-- `std::map::insert` of a new entry: before the first entry that is not
less than `name`; nothing is stored when that entry is equivalent. -/
def keys_insert : List (eurl × List key) → eurl → List key → List (eurl × List key)
  | [], name, kk => [(name, kk)]
  | e :: rest, name, kk =>
    if e.1.lt name then e :: keys_insert rest name kk
    else if name.lt e.1 then (name, kk) :: e :: rest else e :: rest

/-- The body of the collecting loop for one index: `k` is appended to the
list found under `name`, or a new list is inserted. -/
def keys_add (m : List (eurl × List key)) (name : eurl) (k : key) : List (eurl × List key) :=
  match keys_find m name with
  | some i => m.modify (fun e => (e.1, e.2 ++ [k])) i
  | none => keys_insert m name [k]

/-- `res.keys.begin()->second.size()`.  On the empty map `begin()` is
`end()` and the source reads through it, which the language leaves
undefined: `undef` is the number this read yields in the run at hand, and
nothing is assumed about it.  A run in which the read does anything else
than yield a number is not modelled. -/
def first_size (undef : Nat) : List (eurl × List key) → Nat
  | [] => undef
  | e :: _ => e.2.length

/-- `struct iter` of `intersect`: an opened index with its `begin` and `end`. -/
structure iter where
  idx : index
  begin : iterator
  end_ : iterator

/-- The scan over `idata` at the top of the loop body: whether an iterator
is at its end, and `pos`, the indexes whose current key is the least seen. -/
def intersect_scan (idata : List iter) : List iter → Nat → List Nat → Run (Bool × List Nat)
  | [], _, pos => .ok (false, pos)
  | d :: rest, current, pos =>
    if d.begin.eq d.end_ then .ok (true, pos)
    else
      match pos with
      | [] => intersect_scan idata rest (current + 1) [current]
      | p0 :: _ =>
        match idata.get? p0 with
        | none => .error Fault.undefined
        | some m =>
          match d.begin.deref, m.begin.deref with
          | .ok a, .ok b =>
            if a.eq b then intersect_scan idata rest (current + 1) (pos ++ [current])
            else if a.lt b then intersect_scan idata rest (current + 1) [current]
            else intersect_scan idata rest (current + 1) pos
          | .error e, _ => .error e
          | _, .error e => .error e

/-- `++min_it` for every index listed in `pos`. -/
def intersect_advance (t : transport) : List Nat → List iter → Run (List iter)
  | [], idata => .ok idata
  | i :: rest, idata =>
    match idata.get? i with
    | none => .error Fault.undefined
    | some d =>
      match d.begin.inc t with
      | .error e => .error e
      | .ok b => intersect_advance t rest (idata.set i { d with begin := b })

/-- The collecting loop: for every index in `pos` its current key goes to
the list of that index and its iterator moves on. -/
def intersect_collect (t : transport) (indexes : List eurl) :
    List Nat → List iter → List (eurl × List key) → Run (List iter × List (eurl × List key))
  | [], idata, keys => .ok (idata, keys)
  | i :: rest, idata, keys =>
    match idata.get? i, indexes.get? i with
    | some d, some name =>
      match d.begin.deref with
      | .error e => .error e
      | .ok k =>
        match d.begin.inc t with
        | .error e => .error e
        | .ok b =>
          intersect_collect t indexes rest (idata.set i { d with begin := b })
            (keys_add keys name k)
    | _, _ => .error Fault.undefined

/-- The `while (!res.completed)` loop of `intersect`: the result and `start`.
The last argument is what the read of the cap check yields while the result
map is empty (see `first_size`). -/
def intersect_loop : Nat → transport → List eurl → List iter → result → Str → Nat → Nat →
    Run (result × Str)
  | 0, _, _, _, _, _, _, _ => .error Fault.fuel
  | fuel + 1, t, indexes, idata, res, start, num, undef =>
    match intersect_scan idata idata 0 [] with
    | .error e => .error e
    | .ok (true, _) => .ok ({ res with completed := true }, [])
    | .ok (false, pos) =>
      if pos.length ≠ idata.length then
        match intersect_advance t pos idata with
        | .error e => .error e
        | .ok idata1 => intersect_loop fuel t indexes idata1 res start num undef
      else
        match pos with
        | [] => .error Fault.undefined
        | p0 :: _ =>
          match idata.get? p0 with
          | none => .error Fault.undefined
          | some d0 =>
            match d0.begin.deref with
            | .error e => .error e
            | .ok k0 =>
              if first_size undef res.keys = num then .ok (res, k0.id)
              else
                match intersect_collect t indexes pos idata res.keys with
                | .error e => .error e
                | .ok c =>
                  intersect_loop fuel t indexes c.1 { res with keys := c.2 } k0.id num undef

/-- The setup of `intersect`: every index is opened and its `begin(start)`
taken; the local `iter` is destroyed after it was copied into `idata`. -/
def intersect_open (fuel : Nat) (start : Str) : List eurl → transport → Run (transport × List iter)
  | [], t => .ok (t, [])
  | name :: rest, t =>
    match index.ctor fuel t name with
    | .error e => .error e
    | .ok o =>
      match o.2.begin fuel o.1 start with
      | .error e => .error e
      | .ok b =>
        match intersect_open fuel start rest (o.2.dtor o.1) with
        | .error e => .error e
        | .ok r => .ok (r.1, { idx := o.2, begin := b, end_ := index.end_ } :: r.2)

/-- `intersector::intersect(indexes, start, num)`: the result, `start` as the
call leaves it, and the transport after the indexes in `idata` were destroyed.
The result map is empty the first time the loop reaches its cap check, and
never again in the same call, so one number `undef` stands for what the
undefined read of that check yields in this call. -/
def intersect (fuel : Nat) (t : transport) (indexes : List eurl) (start : Str) (num : Nat)
    (undef : Nat) : Run (result × Str × transport) :=
  match intersect_open fuel start indexes t with
  | .error e => .error e
  | .ok o =>
    match intersect_loop fuel o.1 indexes o.2 { completed := false, keys := [] } start num
        undef with
    | .error e => .error e
    | .ok r => .ok (r.1, r.2, o.2.foldl (fun t1 d => d.idx.dtor t1) o.1)

/-- `INT_MAX`. -/
def INT_MAX : Nat := 2147483647

/-- `intersector::intersect(indexes)`: from the empty start, `INT_MAX` keys at most. -/
def intersect_all (fuel : Nat) (t : transport) (indexes : List eurl) (undef : Nat) :
    Run (result × Str × transport) :=
  intersect fuel t indexes [] INT_MAX undef

/-! ## Calls in sequence, and the runs the theorems below evaluate -/

deriving instance DecidableEq for Except

/-- A call of the public interface. -/
inductive op where
  | insert (k : key)
  | remove (k : key)

/-- The public calls of `ops` in order on one index: the codes they return
and the state they leave. -/
def run_ops (fuel : Nat) : List op → index → transport → Run (List Int × index × transport)
  | [], idx, t => .ok ([], idx, t)
  | op.insert k :: rest, idx, t =>
    match index.insert fuel idx t k with
    | .error e => .error e
    | .ok r =>
      match run_ops fuel rest r.2.2 r.2.1 with
      | .error e => .error e
      | .ok q => .ok (r.1 :: q.1, q.2)
  | op.remove k :: rest, idx, t =>
    match index.remove fuel idx t k with
    | .error e => .error e
    | .ok r =>
      match run_ops fuel rest r.2.2 r.2.1 with
      | .error e => .error e
      | .ok q => .ok (r.1 :: q.1, q.2)

/-- Opens the index at `sk` and runs `ops` on it. -/
def open_and_run (fuel : Nat) (t : transport) (sk : eurl) (ops : List op) :
    Run (List Int × index × transport) :=
  match index.ctor fuel t sk with
  | .error e => .error e
  | .ok o => run_ops fuel ops o.2 o.1

/-- A transport with the single group 1 that stores nothing. -/
def empty_transport : transport := { groups := [1], down := [], blobs := [] }

/-- The start key `b/idx`. -/
def sk_idx : eurl := ⟨ascii "b", ascii "idx"⟩

/-- A key with a short id, pointing at `b/<data>`. -/
def short_key (id data : String) : key := ⟨ascii id, ⟨ascii "b", ascii data⟩⟩

/-- A key whose id is the byte `c` repeated 2100 times, pointing at `b/<data>`:
one such entry is about half a page, in a leaf and as a routing entry. -/
def long_key (c : Nat) (data : String) : key := ⟨List.replicate 2100 c, ⟨ascii "b", ascii data⟩⟩

/-- Opens `b/idx` on the empty transport, runs `ops`, then searches `probe`:
the codes of the calls and the key the search returns. -/
def run_then_search (fuel : Nat) (ops : List op) (probe : key) : Run (List Int × key) :=
  match open_and_run fuel empty_transport sk_idx ops with
  | .error e => .error e
  | .ok r =>
    match index.search fuel r.2.1 r.2.2 probe with
    | .error e => .error e
    | .ok k => .ok (r.1, k)

/-- Opens `b/idx` on the empty transport, runs `ops`, then walks `begin()` to
`end()`: the codes of the calls and the keys the walk yields. -/
def run_then_keys (fuel : Nat) (ops : List op) : Run (List Int × List key) :=
  match open_and_run fuel empty_transport sk_idx ops with
  | .error e => .error e
  | .ok r =>
    match index.keys fuel r.2.1 r.2.2 [] with
    | .error e => .error e
    | .ok ks => .ok (r.1, ks)

/-- Insert `a`, remove `a`, insert `b`. -/
def ops_reinsert : List op :=
  [op.insert (short_key "a" "data.a"), op.remove (short_key "a" "data.a"),
   op.insert (short_key "b" "data.b")]

/-- Two keys of half a page each. -/
def ops_two_long : List op := [op.insert (long_key 97 "data.0"), op.insert (long_key 98 "data.1")]

/-- Two keys of half a page each, then the short key `c`. -/
def ops_two_long_short : List op := ops_two_long ++ [op.insert (short_key "c" "data.2")]

/-- The start key `b/iii…i` (1400 bytes): a routing entry below it takes a third of a page. -/
def sk_wide : eurl := ⟨ascii "b", List.replicate 1400 105⟩

/-- A key with a short id whose data url has 1400 bytes: a third of a page. -/
def wide_key (id : String) : key := ⟨ascii id, ⟨[], List.replicate 1400 117⟩⟩

/-- Eleven calls on an index whose leaves hold two keys and whose inner pages
hold two entries; the last one removes `ac`. -/
def ops_stale_copy : List op :=
  [op.insert (wide_key "aa"), op.insert (wide_key "abac"), op.insert (wide_key "a"),
   op.insert (wide_key "ac"), op.remove (wide_key "aa"), op.insert (wide_key "aba"),
   op.insert (wide_key "b"), op.insert (wide_key "ac"), op.remove (wide_key "a"),
   op.insert (wide_key "cb"), op.remove (wide_key "ac")]

/-- Opens `sk_wide` on the empty transport, runs `ops_stale_copy`, then
searches `ac`. -/
def run_stale_copy (fuel : Nat) : Run (List Int × key) :=
  match open_and_run fuel empty_transport sk_wide ops_stale_copy with
  | .error e => .error e
  | .ok r =>
    match index.search fuel r.2.1 r.2.2 (wide_key "ac") with
    | .error e => .error e
    | .ok k => .ok (r.1, k)

/-- Builds `b/idx` by `ops`, then intersects the listed indexes from the
empty start with the cap `num`: the flag, the collected lists and `start`.
`undef` is what the undefined read of the first cap check yields. -/
def build_then_intersect (fuel : Nat) (ops : List op) (indexes : List eurl) (num : Nat)
    (undef : Nat) : Run (Bool × List (eurl × List key) × Str) :=
  match open_and_run fuel empty_transport sk_idx ops with
  | .error e => .error e
  | .ok r =>
    match intersect fuel r.2.2 indexes [] num undef with
    | .error e => .error e
    | .ok i => .ok (i.1.completed, i.1.keys, i.2.1)

instance call_outcome_eq : DecidableEq (Bool × List (eurl × List key) × Str) := inferInstance

instance call_outcomes_eq : DecidableEq (List (Bool × List (eurl × List key) × Str)) :=
  inferInstance

/-- The tests that end the paginated loop of `test_intersection` after a
call: the result holds no list, its first list holds fewer than `num` keys,
or the result is completed. -/
def pagination_stops (num : Nat) (res : result) : Bool :=
  match res.keys with
  | [] => true
  | e :: _ => decide (e.2.length < num) || res.completed

/-- The paginated loop of `test_intersection`: repeated calls of `intersect`,
each resumed at the `start` the call before returned, until a call meets
`pagination_stops`: per call the flag, the collected lists and `start`.
There is at most one call for every entry of the list, the entry being what
the undefined read of the first cap check yields in that call. -/
def intersect_pages (fuel : Nat) (indexes : List eurl) (num : Nat) :
    List Nat → transport → Str → Run (List (Bool × List (eurl × List key) × Str))
  | [], _, _ => .ok []
  | undef :: calls, t, start =>
    match intersect fuel t indexes start num undef with
    | .error e => .error e
    | .ok i =>
      if pagination_stops num i.1 then .ok [(i.1.completed, i.1.keys, i.2.1)]
      else
        match intersect_pages fuel indexes num calls i.2.2 i.2.1 with
        | .error e => .error e
        | .ok rest => .ok ((i.1.completed, i.1.keys, i.2.1) :: rest)

/-- Builds `b/idx` by `ops`, then runs the paginated loop on it alone, one key
per call and at most one call per entry of `calls`. -/
def build_then_paginate (fuel : Nat) (ops : List op) (calls : List Nat) :
    Run (List (Bool × List (eurl × List key) × Str)) :=
  match open_and_run fuel empty_transport sk_idx ops with
  | .error e => .error e
  | .ok r => intersect_pages fuel [sk_idx] 1 calls r.2.2 []

/-- The keys `res` holds for the index `name`; none when it has no list. -/
def result.returned (res : result) (name : eurl) : List key :=
  ((res.keys.find? fun e => decide (e.1 = name)).map Prod.snd).getD []

/-- The entries of the result map are in strictly ascending order of the url key. -/
def keys_sorted (m : List (eurl × List key)) : Prop :=
  m.Pairwise fun a b => a.1.key < b.1.key

/-- The start key `b/jdx`. -/
def sk_jdx : eurl := ⟨ascii "b", ascii "jdx"⟩

/-- A transport that holds the index `b/idx` with the keys `a`, `b`, `c` and
the index `b/jdx` with the keys `b`, `c`, `d`. -/
def two_indexes : transport :=
  match open_and_run 6 empty_transport sk_idx
      [op.insert (short_key "a" "i.a"), op.insert (short_key "b" "i.b"),
       op.insert (short_key "c" "i.c")] with
  | .error _ => empty_transport
  | .ok r =>
    match open_and_run 6 r.2.2 sk_jdx
        [op.insert (short_key "b" "j.b"), op.insert (short_key "c" "j.c"),
         op.insert (short_key "d" "j.d")] with
    | .error _ => empty_transport
    | .ok q => q.2.2

/-- What `intersect` returns on `two_indexes` for the two indexes, from the
empty start, with the cap `num`, when the undefined read yields `undef`. -/
def two_indexes_call (num undef : Nat) : result × Str × transport :=
  match intersect 6 two_indexes [sk_idx, sk_jdx] [] num undef with
  | .ok r => r
  | .error _ => (⟨false, []⟩, [], empty_transport)


/-! ## One group: the store as a list of blobs -/

/-- The blobs of a transport, newest first. -/
abbrev Blobs := List ((Int × eurl) × blob)

/-- The transport whose single active group is `g`, every group up, holding `blobs`. -/
def store (g : Int) (blobs : Blobs) : transport := { groups := [g], down := [], blobs := blobs }

/-- The page group `g` holds under `u`, when it holds a page there. -/
def page_at (g : Int) (blobs : Blobs) (u : eurl) : Option page :=
  match List.lookup (g, u) blobs with
  | some (blob.page p) => some p
  | _ => none

/-- The url of the page with number `n` of the index at `sk`. -/
def page_url (sk : eurl) (n : Nat) : eurl :=
  { bucket := sk.bucket, key := sk.key ++ ascii "." ++ lexical_cast n }

/-- Reads a decimal representation back: the number its digits spell. -/
def parse_dec (s : Str) : Nat := s.foldl (fun a d => 10 * a + (d - 48)) 0

/-! ## Well-formed subtrees and page chains -/

/-- The ids of the entries are in strictly ascending order. -/
def ids_sorted (es : List key) : Prop := es.Pairwise fun a b => a.id < b.id

/-- `x` is below the optional upper bound `hi`. -/
def below (x : Str) (hi : Option Str) : Prop := ∀ h, hi = some h → x < h

/-- The objects of a page after `obj` was inserted in order, an entry with
the same id being replaced: what the copy loop of `insert_and_split` builds. -/
def insert_sorted (obj : key) : List key → List key
  | [] => [obj]
  | it :: rest =>
    if obj.id ≤ it.id then
      if obj.id = it.id then obj :: rest else obj :: it :: rest
    else it :: insert_sorted obj rest

/-! ## Observations on runs, and the vocabulary of the statements -/

/-- No group that answers holds a blob under `u`. -/
def transport.holds_nothing (t : transport) (u : eurl) : Prop :=
  ∀ g ∈ t.groups, g ∉ t.down → t.lookup g u = none

/-- The active groups that answer. -/
def transport.up_groups (t : transport) : List Int :=
  t.groups.filter fun g => decide (g ∉ t.down)

/-- The meta of an index that was opened on storage without a meta. -/
def fresh_meta : index_meta := ⟨0, 1, 0, 0⟩

/-- Opens `b/idx` on the empty transport: what group 1 then holds at the
start key, and the meta. -/
def fresh_open (fuel : Nat) : Run (Option blob × index_meta) :=
  match index.ctor fuel empty_transport sk_idx with
  | .error e => .error e
  | .ok o => .ok (o.1.lookup 1 sk_idx, o.2.m_meta)

/-- Whether the call is an `insert`. -/
def op.is_insert : op → Bool
  | op.insert _ => true
  | op.remove _ => false

/-- Whether the call is a `remove`. -/
def op.is_remove : op → Bool
  | op.insert _ => false
  | op.remove _ => true

/-- The number of calls of the kind `sel` among `ops` that returned 0,
`codes` being the codes the calls returned. -/
def count_ok (sel : op → Bool) : List op → List Int → Nat
  | o :: ops, c :: codes => (if sel o && decide (c = 0) then 1 else 0) + count_ok sel ops codes
  | _, _ => 0

/-- Insert `a`, remove `a`. -/
def ops_insert_remove : List op :=
  [op.insert (short_key "a" "data.a"), op.remove (short_key "a" "data.a")]

/-- Insert `bb`, insert `a`. -/
def ops_smaller_second : List op :=
  [op.insert (short_key "bb" "data.b"), op.insert (short_key "a" "data.a")]

/-- The sum of `size()` over the entries. -/
def entries_size (es : List key) : Nat := (es.map key.size).sum

/-- Builds `b/idx` by `ops` on the empty transport: the codes of the calls,
the page stored at the start key and what is stored under the url of its
first entry. -/
def root_and_first_child (fuel : Nat) (ops : List op) :
    Run (List Int × Option page × Option blob) :=
  match open_and_run fuel empty_transport sk_idx ops with
  | .error e => .error e
  | .ok s =>
    let root := page_at 1 s.2.2.blobs sk_idx
    .ok (s.1, root, s.2.2.lookup 1 ((root.getD default).objects.headD default).url)

/-- The code a read of `u` fails with; none when the read succeeds. -/
def transport.read_error (t : transport) (u : eurl) : Option Int :=
  match t.read u with
  | .ok _ => none
  | .error code => some code

/-- Builds `b/idx` by `ops` on the empty transport, then calls `insert k`:
the page at the start key before the call, the code a read of the url of
its first entry fails with, the code the call returns, the page at the start
key after it, and the generation before and after the call. -/
def insert_observed (fuel : Nat) (ops : List op) (k : key) :
    Run (Option page × Option Int × Int × Option page × Nat × Nat) :=
  match open_and_run fuel empty_transport sk_idx ops with
  | .error e => .error e
  | .ok s =>
    match index.insert fuel s.2.1 s.2.2 k with
    | .error e => .error e
    | .ok r =>
      let root := page_at 1 s.2.2.blobs sk_idx
      .ok (root, s.2.2.read_error ((root.getD default).objects.headD default).url, r.1,
        page_at 1 r.2.1.blobs sk_idx, s.2.1.m_meta.generation_number,
        r.2.2.m_meta.generation_number)

/-- The index `b/idx` just opened on the empty transport. -/
def opened : transport × index :=
  match index.ctor 1 empty_transport sk_idx with
  | .ok o => o
  | .error _ => (empty_transport, ⟨sk_idx, default⟩)

/-- What `ops_reinsert` returns and leaves on `opened`. -/
def after_reinsert : List Int × index × transport :=
  match run_ops 6 ops_reinsert opened.2 opened.1 with
  | .ok r => r
  | .error _ => ([], opened.2, opened.1)

/-- What `insert a` returns and leaves on `opened`. -/
def after_one_insert : List Int × index × transport :=
  match run_ops 6 [op.insert (short_key "a" "data.a")] opened.2 opened.1 with
  | .ok r => r
  | .error _ => ([], opened.2, opened.1)

/-- What `insert a`, `insert c` return and leave on `opened`. -/
def after_two_inserts : List Int × index × transport :=
  match run_ops 6 [op.insert (short_key "a" "data.a"), op.insert (short_key "c" "data.c")]
      opened.2 opened.1 with
  | .ok r => r
  | .error _ => ([], opened.2, opened.1)

/-- A non-leaf page with the routing entries `b` and `d`. -/
def routing_page : page :=
  { flags := 0,
    objects := [⟨ascii "b", page_url sk_idx 0⟩, ⟨ascii "d", page_url sk_idx 1⟩],
    total_size := 14, next := page_url sk_idx 0 }

/-- The entries after an insertion, in the words of the specification: the
old entries without the one whose id is the id of `obj`, and `obj` at its
sorted position. -/
def inserted_in_order (obj : key) (es : List key) : List key :=
  es.filter (fun e => decide (e.id < obj.id)) ++ [obj] ++
    es.filter (fun e => decide (obj.id < e.id))

/-! ## key.hpp: the key with a timestamp -/

/-- `struct key` of `key.hpp`, which carries a timestamp and positions; the
index of `index.cpp` uses its own `key`. -/
structure hkey where
  id : Str
  url : eurl
  timestamp : Nat
  positions : List Nat

/-- `key::set_timestamp(long tsec, long nsec)`: `tsec` is converted to
`uint64_t`, shifted left by 30 bits, and the low 30 bits of `nsec` are or-ed in. -/
def hkey.set_timestamp (k : hkey) (tsec nsec : Int) : hkey :=
  { k with timestamp :=
      (((tsec % SIZE_MOD).toNat <<< 30) % SIZE_MOD) ||| (nsec % 2 ^ 30).toNat }

/-- `key::get_timestamp(long &tsec, long &nsec)`: the two values it stores. -/
def hkey.get_timestamp (k : hkey) : Int × Int :=
  (((k.timestamp >>> 30 : Nat) : Int), ((k.timestamp &&& (2 ^ 30 - 1) : Nat) : Int))

/-- `key::operator<` of `key.hpp`. -/
def hkey.lt (a b : hkey) : Bool :=
  if a.timestamp < b.timestamp then true
  else if a.timestamp > b.timestamp then false
  else decide (a.id < b.id)

/-- `key::operator<=` of `key.hpp`. -/
def hkey.le (a b : hkey) : Bool :=
  if a.timestamp < b.timestamp then true
  else if a.timestamp > b.timestamp then false
  else decide (a.id ≤ b.id)

/-- `key::operator==` of `key.hpp`. -/
def hkey.eq (a b : hkey) : Bool := decide (a.timestamp = b.timestamp) && decide (a.id = b.id)

/-- `key::operator!=` of `key.hpp`. -/
def hkey.ne (a b : hkey) : Bool := decide (a.id ≠ b.id) || decide (a.timestamp ≠ b.timestamp)

/-- `n` calls of `generate_page_url` in a row: the urls in the order they
were returned, and the index after the last call. -/
def index.generate_urls : Nat → index → List eurl × index
  | 0, idx => ([], idx)
  | n + 1, idx =>
    let g := idx.generate_page_url
    let r := index.generate_urls n g.2
    (g.1 :: r.1, r.2)

/-- Builds `b/idx` by `ops` on the empty transport, then takes `begin(start)`:
the codes of the calls, the entries of the page the iterator holds, and its
position in that page. -/
def begin_observed (fuel : Nat) (ops : List op) (start : Str) :
    Run (List Int × List key × Nat) :=
  match open_and_run fuel empty_transport sk_idx ops with
  | .error e => .error e
  | .ok s =>
    match index.begin fuel s.2.1 s.2.2 start with
    | .error e => .error e
    | .ok it => .ok (s.1, it.m_page.objects, it.m_page_internal_index)

/-- Builds `b/idx` by `ops` on the empty transport, then calls `remove k`:
the page at the start key before the call, what is stored under the url of
its first entry before the call, the code the call returns, what is stored
under that url after the call, and the page at the start key after it. -/
def remove_observed (fuel : Nat) (ops : List op) (k : key) :
    Run (Option page × Option blob × Int × Option blob × Option page) :=
  match open_and_run fuel empty_transport sk_idx ops with
  | .error e => .error e
  | .ok s =>
    match index.remove fuel s.2.1 s.2.2 k with
    | .error e => .error e
    | .ok r =>
      let root := page_at 1 s.2.2.blobs sk_idx
      let child := ((root.getD default).objects.headD default).url
      .ok (root, s.2.2.lookup 1 child, r.1, r.2.1.lookup 1 child, page_at 1 r.2.1.blobs sk_idx)

/-- Insert `a`, `b`, `c` with payloads of a third of a page each. -/
def ops_three_wide : List op :=
  [op.insert (wide_key "a"), op.insert (wide_key "b"), op.insert (wide_key "c")]

/-- Builds the index at `sk_wide` by `ops` on the empty transport, then calls
`insert k`: the entries of the page at the start key and `num_pages` before
the call, the code the call returns, and the page at the start key and
`num_pages` after it. -/
def root_split_observed (fuel : Nat) (ops : List op) (k : key) :
    Run (List key × Nat × Int × Option page × Nat) :=
  match open_and_run fuel empty_transport sk_wide ops with
  | .error e => .error e
  | .ok s =>
    match index.insert fuel s.2.1 s.2.2 k with
    | .error e => .error e
    | .ok r =>
      .ok (((page_at 1 s.2.2.blobs sk_wide).getD default).objects, s.2.1.m_meta.num_pages, r.1,
        page_at 1 r.2.1.blobs sk_wide, r.2.2.m_meta.num_pages)

/-- The `while` loop of `intersect` with a record of its cap checks: each
time the loop reaches `res.keys.begin()->second.size() == num`, the number of
lists the result map holds at that moment and the length of `pos`. -/
def intersect_cap_checks : Nat → transport → List eurl → List iter → result → Nat → Nat →
    Run (List (Nat × Nat))
  | 0, _, _, _, _, _, _ => .error Fault.fuel
  | fuel + 1, t, indexes, idata, res, num, undef =>
    match intersect_scan idata idata 0 [] with
    | .error e => .error e
    | .ok (true, _) => .ok []
    | .ok (false, pos) =>
      if pos.length ≠ idata.length then
        match intersect_advance t pos idata with
        | .error e => .error e
        | .ok idata1 => intersect_cap_checks fuel t indexes idata1 res num undef
      else
        if first_size undef res.keys = num then .ok [(res.keys.length, pos.length)]
        else
          match intersect_collect t indexes pos idata res.keys with
          | .error e => .error e
          | .ok c =>
            match intersect_cap_checks fuel t indexes c.1 { res with keys := c.2 } num
                undef with
            | .error e => .error e
            | .ok rest => .ok ((res.keys.length, pos.length) :: rest)

/-- Builds `b/idx` by `ops` on the empty transport, then runs `intersect` on
the listed indexes from the empty start: the record of its cap checks. -/
def cap_checks_observed (fuel : Nat) (ops : List op) (indexes : List eurl) (num : Nat)
    (undef : Nat) : Run (List (Nat × Nat)) :=
  match open_and_run fuel empty_transport sk_idx ops with
  | .error e => .error e
  | .ok s =>
    match intersect_open fuel [] indexes s.2.2 with
    | .error e => .error e
    | .ok o =>
      intersect_cap_checks fuel o.1 indexes o.2 { completed := false, keys := [] } num undef

/-- The page at the start url of the index at `sk_wide` that holds `a`, `b`,
`c`: the routing entries for the leaf of `a` and the leaf of `b` and `c`. -/
def wide_root : page :=
  { flags := 0, objects := [⟨ascii "a", page_url sk_wide 0⟩, ⟨ascii "b", page_url sk_wide 1⟩],
    total_size := 2808, next := page_url sk_wide 0 }

/-- The lower half of `wide_root` after it took a third entry. -/
def wide_lower : page :=
  { flags := 0, objects := [⟨ascii "a", page_url sk_wide 0⟩], total_size := 1404,
    next := page_url sk_wide 0 }

/-- The upper half of `wide_root` after it took the entry for the page 2 of `c`. -/
def wide_upper : page :=
  { flags := 0, objects := [⟨ascii "b", page_url sk_wide 1⟩, ⟨ascii "c", page_url sk_wide 2⟩],
    total_size := 2808, next := default }

/-- The index at `sk_wide` with the meta it has once `a`, `b`, `c` were inserted. -/
def wide_index : index := ⟨sk_wide, ⟨2, 3, 2, 3⟩⟩

/-- Group 1 holding the pages of the index at `sk_wide` with the keys `a`,
`b`, `c`: `wide_root`, the leaf of `a` and the leaf of `b` and `c`. -/
def wide_store : transport :=
  store 1
    [((1, sk_wide), blob.page wide_root),
     ((1, page_url sk_wide 1),
        blob.page ⟨1, [wide_key "b", wide_key "c"], 2802, default⟩),
     ((1, page_url sk_wide 0),
        blob.page ⟨1, [wide_key "a"], 1401, page_url sk_wide 1⟩)]

/-- What the descent of `insert d` below the start url returns on
`wide_store`: the private `insert` on the page of the second entry. -/
def descent_of_d : Int × transport × index × recursion :=
  match index.insert_at 7 wide_index wide_store default (page_url sk_wide 1) (wide_key "d") with
  | .ok r => r
  | .error _ => (0, empty_transport, ⟨sk_wide, default⟩, default)

/-- A leaf with the keys `a` and `c`. -/
def leaf_page : page :=
  { flags := 1, objects := [short_key "a" "data.a", short_key "c" "data.c"], total_size := 16,
    next := default }

/-- A leaf with one key of half a page. -/
def long_leaf : page :=
  { flags := 1, objects := [long_key 97 "data.0"], total_size := 2107, next := default }

/-! ## Counting the stored pages -/

/-- The urls an index at `sk` has handed out when its `page_index` is `n`:
the start url and the urls of the pages 0 to `n - 1`. -/
def allocated (sk : eurl) (n : Nat) : List eurl := sk :: (List.range n).map (page_url sk)

/-- Whether group `g` holds a page under `u`. -/
def holds_page (g : Int) (blobs : Blobs) (u : eurl) : Bool := (page_at g blobs u).isSome

/-- Whether group `g` holds a leaf page under `u`. -/
def holds_leaf (g : Int) (blobs : Blobs) (u : eurl) : Bool :=
  match page_at g blobs u with
  | some p => p.is_leaf
  | none => false

/-- The number of pages group `g` holds under the allocated urls. -/
def stored_pages (g : Int) (blobs : Blobs) (sk : eurl) (n : Nat) : Nat :=
  (allocated sk n).countP (holds_page g blobs)

/-- The number of leaf pages group `g` holds under the allocated urls. -/
def stored_leaves (g : Int) (blobs : Blobs) (sk : eurl) (n : Nat) : Nat :=
  (allocated sk n).countP (holds_leaf g blobs)

/-- The counters of the meta tell the truth about the store: every stored
page is under an allocated url, the page at the start url is there and is
not a leaf, and `num_pages` and `num_leaf_pages` are the numbers of stored
pages and of stored leaf pages. -/
def counted (g : Int) (sk : eurl) (blobs : Blobs) (m : index_meta) : Prop :=
  (∀ u p, page_at g blobs u = some p → u ∈ allocated sk m.page_index) ∧
  (∃ p, page_at g blobs sk = some p ∧ p.is_leaf = false) ∧
  m.num_pages = stored_pages g blobs sk m.page_index ∧
  m.num_leaf_pages = stored_leaves g blobs sk m.page_index

/-- Every page of `b` is still stored in `b1`, as a leaf when it was one. -/
def pages_kept (g : Int) (b b1 : Blobs) : Prop :=
  ∀ u p, page_at g b u = some p →
    ∃ p1, page_at g b1 u = some p1 ∧ p1.is_leaf = p.is_leaf

/-- Every non-leaf page of `b` is still stored in `b1`, as a non-leaf page. -/
def inner_pages_kept (g : Int) (b b1 : Blobs) : Prop :=
  ∀ u p, page_at g b u = some p → p.is_leaf = false →
    ∃ p1, page_at g b1 u = some p1 ∧ p1.is_leaf = false

/-- Group `g` answers, and every active group that answers holds what `g` holds. -/
def replicated (g : Int) (t : transport) : Prop :=
  g ∈ t.up_groups ∧ ∀ g1 ∈ t.up_groups, ∀ u, t.lookup g1 u = t.lookup g u

/-- What a step of `insert` leaves when it started on `t`: the groups that
answer still hold the same, the counters are true, every page of `t` is
still stored, the start url is unchanged and `page_index` is not lowered. -/
def insert_leaves (g : Int) (sk : eurl) (t : transport) (m : index_meta)
    (t1 : transport) (idx1 : index) : Prop :=
  replicated g t1 ∧ counted g sk t1.blobs idx1.m_meta ∧ pages_kept g t.blobs t1.blobs ∧
    idx1.m_sk = sk ∧ m.page_index ≤ idx1.m_meta.page_index

/-- What a step of `remove` leaves when it started on `t`: the groups that
answer still hold the same, the counters are true, every non-leaf page of `t`
is still stored, the start url and `page_index` are unchanged. -/
def remove_leaves (g : Int) (sk : eurl) (t : transport) (m : index_meta)
    (t1 : transport) (idx1 : index) : Prop :=
  replicated g t1 ∧ counted g sk t1.blobs idx1.m_meta ∧ inner_pages_kept g t.blobs t1.blobs ∧
    idx1.m_sk = sk ∧ idx1.m_meta.page_index = m.page_index

/-- Insert `a`, insert `c`, remove `a`. -/
def ops_mixed : List op :=
  [op.insert (short_key "a" "data.a"), op.insert (short_key "c" "data.c"),
   op.remove (short_key "a" "data.a")]

/-- What `ops_mixed` returns and leaves on `b/idx`, opened on a transport
with the groups 1, 2, 3 that holds nothing, group 2 being down. -/
def after_mixed : List Int × index × transport :=
  match open_and_run 6 ⟨[1, 2, 3], [2], []⟩ sk_idx ops_mixed with
  | .ok r => r
  | .error _ => ([], ⟨sk_idx, default⟩, empty_transport)

/-! ## Walking the pages, and the shape the inserts keep -/

/-- The loop of `test::test_page_iterator`: from `it` to `page_end()` it
counts the pages and the leaf pages among them, in `size_t` counters. -/
def page_count_loop : Nat → transport → page_iterator → Nat → Nat → Run (Nat × Nat)
  | 0, _, _, _, _ => .error Fault.fuel
  | fuel + 1, t, it, page_num, leaf_num =>
    if it.m_page.ne index.page_end.m_page then
      let page_num := add64 page_num 1
      let leaf_num := if it.m_page.is_leaf then add64 leaf_num 1 else leaf_num
      match it.try_loading_next_page t with
      | .error e => .error e
      | .ok it1 => page_count_loop fuel t it1 page_num leaf_num
    else .ok (page_num, leaf_num)

/-- `test::test_page_iterator` up to its two comparisons with the meta: the
number of pages and of leaf pages that the walk from `page_begin()` to
`page_end()` counts. -/
def test_page_iterator (fuel : Nat) (idx : index) (t : transport) : Run (Nat × Nat) :=
  match idx.page_begin t with
  | .error e => .error e
  | .ok it => page_count_loop fuel t it 0 0

/-- The pages under the urls of the list are stored, the `next` of each one
is the url that follows it in the list, and the `next` of the last one is `nx`. -/
def links (f : eurl → Option page) : List eurl → eurl → Prop
  | [], _ => True
  | u :: rest, nx => (∃ p, f u = some p ∧ p.next = rest.headD nx) ∧ links f rest nx

/-- The entries of every non-leaf page under a url of the list name urls
that come later in the list, or urls of `tail`. -/
def fwd (f : eurl → Option page) : List eurl → List eurl → Prop
  | [], _ => True
  | u :: rest, tail =>
    (∀ p, f u = some p → p.is_leaf = false → ∀ e ∈ p.objects, e.url ∈ rest ++ tail) ∧
      fwd f rest tail

/-- The page that the entry `e` names is stored and its first entry has the id of `e`. -/
def heads (f : eurl → Option page) (e : key) : Prop :=
  ∃ c fr rs, f e.url = some c ∧ c.objects = fr :: rs ∧ fr.id = e.id

/-- A routing entry with the id `id` fits into a page, whichever of the
first `n` page urls of the index at `sk` it names. -/
def fits (sk : eurl) (n : Nat) (id : Str) : Prop :=
  ∀ i < n, (key.mk id (page_url sk i)).size ≤ max_page_size

/-- A stored page as the inserts leave it: it holds an entry, its ids
ascend, routing entries made of its ids fit into a page, and the entries of
a non-leaf page name different urls. -/
def page_ok (sk : eurl) (n : Nat) (p : page) : Prop :=
  p.objects ≠ [] ∧ ids_sorted p.objects ∧ (∀ e ∈ p.objects, fits sk n e.id) ∧
    (p.is_leaf = false → (p.objects.map key.url).Nodup)

/-- The non-leaf page stored under `u` has an entry that names `x`. -/
def owns (f : eurl → Option page) (u x : eurl) : Prop :=
  ∃ p e, f u = some p ∧ p.is_leaf = false ∧ e ∈ p.objects ∧ e.url = x

/-- The stored pages form a tree of pages in order: every page is as
`page_ok` says, the entries of the non-leaf pages carry the first id of the
page they name, except the entries of a page `u` naming `x` with `skip u x`,
and no url is named by the entries of two pages. -/
structure shaped (sk : eurl) (n : Nat) (f : eurl → Option page)
    (skip : eurl → eurl → Prop) : Prop where
  ok : ∀ u p, f u = some p → page_ok sk n p
  fronts : ∀ u p, f u = some p → p.is_leaf = false → ∀ e ∈ p.objects,
    ¬ skip u e.url → heads f e
  single : ∀ u1 u2 x, owns f u1 x → owns f u2 x → u1 = u2

/-- The stored pages are exactly the pages under the urls of `chain`, which
starts at the start url, repeats no url, is linked by the `next` fields up
to an empty url, and runs ahead of the entries: every entry names a url
further down the list. -/
structure chained (f : eurl → Option page) (sk : eurl) (chain : List eurl) : Prop where
  start : chain.head? = some sk
  nodup : chain.Nodup
  linked : links f chain default
  ahead : fwd f chain []
  cover : ∀ u p, f u = some p → u ∈ chain

/-- The state of an index on which an insert has succeeded: the groups that
answer hold the same, the counters are true, and the pages of group `g` form
a chain and a tree in order. -/
def grown (g : Int) (sk : eurl) (n : Nat) (t : transport) (m : index_meta) : Prop :=
  replicated g t ∧ counted g sk t.blobs m ∧
    ∃ chain, chained (page_at g t.blobs) sk chain ∧
      shaped sk n (page_at g t.blobs) fun _ _ => False

/-- The keys `a`, `b`, `c`, `d` with payloads of a third of a page each. -/
def keys_four_wide : List key := [wide_key "a", wide_key "b", wide_key "c", wide_key "d"]

/-- What inserting `keys_four_wide` returns and leaves on the index at
`sk_wide`, opened on a transport with the groups 1 and 2 that holds nothing,
group 2 being down. -/
def after_four_wide : List Int × index × transport :=
  match open_and_run 7 ⟨[1, 2], [2], []⟩ sk_wide (keys_four_wide.map op.insert) with
  | .ok r => r
  | .error _ => ([], ⟨sk_wide, default⟩, empty_transport)

/-! ## Lemmas -/


theorem keys_add_nil (name : eurl) (k : key) : keys_add [] name k = [(name, [k])] := rfl

theorem keys_add_cons (e : eurl × List key) (rest : List (eurl × List key)) (name : eurl)
    (k : key) :
    keys_add (e :: rest) name k =
      if e.1.lt name then e :: keys_add rest name k
      else if name.lt e.1 then (name, [k]) :: e :: rest
      else (e.1, e.2 ++ [k]) :: rest := by
  unfold keys_add
  by_cases h1 : e.1.lt name = true
  · simp only [keys_find, keys_insert, h1, if_true]
    cases hf : keys_find rest name with
    | none => simp
    | some i => simp
  · by_cases h2 : name.lt e.1 = true
    · simp [keys_find, keys_insert, h1, h2]
    · simp [keys_find, keys_insert, h1, h2]

theorem keys_add_names (m : List (eurl × List key)) (name : eurl) (k : key) :
    ∀ e ∈ keys_add m name k, e.1 = name ∨ ∃ e1 ∈ m, e1.1 = e.1 := by
  induction m with
  | nil => intro e he; rw [keys_add_nil] at he; simp at he; left; rw [he]
  | cons a rest ih =>
    intro e he
    rw [keys_add_cons] at he
    split at he
    · rcases List.mem_cons.1 he with h | h
      · right; exact ⟨a, List.mem_cons_self _ _, by rw [h]⟩
      · rcases ih e h with h1 | ⟨e1, h1, h2⟩
        · left; exact h1
        · right; exact ⟨e1, List.mem_cons_of_mem _ h1, h2⟩
    · split at he
      · rcases List.mem_cons.1 he with h | h
        · left; rw [h]
        · right; exact ⟨e, h, rfl⟩
      · rcases List.mem_cons.1 he with h | h
        · right; exact ⟨a, List.mem_cons_self _ _, by rw [h]⟩
        · right; exact ⟨e, List.mem_cons_of_mem _ h, rfl⟩

theorem intersect_advance_length (t : transport) :
    ∀ (pos : List Nat) (idata idata1 : List iter),
      intersect_advance t pos idata = .ok idata1 → idata1.length = idata.length := by
  intro pos
  induction pos with
  | nil => intro idata idata1 h; simp [intersect_advance] at h; rw [← h]
  | cons i rest ih =>
    intro idata idata1 h
    unfold intersect_advance at h
    split at h
    · exact absurd h (by simp)
    · split at h
      · exact absurd h (by simp)
      · rw [ih _ _ h, List.length_set]

theorem intersect_collect_spec (t : transport) (indexes : List eurl) :
    ∀ (pos : List Nat) (idata : List iter) (keys : List (eurl × List key))
      (c : List iter × List (eurl × List key)),
      intersect_collect t indexes pos idata keys = .ok c →
      c.1.length = idata.length ∧
        ∀ e ∈ c.2, e.1 ∈ indexes ∨ ∃ e1 ∈ keys, e1.1 = e.1 := by
  intro pos
  induction pos with
  | nil =>
    intro idata keys c h
    simp [intersect_collect] at h
    rw [← h]
    exact ⟨rfl, fun e he => Or.inr ⟨e, he, rfl⟩⟩
  | cons i rest ih =>
    intro idata keys c h
    unfold intersect_collect at h
    split at h
    · rename_i d name hd hname
      split at h
      · exact absurd h (by simp)
      · split at h
        · exact absurd h (by simp)
        · obtain ⟨h1, h2⟩ := ih _ _ _ h
          refine ⟨by rw [h1, List.length_set], ?_⟩
          intro e he
          rcases h2 e he with h3 | ⟨e1, h3, h4⟩
          · left; exact h3
          · rcases keys_add_names keys name _ e1 h3 with h5 | ⟨e2, h5, h6⟩
            · left
              rw [← h4, h5]
              exact List.get?_mem hname
            · right; exact ⟨e2, h5, by rw [h6, h4]⟩
    · exact absurd h (by simp)

/-- How the loop of `intersect` ends: completed with an empty `start`, or
at the cap with the first list holding `num` keys. -/
theorem intersect_loop_exit (t : transport) (indexes : List eurl) (num undef : Nat) :
    ∀ (fuel : Nat) (idata : List iter) (res : result) (start : Str) (r : result × Str),
      intersect_loop fuel t indexes idata res start num undef = .ok r →
      res.completed = false →
      idata.length = indexes.length →
      (∀ e ∈ res.keys, e.1 ∈ indexes) →
      (∀ e ∈ r.1.keys, e.1 ∈ indexes) ∧
        ((r.1.completed = true ∧ r.2 = []) ∨
          (r.1.completed = false ∧ first_size undef r.1.keys = num ∧ indexes ≠ [])) := by
  intro fuel
  induction fuel with
  | zero => intro idata res start r h; simp [intersect_loop] at h
  | succ fuel ih =>
    intro idata res start r h hc hl hn
    unfold intersect_loop at h
    split at h
    · exact absurd h (by simp)
    · simp only [Except.ok.injEq] at h
      rw [← h]
      exact ⟨hn, Or.inl ⟨rfl, rfl⟩⟩
    · rename_i pos hscan
      split at h
      · split at h
        · exact absurd h (by simp)
        · rename_i idata1 hadv
          exact ih idata1 res start r h hc
            (by rw [intersect_advance_length t _ _ _ hadv, hl]) hn
      · rename_i hlen
        split at h
        · exact absurd h (by simp)
        · rename_i p0 ps
          split at h
          · exact absurd h (by simp)
          · split at h
            · exact absurd h (by simp)
            · split at h
              · rename_i hfs
                simp only [Except.ok.injEq] at h
                rw [← h]
                refine ⟨hn, Or.inr ⟨hc, hfs, ?_⟩⟩
                intro hnil
                rw [hnil] at hl
                simp at hlen
                rw [hl] at hlen
                simp at hlen
              · split at h
                · exact absurd h (by simp)
                · rename_i c hcol
                  obtain ⟨h1, h2⟩ := intersect_collect_spec t indexes _ _ _ _ hcol
                  refine ih c.1 { res with keys := c.2 } _ r h hc (by rw [h1, hl]) ?_
                  intro e he
                  rcases h2 e he with h3 | ⟨e1, h3, h4⟩
                  · exact h3
                  · rw [← h4]; exact hn e1 h3

theorem eurl_lt_same_bucket (a b : eurl) (h : a.bucket = b.bucket) :
    a.lt b = decide (a.key < b.key) := by
  unfold eurl.lt
  rw [h]
  simp

theorem eurl_eq_of_not_lt (a b : eurl) (h : a.bucket = b.bucket) (h1 : a.lt b = false)
    (h2 : b.lt a = false) : a = b := by
  rw [eurl_lt_same_bucket a b h] at h1
  rw [eurl_lt_same_bucket b a h.symm] at h2
  simp at h1 h2
  have : a.key = b.key := le_antisymm h2 h1
  cases a; cases b; simp_all

theorem returned_cons (c : Bool) (e : eurl × List key) (rest : List (eurl × List key))
    (name : eurl) :
    (result.mk c (e :: rest)).returned name =
      if e.1 = name then e.2 else (result.mk c rest).returned name := by
  unfold result.returned
  by_cases h : e.1 = name
  · simp [List.find?, h]
  · simp [List.find?, h]

theorem returned_nil (c : Bool) (name : eurl) : (result.mk c []).returned name = [] := rfl

theorem returned_of_not_mem (c : Bool) (m : List (eurl × List key)) (name : eurl)
    (h : ∀ e ∈ m, e.1 ≠ name) : (result.mk c m).returned name = [] := by
  induction m with
  | nil => rfl
  | cons a rest ih =>
    rw [returned_cons, if_neg (h a (List.mem_cons_self _ _))]
    exact ih fun e he => h e (List.mem_cons_of_mem _ he)

theorem keys_add_sorted (m : List (eurl × List key)) (name : eurl) (k : key)
    (hs : keys_sorted m) (hb : ∀ e ∈ m, e.1.bucket = name.bucket) :
    keys_sorted (keys_add m name k) := by
  induction m with
  | nil => rw [keys_add_nil]; exact List.pairwise_singleton _ _
  | cons a rest ih =>
    have hba := hb a (List.mem_cons_self _ _)
    have hrest : ∀ e ∈ rest, e.1.bucket = name.bucket :=
      fun e he => hb e (List.mem_cons_of_mem _ he)
    obtain ⟨ha, hsr⟩ := List.pairwise_cons.1 hs
    rw [keys_add_cons]
    split
    · rename_i h1
      rw [eurl_lt_same_bucket a.1 name hba] at h1
      simp at h1
      refine List.pairwise_cons.2 ⟨?_, ih hsr hrest⟩
      intro e he
      rcases keys_add_names rest name k e he with h | ⟨e1, h2, h3⟩
      · rw [h]; exact h1
      · rw [← h3]; exact ha e1 h2
    · split
      · rename_i h1 h2
        rw [eurl_lt_same_bucket name a.1 hba.symm] at h2
        simp at h2
        refine List.pairwise_cons.2 ⟨?_, hs⟩
        intro e he
        rcases List.mem_cons.1 he with h | h
        · rw [h]; exact h2
        · exact lt_trans h2 (ha e h)
      · exact List.pairwise_cons.2 ⟨ha, hsr⟩

theorem keys_add_returned_other (c : Bool) (m : List (eurl × List key)) (name other : eurl)
    (k : key) (hne : other ≠ name) (hb : ∀ e ∈ m, e.1.bucket = name.bucket) :
    (result.mk c (keys_add m name k)).returned other = (result.mk c m).returned other := by
  induction m with
  | nil => rw [keys_add_nil, returned_cons, if_neg (Ne.symm hne)]
  | cons a rest ih =>
    have hba := hb a (List.mem_cons_self _ _)
    rw [keys_add_cons]
    split
    · rw [returned_cons, returned_cons, ih fun e he => hb e (List.mem_cons_of_mem _ he)]
    · split
      · rw [returned_cons, if_neg (Ne.symm hne)]
      · rename_i h1 h2
        have heq : a.1 = name :=
          eurl_eq_of_not_lt a.1 name hba (by simpa using h1) (by simpa using h2)
        have hne2 : a.1 ≠ other := fun h => hne (by rw [← h, heq])
        rw [returned_cons, returned_cons, if_neg hne2, if_neg hne2]

theorem keys_add_returned_self (c : Bool) (m : List (eurl × List key)) (name : eurl)
    (k : key) (hs : keys_sorted m) (hb : ∀ e ∈ m, e.1.bucket = name.bucket) :
    (result.mk c (keys_add m name k)).returned name = (result.mk c m).returned name ++ [k] := by
  induction m with
  | nil => rw [keys_add_nil, returned_cons, if_pos rfl]; rfl
  | cons a rest ih =>
    have hba := hb a (List.mem_cons_self _ _)
    have hrest : ∀ e ∈ rest, e.1.bucket = name.bucket :=
      fun e he => hb e (List.mem_cons_of_mem _ he)
    obtain ⟨ha, hsr⟩ := List.pairwise_cons.1 hs
    rw [keys_add_cons]
    split
    · rename_i h1
      rw [eurl_lt_same_bucket a.1 name hba] at h1
      simp at h1
      have hne : a.1 ≠ name := fun h => by rw [h] at h1; exact lt_irrefl _ h1
      rw [returned_cons, returned_cons, if_neg hne, if_neg hne, ih hsr hrest]
    · split
      · rename_i h1 h2
        rw [eurl_lt_same_bucket name a.1 hba.symm] at h2
        simp at h2
        rw [returned_cons, if_pos rfl]
        rw [returned_of_not_mem c (a :: rest) name]
        · rfl
        · intro e he hen
          rcases List.mem_cons.1 he with h | h
          · rw [h] at hen; rw [hen] at h2; exact lt_irrefl _ h2
          · have := lt_trans h2 (ha e h)
            rw [hen] at this
            exact lt_irrefl _ this
      · rename_i h1 h2
        have heq : a.1 = name := eurl_eq_of_not_lt a.1 name hba (by simpa using h1) (by simpa using h2)
        rw [returned_cons, returned_cons, if_pos heq, if_pos heq]

theorem intersect_collect_counts (t : transport) (indexes : List eurl) (c0 : Bool)
    (hb : ∀ a ∈ indexes, ∀ b ∈ indexes, a.bucket = b.bucket) :
    ∀ (pos : List Nat) (idata : List iter) (keys : List (eurl × List key))
      (c : List iter × List (eurl × List key)),
      intersect_collect t indexes pos idata keys = .ok c →
      keys_sorted keys → (∀ e ∈ keys, e.1 ∈ indexes) →
      keys_sorted c.2 ∧ (∀ e ∈ c.2, e.1 ∈ indexes) ∧
        ∀ name, ((result.mk c0 c.2).returned name).length =
          ((result.mk c0 keys).returned name).length +
            (pos.filterMap indexes.get?).count name := by
  intro pos
  induction pos with
  | nil =>
    intro idata keys c h hs hn
    simp [intersect_collect] at h
    rw [← h]
    exact ⟨hs, hn, fun name => by simp⟩
  | cons i rest ih =>
    intro idata keys c h hs hn
    unfold intersect_collect at h
    split at h
    · rename_i d name hd hname
      have hmem : name ∈ indexes := List.get?_mem hname
      have hbk : ∀ e ∈ keys, e.1.bucket = name.bucket := fun e he => hb _ (hn e he) _ hmem
      split at h
      · exact absurd h (by simp)
      · rename_i k hk
        split at h
        · exact absurd h (by simp)
        · have hs1 := keys_add_sorted keys name k hs hbk
          have hn1 : ∀ e ∈ keys_add keys name k, e.1 ∈ indexes := by
            intro e he
            rcases keys_add_names keys name k e he with h1 | ⟨e1, h1, h2⟩
            · rw [h1]; exact hmem
            · rw [← h2]; exact hn e1 h1
          obtain ⟨h1, h2, h3⟩ := ih _ _ _ h hs1 hn1
          refine ⟨h1, h2, ?_⟩
          intro other
          rw [h3 other]
          have hfm : (i :: rest).filterMap indexes.get? = name :: rest.filterMap indexes.get? := by
            have hname2 : indexes[i]? = some name := by simpa using hname
            simp [List.filterMap_cons, hname2]
          rw [hfm, List.count_cons]
          by_cases hon : other = name
          · subst hon
            rw [keys_add_returned_self c0 keys other k hs hbk]
            simp
            omega
          · rw [keys_add_returned_other c0 keys name other k hon hbk]
            have : (name == other) = false := by simpa using fun h => hon h.symm
            simp [this]
    · exact absurd h (by simp)

theorem intersect_scan_pos (idata : List iter) :
    ∀ (rest : List iter) (current : Nat) (pos : List Nat) (r : Bool × List Nat),
      intersect_scan idata rest current pos = .ok r →
      pos.Pairwise (· < ·) → (∀ x ∈ pos, x < current) →
      r.2.Pairwise (· < ·) ∧ ∀ x ∈ r.2, x < current + rest.length := by
  intro rest
  induction rest with
  | nil =>
    intro current pos r h hs hlt
    simp [intersect_scan] at h
    rw [← h]
    exact ⟨hs, fun x hx => by simpa using hlt x hx⟩
  | cons d rest ih =>
    intro current pos r h hs hlt
    have hlt1 : ∀ x ∈ pos, x < current + 1 := fun x hx => Nat.lt_succ_of_lt (hlt x hx)
    have hone : ([current] : List Nat).Pairwise (· < ·) := List.pairwise_singleton _ _
    have hone1 : ∀ x ∈ [current], x < current + 1 := fun x hx => by
      rw [List.mem_singleton.1 hx]; exact Nat.lt_succ_self _
    have hlen : current + 1 + rest.length = current + (d :: rest).length := by
      simp; omega
    unfold intersect_scan at h
    split at h
    · simp only [Except.ok.injEq] at h
      rw [← h]
      exact ⟨hs, fun x hx => Nat.lt_of_lt_of_le (hlt x hx) (Nat.le_add_right _ _)⟩
    · split at h
      · have := ih _ _ _ h hone hone1
        rwa [hlen] at this
      · rename_i p0 ps
        split at h
        · exact absurd h (by simp)
        · split at h
          · split at h
            · have hs2 : (p0 :: ps ++ [current]).Pairwise (· < ·) := by
                rw [List.pairwise_append]
                refine ⟨hs, hone, ?_⟩
                intro a ha b hb
                rw [List.mem_singleton.1 hb]
                exact hlt a ha
              have hlt2 : ∀ x ∈ p0 :: ps ++ [current], x < current + 1 := by
                intro x hx
                rcases List.mem_append.1 hx with h1 | h1
                · exact hlt1 x h1
                · exact hone1 x h1
              have := ih _ _ _ h hs2 hlt2
              rwa [hlen] at this
            · split at h
              · have := ih _ _ _ h hone hone1
                rwa [hlen] at this
              · have := ih _ _ _ h hs hlt1
                rwa [hlen] at this
          · exact absurd h (by simp)
          · exact absurd h (by simp)

theorem sorted_below_eq_range :
    ∀ (n : Nat) (l : List Nat), l.Pairwise (· < ·) → (∀ x ∈ l, x < n) → l.length = n →
      l = List.range n := by
  intro n l hs hlt hlen
  have hnd : l.Nodup := hs.imp fun h => Nat.ne_of_lt h
  have hsub : l ⊆ List.range n := fun x hx => List.mem_range.2 (hlt x hx)
  have hperm : l.Perm (List.range n) := by
    apply List.Subperm.perm_of_length_le (List.subperm_of_subset hnd hsub)
    simp [hlen]
  exact List.eq_of_perm_of_sorted hperm hs (List.sorted_lt_range n)

theorem filterMap_get_range (l : List eurl) :
    (List.range l.length).filterMap l.get? = l := by
  induction l with
  | nil => rfl
  | cons a l ih =>
    rw [List.length_cons, List.range_succ_eq_map, List.filterMap_cons]
    simp only [List.get?_cons_zero, List.filterMap_map]
    congr 1

theorem first_size_eq_count (indexes : List eurl) (res : result) (m undef : Nat)
    (hn : ∀ e ∈ res.keys, e.1 ∈ indexes)
    (hm : ∀ name ∈ indexes, (res.returned name).length = m) (hk : res.keys ≠ []) :
    first_size undef res.keys = m := by
  obtain ⟨c, keys⟩ := res
  cases keys with
  | nil => exact absurd rfl hk
  | cons e rest =>
    have := hm e.1 (hn e (List.mem_cons_self _ _))
    rw [returned_cons, if_pos rfl] at this
    simpa [first_size] using this

theorem count_zero_of_no_keys (indexes : List eurl) (res : result) (m : Nat)
    (hne : indexes ≠ []) (hm : ∀ name ∈ indexes, (res.returned name).length = m)
    (hk : res.keys = []) : m = 0 := by
  obtain ⟨c, keys⟩ := res
  obtain ⟨name, hname⟩ := List.exists_mem_of_ne_nil indexes hne
  have := hm name hname
  simp only at hk
  rw [hk, returned_nil] at this
  simpa using this.symm

theorem intersect_loop_counts (t : transport) (indexes : List eurl) (num undef : Nat)
    (hb : ∀ a ∈ indexes, ∀ b ∈ indexes, a.bucket = b.bucket) (hnd : indexes.Nodup)
    (hu : undef ≠ num) (h0 : num ≠ 0) :
    ∀ (fuel : Nat) (idata : List iter) (res : result) (start : Str) (r : result × Str)
      (m : Nat),
      intersect_loop fuel t indexes idata res start num undef = .ok r →
      idata.length = indexes.length →
      keys_sorted res.keys → (∀ e ∈ res.keys, e.1 ∈ indexes) →
      (∀ name ∈ indexes, (res.returned name).length = m) → m ≤ num →
      keys_sorted r.1.keys ∧ (∀ e ∈ r.1.keys, e.1 ∈ indexes) ∧
      ∃ m1, m1 ≤ num ∧ (∀ name ∈ indexes, (r.1.returned name).length = m1) ∧
        (r.1.completed = false → m1 = num) := by
  intro fuel
  induction fuel with
  | zero => intro idata res start r m h; simp [intersect_loop] at h
  | succ fuel ih =>
    intro idata res start r m h hl hs hn hm hle
    unfold intersect_loop at h
    split at h
    · exact absurd h (by simp)
    · simp only [Except.ok.injEq] at h
      rw [← h]
      exact ⟨hs, hn, m, hle, hm, fun hc => absurd hc (by simp)⟩
    · rename_i pos hscan
      split at h
      · split at h
        · exact absurd h (by simp)
        · rename_i idata1 hadv
          exact ih idata1 res start r m h
            (by rw [intersect_advance_length t _ _ _ hadv, hl]) hs hn hm hle
      · rename_i hlen
        simp only [ne_eq, Decidable.not_not] at hlen
        split at h
        · exact absurd h (by simp)
        · rename_i p0 ps
          have hne : indexes ≠ [] := by
            intro hnil
            rw [hnil] at hl
            rw [hl] at hlen
            simp at hlen
          have hfs : res.keys ≠ [] → first_size undef res.keys = m :=
            first_size_eq_count indexes res m undef hn hm
          have hz : res.keys = [] → m = 0 := count_zero_of_no_keys indexes res m hne hm
          split at h
          · exact absurd h (by simp)
          · split at h
            · exact absurd h (by simp)
            · split at h
              · rename_i hcap
                simp only [Except.ok.injEq] at h
                rw [← h]
                refine ⟨hs, hn, m, hle, hm, fun _ => ?_⟩
                by_cases hk : res.keys = []
                · rw [hk] at hcap
                  exact absurd hcap hu
                · rw [← hfs hk, hcap]
              · rename_i hcap
                split at h
                · exact absurd h (by simp)
                · rename_i c hcol
                  obtain ⟨hp1, hp2⟩ := intersect_scan_pos idata idata 0 [] _ hscan
                    List.Pairwise.nil (fun x hx => absurd hx (List.not_mem_nil _))
                  have hrange : p0 :: ps = List.range indexes.length := by
                    apply sorted_below_eq_range _ _ hp1
                    · intro x hx
                      have := hp2 x hx
                      simpa [hl] using this
                    · rw [hlen, hl]
                  obtain ⟨h1, h2, h3⟩ :=
                    intersect_collect_counts t indexes res.completed hb _ _ _ _ hcol hs hn
                  refine ih c.1 { res with keys := c.2 } _ r (m + 1) h ?_ h1 h2 ?_ ?_
                  · rw [(intersect_collect_spec t indexes _ _ _ _ hcol).1, hl]
                  · intro name hname
                    have := h3 name
                    rw [hrange, filterMap_get_range, List.count_eq_one_of_mem hnd hname] at this
                    rw [this]
                    have := hm name hname
                    simp only [result.returned] at this ⊢
                    omega
                  · by_cases hk : res.keys = []
                    · have := hz hk
                      omega
                    · rw [hfs hk] at hcap
                      omega

theorem intersect_open_length (fuel : Nat) (start : Str) :
    ∀ (indexes : List eurl) (t : transport) (o : transport × List iter),
      intersect_open fuel start indexes t = .ok o → o.2.length = indexes.length := by
  intro indexes
  induction indexes with
  | nil => intro t o h; simp [intersect_open] at h; rw [← h]; rfl
  | cons name rest ih =>
    intro t o h
    unfold intersect_open at h
    split at h
    · exact absurd h (by simp)
    · split at h
      · exact absurd h (by simp)
      · split at h
        · exact absurd h (by simp)
        · rename_i r hr
          simp only [Except.ok.injEq] at h
          rw [← h]
          simp [ih _ _ hr]

/-- When `intersect` returns and the undefined read of its first cap check
yielded a number other than `num`, a result with fewer than `num` keys for
every index is completed and leaves `start` empty; every completed result
leaves `start` empty. -/
theorem short_result_completed_unless_read_num (fuel : Nat) (t : transport)
    (indexes : List eurl) (start : Str) (num undef : Nat) (r : result × Str × transport)
    (h : intersect fuel t indexes start num undef = .ok r) (hu : undef ≠ num) :
    ((∀ name ∈ indexes, (r.1.returned name).length < num) →
        r.1.completed = true ∧ r.2.1 = []) ∧
      (r.1.completed = true → r.2.1 = []) := by
  unfold intersect at h
  split at h
  · exact absurd h (by simp)
  · rename_i o ho
    split at h
    · exact absurd h (by simp)
    · rename_i q hq
      simp only [Except.ok.injEq] at h
      rw [← h]
      obtain ⟨⟨c, keys⟩, qstart⟩ := q
      simp only
      have hl := intersect_open_length fuel start indexes t o ho
      obtain ⟨hn, hex⟩ := intersect_loop_exit o.1 indexes num undef fuel o.2
        { completed := false, keys := [] } start _ hq rfl hl
        (fun e he => absurd he (List.not_mem_nil _))
      simp only at hn hex
      rcases hex with ⟨hc, hs⟩ | ⟨hc, hfs, hne⟩
      · exact ⟨fun _ => ⟨hc, hs⟩, fun _ => hs⟩
      · refine ⟨fun hshort => ?_, fun hc1 => ?_⟩
        · exfalso
          cases keys with
          | nil => exact hu hfs
          | cons e rest =>
            have := hshort e.1 (hn e (List.mem_cons_self _ _))
            rw [returned_cons, if_pos rfl] at this
            simp [first_size] at hfs
            omega
        · rw [hc] at hc1
          exact absurd hc1 (by simp)

theorem returned_of_mem_sorted (c : Bool) (m : List (eurl × List key)) (e : eurl × List key)
    (hs : keys_sorted m) (he : e ∈ m) : (result.mk c m).returned e.1 = e.2 := by
  induction m with
  | nil => exact absurd he (List.not_mem_nil _)
  | cons a rest ih =>
    obtain ⟨ha, hsr⟩ := List.pairwise_cons.1 hs
    rw [returned_cons]
    rcases List.mem_cons.1 he with h | h
    · rw [h, if_pos rfl]
    · have hne : a.1 ≠ e.1 := fun heq => by
        have := ha e h
        rw [heq] at this
        exact lt_irrefl _ this
      rw [if_neg hne]
      exact ih hsr h

/-- For pairwise distinct index urls of one bucket, a cap `num` other than 0
and an undefined read that yields a number other than `num`: when `intersect`
returns, every list of the result belongs to one of the indexes, the list of
every index holds at most `num` keys, and it holds exactly `num` keys when
the result is not completed. -/
theorem distinct_capped_unless_read_num (fuel : Nat) (t : transport) (indexes : List eurl)
    (start : Str) (num undef : Nat) (r : result × Str × transport)
    (h : intersect fuel t indexes start num undef = .ok r) (hnd : indexes.Nodup)
    (hb : ∀ a ∈ indexes, ∀ b ∈ indexes, a.bucket = b.bucket)
    (hu : undef ≠ num) (h0 : num ≠ 0) :
    (∀ e ∈ r.1.keys, e.1 ∈ indexes ∧ e.2 = r.1.returned e.1) ∧
      ∀ name ∈ indexes, (r.1.returned name).length ≤ num ∧
        (r.1.completed = false → (r.1.returned name).length = num) := by
  unfold intersect at h
  split at h
  · exact absurd h (by simp)
  · rename_i o ho
    split at h
    · exact absurd h (by simp)
    · rename_i q hq
      simp only [Except.ok.injEq] at h
      rw [← h]
      obtain ⟨⟨c, keys⟩, qstart⟩ := q
      simp only
      have hl := intersect_open_length fuel start indexes t o ho
      obtain ⟨hs, hn, m1, hle, hm, hc⟩ :=
        intersect_loop_counts o.1 indexes num undef hb hnd hu h0 fuel o.2
        { completed := false, keys := [] } start _ 0 hq hl List.Pairwise.nil
        (fun e he => absurd he (List.not_mem_nil _)) (fun name _ => rfl) (Nat.zero_le _)
      simp only at hs hn hm hc
      refine ⟨fun e he => ⟨hn e he, (returned_of_mem_sorted c keys e hs he).symm⟩, ?_⟩
      intro name hname
      rw [hm name hname]
      exact ⟨hle, hc⟩

/-! ## The undefined read of the cap check only matters through its test -/

theorem first_size_test (num u v : Nat) (huv : u = num ↔ v = num)
    (keys : List (eurl × List key)) :
    (first_size u keys = num) = (first_size v keys = num) := by
  cases keys with
  | nil => exact propext huv
  | cons e rest => rfl

theorem intersect_loop_undef (t : transport) (indexes : List eurl) (num u v : Nat)
    (huv : u = num ↔ v = num) :
    ∀ (fuel : Nat) (idata : List iter) (res : result) (start : Str),
      intersect_loop fuel t indexes idata res start num u =
        intersect_loop fuel t indexes idata res start num v := by
  intro fuel
  induction fuel with
  | zero => intro idata res start; rfl
  | succ fuel ih =>
    intro idata res start
    simp only [intersect_loop, first_size_test num u v huv, ih]

theorem intersect_undef (fuel : Nat) (t : transport) (indexes : List eurl) (start : Str)
    (num u v : Nat) (huv : u = num ↔ v = num) :
    intersect fuel t indexes start num u = intersect fuel t indexes start num v := by
  simp only [intersect, intersect_loop_undef _ indexes num u v huv]

theorem build_then_intersect_undef (fuel : Nat) (ops : List op) (indexes : List eurl)
    (num u v : Nat) (huv : u = num ↔ v = num) :
    build_then_intersect fuel ops indexes num u = build_then_intersect fuel ops indexes num v := by
  simp only [build_then_intersect, intersect_undef _ _ indexes _ num u v huv]

theorem intersect_pages_undefs (fuel : Nat) (indexes : List eurl) (num : Nat) :
    ∀ (us vs : List Nat), List.Forall₂ (fun u v => u = num ↔ v = num) us vs →
      ∀ (t : transport) (start : Str),
        intersect_pages fuel indexes num us t start =
          intersect_pages fuel indexes num vs t start := by
  intro us vs h
  induction h with
  | nil => intro t start; rfl
  | cons huv _ ih =>
    intro t start
    simp only [intersect_pages, intersect_undef _ _ indexes _ num _ _ huv, ih]

theorem build_then_paginate_undefs (fuel : Nat) (ops : List op) (us vs : List Nat)
    (h : List.Forall₂ (fun u v => u = 1 ↔ v = 1) us vs) :
    build_then_paginate fuel ops us = build_then_paginate fuel ops vs := by
  simp only [build_then_paginate, intersect_pages_undefs _ _ 1 us vs h]

/-- Once the last call made has met `pagination_stops`, further entries of
the list of reads change nothing. -/
theorem intersect_pages_stopped (fuel : Nat) (indexes : List eurl) (num : Nat)
    (vs : List Nat) :
    ∀ (us : List Nat) (t : transport) (start : Str)
      (outs : List (Bool × List (eurl × List key) × Str))
      (o : Bool × List (eurl × List key) × Str),
      intersect_pages fuel indexes num us t start = .ok outs →
      outs.getLast? = some o → pagination_stops num ⟨o.1, o.2.1⟩ = true →
      intersect_pages fuel indexes num (us ++ vs) t start = .ok outs := by
  intro us
  induction us with
  | nil =>
    intro t start outs o h hl _
    simp only [intersect_pages, Except.ok.injEq] at h
    rw [← h] at hl
    exact absurd hl (by simp)
  | cons u us ih =>
    intro t start outs o h hl hs
    rw [List.cons_append]
    unfold intersect_pages at h ⊢
    cases hi : intersect fuel t indexes start num u with
    | error e => rw [hi] at h; exact absurd h (by simp)
    | ok i =>
      rw [hi] at h
      simp only at h ⊢
      by_cases hst : pagination_stops num i.1 = true
      · rw [if_pos hst] at h ⊢
        exact h
      · rw [if_neg hst] at h ⊢
        cases hr : intersect_pages fuel indexes num us i.2.2 i.2.1 with
        | error e => rw [hr] at h; exact absurd h (by simp)
        | ok rest =>
          rw [hr] at h
          simp only [Except.ok.injEq] at h
          rw [← h] at hl
          cases rest with
          | nil =>
            simp only [List.getLast?_singleton, Option.some.injEq] at hl
            rw [← hl] at hs
            exact absurd hs hst
          | cons r rest1 =>
            rw [List.getLast?_cons_cons] at hl
            rw [ih i.2.2 i.2.1 (r :: rest1) o hr hl hs, ← h]

theorem build_then_paginate_stopped (fuel : Nat) (ops : List op) (us vs : List Nat)
    (outs : List (Bool × List (eurl × List key) × Str))
    (o : Bool × List (eurl × List key) × Str)
    (h : build_then_paginate fuel ops us = .ok outs) (hl : outs.getLast? = some o)
    (hs : pagination_stops 1 ⟨o.1, o.2.1⟩ = true) :
    build_then_paginate fuel ops (us ++ vs) = .ok outs := by
  unfold build_then_paginate at h ⊢
  cases hr : open_and_run fuel empty_transport sk_idx ops with
  | error e => rw [hr] at h; exact absurd h (by simp)
  | ok r =>
    rw [hr] at h
    exact intersect_pages_stopped fuel [sk_idx] 1 vs us r.2.2 [] outs o h hl hs

theorem long_id_ne_nil (c : Nat) : List.replicate 2100 c ≠ [] :=
  fun h => by
    have h1 := congrArg List.length h
    rw [List.length_replicate] at h1
    exact absurd h1 (by decide)

theorem intersect_cap_checks_undef (t : transport) (indexes : List eurl) (num u v : Nat)
    (huv : u = num ↔ v = num) :
    ∀ (fuel : Nat) (idata : List iter) (res : result),
      intersect_cap_checks fuel t indexes idata res num u =
        intersect_cap_checks fuel t indexes idata res num v := by
  intro fuel
  induction fuel with
  | zero => intro idata res; rfl
  | succ fuel ih =>
    intro idata res
    simp only [intersect_cap_checks, first_size_test num u v huv, ih]

theorem cap_checks_observed_undef (fuel : Nat) (ops : List op) (indexes : List eurl)
    (num u v : Nat) (huv : u = num ↔ v = num) :
    cap_checks_observed fuel ops indexes num u = cap_checks_observed fuel ops indexes num v := by
  simp only [cap_checks_observed, intersect_cap_checks_undef _ indexes num u v huv]

theorem lookup_store (g : Int) (b : Blobs) (g1 : Int) (u : eurl) :
    (store g b).lookup g1 u = List.lookup (g1, u) b := rfl

theorem read_store (g : Int) (b : Blobs) (u : eurl) :
    (store g b).read u =
      match List.lookup (g, u) b with
      | some x => .ok x
      | none => .error (-ENOENT) := by
  simp only [transport.read, store, transport.read_from, transport.lookup]
  simp only [List.not_mem_nil, if_false]

theorem write_store (g : Int) (b : Blobs) (u : eurl) (x : blob) :
    (store g b).write u x = (store g (((g, u), x) :: b), [(g, 0)]) := by
  simp [transport.write, store, transport.write_to]

theorem check_write_store (g : Int) (b : Blobs) (u : eurl) (x : blob) :
    index.check ((store g b).write u x) = (0, store g (((g, u), x) :: b)) := by
  rw [write_store]
  simp [index.check, store, transport.set_groups]

theorem lookup_cons_blob (g : Int) (b : Blobs) (u v : eurl) (x : blob) :
    List.lookup (g, v) (((g, u), x) :: b) = if v = u then some x else List.lookup (g, v) b := by
  by_cases h : v = u
  · subst h; simp [List.lookup]
  · have : ((g, v) == (g, u)) = false := by simp [h]
    simp [List.lookup, this, h]

theorem page_at_cons_page (g : Int) (b : Blobs) (u v : eurl) (p : page) :
    page_at g (((g, u), blob.page p) :: b) v = if v = u then some p else page_at g b v := by
  unfold page_at
  rw [lookup_cons_blob]
  by_cases h : v = u <;> simp [h]

theorem page_at_cons_meta (g : Int) (b : Blobs) (u v : eurl) (m : index_meta) :
    page_at g (((g, u), blob.meta m) :: b) v = if v = u then none else page_at g b v := by
  unfold page_at
  rw [lookup_cons_blob]
  by_cases h : v = u <;> simp [h]

theorem read_page_at (g : Int) (b : Blobs) (u : eurl) (p : page) (h : page_at g b u = some p) :
    (store g b).read u = .ok (blob.page p) := by
  rw [read_store]
  unfold page_at at h
  split at h
  · rename_i q hq
    simp only [Option.some.injEq] at h
    rw [hq, h]
  · exact absurd h (by simp)

theorem lexical_cast_loop_parse :
    ∀ (fuel value : Nat) (acc : Str), value ≤ fuel →
      (lexical_cast_loop fuel value acc).foldl (fun a d => 10 * a + (d - 48)) 0 =
        acc.foldl (fun a d => 10 * a + (d - 48)) value := by
  intro fuel
  induction fuel with
  | zero =>
    intro value acc h
    have : value = 0 := Nat.le_zero.1 h
    subst this
    rfl
  | succ fuel ih =>
    intro value acc h
    unfold lexical_cast_loop
    split
    · rename_i h0; subst h0; rfl
    · rename_i h0
      rw [ih (value / 10) _ (by omega)]
      simp only [List.foldl_cons]
      congr 1
      omega

theorem parse_lexical_cast (n : Nat) : parse_dec (lexical_cast n) = n := by
  unfold parse_dec lexical_cast
  split
  · rename_i h; subst h; rfl
  · rw [lexical_cast_loop_parse n n [] (Nat.le_refl _)]; rfl

theorem lexical_cast_injective (n m : Nat) (h : lexical_cast n = lexical_cast m) : n = m := by
  have := congrArg parse_dec h
  rwa [parse_lexical_cast, parse_lexical_cast] at this

theorem lexical_cast_loop_digits :
    ∀ (fuel value : Nat) (acc : Str), ∀ c ∈ lexical_cast_loop fuel value acc,
      c ∈ acc ∨ (48 ≤ c ∧ c ≤ 57) := by
  intro fuel
  induction fuel with
  | zero => intro value acc c hc; left; exact hc
  | succ fuel ih =>
    intro value acc c hc
    unfold lexical_cast_loop at hc
    split at hc
    · left; exact hc
    · rcases ih _ _ c hc with h | h
      · rcases List.mem_cons.1 h with h1 | h1
        · right; omega
        · left; exact h1
      · right; exact h

theorem lexical_cast_digits (n : Nat) : ∀ c ∈ lexical_cast n, 48 ≤ c ∧ c ≤ 57 := by
  intro c hc
  unfold lexical_cast at hc
  split at hc
  · simp at hc; omega
  · rcases lexical_cast_loop_digits _ _ _ c hc with h | h
    · exact absurd h (List.not_mem_nil _)
    · exact h

theorem page_url_injective (sk : eurl) (n m : Nat) (h : page_url sk n = page_url sk m) :
    n = m := by
  unfold page_url at h
  simp only [eurl.mk.injEq, true_and] at h
  exact lexical_cast_injective n m (List.append_cancel_left h)

theorem page_url_ne_sk (sk : eurl) (n : Nat) : page_url sk n ≠ sk := by
  intro h
  have := congrArg (fun u => u.key.length) h
  simp [page_url, ascii] at this

theorem page_url_ne_meta (idx : index) (n : Nat) : page_url idx.m_sk n ≠ idx.meta_key := by
  intro h
  unfold page_url index.meta_key at h
  simp only [eurl.mk.injEq, true_and] at h
  rw [List.append_assoc] at h
  have h2 := List.append_cancel_left h
  have h3 : ascii ".meta" = ascii "." ++ ascii "meta" := by decide
  rw [h3] at h2
  have h4 := List.append_cancel_left h2
  have := lexical_cast_digits n 109 (by rw [h4]; decide)
  omega

theorem sk_ne_meta (idx : index) : idx.m_sk ≠ idx.meta_key := by
  intro h
  have := congrArg (fun u => u.key.length) h
  simp [index.meta_key, ascii] at this

theorem page_url_not_empty (sk : eurl) (n : Nat) : (page_url sk n).empty = false := by
  simp [page_url, eurl.empty, ascii]

theorem generate_page_url_eq (idx : index) :
    idx.generate_page_url =
      (page_url idx.m_sk idx.m_meta.page_index,
        { idx with m_meta := { idx.m_meta with page_index := idx.m_meta.page_index + 1 } }) := rfl


theorem insert_copy_objects (obj : key) :
    ∀ (es : List key) (total : Nat),
      (if (insert_copy obj es total).2.2 then (insert_copy obj es total).1
        else (insert_copy obj es total).1 ++ [obj]) = insert_sorted obj es := by
  intro es
  induction es with
  | nil => intro total; simp [insert_copy, insert_sorted]
  | cons it rest ih =>
    intro total
    unfold insert_copy insert_sorted
    by_cases h1 : obj.id ≤ it.id
    · by_cases h2 : obj.id = it.id
      · simp [key.le, key.eq, h1, h2]
      · simp [key.le, key.eq, h1, h2]
    · have := ih total
      simp only [key.le, h1, decide_False, if_false, Bool.false_eq_true]
      by_cases h3 : (insert_copy obj rest total).2.2 = true
      · simp only [h3, if_true] at this ⊢
        rw [this]
      · simp only [h3, if_false, Bool.false_eq_true] at this ⊢
        rw [← this]
        simp

/-- What `insert_and_split` leaves in the page and in `other`. -/
theorem insert_and_split_objects (p : page) (obj : key) (other : page) :
    (∃ ts, p.insert_and_split obj other =
        ({ p with objects := insert_sorted obj p.objects, total_size := ts }, other, false)) ∨
      ∃ ts1 ts2, p.insert_and_split obj other =
        ({ p with
            objects := List.take ((insert_sorted obj p.objects).length / 2)
              (insert_sorted obj p.objects),
            total_size := ts1 },
          { other with
            flags := p.flags,
            objects := List.drop ((insert_sorted obj p.objects).length / 2)
              (insert_sorted obj p.objects),
            total_size := ts2 }, true) := by
  have hc := insert_copy_objects obj p.objects p.total_size
  unfold page.insert_and_split
  simp only [hc]
  generalize (if (insert_copy obj p.objects p.total_size).2.2 = true then
    (insert_copy obj p.objects p.total_size).2.1
    else add64 (insert_copy obj p.objects p.total_size).2.1 obj.size) = total
  by_cases h : total > max_page_size
  · right
    rw [if_pos h]
    exact ⟨_, _, rfl⟩
  · left
    rw [if_neg h]
    exact ⟨_, rfl⟩

/-! ## Searching inside a page -/

theorem lower_bound_le_length (obj : key) : ∀ es : List key, lower_bound es obj ≤ es.length := by
  intro es
  induction es with
  | nil => simp [lower_bound]
  | cons x xs ih =>
    unfold lower_bound
    split
    · simp only [List.length_cons]; omega
    · omega

/-- Every entry before the lower bound is less than the probe. -/
theorem lower_bound_before (obj : key) :
    ∀ (es : List key) (j : Nat) (hj : j < es.length), j < lower_bound es obj →
      (es.get ⟨j, hj⟩).id < obj.id := by
  intro es
  induction es with
  | nil => intro j hj; simp at hj
  | cons x xs ih =>
    intro j hj hlt
    unfold lower_bound at hlt
    by_cases hx : x.lt obj = true
    · rw [if_pos hx] at hlt
      cases j with
      | zero => simpa [key.lt] using hx
      | succ j =>
        simp only [List.length_cons] at hj
        have := ih j (by omega) (by omega)
        simpa using this
    · rw [if_neg hx] at hlt
      omega

/-- The entry at the lower bound is not less than the probe. -/
theorem lower_bound_at (obj : key) :
    ∀ (es : List key) (h : lower_bound es obj < es.length),
      obj.id ≤ (es.get ⟨lower_bound es obj, h⟩).id := by
  intro es
  induction es with
  | nil => intro h; simp [lower_bound] at h
  | cons x xs ih =>
    intro h
    by_cases hx : x.lt obj = true
    · have e : lower_bound (x :: xs) obj = lower_bound xs obj + 1 := by
        simp [lower_bound, hx]
      have h2 : lower_bound xs obj < xs.length := by
        rw [e] at h; simpa using h
      have := ih h2
      simp only [e]
      simpa using this
    · have e : lower_bound (x :: xs) obj = 0 := by
        simp [lower_bound, hx]
      simp only [e]
      simp only [key.lt, decide_eq_true_eq, not_lt] at hx
      simpa using hx

/-- In a sorted page the ids grow with the position. -/
theorem ids_sorted_get (es : List key) (hs : ids_sorted es) (i j : Nat) (hi : i < es.length)
    (hj : j < es.length) (hij : i < j) : (es.get ⟨i, hi⟩).id < (es.get ⟨j, hj⟩).id := by
  have := List.pairwise_iff_get.mp hs ⟨i, hi⟩ ⟨j, hj⟩ (by simpa using hij)
  exact this

/-- A hit of `search_leaf` is an entry with the id of the probe. -/
theorem search_leaf_hit (p : page) (obj : key) (h : 0 ≤ p.search_leaf obj) :
    ∃ e ∈ p.objects, e.id = obj.id := by
  unfold page.search_leaf at h
  by_cases hl : (!p.is_leaf) = true
  · rw [if_pos hl] at h; omega
  · rw [if_neg hl] at h
    simp only at h
    by_cases hit : lower_bound p.objects obj < p.objects.length
    · rw [dif_pos hit] at h
      by_cases hne : (p.objects.get ⟨lower_bound p.objects obj, hit⟩).ne obj = true
      · rw [if_pos hne] at h; omega
      · refine ⟨p.objects.get ⟨lower_bound p.objects obj, hit⟩, List.get_mem _ _ _, ?_⟩
        simpa [key.ne] using hne
    · rw [dif_neg hit] at h; omega

/-- On a leaf, a hit of `search_node` is an entry with the id of the probe. -/
theorem search_node_leaf_hit (p : page) (obj : key) (hl : p.is_leaf = true)
    (h : 0 ≤ p.search_node obj) : ∃ e ∈ p.objects, e.id = obj.id := by
  unfold page.search_node at h
  split at h
  · omega
  · rw [if_pos hl] at h
    exact search_leaf_hit p obj h

/-- C20: on a non-leaf page whose entries are strictly ascending and which
has at least one entry, `search_node` returns 0 for a key that is not above
the first entry, and otherwise the largest position whose entry is not above
the key. -/
theorem search_node_routes (p : page) (obj front : key) (rest : List key)
    (hleaf : p.is_leaf = false) (hobj : p.objects = front :: rest) (hs : ids_sorted p.objects) :
    (obj.id ≤ front.id → p.search_node obj = 0) ∧
    (front.id < obj.id → ∃ i : Nat, p.search_node obj = (i : Int) ∧
      ∃ h : i < p.objects.length, (p.objects.get ⟨i, h⟩).id ≤ obj.id ∧
        ∀ (j : Nat) (hj : j < p.objects.length), (p.objects.get ⟨j, hj⟩).id ≤ obj.id → j ≤ i) := by
  constructor
  · intro hle
    unfold page.search_node
    rw [hobj]
    simp [hleaf, key.le, hle]
  · intro hlt
    have hnle : ¬ obj.id ≤ front.id := not_le.mpr hlt
    have hsn : p.search_node obj =
        if h : lower_bound p.objects obj < p.objects.length then
          if (p.objects.get ⟨lower_bound p.objects obj, h⟩).eq obj then
            (lower_bound p.objects obj : Int)
          else (lower_bound p.objects obj : Int) - 1
        else (p.objects.length : Int) - 1 := by
      unfold page.search_node
      split
      · rename_i he; rw [hobj] at he; cases he
      · rename_i f r he
        rw [hobj] at he
        injection he with h1 h2
        subst h1
        simp [hleaf, key.le, hnle]
    have hpos : 0 < lower_bound p.objects obj := by
      rw [hobj]
      simp [lower_bound, key.lt, hlt]
    have hlen : 0 < p.objects.length := by rw [hobj]; simp
    by_cases hit : lower_bound p.objects obj < p.objects.length
    · rw [dif_pos hit] at hsn
      have hat := lower_bound_at obj p.objects hit
      by_cases heq : (p.objects.get ⟨lower_bound p.objects obj, hit⟩).eq obj = true
      · rw [if_pos heq] at hsn
        refine ⟨lower_bound p.objects obj, hsn, hit, ?_, ?_⟩
        · have : (p.objects.get ⟨lower_bound p.objects obj, hit⟩).id = obj.id := by
            simpa [key.eq] using heq
          exact le_of_eq this
        · intro j hj hle
          by_contra hgt
          have := ids_sorted_get p.objects hs (lower_bound p.objects obj) j hit hj (by omega)
          exact absurd (lt_of_le_of_lt hat this) (not_lt.mpr hle)
      · rw [if_neg heq] at hsn
        have hne : (p.objects.get ⟨lower_bound p.objects obj, hit⟩).id ≠ obj.id := by
          simpa [key.eq] using heq
        refine ⟨lower_bound p.objects obj - 1, ?_, by omega, ?_, ?_⟩
        · rw [hsn]; omega
        · exact le_of_lt (lower_bound_before obj p.objects _ (by omega) (by omega))
        · intro j hj hle
          by_contra hgt
          have hj2 : lower_bound p.objects obj ≤ j := by omega
          have hgt2 : obj.id < (p.objects.get ⟨lower_bound p.objects obj, hit⟩).id :=
            lt_of_le_of_ne hat (Ne.symm hne)
          rcases Nat.eq_or_lt_of_le hj2 with he | hl
          · subst he
            exact absurd hgt2 (not_lt.mpr hle)
          · have := ids_sorted_get p.objects hs (lower_bound p.objects obj) j hit hj hl
            exact absurd (lt_trans hgt2 this) (not_lt.mpr hle)
    · rw [dif_neg hit] at hsn
      have hle := lower_bound_le_length obj p.objects
      refine ⟨p.objects.length - 1, ?_, by omega, ?_, ?_⟩
      · rw [hsn]; omega
      · exact le_of_lt (lower_bound_before obj p.objects _ (by omega) (by omega))
      · intro j hj _
        omega

/-! ## Removing a key the leaf does not hold -/

theorem new_page_not_leaf : (page.new false).is_leaf = false := by decide

/-- The descent of `remove` follows the descent of `search`: when the search
for `obj` ends at a leaf without an entry with its id, the private `remove`
returns `-ENOENT` and changes nothing. -/
theorem remove_at_absent (obj : key) :
    ∀ (fuel : Nat) (idx : index) (t : transport) (r : remove_recursion) (page_key : eurl)
      (p : page) (pos : Int),
      r.removed = false →
      index.search_at fuel t page_key obj = .ok (p, pos) →
      p.is_leaf = true →
      (∀ e ∈ p.objects, e.id ≠ obj.id) →
      index.remove_at fuel idx t r page_key obj = .ok (- ENOENT, t, idx, r) := by
  intro fuel
  induction fuel with
  | zero => intro idx t r page_key p pos _ hs; simp [index.search_at] at hs
  | succ fuel ih =>
    intro idx t r page_key p pos hr hs hl hno
    unfold index.search_at at hs
    unfold index.remove_at
    cases hread : t.read page_key with
    | error code =>
      rw [hread] at hs
      simp only [Except.ok.injEq, Prod.mk.injEq] at hs
      rw [← hs.1, new_page_not_leaf] at hl
      cases hl
    | ok b =>
      rw [hread] at hs
      simp only at hs ⊢
      cases hload : page.load b with
      | error e => rw [hload] at hs; simp at hs
      | ok p0 =>
        rw [hload] at hs
        simp only at hs ⊢
        by_cases hneg : p0.search_node obj < 0
        · rw [if_pos hneg]
        · rw [if_neg hneg] at hs ⊢
          by_cases hl0 : p0.is_leaf = true
          · rw [if_pos hl0] at hs
            simp only [Except.ok.injEq, Prod.mk.injEq] at hs
            obtain ⟨e, he, hid⟩ := search_node_leaf_hit p0 obj hl0 (by omega)
            rw [hs.1] at he
            exact absurd hid (hno e he)
          · rw [if_neg hl0] at hs
            have hcond : (p0.is_leaf || r.removed) = false := by
              simp [hl0, hr]
            simp only [hcond, Bool.false_eq_true, if_false]
            rw [ih idx t r _ p pos hr hs hl hno]
            simp [ENOENT]

/-- C14: when the descent for a key ends at a leaf that holds no entry with
its id, `remove` returns `-ENOENT`, the transport is left as it was (no page
written, none removed) and so is the meta. -/
theorem remove_absent_changes_nothing (fuel : Nat) (idx : index) (t : transport) (obj : key)
    (p : page) (pos : Int)
    (hs : index.search_at fuel t idx.m_sk obj = .ok (p, pos))
    (hl : p.is_leaf = true)
    (hno : ∀ e ∈ p.objects, e.id ≠ obj.id) :
    index.remove fuel idx t obj = .ok (- ENOENT, t, idx) := by
  unfold index.remove
  rw [remove_at_absent obj fuel idx t default idx.m_sk p pos rfl hs hl hno]
  simp [ENOENT]


/-! ## The generation counter -/

theorem insert_finish_generation (idx : index) (t : transport) (page_key : eurl) (p split : page)
    (out : Int × transport × index × recursion)
    (h : idx.insert_finish t page_key p split = .ok out) :
    out.2.2.1.m_meta.generation_number = idx.m_meta.generation_number := by
  unfold index.insert_finish at h
  split at h
  · exact Except.noConfusion h
  · split at h
    · rw [← Except.ok.inj h]
    · lift_lets at h
      extract_lets g split_key r split1 p1 c s4 s3 idx1 g2 old_root_key c2 n1 n2 s2 s1 s0 c2b at h
      have hg : g.2.m_meta.generation_number = idx.m_meta.generation_number := by
        dsimp only [g, index.generate_page_url]
      have hg1 : idx1.m_meta.generation_number = idx.m_meta.generation_number := by
        dsimp only [idx1, s3, g, index.generate_page_url]
      have hg2 : g2.2.m_meta.generation_number = idx.m_meta.generation_number := by
        dsimp only [g2, idx1, s3, g, index.generate_page_url]
      split at h
      · rw [← Except.ok.inj h]; exact hg
      · split at h
        · split at h
          · rw [← Except.ok.inj h]; exact hg2
          · cases hn : n2.1.objects with
            | nil =>
              simp only [hn] at h
              exact Except.noConfusion h
            | cons root_front tail =>
              simp only [hn] at h
              split at h
              · rw [← Except.ok.inj h]; exact hg2
              · rw [← Except.ok.inj h]
                dsimp only [s0]
                exact hg2
        · rw [← Except.ok.inj h]; exact hg1

theorem insert_first_leaf_generation (idx : index) (t : transport) (r : recursion)
    (page_key : eurl) (p : page) (obj : key) :
    (idx.insert_first_leaf t r page_key p obj).2.2.1.m_meta.generation_number =
      idx.m_meta.generation_number := by
  unfold index.insert_first_leaf
  lift_lets
  extract_lets g leaf_key l c q s p1 c2 s1 s2
  have hg : g.2.m_meta.generation_number = idx.m_meta.generation_number := by
    dsimp only [g, index.generate_page_url]
  split
  · exact hg
  · split
    · exact hg
    · dsimp only [s2]
      exact hg

theorem remove_finish_generation (idx : index) (t : transport) (r : remove_recursion)
    (page_key : eurl) (p : page) (found_pos : Nat) :
    (idx.remove_finish t r page_key p found_pos).2.2.1.m_meta.generation_number =
      idx.m_meta.generation_number := by
  unfold index.remove_finish
  split
  · lift_lets
    extract_lets cleared0 cleared r1 c
    split
    · dsimp only
    · dsimp only
  · lift_lets
    extract_lets cleared0 cleared r1 c m0
    split
    · dsimp only
    · dsimp only

theorem insert_at_generation (obj : key) :
    ∀ (fuel : Nat) (idx : index) (t : transport) (r : recursion) (page_key : eurl)
      (out : Int × transport × index × recursion),
      index.insert_at fuel idx t r page_key obj = .ok out →
      out.2.2.1.m_meta.generation_number = idx.m_meta.generation_number := by
  intro fuel
  induction fuel with
  | zero => intro idx t r page_key out h; simp [index.insert_at] at h
  | succ fuel ih =>
    intro idx t r page_key out h
    unfold index.insert_at at h
    cases hread : t.read page_key with
    | error code =>
      rw [hread] at h
      simp only [Except.ok.injEq] at h
      subst h; rfl
    | ok b =>
      rw [hread] at h
      simp only at h
      cases hload : page.load b with
      | error e => rw [hload] at h; simp at h
      | ok p =>
        rw [hload] at h
        simp only at h
        by_cases hl : (!p.is_leaf) = true
        · rw [if_pos hl] at h
          by_cases hneg : p.search_node obj < 0
          · rw [if_pos hneg] at h
            simp only [Except.ok.injEq] at h
            subst h
            exact insert_first_leaf_generation idx t r page_key p obj
          · rw [if_neg hneg] at h
            cases hrec : index.insert_at fuel idx t r
                (p.objects.getD (p.search_node obj).toNat default).url obj with
            | error e => rw [hrec] at h; simp at h
            | ok o =>
              obtain ⟨c1, t1, idx1, r1⟩ := o
              rw [hrec] at h
              simp only at h
              have h1 := ih idx t r _ _ hrec
              simp only at h1
              split at h
              · simp only [Except.ok.injEq] at h
                subst h
                exact h1
              · rw [insert_finish_generation _ _ _ _ _ _ h, h1]
        · rw [if_neg hl] at h
          exact insert_finish_generation _ _ _ _ _ _ h

theorem remove_at_generation (obj : key) :
    ∀ (fuel : Nat) (idx : index) (t : transport) (r : remove_recursion) (page_key : eurl)
      (out : Int × transport × index × remove_recursion),
      index.remove_at fuel idx t r page_key obj = .ok out →
      out.2.2.1.m_meta.generation_number = idx.m_meta.generation_number := by
  intro fuel
  induction fuel with
  | zero => intro idx t r page_key out h; simp [index.remove_at] at h
  | succ fuel ih =>
    intro idx t r page_key out h
    unfold index.remove_at at h
    cases hread : t.read page_key with
    | error code =>
      rw [hread] at h
      simp only [Except.ok.injEq] at h
      subst h; rfl
    | ok b =>
      rw [hread] at h
      simp only at h
      cases hload : page.load b with
      | error e => rw [hload] at h; simp at h
      | ok p =>
        rw [hload] at h
        simp only at h
        by_cases hneg : p.search_node obj < 0
        · rw [if_pos hneg] at h
          simp only [Except.ok.injEq] at h
          subst h; rfl
        · rw [if_neg hneg] at h
          by_cases hc : (p.is_leaf || r.removed) = true
          · rw [if_pos hc] at h
            simp only [Except.ok.injEq] at h
            subst h
            exact remove_finish_generation _ _ _ _ _ _
          · rw [if_neg hc] at h
            cases hrec : index.remove_at fuel idx t r
                (p.objects.getD (p.search_node obj).toNat default).url obj with
            | error e => rw [hrec] at h; simp at h
            | ok o =>
              obtain ⟨c1, t1, idx1, r1⟩ := o
              rw [hrec] at h
              simp only at h
              have h1 := ih idx t r _ _ hrec
              simp only at h1
              split at h
              · simp only [Except.ok.injEq] at h
                subst h; exact h1
              · split at h
                · simp only [Except.ok.injEq] at h
                  subst h; exact h1
                · simp only [Except.ok.injEq] at h
                  subst h
                  rw [remove_finish_generation, h1]

/-- What a public `insert` does to the generation: a call that returns 0
adds one, a call that returns a negative code adds nothing, and no call
returns anything else. -/
theorem insert_generation (fuel : Nat) (idx : index) (t : transport) (obj : key)
    (r : Int × transport × index) (h : index.insert fuel idx t obj = .ok r) :
    (r.1 = 0 ∧ r.2.2.m_meta.generation_number = idx.m_meta.generation_number + 1) ∨
      (r.1 < 0 ∧ r.2.2.m_meta.generation_number = idx.m_meta.generation_number) := by
  unfold index.insert at h
  cases hrec : index.insert_at fuel idx t default idx.m_sk obj with
  | error e => rw [hrec] at h; simp at h
  | ok o =>
    obtain ⟨c1, t1, idx1, r1⟩ := o
    rw [hrec] at h
    simp only at h
    have h1 := insert_at_generation obj fuel idx t default idx.m_sk _ hrec
    simp only at h1
    split at h
    · rename_i hneg
      simp only [Except.ok.injEq] at h
      subst h
      exact Or.inr ⟨hneg, h1⟩
    · simp only [Except.ok.injEq] at h
      subst h
      exact Or.inl ⟨rfl, by simp [h1]⟩

/-- The same for a public `remove`. -/
theorem remove_generation (fuel : Nat) (idx : index) (t : transport) (obj : key)
    (r : Int × transport × index) (h : index.remove fuel idx t obj = .ok r) :
    (r.1 = 0 ∧ r.2.2.m_meta.generation_number = idx.m_meta.generation_number + 1) ∨
      (r.1 < 0 ∧ r.2.2.m_meta.generation_number = idx.m_meta.generation_number) := by
  unfold index.remove at h
  cases hrec : index.remove_at fuel idx t default idx.m_sk obj with
  | error e => rw [hrec] at h; simp at h
  | ok o =>
    obtain ⟨c1, t1, idx1, r1⟩ := o
    rw [hrec] at h
    simp only at h
    have h1 := remove_at_generation obj fuel idx t default idx.m_sk _ hrec
    simp only at h1
    split at h
    · rename_i hneg
      simp only [Except.ok.injEq] at h
      subst h
      exact Or.inr ⟨hneg, h1⟩
    · simp only [Except.ok.injEq] at h
      subst h
      exact Or.inl ⟨rfl, by simp [h1]⟩

/-! ## Writing to groups, and opening an index -/

theorem write_to_down (u : eurl) (b : blob) :
    ∀ (gs : List Int) (t : transport), (t.write_to gs u b).1.down = t.down := by
  intro gs
  induction gs with
  | nil => intro t; rfl
  | cons g gs ih =>
    intro t
    unfold transport.write_to
    by_cases hd : g ∈ t.down
    · simp only [hd, if_true]; exact ih t
    · simp only [hd, if_false]; rw [ih]

theorem write_to_groups (u : eurl) (b : blob) :
    ∀ (gs : List Int) (t : transport), (t.write_to gs u b).1.groups = t.groups := by
  intro gs
  induction gs with
  | nil => intro t; rfl
  | cons g gs ih =>
    intro t
    unfold transport.write_to
    by_cases hd : g ∈ t.down
    · simp only [hd, if_true]; exact ih t
    · simp only [hd, if_false]; rw [ih]

/-- What a group holds after a write to the groups `gs`. -/
theorem lookup_write_to (u : eurl) (b : blob) :
    ∀ (gs : List Int) (t : transport) (g : Int) (v : eurl),
      (t.write_to gs u b).1.lookup g v =
        if g ∈ gs ∧ g ∉ t.down ∧ v = u then some b else t.lookup g v := by
  intro gs
  induction gs with
  | nil => intro t g v; simp [transport.write_to]
  | cons g0 gs ih =>
    intro t g v
    unfold transport.write_to
    by_cases hd : g0 ∈ t.down
    · simp only [hd, if_true]
      rw [ih]
      by_cases hg : g = g0
      · subst hg; simp [hd]
      · simp [hg]
    · simp only [hd, if_false]
      rw [ih]
      simp only [transport.lookup]
      by_cases hg : g = g0
      · subst hg
        by_cases hv : v = u
        · subst hv; simp [hd, List.lookup]
        · have hne : ((g, v) == (g, u)) = false := by simp [hv]
          simp [hv, List.lookup, hne]
      · have hne : ((g, v) == (g0, u)) = false := by simp [hg]
        simp [hg, List.lookup, hne]

/-- The replies to a write list the groups that are up with code 0. -/
theorem write_to_replies (u : eurl) (b : blob) :
    ∀ (gs : List Int) (t : transport),
      (((t.write_to gs u b).2.filter fun r => decide (r.2 = 0)).map Prod.fst) =
        gs.filter fun g => decide (g ∉ t.down) := by
  intro gs
  induction gs with
  | nil => intro t; rfl
  | cons g gs ih =>
    intro t
    unfold transport.write_to
    by_cases hd : g ∈ t.down
    · simp only [hd, if_true]
      have := ih t
      simp [hd, NO_GROUP, this]
    · simp only [hd, if_false]
      have := ih { t with blobs := ((g, u), b) :: t.blobs }
      simp only at this
      simp [hd, this]

/-- The metas the constructor collects when no group that answers holds one. -/
theorem collect_meta_nothing (t : transport) (u : eurl) :
    ∀ gs : List Int, (∀ g ∈ gs, g ∉ t.down → t.lookup g u = none) →
      index.collect_meta (gs.map fun g =>
          (g, if g ∈ t.down then (.error NO_GROUP : Except Int blob)
              else match t.lookup g u with
                | some b => .ok b
                | none => .error (-ENOENT))) =
        .ok ((gs.filter fun g => decide (g ∉ t.down)).map fun g => (g, default)) := by
  intro gs
  induction gs with
  | nil => intro _; rfl
  | cons g gs ih =>
    intro h
    have ih1 := ih (fun g1 hg1 => h g1 (List.mem_cons_of_mem _ hg1))
    by_cases hd : g ∈ t.down
    · simp only [List.map_cons, hd, if_true, index.collect_meta]
      rw [ih1]
      simp [hd]
    · have hn := h g (List.mem_cons_self _ _) hd
      simp only [List.map_cons, hd, if_false, hn, index.collect_meta]
      rw [ih1]
      simp [hd, NO_GROUP, ENOENT]

theorem highest_generation_default :
    ∀ l : List (Int × index_meta), (∀ e ∈ l, e.2 = default) →
      index.highest_generation l 0 default = (0, default) := by
  intro l
  induction l with
  | nil => intro _; rfl
  | cons e l ih =>
    intro h
    obtain ⟨g, m⟩ := e
    have hm : m = default := h (g, m) (List.mem_cons_self _ _)
    subst hm
    unfold index.highest_generation
    have : (default : index_meta).generation_number ≥ 0 := Nat.zero_le _
    simp only [this, if_true]
    exact ih (fun e he => h e (List.mem_cons_of_mem _ he))

/-- Opening an index on storage where no group that answers holds its meta:
the constructor returns, the meta is `fresh_meta`, the active groups are the
ones that answer, and each of them holds the empty non-leaf page at the start
key and the meta at the meta key. -/
theorem ctor_without_meta (fuel : Nat) (t : transport) (sk : eurl)
    (h : t.holds_nothing (index.meta_key ⟨sk, default⟩)) :
    ∃ t1 : transport, index.ctor fuel t sk = .ok (t1, ⟨sk, fresh_meta⟩) ∧
      t1.down = t.down ∧
      (∀ g ∈ t.groups, g ∉ t.down →
        t1.lookup g sk = some (blob.page (page.new false)) ∧
        t1.lookup g (index.meta_key ⟨sk, default⟩) = some (blob.meta fresh_meta)) := by
  have hmk : sk ≠ index.meta_key ⟨sk, default⟩ := by
    intro he
    have := congrArg eurl.key he
    simp [index.meta_key, ascii] at this
  unfold index.ctor
  simp only [transport.read_all]
  rw [collect_meta_nothing t _ t.groups h]
  cases hup : (t.groups.filter fun g => decide (g ∉ t.down)) with
  | nil =>
    refine ⟨_, rfl, ?_, ?_⟩
    · simp [index.meta_write, index.start_page_init, transport.write, write_to_down]
    · intro g hg hd
      have : g ∈ (t.groups.filter fun g => decide (g ∉ t.down)) := by
        simp [List.mem_filter, hg, hd]
      rw [hup] at this
      cases this
  | cons g0 gs =>
    simp only [List.map_cons]
    have hh : index.highest_generation
        ((g0, (default : index_meta)) :: gs.map fun g => (g, default)) 0 default = (0, default) :=
      highest_generation_default _ (by
        intro e he
        simp only [List.mem_cons, List.mem_map] at he
        rcases he with he | ⟨g, _, he⟩
        · rw [he]
        · rw [← he])
    simp only [hh, if_true]
    have hgood : (List.map Prod.fst
        (List.filter (fun e : Int × index_meta => decide (e.2.generation_number = 0))
          ((g0, (default : index_meta)) :: List.map (fun g => (g, default)) gs))) = g0 :: gs := by
      have : ∀ l : List Int, List.map Prod.fst
          (List.filter (fun e : Int × index_meta => decide (e.2.generation_number = 0))
            (List.map (fun g => (g, (default : index_meta))) l)) = l := by
        intro l
        induction l with
        | nil => rfl
        | cons a l ih =>
          simp only [List.map_cons, List.filter]
          have : decide ((default : index_meta).generation_number = 0) = true := by decide
          simp only [this, List.map_cons, ih]
      exact this (g0 :: gs)
    refine ⟨_, rfl, ?_, ?_⟩
    · simp [index.meta_write, index.start_page_init, transport.write, write_to_down,
        transport.set_groups]
    · intro g hg hd
      have hmem : g ∈ g0 :: gs := by
        rw [← hup]; simp [List.mem_filter, hg, hd]
      simp only [index.meta_write, index.start_page_init, transport.write, write_to_groups,
        transport.set_groups, lookup_write_to, write_to_down, hgood, page.save, index.meta_key]
      simp only [index.meta_key] at hmk
      simp [hmem, hd, hmk, fresh_meta]
      decide

/-- C11, as amended: opening an index on storage in which no group that
answers holds its meta returns, leaves the meta equal to {0, 1, 0, 0}, and
every such group then holds at the start key an empty page whose LEAF flag is
not set. -/
theorem open_writes_empty_nonleaf_start_page (fuel : Nat) (t : transport) (sk : eurl)
    (h : t.holds_nothing (index.meta_key ⟨sk, default⟩)) :
    ∃ t1 : transport, index.ctor fuel t sk = .ok (t1, ⟨sk, ⟨0, 1, 0, 0⟩⟩) ∧
      ∀ g ∈ t.groups, g ∉ t.down →
        ∃ p : page, t1.lookup g sk = some (blob.page p) ∧ p.objects = [] ∧
          p.is_leaf = false := by
  obtain ⟨t1, h1, _, h3⟩ := ctor_without_meta fuel t sk h
  exact ⟨t1, h1, fun g hg hd => ⟨page.new false, (h3 g hg hd).1, rfl, new_page_not_leaf⟩⟩

theorem run_ops_generation (fuel : Nat) :
    ∀ (ops : List op) (idx : index) (t : transport) (out : List Int × index × transport),
      run_ops fuel ops idx t = .ok out →
      (∀ c ∈ out.1, c = 0 ∨ c < 0) ∧
      out.2.1.m_meta.generation_number =
        idx.m_meta.generation_number + count_ok op.is_insert ops out.1 +
          count_ok op.is_remove ops out.1 := by
  intro ops
  induction ops with
  | nil =>
    intro idx t out h
    simp only [run_ops, Except.ok.injEq] at h
    subst h
    simp [count_ok]
  | cons o ops ih =>
    intro idx t out h
    cases o with
    | insert k =>
      unfold run_ops at h
      cases h1 : index.insert fuel idx t k with
      | error e => rw [h1] at h; simp at h
      | ok r =>
        rw [h1] at h
        simp only at h
        cases h2 : run_ops fuel ops r.2.2 r.2.1 with
        | error e => rw [h2] at h; simp at h
        | ok q =>
          rw [h2] at h
          simp only [Except.ok.injEq] at h
          subst h
          obtain ⟨hc, hg⟩ := ih _ _ _ h2
          have hi := insert_generation fuel idx t k r h1
          constructor
          · intro c hcm
            simp only [List.mem_cons] at hcm
            rcases hcm with hcm | hcm
            · subst hcm
              rcases hi with ⟨h0, _⟩ | ⟨h0, _⟩
              · exact Or.inl h0
              · exact Or.inr h0
            · exact hc c hcm
          · simp only [count_ok, op.is_insert, op.is_remove, Bool.true_and, Bool.false_and]
            rw [hg]
            rcases hi with ⟨h0, hi⟩ | ⟨h0, hi⟩
            · rw [hi]; simp [h0]; omega
            · rw [hi]
              have : r.1 ≠ 0 := by omega
              simp [this]
    | remove k =>
      unfold run_ops at h
      cases h1 : index.remove fuel idx t k with
      | error e => rw [h1] at h; simp at h
      | ok r =>
        rw [h1] at h
        simp only at h
        cases h2 : run_ops fuel ops r.2.2 r.2.1 with
        | error e => rw [h2] at h; simp at h
        | ok q =>
          rw [h2] at h
          simp only [Except.ok.injEq] at h
          subst h
          obtain ⟨hc, hg⟩ := ih _ _ _ h2
          have hi := remove_generation fuel idx t k r h1
          constructor
          · intro c hcm
            simp only [List.mem_cons] at hcm
            rcases hcm with hcm | hcm
            · subst hcm
              rcases hi with ⟨h0, _⟩ | ⟨h0, _⟩
              · exact Or.inl h0
              · exact Or.inr h0
            · exact hc c hcm
          · simp only [count_ok, op.is_insert, op.is_remove, Bool.true_and, Bool.false_and]
            rw [hg]
            rcases hi with ⟨h0, hi⟩ | ⟨h0, hi⟩
            · rw [hi]; simp [h0]; omega
            · rw [hi]
              have : r.1 ≠ 0 := by omega
              simp [this]

/-- C12: over any run of public calls every code is 0 or negative, and the
generation grows by the number of inserts that returned 0 plus the number of
removes that returned 0 (so by one for a call that returns 0 and by nothing
for a call that returns a negative code); on an index opened on storage
without a meta the generation is that sum. -/
theorem generation_counts_successful_calls (fuel : Nat) (idx : index) (t : transport)
    (ops : List op) (codes : List Int) (idx1 : index) (t1 : transport)
    (h : run_ops fuel ops idx t = .ok (codes, idx1, t1)) :
    (∀ c ∈ codes, c = 0 ∨ c < 0) ∧
    idx1.m_meta.generation_number =
      idx.m_meta.generation_number + count_ok op.is_insert ops codes +
        count_ok op.is_remove ops codes ∧
    ∀ (fuel0 : Nat) (t0 : transport), t0.holds_nothing idx.meta_key →
      index.ctor fuel0 t0 idx.m_sk = .ok (t, idx) →
      idx1.m_meta.generation_number =
        count_ok op.is_insert ops codes + count_ok op.is_remove ops codes := by
  obtain ⟨hc, hg⟩ := run_ops_generation fuel ops idx t _ h
  refine ⟨hc, hg, ?_⟩
  intro fuel0 t0 hn ho
  obtain ⟨t2, h2, _⟩ := ctor_without_meta fuel0 t0 idx.m_sk hn
  rw [h2] at ho
  simp only [Except.ok.injEq, Prod.mk.injEq] at ho
  simp only at hg
  rw [hg, ← ho.2]
  simp [fresh_meta]

/-- The running maximum never falls. -/
theorem highest_ge :
    ∀ (l : List (Int × index_meta)) (h0 : Nat) (m0 : index_meta),
      h0 ≤ (index.highest_generation l h0 m0).1 := by
  intro l
  induction l with
  | nil => intro h0 m0; exact le_refl _
  | cons e l ih =>
    intro h0 m0
    obtain ⟨g, m1⟩ := e
    unfold index.highest_generation
    by_cases hge : m1.generation_number ≥ h0
    · simp only [hge, if_true]
      exact le_trans hge (ih _ _)
    · simp only [hge, if_false]
      exact ih _ _

/-! ## Opening an index twice -/

/-- What the constructor collects: every collected meta comes from a group
that answers, and is the meta that group holds or the default one. -/
theorem collect_meta_mem (t : transport) (u : eurl) :
    ∀ (gs : List Int) (mg : List (Int × index_meta)),
      index.collect_meta (gs.map fun g =>
          (g, if g ∈ t.down then (.error NO_GROUP : Except Int blob)
              else match t.lookup g u with
                | some b => .ok b
                | none => .error (-ENOENT))) = .ok mg →
      ∀ e ∈ mg, e.1 ∈ gs ∧ e.1 ∉ t.down ∧
        (t.lookup e.1 u = some (blob.meta e.2) ∨ e.2 = default) := by
  intro gs
  induction gs with
  | nil =>
    intro mg h e he
    simp only [List.map_nil, index.collect_meta, Except.ok.injEq] at h
    subst h; cases he
  | cons g gs ih =>
    intro mg h e he
    by_cases hd : g ∈ t.down
    · simp only [List.map_cons, hd, if_true, index.collect_meta] at h
      obtain ⟨h1, h2, h3⟩ := ih mg h e he
      exact ⟨List.mem_cons_of_mem _ h1, h2, h3⟩
    · simp only [List.map_cons, hd, if_false] at h
      cases hl : t.lookup g u with
      | none =>
        rw [hl] at h
        simp only [index.collect_meta] at h
        have hne : ¬ (-ENOENT = NO_GROUP) := by decide
        simp only [hne, if_false] at h
        split at h
        · cases h
        · rename_i mg1 h1
          simp only [Except.ok.injEq] at h
          subst h
          simp only [List.mem_cons] at he
          rcases he with he | he
          · subst he
            exact ⟨List.mem_cons_self _ _, hd, Or.inr rfl⟩
          · obtain ⟨h2, h3, h4⟩ := ih mg1 h1 e he
            exact ⟨List.mem_cons_of_mem _ h2, h3, h4⟩
      | some b =>
        rw [hl] at h
        simp only [index.collect_meta] at h
        cases b with
        | page p => simp [index_meta.load] at h
        | meta m =>
          simp only [index_meta.load] at h
          split at h
          · cases h
          · rename_i mg1 h1
            simp only [Except.ok.injEq] at h
            subst h
            simp only [List.mem_cons] at he
            rcases he with he | he
            · subst he
              exact ⟨List.mem_cons_self _ _, hd, Or.inl hl⟩
            · obtain ⟨h2, h3, h4⟩ := ih mg1 h1 e he
              exact ⟨List.mem_cons_of_mem _ h2, h3, h4⟩

/-- When every group that answers holds a meta of generation `G`, the
constructor collects metas of generation `G` only, and collects nothing only
when no group answers. -/
theorem collect_meta_all (t : transport) (u : eurl) (G : Nat) :
    ∀ gs : List Int,
      (∀ g ∈ gs, g ∉ t.down →
        ∃ m : index_meta, t.lookup g u = some (blob.meta m) ∧ m.generation_number = G) →
      ∃ mg, index.collect_meta (gs.map fun g =>
          (g, if g ∈ t.down then (.error NO_GROUP : Except Int blob)
              else match t.lookup g u with
                | some b => .ok b
                | none => .error (-ENOENT))) = .ok mg ∧
        (∀ e ∈ mg, e.2.generation_number = G) ∧ (mg = [] → ∀ g ∈ gs, g ∈ t.down) := by
  intro gs
  induction gs with
  | nil =>
    intro _
    refine ⟨[], rfl, ?_, ?_⟩
    · intro e he
      exact absurd he (List.not_mem_nil _)
    · intro _ g hg
      exact absurd hg (List.not_mem_nil _)
  | cons g gs ih =>
    intro h
    obtain ⟨mg, h1, h2, h3⟩ := ih (fun g1 hg1 => h g1 (List.mem_cons_of_mem _ hg1))
    by_cases hd : g ∈ t.down
    · refine ⟨mg, ?_, h2, ?_⟩
      · simp only [List.map_cons, hd, if_true, index.collect_meta]
        exact h1
      · intro he g1 hg1
        simp only [List.mem_cons] at hg1
        rcases hg1 with hg1 | hg1
        · subst hg1; exact hd
        · exact h3 he g1 hg1
    · obtain ⟨m, hm, hgen⟩ := h g (List.mem_cons_self _ _) hd
      refine ⟨(g, m) :: mg, ?_, ?_, ?_⟩
      · simp only [List.map_cons, hd, if_false, hm, index.collect_meta, index_meta.load]
        rw [h1]
      · intro e he
        simp only [List.mem_cons] at he
        rcases he with he | he
        · subst he; exact hgen
        · exact h2 e he
      · intro he; cases he

/-- The meta adopted with the highest generation carries that generation,
no collected meta has a higher one, and it is the initial one or a collected one. -/
theorem highest_generation_spec :
    ∀ (l : List (Int × index_meta)) (h0 : Nat) (m0 : index_meta),
      m0.generation_number = h0 →
      (index.highest_generation l h0 m0).2.generation_number =
          (index.highest_generation l h0 m0).1 ∧
        (∀ e ∈ l, e.2.generation_number ≤ (index.highest_generation l h0 m0).1) ∧
        (index.highest_generation l h0 m0 = (h0, m0) ∨
          ∃ e ∈ l, e.2 = (index.highest_generation l h0 m0).2) := by
  intro l
  induction l with
  | nil =>
    intro h0 m0 hm
    refine ⟨hm, ?_, Or.inl rfl⟩
    intro e he
    exact absurd he (List.not_mem_nil _)
  | cons e l ih =>
    intro h0 m0 hm
    obtain ⟨g, m1⟩ := e
    unfold index.highest_generation
    by_cases hge : m1.generation_number ≥ h0
    · simp only [hge, if_true]
      obtain ⟨a, b, c⟩ := ih m1.generation_number m1 rfl
      refine ⟨a, ?_, ?_⟩
      · intro e he
        simp only [List.mem_cons] at he
        rcases he with he | he
        · subst he
          exact highest_ge l m1.generation_number m1
        · exact b e he
      · rcases c with c | ⟨e1, he1, c⟩
        · exact Or.inr ⟨(g, m1), List.mem_cons_self _ _, by rw [c]⟩
        · exact Or.inr ⟨e1, List.mem_cons_of_mem _ he1, c⟩
    · simp only [hge, if_false]
      obtain ⟨a, b, c⟩ := ih h0 m0 hm
      refine ⟨a, ?_, ?_⟩
      · intro e he
        simp only [List.mem_cons] at he
        rcases he with he | he
        · subst he
          have hx := highest_ge l h0 m0
          simp only at hx ⊢
          omega
        · exact b e he
      · rcases c with c | ⟨e1, he1, c⟩
        · exact Or.inl c
        · exact Or.inr ⟨e1, List.mem_cons_of_mem _ he1, c⟩

theorem meta_write_groups (idx : index) (t : transport) :
    (idx.meta_write t).groups = t.groups := by
  unfold index.meta_write transport.write
  exact write_to_groups _ _ _ _

theorem meta_write_down (idx : index) (t : transport) : (idx.meta_write t).down = t.down := by
  unfold index.meta_write transport.write
  exact write_to_down _ _ _ _

/-- After `meta_write` every active group that answers holds the meta. -/
theorem lookup_meta_write (idx : index) (t : transport) (g : Int) (hg : g ∈ t.groups)
    (hd : g ∉ t.down) : (idx.meta_write t).lookup g idx.meta_key = some (blob.meta idx.m_meta) := by
  unfold index.meta_write transport.write
  rw [lookup_write_to, if_pos ⟨hg, hd, rfl⟩]

theorem start_page_init_groups (idx : index) (t : transport) :
    (idx.start_page_init t).1.groups = t.groups := by
  unfold index.start_page_init transport.write
  exact write_to_groups _ _ _ _

theorem start_page_init_down (idx : index) (t : transport) :
    (idx.start_page_init t).1.down = t.down := by
  unfold index.start_page_init transport.write
  exact write_to_down _ _ _ _

theorem start_page_init_generation (idx : index) (t : transport) :
    (idx.start_page_init t).2.m_meta.generation_number = idx.m_meta.generation_number := rfl

theorem start_page_init_sk (idx : index) (t : transport) :
    (idx.start_page_init t).2.m_sk = idx.m_sk := rfl

theorem recover_loop_down :
    ∀ (fuel : Nat) (t : transport) (it : page_iterator) (rg : List Int)
      (r : transport × List Int),
      index.recover_loop fuel t it rg = .ok r → r.1.down = t.down := by
  intro fuel
  induction fuel with
  | zero => intro t it rg r h; simp [index.recover_loop] at h
  | succ fuel ih =>
    intro t it rg r h
    unfold index.recover_loop at h
    split at h
    · dsimp only at h
      split at h
      · simp only [Except.ok.injEq] at h
        subst h
        exact write_to_down _ _ _ _
      · split at h
        · cases h
        · rename_i it1 _
          rw [ih _ _ _ _ h]
          exact write_to_down _ _ _ _
    · simp only [Except.ok.injEq] at h
      subst h; rfl

/-- What the constructor leaves: every active group that answers holds a
meta with the adopted generation; when that generation is not 0 such a group
exists, and some group held a meta with it before the call. -/
theorem ctor_leaves_generation (fuel : Nat) (t : transport) (sk : eurl) (t1 : transport)
    (idx : index) (h : index.ctor fuel t sk = .ok (t1, idx)) :
    (∀ g ∈ t1.groups, g ∉ t1.down →
      ∃ m : index_meta, t1.lookup g (index.meta_key ⟨sk, default⟩) = some (blob.meta m) ∧
        m.generation_number = idx.m_meta.generation_number) ∧
    (idx.m_meta.generation_number ≠ 0 →
      (∃ g ∈ t1.groups, g ∉ t1.down) ∧
      ∃ g ∈ t.groups, ∃ m : index_meta,
        t.lookup g (index.meta_key ⟨sk, default⟩) = some (blob.meta m) ∧
          m.generation_number = idx.m_meta.generation_number) := by
  unfold index.ctor at h
  simp only [transport.read_all] at h
  cases hc : index.collect_meta (t.groups.map fun g =>
          (g, if g ∈ t.down then (.error NO_GROUP : Except Int blob)
              else match t.lookup g (index.meta_key ⟨sk, default⟩) with
                | some b => .ok b
                | none => .error (-ENOENT))) with
  | error e => rw [hc] at h; exact Except.noConfusion h
  | ok mg =>
    rw [hc] at h
    have hmem := collect_meta_mem t _ t.groups mg hc
    cases mg with
    | nil =>
      simp only [Except.ok.injEq, Prod.mk.injEq] at h
      obtain ⟨ht, hi⟩ := h
      subst ht
      subst hi
      constructor
      · intro g hg hd
        rw [meta_write_groups, start_page_init_groups] at hg
        rw [meta_write_down, start_page_init_down] at hd
        exact ⟨_, lookup_meta_write _ _ g (by rw [start_page_init_groups]; exact hg)
          (by rw [start_page_init_down]; exact hd), rfl⟩
      · intro hne
        exact absurd rfl hne
    | cons m0 ms =>
      simp only at h
      obtain ⟨hs1, hs2, hs3⟩ := highest_generation_spec (m0 :: ms) 0 default rfl
      generalize hh : index.highest_generation (m0 :: ms) 0 default = hg at h hs1 hs2 hs3
      obtain ⟨G, mh⟩ := hg
      simp only at h hs1 hs2 hs3
      by_cases h0 : G = 0
      · rw [if_pos h0] at h
        simp only [Except.ok.injEq, Prod.mk.injEq] at h
        obtain ⟨ht, hi⟩ := h
        subst ht
        subst hi
        constructor
        · intro g hg hd
          rw [meta_write_groups, start_page_init_groups] at hg
          rw [meta_write_down, start_page_init_down] at hd
          exact ⟨_, lookup_meta_write _ _ g (by rw [start_page_init_groups]; exact hg)
            (by rw [start_page_init_down]; exact hd), rfl⟩
        · intro hne
          rw [start_page_init_generation] at hne
          exact absurd (hs1.trans h0) hne
      · rw [if_neg h0] at h
        have hstored : ∃ g ∈ t.groups, g ∉ t.down ∧
            t.lookup g (index.meta_key ⟨sk, default⟩) = some (blob.meta mh) := by
          rcases hs3 with hs3 | ⟨e, he, hs3⟩
          · simp only [Prod.mk.injEq] at hs3
            exact absurd hs3.1 h0
          · obtain ⟨a, b, c⟩ := hmem e he
            rcases c with c | c
            · exact ⟨e.1, a, b, by rw [c, hs3]⟩
            · rw [c] at hs3
              rw [← hs3] at hs1
              exact absurd hs1.symm h0
        have hgood : ∀ g ∈ (List.map Prod.fst (List.filter
            (fun e : Int × index_meta => decide (e.2.generation_number = G)) (m0 :: ms))),
            g ∈ t.groups ∧ g ∉ t.down ∧ ∃ m : index_meta,
              t.lookup g (index.meta_key ⟨sk, default⟩) = some (blob.meta m) ∧
                m.generation_number = G := by
          intro g hg
          simp only [List.mem_map, List.mem_filter, decide_eq_true_eq] at hg
          obtain ⟨e, ⟨he, hgen⟩, rfl⟩ := hg
          obtain ⟨a, b, c⟩ := hmem e he
          refine ⟨a, b, ?_⟩
          rcases c with c | c
          · exact ⟨e.2, c, hgen⟩
          · rw [c] at hgen
            exact absurd hgen.symm h0
        have hgoodne : ∃ g, g ∈ (List.map Prod.fst (List.filter
            (fun e : Int × index_meta => decide (e.2.generation_number = G)) (m0 :: ms))) ∧
            g ∉ t.down := by
          rcases hs3 with hs3 | ⟨e, he, hs3⟩
          · simp only [Prod.mk.injEq] at hs3
            exact absurd hs3.1 h0
          · refine ⟨e.1, ?_, (hmem e he).2.1⟩
            simp only [List.mem_map, List.mem_filter, decide_eq_true_eq]
            exact ⟨e, ⟨he, by rw [hs3, hs1]⟩, rfl⟩
        split at h
        · simp only [Except.ok.injEq, Prod.mk.injEq] at h
          obtain ⟨ht, hi⟩ := h
          subst ht
          subst hi
          constructor
          · intro g hg hd
            obtain ⟨_, _, m, hm, hgen⟩ := hgood g hg
            exact ⟨m, hm, hgen.trans hs1.symm⟩
          · intro _
            refine ⟨?_, ?_⟩
            · obtain ⟨g, hg, hd⟩ := hgoodne
              exact ⟨g, hg, hd⟩
            · obtain ⟨g, hg, _, hl⟩ := hstored
              exact ⟨g, hg, mh, hl, rfl⟩
        · split at h
          · exact Except.noConfusion h
          · rename_i it hit
            split at h
            · exact Except.noConfusion h
            · rename_i r hr
              simp only [Except.ok.injEq, Prod.mk.injEq] at h
              obtain ⟨ht, hi⟩ := h
              subst ht
              subst hi
              have hdown : r.1.down = t.down := by
                rw [recover_loop_down _ _ _ _ _ hr]; rfl
              constructor
              · intro g hg hd
                rw [meta_write_groups] at hg
                rw [meta_write_down] at hd
                exact ⟨_, lookup_meta_write _ _ g hg hd, rfl⟩
              · intro _
                refine ⟨?_, ?_⟩
                · obtain ⟨g, hg, hd⟩ := hgoodne
                  refine ⟨g, ?_, ?_⟩
                  · rw [meta_write_groups]
                    exact List.mem_append_left _ hg
                  · rw [meta_write_down]
                    show g ∉ r.1.down
                    rw [hdown]; exact hd
                · obtain ⟨g, hg, _, hl⟩ := hstored
                  exact ⟨g, hg, mh, hl, rfl⟩

/-- C19: opening an index again right after it was opened returns, and the
meta the second open adopts has the generation of the meta after the first
open; the generation after an open is 0 or the generation of a meta that a
group held before it, so the constructor does not raise it. -/
theorem reopen_keeps_generation (fuel fuel2 : Nat) (t : transport) (sk : eurl) (t1 : transport)
    (idx : index) (h : index.ctor fuel t sk = .ok (t1, idx)) :
    (∃ t2 idx2, index.ctor fuel2 t1 sk = .ok (t2, idx2) ∧
      idx2.m_meta.generation_number = idx.m_meta.generation_number) ∧
    (idx.m_meta.generation_number = 0 ∨
      ∃ g ∈ t.groups, ∃ m : index_meta,
        t.lookup g (index.meta_key ⟨sk, default⟩) = some (blob.meta m) ∧
          m.generation_number = idx.m_meta.generation_number) := by
  obtain ⟨ha, hb⟩ := ctor_leaves_generation fuel t sk t1 idx h
  constructor
  · obtain ⟨mg, hc, hall, hnil⟩ := collect_meta_all t1 (index.meta_key ⟨sk, default⟩)
      idx.m_meta.generation_number t1.groups ha
    unfold index.ctor
    simp only [transport.read_all]
    rw [hc]
    cases mg with
    | nil =>
      refine ⟨_, _, rfl, ?_⟩
      rw [start_page_init_generation]
      by_contra hne
      obtain ⟨⟨g, hg, hd⟩, _⟩ := hb (fun h0 => hne h0.symm)
      exact hd (hnil rfl g hg)
    | cons m0 ms =>
      simp only
      obtain ⟨hs1, hs2, hs3⟩ := highest_generation_spec (m0 :: ms) 0 default rfl
      generalize hh : index.highest_generation (m0 :: ms) 0 default = hg at hs1 hs2 hs3 ⊢
      obtain ⟨G, mh⟩ := hg
      simp only at hs1 hs2 hs3
      have hG : G = idx.m_meta.generation_number := by
        rcases hs3 with hs3 | ⟨e, he, hs3⟩
        · simp only [Prod.mk.injEq] at hs3
          have := hs2 m0 (List.mem_cons_self _ _)
          rw [hall m0 (List.mem_cons_self _ _)] at this
          have h3 := hs3.1
          omega
        · rw [← hs1, ← hs3]
          exact hall e he
      by_cases h0 : G = 0
      · rw [if_pos h0]
        refine ⟨_, _, rfl, ?_⟩
        rw [start_page_init_generation]
        exact hs1.trans hG
      · rw [if_neg h0]
        have hrec : (List.map Prod.fst (List.filter
            (fun e : Int × index_meta => decide (e.2.generation_number ≠ G)) (m0 :: ms))) = [] := by
          rw [List.map_eq_nil_iff, List.filter_eq_nil_iff]
          intro e he
          simp only [decide_eq_true_eq, not_not]
          rw [hall e he, hG]
        rw [hrec]
        simp only [List.isEmpty_nil, if_true]
        exact ⟨_, _, rfl, hs1.trans hG⟩
  · by_cases h0 : idx.m_meta.generation_number = 0
    · exact Or.inl h0
    · exact Or.inr (hb h0).2

/-! ## Searching a leaf -/

/-- On a leaf with at least one entry `search_node` is `search_leaf`. -/
theorem search_node_leaf (p : page) (obj : key) (hl : p.is_leaf = true) :
    p.search_node obj = p.search_leaf obj := by
  unfold page.search_node
  split
  · rename_i he
    unfold page.search_leaf
    simp [hl, he, lower_bound]
  · rw [if_pos hl]

/-- A page without entries is searched in vain. -/
theorem search_node_empty (p : page) (obj : key) (he : p.objects = []) :
    p.search_node obj = -1 := by
  unfold page.search_node
  rw [he]

/-- In a sorted leaf the lower bound of a stored id is its position. -/
theorem lower_bound_of_mem (es : List key) (obj : key) (hs : ids_sorted es) (j : Nat)
    (hj : j < es.length) (hid : (es.get ⟨j, hj⟩).id = obj.id) : lower_bound es obj = j := by
  have hle : lower_bound es obj ≤ j := by
    by_contra hgt
    have := lower_bound_before obj es j hj (by omega)
    rw [hid] at this
    exact lt_irrefl _ this
  rcases Nat.eq_or_lt_of_le hle with he | hlt
  · exact he
  · have hlb : lower_bound es obj < es.length := by omega
    have h1 := lower_bound_at obj es hlb
    have h2 := ids_sorted_get es hs _ j hlb hj hlt
    rw [hid] at h2
    exact absurd (lt_of_le_of_lt h1 h2) (lt_irrefl _)

/-- C21: on a leaf whose entries are strictly ascending `search_node` returns
a position exactly when the entry there has the id of the key (the equality
of `key`), it finds every stored id, and it returns -1 exactly when no entry
has the id; on a page without entries, leaf or not, it returns -1. -/
theorem search_node_leaf_exact (p : page) (obj : key) (hl : p.is_leaf = true)
    (hs : ids_sorted p.objects) :
    (∀ i : Nat, p.search_node obj = (i : Int) ↔
      ∃ h : i < p.objects.length, (p.objects.get ⟨i, h⟩).eq obj = true) ∧
    (p.search_node obj = -1 ↔ ∀ e ∈ p.objects, e.eq obj = false) ∧
    (p.search_node obj = -1 ∨ ∃ i : Nat, p.search_node obj = (i : Int)) ∧
    ∀ q : page, q.objects = [] → q.search_node obj = -1 := by
  have hsl : p.search_node obj =
      if h : lower_bound p.objects obj < p.objects.length then
        if (p.objects.get ⟨lower_bound p.objects obj, h⟩).ne obj then -1
        else (lower_bound p.objects obj : Int)
      else -1 := by
    rw [search_node_leaf p obj hl]
    unfold page.search_leaf
    simp [hl]
  have hpos : ∀ i : Nat, p.search_node obj = (i : Int) ↔
      ∃ h : i < p.objects.length, (p.objects.get ⟨i, h⟩).eq obj = true := by
    intro i
    constructor
    · intro hi
      rw [hsl] at hi
      by_cases hlt : lower_bound p.objects obj < p.objects.length
      · rw [dif_pos hlt] at hi
        by_cases hne : (p.objects.get ⟨lower_bound p.objects obj, hlt⟩).ne obj = true
        · rw [if_pos hne] at hi; omega
        · rw [if_neg hne] at hi
          have : lower_bound p.objects obj = i := by omega
          subst this
          refine ⟨hlt, ?_⟩
          simpa [key.ne, key.eq] using hne
      · rw [dif_neg hlt] at hi; omega
    · rintro ⟨h, heq⟩
      have hid : (p.objects.get ⟨i, h⟩).id = obj.id := by simpa [key.eq] using heq
      have hlb := lower_bound_of_mem p.objects obj hs i h hid
      subst hlb
      rw [hsl, dif_pos h]
      have hne : ¬ (p.objects.get ⟨lower_bound p.objects obj, h⟩).ne obj = true := by
        simpa [key.ne] using hid
      rw [if_neg hne]
  have hrange : p.search_node obj = -1 ∨ ∃ i : Nat, p.search_node obj = (i : Int) := by
    rw [hsl]
    by_cases hlt : lower_bound p.objects obj < p.objects.length
    · rw [dif_pos hlt]
      by_cases hne : (p.objects.get ⟨lower_bound p.objects obj, hlt⟩).ne obj = true
      · rw [if_pos hne]; exact Or.inl rfl
      · rw [if_neg hne]; exact Or.inr ⟨_, rfl⟩
    · rw [dif_neg hlt]; exact Or.inl rfl
  refine ⟨hpos, ?_, hrange, fun q hq => search_node_empty q obj hq⟩
  constructor
  · intro hm e he
    by_contra hne
    obtain ⟨i, hget⟩ := List.mem_iff_get.mp he
    have : (p.objects.get ⟨i.1, i.2⟩).eq obj = true := by
      rw [hget]; simpa using hne
    have := (hpos i.1).mpr ⟨i.2, this⟩
    rw [hm] at this
    omega
  · intro hall
    rcases hrange with h | ⟨i, hi⟩
    · exact h
    · obtain ⟨h, heq⟩ := (hpos i).mp hi
      have := hall _ (List.get_mem p.objects i h)
      rw [this] at heq
      cases heq

/-! ## What `insert_and_split` and `remove` do to a page -/

theorem insert_sorted_mem (obj : key) : ∀ es : List key, obj ∈ insert_sorted obj es := by
  intro es
  induction es with
  | nil => simp [insert_sorted]
  | cons it rest ih =>
    unfold insert_sorted
    by_cases h1 : obj.id ≤ it.id
    · by_cases h2 : obj.id = it.id
      · rw [if_pos h1, if_pos h2]; simp
      · rw [if_pos h1, if_neg h2]; simp
    · rw [if_neg h1]; simp [ih]

theorem insert_sorted_keeps (obj : key) :
    ∀ es : List key, ∀ e ∈ es, e.id ≠ obj.id → e ∈ insert_sorted obj es := by
  intro es
  induction es with
  | nil => intro e he; cases he
  | cons it rest ih =>
    intro e he hne
    unfold insert_sorted
    simp only [List.mem_cons] at he
    by_cases h1 : obj.id ≤ it.id
    · by_cases h2 : obj.id = it.id
      · rw [if_pos h1, if_pos h2]
        rcases he with he | he
        · subst he; exact absurd h2.symm hne
        · exact List.mem_cons_of_mem _ he
      · rw [if_pos h1, if_neg h2]
        rcases he with he | he
        · subst he; simp
        · simp [he]
    · rw [if_neg h1]
      rcases he with he | he
      · subst he; simp
      · exact List.mem_cons_of_mem _ (ih e he hne)

/-- On a sorted page the copy loop builds what the specification describes. -/
theorem insert_sorted_eq_spec (obj : key) :
    ∀ es : List key, ids_sorted es → insert_sorted obj es = inserted_in_order obj es := by
  intro es
  induction es with
  | nil => intro _; rfl
  | cons it rest ih =>
    intro hs
    have hs' : ids_sorted rest := (List.pairwise_cons.mp hs).2
    have hlt : ∀ e ∈ rest, it.id < e.id := (List.pairwise_cons.mp hs).1
    unfold insert_sorted inserted_in_order
    by_cases h1 : obj.id ≤ it.id
    · have hall : ∀ e ∈ rest, obj.id < e.id := fun e he => lt_of_le_of_lt h1 (hlt e he)
      have hf1 : rest.filter (fun e => decide (e.id < obj.id)) = [] := by
        rw [List.filter_eq_nil_iff]
        intro e he
        simpa using le_of_lt (hall e he)
      have hf2 : rest.filter (fun e => decide (obj.id < e.id)) = rest := by
        rw [List.filter_eq_self]
        intro e he
        simpa using hall e he
      by_cases h2 : obj.id = it.id
      · have hn1 : ¬ it.id < obj.id := by rw [h2]; exact lt_irrefl _
        have hn2 : ¬ obj.id < it.id := by rw [h2]; exact lt_irrefl _
        rw [if_pos h1, if_pos h2]
        simp only [List.filter_cons, hn1, hn2, decide_False, Bool.false_eq_true, if_false, hf1,
          hf2, List.nil_append, List.singleton_append]
      · have hlt2 : obj.id < it.id := lt_of_le_of_ne h1 h2
        have hn1 : ¬ it.id < obj.id := not_lt.mpr h1
        rw [if_pos h1, if_neg h2]
        simp only [List.filter_cons, hn1, hlt2, decide_False, decide_True, Bool.false_eq_true,
          if_false, if_true, hf1, hf2, List.nil_append, List.singleton_append]
    · have hgt : it.id < obj.id := not_le.mp h1
      have hn2 : ¬ obj.id < it.id := not_lt.mpr (le_of_lt hgt)
      have := ih hs'
      unfold inserted_in_order at this
      rw [if_neg h1, this]
      simp only [List.filter_cons, hgt, hn2, decide_False, decide_True, Bool.false_eq_true,
        if_false, if_true, List.cons_append, List.append_assoc]

theorem insert_sorted_length (obj : key) :
    ∀ es : List key, ids_sorted es →
      ((∀ e ∈ es, e.id ≠ obj.id) → (insert_sorted obj es).length = es.length + 1) ∧
      ((∃ e ∈ es, e.id = obj.id) → (insert_sorted obj es).length = es.length) := by
  intro es
  induction es with
  | nil =>
    intro _
    constructor
    · intro _; rfl
    · rintro ⟨e, he, _⟩; cases he
  | cons it rest ih =>
    intro hs
    have hs' : ids_sorted rest := (List.pairwise_cons.mp hs).2
    have hlt : ∀ e ∈ rest, it.id < e.id := (List.pairwise_cons.mp hs).1
    obtain ⟨ih1, ih2⟩ := ih hs'
    unfold insert_sorted
    by_cases h1 : obj.id ≤ it.id
    · by_cases h2 : obj.id = it.id
      · rw [if_pos h1, if_pos h2]
        constructor
        · intro hall
          exact absurd h2.symm (hall it (List.mem_cons_self _ _))
        · intro _; rfl
      · rw [if_pos h1, if_neg h2]
        constructor
        · intro _; rfl
        · rintro ⟨e, he, hid⟩
          simp only [List.mem_cons] at he
          rcases he with he | he
          · subst he; exact absurd hid.symm h2
          · have := hlt e he
            rw [hid] at this
            exact absurd (lt_of_le_of_lt h1 this) (lt_irrefl _)
    · rw [if_neg h1]
      simp only [List.length_cons]
      constructor
      · intro hall
        rw [ih1 (fun e he => hall e (List.mem_cons_of_mem _ he))]
      · rintro ⟨e, he, hid⟩
        simp only [List.mem_cons] at he
        rcases he with he | he
        · subst he
          rw [hid] at h1
          exact absurd (le_refl _) h1
        · rw [ih2 ⟨e, he, hid⟩]

/-- The entries of the page and of `other` after `insert_and_split`, taken together. -/
theorem insert_and_split_append (p : page) (obj : key) (other : page)
    (ho : other.objects = []) :
    (p.insert_and_split obj other).1.objects ++ (p.insert_and_split obj other).2.1.objects =
      insert_sorted obj p.objects := by
  rcases insert_and_split_objects p obj other with ⟨ts, h⟩ | ⟨ts1, ts2, h⟩
  · rw [h]; simp [ho]
  · rw [h]; simp

/-- C22: on a page whose entries are strictly ascending, called with an empty
`other`, `insert_and_split` leaves in the page and `other` together the old
entries without the one that has the id of the key, and the key at its
sorted position; so the key is there, every entry with another id is kept,
and the number of entries grows by one when no entry had the id and stays
when one had. -/
theorem insert_and_split_inserts_in_order (p : page) (obj : key) (other : page)
    (hs : ids_sorted p.objects) (ho : other.objects = []) :
    (p.insert_and_split obj other).1.objects ++ (p.insert_and_split obj other).2.1.objects =
        inserted_in_order obj p.objects ∧
    obj ∈ (p.insert_and_split obj other).1.objects ++
        (p.insert_and_split obj other).2.1.objects ∧
    (∀ e ∈ p.objects, e.id ≠ obj.id →
      e ∈ (p.insert_and_split obj other).1.objects ++
        (p.insert_and_split obj other).2.1.objects) ∧
    ((∀ e ∈ p.objects, e.id ≠ obj.id) →
      ((p.insert_and_split obj other).1.objects ++
        (p.insert_and_split obj other).2.1.objects).length = p.objects.length + 1) ∧
    ((∃ e ∈ p.objects, e.id = obj.id) →
      ((p.insert_and_split obj other).1.objects ++
        (p.insert_and_split obj other).2.1.objects).length = p.objects.length) := by
  rw [insert_and_split_append p obj other ho]
  exact ⟨insert_sorted_eq_spec obj p.objects hs, insert_sorted_mem obj p.objects,
    insert_sorted_keeps obj p.objects, (insert_sorted_length obj p.objects hs).1,
    (insert_sorted_length obj p.objects hs).2⟩

theorem entries_size_nil : entries_size [] = 0 := rfl

theorem entries_size_cons (a : key) (l : List key) :
    entries_size (a :: l) = a.size + entries_size l := by
  simp [entries_size]

theorem entries_size_append (l1 l2 : List key) :
    entries_size (l1 ++ l2) = entries_size l1 + entries_size l2 := by
  simp [entries_size]

theorem entries_size_take_drop (k : Nat) (l : List key) :
    entries_size (l.take k) + entries_size (l.drop k) = entries_size l := by
  rw [← entries_size_append, List.take_append_drop]

theorem add64_of_lt (a b : Nat) (h : a + b < SIZE_MOD) : add64 a b = a + b := by
  unfold add64
  exact Nat.mod_eq_of_lt h

theorem sub64_of_le (a b : Nat) (hb : b ≤ a) (ha : a < SIZE_MOD) : sub64 a b = a - b := by
  unfold sub64
  have hbm : b % SIZE_MOD = b := Nat.mod_eq_of_lt (lt_of_le_of_lt hb ha)
  rw [hbm, if_pos hb]
  exact Nat.mod_eq_of_lt (lt_of_le_of_lt (Nat.sub_le a b) ha)

/-- The loop of `recalculate_size` adds the sizes up modulo 2^64. -/
theorem foldl_add64 :
    ∀ (l : List key) (a : Nat), a < SIZE_MOD →
      l.foldl (fun acc obj => add64 acc obj.size) a = (a + entries_size l) % SIZE_MOD := by
  intro l
  induction l with
  | nil =>
    intro a ha
    simp [entries_size_nil, Nat.mod_eq_of_lt ha]
  | cons x l ih =>
    intro a _
    have hlt : add64 a x.size < SIZE_MOD := by
      unfold add64
      exact Nat.mod_lt _ (by decide)
    rw [List.foldl_cons, ih _ hlt, entries_size_cons]
    unfold add64
    rw [Nat.mod_add_mod, Nat.add_assoc]

theorem recalculate_size_total (p : page) (h : entries_size p.objects < SIZE_MOD) :
    p.recalculate_size.total_size = entries_size p.objects := by
  unfold page.recalculate_size
  simp only
  rw [foldl_add64 _ 0 (by decide), Nat.zero_add]
  exact Nat.mod_eq_of_lt h

theorem recalculate_size_objects (p : page) : p.recalculate_size.objects = p.objects := rfl

theorem recalculate_size_flags (p : page) : p.recalculate_size.flags = p.flags := rfl

/-- The size `insert_and_split` arrives at, against the sum over the new entries. -/
theorem insert_copy_total (obj : key) :
    ∀ (es : List key) (total : Nat), entries_size es ≤ total → total + obj.size < SIZE_MOD →
      (if (insert_copy obj es total).2.2 then (insert_copy obj es total).2.1
        else add64 (insert_copy obj es total).2.1 obj.size) + entries_size es =
        total + entries_size (insert_sorted obj es) := by
  intro es
  induction es with
  | nil =>
    intro total _ hfit
    simp [insert_copy, insert_sorted, entries_size_cons, entries_size_nil, add64_of_lt _ _ hfit]
  | cons it rest ih =>
    intro total hle hfit
    rw [entries_size_cons] at hle
    unfold insert_copy insert_sorted
    by_cases h1 : obj.id ≤ it.id
    · have hle1 : obj.le it = true := by simp [key.le, h1]
      by_cases h2 : obj.id = it.id
      · have heq : obj.eq it = true := by simp [key.eq, h2]
        rw [if_pos h1, if_pos h2]
        simp only [hle1, heq, if_true]
        rw [add64_of_lt _ _ hfit, sub64_of_le _ _ (by omega) hfit]
        simp only [entries_size_cons]
        omega
      · have hne : ¬ obj.eq it = true := by simp [key.eq, h2]
        rw [if_pos h1, if_neg h2]
        simp only [hle1, hne, if_true, if_false, Bool.false_eq_true]
        rw [add64_of_lt _ _ hfit]
        simp only [entries_size_cons]
        omega
    · have hle1 : ¬ obj.le it = true := by simp [key.le, h1]
      rw [if_neg h1]
      simp only [hle1, if_false, Bool.false_eq_true]
      have := ih total (by omega) hfit
      simp only [entries_size_cons]
      omega

/-- The size of the page after an insertion is the sum over the new entries. -/
theorem insert_total_eq (p : page) (obj : key) (hsz : p.total_size = entries_size p.objects)
    (hfit : p.total_size + obj.size < SIZE_MOD) :
    (if (insert_copy obj p.objects p.total_size).2.2 then
        (insert_copy obj p.objects p.total_size).2.1
      else add64 (insert_copy obj p.objects p.total_size).2.1 obj.size) =
      entries_size (insert_sorted obj p.objects) := by
  have := insert_copy_total obj p.objects p.total_size (le_of_eq hsz.symm) hfit
  omega

theorem insert_sorted_size_le (p : page) (obj : key)
    (hsz : p.total_size = entries_size p.objects) (hfit : p.total_size + obj.size < SIZE_MOD) :
    entries_size (insert_sorted obj p.objects) < SIZE_MOD := by
  have h1 := insert_copy_total obj p.objects p.total_size (le_of_eq hsz.symm) hfit
  have h2 := insert_total_eq p obj hsz hfit
  rw [h2] at h1
  have : ∀ es : List key, entries_size (insert_sorted obj es) ≤ entries_size es + obj.size := by
    intro es
    induction es with
    | nil => simp [insert_sorted, entries_size_cons, entries_size_nil]
    | cons it rest ih =>
      unfold insert_sorted
      by_cases h1 : obj.id ≤ it.id
      · by_cases h2 : obj.id = it.id
        · rw [if_pos h1, if_pos h2]; simp only [entries_size_cons]; omega
        · rw [if_pos h1, if_neg h2]; simp only [entries_size_cons]; omega
      · rw [if_neg h1]; simp only [entries_size_cons]; omega
  have := this p.objects
  omega

/-- What `insert_and_split` returns on a page whose `total_size` is the sum
of its entry sizes: without a split the page with the new entries and
`other` as it was passed; with a split the two halves, each with its size
recomputed, `other` taking the flags of the page. -/
theorem insert_and_split_spec (p : page) (obj : key) (other : page)
    (hsz : p.total_size = entries_size p.objects) (hfit : p.total_size + obj.size < SIZE_MOD) :
    (entries_size (insert_sorted obj p.objects) ≤ max_page_size →
      p.insert_and_split obj other =
        ({ p with objects := insert_sorted obj p.objects,
                  total_size := entries_size (insert_sorted obj p.objects) }, other, false)) ∧
    (max_page_size < entries_size (insert_sorted obj p.objects) →
      p.insert_and_split obj other =
        ({ p with
            objects := List.take ((insert_sorted obj p.objects).length / 2)
              (insert_sorted obj p.objects),
            total_size := entries_size (List.take ((insert_sorted obj p.objects).length / 2)
              (insert_sorted obj p.objects)) },
          { other with
            flags := p.flags,
            objects := List.drop ((insert_sorted obj p.objects).length / 2)
              (insert_sorted obj p.objects),
            total_size := entries_size (List.drop ((insert_sorted obj p.objects).length / 2)
              (insert_sorted obj p.objects)) }, true)) := by
  have hc := insert_copy_objects obj p.objects p.total_size
  have ht := insert_total_eq p obj hsz hfit
  have hlt := insert_sorted_size_le p obj hsz hfit
  have htd := entries_size_take_drop ((insert_sorted obj p.objects).length / 2)
    (insert_sorted obj p.objects)
  constructor
  · intro hle
    unfold page.insert_and_split
    simp only [hc, ht]
    rw [if_neg (by omega)]
  · intro hgt
    unfold page.insert_and_split
    simp only [hc, ht]
    rw [if_pos (by omega)]
    have e1 : entries_size (List.take ((insert_sorted obj p.objects).length / 2)
        (insert_sorted obj p.objects)) < SIZE_MOD := by omega
    have e2 : entries_size (List.drop ((insert_sorted obj p.objects).length / 2)
        (insert_sorted obj p.objects)) < SIZE_MOD := by omega
    simp only [page.recalculate_size, Prod.mk.injEq, page.mk.injEq, and_true, true_and]
    rw [foldl_add64 _ 0 (by decide), foldl_add64 _ 0 (by decide), Nat.zero_add, Nat.zero_add,
      Nat.mod_eq_of_lt e1, Nat.mod_eq_of_lt e2]
    simp

/-- C23: on a page whose `total_size` is the sum of its entry sizes,
`insert_and_split` returns true exactly when the sizes of the entries after
the insertion add up to more than `max_page_size`, which is 4096; when it
returns true the page holds the first half (rounded down) of those entries,
`other` holds the rest and has the flags of the page; when it returns false
the page holds all of them and `other` is as it was passed, so empty when it
was passed empty. -/
theorem insert_and_split_split_rule (p : page) (obj : key) (other : page)
    (hsz : p.total_size = entries_size p.objects) (hfit : p.total_size + obj.size < SIZE_MOD) :
    ((p.insert_and_split obj other).2.2 = true ↔
      max_page_size < entries_size (insert_sorted obj p.objects)) ∧
    max_page_size = 4096 ∧
    ((p.insert_and_split obj other).2.2 = true →
      (p.insert_and_split obj other).1.objects =
          List.take ((insert_sorted obj p.objects).length / 2) (insert_sorted obj p.objects) ∧
        (p.insert_and_split obj other).2.1.objects =
          List.drop ((insert_sorted obj p.objects).length / 2) (insert_sorted obj p.objects) ∧
        (p.insert_and_split obj other).2.1.flags = (p.insert_and_split obj other).1.flags) ∧
    ((p.insert_and_split obj other).2.2 = false →
      (p.insert_and_split obj other).1.objects = insert_sorted obj p.objects ∧
        (p.insert_and_split obj other).2.1 = other ∧
        (other.objects = [] → (p.insert_and_split obj other).2.1.objects = [])) := by
  obtain ⟨h1, h2⟩ := insert_and_split_spec p obj other hsz hfit
  by_cases hgt : max_page_size < entries_size (insert_sorted obj p.objects)
  · rw [h2 hgt]
    refine ⟨⟨fun _ => hgt, fun _ => rfl⟩, rfl, fun _ => ⟨rfl, rfl, rfl⟩, fun hf => ?_⟩
    cases hf
  · rw [h1 (by omega)]
    refine ⟨⟨fun hf => ?_, fun hg => absurd hg hgt⟩, rfl, fun hf => ?_, fun _ => ⟨rfl, rfl, id⟩⟩
    · cases hf
    · cases hf

theorem entries_size_eraseIdx :
    ∀ (l : List key) (pos : Nat) (h : pos < l.length),
      entries_size (l.eraseIdx pos) + (l.get ⟨pos, h⟩).size = entries_size l := by
  intro l
  induction l with
  | nil => intro pos h; simp at h
  | cons a l ih =>
    intro pos h
    cases pos with
    | zero => simp [entries_size_cons]; omega
    | succ pos =>
      simp only [List.length_cons] at h
      have := ih pos (by omega)
      simp only [List.eraseIdx_cons_succ, entries_size_cons, List.get_cons_succ]
      omega

theorem getD_eq_get (l : List key) (pos : Nat) (h : pos < l.length) :
    l.getD pos default = l.get ⟨pos, h⟩ := by
  simp [List.getD, List.getElem?_eq_getElem h]

/-- C24: on a page whose `total_size` is the sum of its entry sizes, `remove`
at a position inside the entries leaves the entries with that one erased,
lowers `total_size` by the size of the erased entry, and returns true exactly
when the new `total_size` is below `max_page_size / 3`, which is 1365. -/
theorem page_remove_spec (p : page) (pos : Nat) (hsz : p.total_size = entries_size p.objects)
    (hlt : p.total_size < SIZE_MOD) (hpos : pos < p.objects.length) :
    (p.remove pos).1.objects = p.objects.eraseIdx pos ∧
    (p.remove pos).1.total_size + (p.objects.get ⟨pos, hpos⟩).size = p.total_size ∧
    ((p.remove pos).2 = true ↔ (p.remove pos).1.total_size < max_page_size / 3) ∧
    max_page_size / 3 = 1365 := by
  have he := entries_size_eraseIdx p.objects pos hpos
  unfold page.remove
  simp only [getD_eq_get p.objects pos hpos]
  rw [sub64_of_le _ _ (by omega) hlt]
  exact ⟨trivial, by omega, by simp, by decide⟩

theorem insert_sorted_sorted (obj : key) (es : List key) (hs : ids_sorted es) :
    ids_sorted (insert_sorted obj es) := by
  rw [insert_sorted_eq_spec obj es hs]
  unfold inserted_in_order ids_sorted
  rw [List.pairwise_append, List.pairwise_append]
  refine ⟨⟨List.Pairwise.sublist (List.filter_sublist _) hs, List.pairwise_singleton _ _, ?_⟩,
    List.Pairwise.sublist (List.filter_sublist _) hs, ?_⟩
  · intro a ha b hb
    simp only [List.mem_singleton] at hb
    subst hb
    simpa using (List.mem_filter.mp ha).2
  · intro a ha b hb
    have hb2 : obj.id < b.id := by simpa using (List.mem_filter.mp hb).2
    simp only [List.mem_append, List.mem_singleton] at ha
    rcases ha with ha | ha
    · have ha2 : a.id < obj.id := by simpa using (List.mem_filter.mp ha).2
      exact lt_trans ha2 hb2
    · subst ha; exact hb2

/-- C31: on a page whose entries are strictly ascending, after
`insert_and_split` the entries of the page are strictly ascending; when a
split happened so are the entries of `other`, and every entry of the page is
below every entry of `other`; without a split `other` is as it was passed;
and after `remove` at a position inside the entries they are still strictly
ascending. -/
theorem page_operations_keep_order (p : page) (obj : key) (other : page)
    (hs : ids_sorted p.objects) :
    ids_sorted (p.insert_and_split obj other).1.objects ∧
    ((p.insert_and_split obj other).2.2 = true →
      ids_sorted (p.insert_and_split obj other).2.1.objects ∧
        ∀ a ∈ (p.insert_and_split obj other).1.objects,
          ∀ b ∈ (p.insert_and_split obj other).2.1.objects, a.id < b.id) ∧
    ((p.insert_and_split obj other).2.2 = false → (p.insert_and_split obj other).2.1 = other) ∧
    ∀ pos : Nat, pos < p.objects.length → ids_sorted (p.remove pos).1.objects := by
  have hso := insert_sorted_sorted obj p.objects hs
  refine ⟨?_, ?_, ?_, ?_⟩
  · rcases insert_and_split_objects p obj other with ⟨ts, h⟩ | ⟨ts1, ts2, h⟩
    · rw [h]; exact hso
    · rw [h]; exact List.Pairwise.sublist (List.take_sublist _ _) hso
  · rcases insert_and_split_objects p obj other with ⟨ts, h⟩ | ⟨ts1, ts2, h⟩
    · rw [h]; intro hf; cases hf
    · rw [h]
      intro _
      refine ⟨List.Pairwise.sublist (List.drop_sublist _ _) hso, ?_⟩
      have := hso
      unfold ids_sorted at this
      rw [← List.take_append_drop ((insert_sorted obj p.objects).length / 2)
        (insert_sorted obj p.objects), List.pairwise_append] at this
      exact this.2.2
  · rcases insert_and_split_objects p obj other with ⟨ts, h⟩ | ⟨ts1, ts2, h⟩
    · rw [h]; intro _; rfl
    · rw [h]; intro hf; cases hf
  · intro pos _
    unfold page.remove
    exact List.Pairwise.sublist (List.eraseIdx_sublist _ _) hs

/-- C32: when `total_size` is the sum of the entry sizes before the call, it
is so for the page after `insert_and_split`, a replaced entry included, and
for `other` when a split happened; and after `remove` at a position inside
the entries it is so for the page, the size of the erased entry being at most
the old `total_size`. -/
theorem page_operations_keep_size (p : page) (obj : key) (other : page)
    (hsz : p.total_size = entries_size p.objects) (hfit : p.total_size + obj.size < SIZE_MOD) :
    (p.insert_and_split obj other).1.total_size =
        entries_size (p.insert_and_split obj other).1.objects ∧
    ((p.insert_and_split obj other).2.2 = true →
      (p.insert_and_split obj other).2.1.total_size =
        entries_size (p.insert_and_split obj other).2.1.objects) ∧
    ∀ (pos : Nat) (hpos : pos < p.objects.length),
      (p.remove pos).1.total_size = entries_size (p.remove pos).1.objects ∧
        (p.objects.get ⟨pos, hpos⟩).size ≤ p.total_size := by
  obtain ⟨h1, h2⟩ := insert_and_split_spec p obj other hsz hfit
  refine ⟨?_, ?_, ?_⟩
  · by_cases hgt : max_page_size < entries_size (insert_sorted obj p.objects)
    · rw [h2 hgt]
    · rw [h1 (by omega)]
  · by_cases hgt : max_page_size < entries_size (insert_sorted obj p.objects)
    · rw [h2 hgt]; intro _; rfl
    · rw [h1 (by omega)]; intro hf; cases hf
  · intro pos hpos
    obtain ⟨ho, ht, _, _⟩ := page_remove_spec p pos hsz (by omega) hpos
    have he := entries_size_eraseIdx p.objects pos hpos
    rw [ho]
    constructor <;> omega

/-- C34: on a page whose `total_size` is the sum of its entry sizes, with
entries of at most `max_page_size` each, and for a key of at most
`max_page_size`: when `insert_and_split` returns true, the page and `other`
both hold an entry afterwards. -/
theorem split_halves_hold_an_entry (p : page) (obj : key) (other : page)
    (hsz : p.total_size = entries_size p.objects)
    (hent : ∀ e ∈ p.objects, e.size ≤ max_page_size) (hobj : obj.size ≤ max_page_size)
    (hsplit : (p.insert_and_split obj other).2.2 = true) :
    (p.insert_and_split obj other).1.objects ≠ [] ∧
      (p.insert_and_split obj other).2.1.objects ≠ [] := by
  have hlen : 2 ≤ (insert_sorted obj p.objects).length := by
    by_contra hshort
    have hlt2 : (insert_sorted obj p.objects).length < 2 := by omega
    have hsmall : p.total_size + obj.size < SIZE_MOD ∧
        entries_size (insert_sorted obj p.objects) ≤ max_page_size := by
      cases hp : p.objects with
      | nil =>
        rw [hp] at hsz
        rw [hsz]
        simp only [insert_sorted, entries_size_cons, entries_size_nil]
        unfold max_page_size at hobj
        unfold SIZE_MOD max_page_size
        omega
      | cons it rest =>
        rw [hp] at hlt2 hsz
        have hit : it.size ≤ max_page_size := hent it (by rw [hp]; exact List.mem_cons_self _ _)
        unfold insert_sorted at hlt2 ⊢
        by_cases h1 : obj.id ≤ it.id
        · by_cases h2 : obj.id = it.id
          · rw [if_pos h1, if_pos h2] at hlt2 ⊢
            simp only [List.length_cons] at hlt2
            have hr : rest = [] := List.length_eq_zero.mp (by omega)
            subst hr
            rw [hsz]
            simp only [entries_size_cons, entries_size_nil]
            unfold max_page_size at hobj hit
            unfold SIZE_MOD max_page_size
            omega
          · rw [if_pos h1, if_neg h2] at hlt2
            simp only [List.length_cons] at hlt2
            omega
        · rw [if_neg h1] at hlt2
          simp only [List.length_cons] at hlt2
          have : 0 < (insert_sorted obj rest).length :=
            List.length_pos_of_mem (insert_sorted_mem obj rest)
          omega
    have := (insert_and_split_spec p obj other hsz hsmall.1).1 hsmall.2
    rw [this] at hsplit
    cases hsplit
  rcases insert_and_split_objects p obj other with ⟨ts, h⟩ | ⟨ts1, ts2, h⟩
  · rw [h] at hsplit; cases hsplit
  · rw [h]
    constructor
    · intro he
      have := congrArg List.length he
      simp only [List.length_take, List.length_nil] at this
      omega
    · intro he
      have := congrArg List.length he
      simp only [List.length_drop, List.length_nil] at this
      omega

/-! ## The comparison and the timestamp of key.hpp -/

/-- C25: the comparison of `key.hpp` is the strict lexicographic order on
(timestamp, id): of `a < b`, `a == b`, `b < a` exactly one holds, `<` is
transitive, `a <= b` is `a < b` or `a == b`, `a == b` is equality of both
timestamps and ids, and `a != b` is the negation of `a == b`. -/
theorem hkey_order_is_lexicographic (a b c : hkey) :
    (a.lt b = true ↔
      a.timestamp < b.timestamp ∨ (a.timestamp = b.timestamp ∧ a.id < b.id)) ∧
    ((a.lt b = true ∧ a.eq b = false ∧ b.lt a = false) ∨
      (a.lt b = false ∧ a.eq b = true ∧ b.lt a = false) ∨
      (a.lt b = false ∧ a.eq b = false ∧ b.lt a = true)) ∧
    (a.lt b = true → b.lt c = true → a.lt c = true) ∧
    (a.le b = true ↔ a.lt b = true ∨ a.eq b = true) ∧
    (a.eq b = true ↔ a.timestamp = b.timestamp ∧ a.id = b.id) ∧
    a.ne b = !a.eq b := by
  have hlt : ∀ x y : hkey, x.lt y = true ↔
      x.timestamp < y.timestamp ∨ (x.timestamp = y.timestamp ∧ x.id < y.id) := by
    intro x y
    unfold hkey.lt
    by_cases h1 : x.timestamp < y.timestamp
    · simp [h1]
    · by_cases h2 : x.timestamp > y.timestamp
      · simp [h1, h2]
        intro h3; omega
      · have : x.timestamp = y.timestamp := by omega
        simp [h1, h2, this]
  have heq : ∀ x y : hkey, x.eq y = true ↔ x.timestamp = y.timestamp ∧ x.id = y.id := by
    intro x y
    simp [hkey.eq]
  have hltf : ∀ x y : hkey, x.lt y = false ↔
      ¬ (x.timestamp < y.timestamp ∨ (x.timestamp = y.timestamp ∧ x.id < y.id)) := by
    intro x y
    rw [← hlt x y]
    simp
  have heqf : ∀ x y : hkey, x.eq y = false ↔ ¬ (x.timestamp = y.timestamp ∧ x.id = y.id) := by
    intro x y
    rw [← heq x y]
    simp
  refine ⟨hlt a b, ?_, ?_, ?_, heq a b, ?_⟩
  · rw [hlt a b, hlt b a, hltf a b, hltf b a, heq a b, heqf a b]
    rcases Nat.lt_trichotomy a.timestamp b.timestamp with h | h | h
    · left
      refine ⟨Or.inl h, ?_, ?_⟩
      · intro h2; omega
      · rintro (h2 | ⟨h2, _⟩) <;> omega
    · rcases lt_trichotomy a.id b.id with h2 | h2 | h2
      · left
        refine ⟨Or.inr ⟨h, h2⟩, ?_, ?_⟩
        · intro h3; exact absurd h3.2 (ne_of_lt h2)
        · rintro (h3 | ⟨_, h3⟩)
          · omega
          · exact absurd h3 (not_lt.mpr (le_of_lt h2))
      · right; left
        refine ⟨?_, ⟨h, h2⟩, ?_⟩
        · rintro (h3 | ⟨_, h3⟩)
          · omega
          · rw [h2] at h3; exact absurd h3 (lt_irrefl _)
        · rintro (h3 | ⟨_, h3⟩)
          · omega
          · rw [h2] at h3; exact absurd h3 (lt_irrefl _)
      · right; right
        refine ⟨?_, ?_, Or.inr ⟨h.symm, h2⟩⟩
        · rintro (h3 | ⟨_, h3⟩)
          · omega
          · exact absurd h3 (not_lt.mpr (le_of_lt h2))
        · intro h3; exact absurd h3.2.symm (ne_of_lt h2)
    · right; right
      refine ⟨?_, ?_, Or.inl h⟩
      · rintro (h2 | ⟨h2, _⟩) <;> omega
      · intro h2; omega
  · rw [hlt a b, hlt b c, hlt a c]
    rintro (h1 | ⟨h1, h2⟩) (h3 | ⟨h3, h4⟩)
    · left; omega
    · left; omega
    · left; omega
    · right; exact ⟨by omega, lt_trans h2 h4⟩
  · rw [hlt a b, heq a b]
    unfold hkey.le
    by_cases h1 : a.timestamp < b.timestamp
    · simp [h1]
    · by_cases h2 : a.timestamp > b.timestamp
      · simp [h1, h2]
        constructor
        · intro h3; omega
        · intro h3; omega
      · have : a.timestamp = b.timestamp := by omega
        simp [h1, h2, this, le_iff_lt_or_eq]
  · unfold hkey.ne hkey.eq
    by_cases h1 : a.timestamp = b.timestamp <;> by_cases h2 : a.id = b.id <;> simp [h1, h2]

/-- C26: for `tsec` in [0, 2^34) and `nsec` in [0, 2^30), `set_timestamp`
stores `tsec * 2^30 + nsec` and `get_timestamp` then returns `(tsec, nsec)`;
for any `nsec` the stored value is `tsec * 2^30` plus the low 30 bits of `nsec`. -/
theorem timestamp_round_trip (k : hkey) (tsec nsec : Int) (h0 : 0 ≤ tsec) (h1 : tsec < 2 ^ 34) :
    (0 ≤ nsec → nsec < 2 ^ 30 →
      ((k.set_timestamp tsec nsec).timestamp : Int) = tsec * 2 ^ 30 + nsec ∧
        (k.set_timestamp tsec nsec).get_timestamp = (tsec, nsec)) ∧
    ((k.set_timestamp tsec nsec).timestamp : Int) = tsec * 2 ^ 30 + nsec % 2 ^ 30 ∧
    (k.set_timestamp tsec nsec).timestamp < SIZE_MOD := by
  obtain ⟨t, rfl⟩ := Int.eq_ofNat_of_zero_le h0
  have ht : t < 2 ^ 34 := by exact_mod_cast h1
  have hn0 : 0 ≤ nsec % 2 ^ 30 := Int.emod_nonneg _ (by norm_num)
  obtain ⟨n, hn⟩ := Int.eq_ofNat_of_zero_le hn0
  have hnlt : n < 2 ^ 30 := by
    have : nsec % 2 ^ 30 < 2 ^ 30 := Int.emod_lt_of_pos _ (by norm_num)
    rw [hn] at this
    exact_mod_cast this
  have hts : (k.set_timestamp (t : Int) nsec).timestamp = 2 ^ 30 * t + n := by
    unfold hkey.set_timestamp
    simp only
    have e1 : ((t : Int) % (SIZE_MOD : Int)).toNat = t := by
      have : (t : Int) % (SIZE_MOD : Int) = t := by
        apply Int.emod_eq_of_lt (by omega)
        unfold SIZE_MOD
        have : t < 2 ^ 64 := lt_trans ht (by norm_num)
        exact_mod_cast this
      rw [this]; rfl
    have e2 : (nsec % 2 ^ 30).toNat = n := by rw [hn]; rfl
    rw [e1, e2, Nat.shiftLeft_eq]
    have e3 : t * 2 ^ 30 % SIZE_MOD = 2 ^ 30 * t := by
      rw [Nat.mul_comm]
      apply Nat.mod_eq_of_lt
      unfold SIZE_MOD
      calc 2 ^ 30 * t < 2 ^ 30 * 2 ^ 34 := by
            apply Nat.mul_lt_mul_of_pos_left ht (by norm_num)
        _ = 2 ^ 64 := by norm_num
    rw [e3]
    exact (Nat.mul_add_lt_is_or hnlt t).symm
  have hval : ((k.set_timestamp (t : Int) nsec).timestamp : Int) =
      (t : Int) * 2 ^ 30 + nsec % 2 ^ 30 := by
    rw [hts, hn]
    push_cast
    ring
  refine ⟨?_, hval, ?_⟩
  · intro hn1 hn2
    have hmod : nsec % 2 ^ 30 = nsec := Int.emod_eq_of_lt hn1 hn2
    refine ⟨by rw [hval, hmod], ?_⟩
    unfold hkey.get_timestamp
    rw [hts, Nat.shiftRight_eq_div_pow, Nat.and_pow_two_sub_one_eq_mod]
    have e4 : (2 ^ 30 * t + n) / 2 ^ 30 = t := by
      rw [Nat.mul_add_div (by norm_num), Nat.div_eq_of_lt hnlt, Nat.add_zero]
    have e5 : (2 ^ 30 * t + n) % 2 ^ 30 = n := by
      rw [Nat.mul_add_mod, Nat.mod_eq_of_lt hnlt]
    rw [e4, e5, ← hn, hmod]
  · rw [hts]
    unfold SIZE_MOD
    have : 2 ^ 30 * t + n < 2 ^ 30 * 2 ^ 34 := by
      have : t + 1 ≤ 2 ^ 34 := ht
      calc 2 ^ 30 * t + n < 2 ^ 30 * t + 2 ^ 30 := by omega
        _ = 2 ^ 30 * (t + 1) := by ring
        _ ≤ 2 ^ 30 * 2 ^ 34 := Nat.mul_le_mul_left _ this
    calc 2 ^ 30 * t + n < 2 ^ 30 * 2 ^ 34 := this
      _ = 2 ^ 64 := by norm_num

/-- The first entry a fresh non-leaf page takes, when it fits. -/
theorem new_page_insert_first (k : key) (other : page) (hk : k.size ≤ max_page_size) :
    (page.new false).insert_and_split k other =
      ({ flags := 0, objects := [k], total_size := k.size, next := default }, other, false) := by
  have h := (insert_and_split_spec (page.new false) k other rfl (by
    show 0 + k.size < SIZE_MOD
    unfold max_page_size at hk
    unfold SIZE_MOD
    omega)).1
  have e : insert_sorted k (page.new false).objects = [k] := rfl
  rw [e] at h
  have := h (by simpa [entries_size_cons, entries_size_nil] using hk)
  rw [this]
  simp [page.new, entries_size_cons, entries_size_nil]

/-- The second entry of the new root, above the first one, when both fit. -/
theorem new_root_insert_second (a b : key) (other : page) (hab : a.id < b.id)
    (hfit : a.size + b.size ≤ max_page_size) :
    (page.mk 0 [a] a.size default).insert_and_split b other =
      ({ flags := 0, objects := [a, b], total_size := a.size + b.size, next := default },
        other, false) := by
  have h := (insert_and_split_spec (page.mk 0 [a] a.size default) b other
    (by simp [entries_size_cons, entries_size_nil]) (by
      show a.size + b.size < SIZE_MOD
      unfold max_page_size at hfit
      unfold SIZE_MOD
      omega)).1
  have e : insert_sorted b (page.mk 0 [a] a.size default).objects = [a, b] := by
    show insert_sorted b [a] = [a, b]
    unfold insert_sorted
    rw [if_neg (not_le.mpr hab)]
    rfl
  rw [e] at h
  have := h (by simpa [entries_size_cons, entries_size_nil] using hfit)
  rw [this]
  simp [entries_size_cons, entries_size_nil]

/-! ## Page urls -/

theorem lexical_cast_loop_zero (fuel : Nat) (acc : Str) : lexical_cast_loop fuel 0 acc = acc := by
  cases fuel <;> simp [lexical_cast_loop]

/-- The first digit that `lexical_cast` writes for a positive number is not `0`. -/
theorem lexical_cast_loop_head :
    ∀ (fuel value : Nat) (acc : Str), value ≤ fuel → 0 < value →
      (lexical_cast_loop fuel value acc).head? ≠ some 48 ∧
        (lexical_cast_loop fuel value acc).head? ≠ none := by
  intro fuel
  induction fuel with
  | zero => intro value acc h1 h2; omega
  | succ fuel ih =>
    intro value acc h1 h2
    unfold lexical_cast_loop
    rw [if_neg (by omega)]
    by_cases hz : value / 10 = 0
    · rw [hz, lexical_cast_loop_zero]
      have hlt : value < 10 := by
        by_contra hge
        have : 1 ≤ value / 10 := Nat.div_pos (by omega) (by norm_num)
        omega
      have hmod : value % 10 = value := Nat.mod_eq_of_lt hlt
      simp only [List.head?_cons, ne_eq, Option.some.injEq, hmod, not_false_eq_true,
        and_true, reduceCtorEq]
      omega
    · have hlt : value / 10 < value := Nat.div_lt_self h2 (by norm_num)
      exact ih (value / 10) _ (by omega) (by omega)

theorem generate_urls_eq :
    ∀ (n : Nat) (idx : index),
      (idx.generate_urls n).1 =
        (List.range n).map fun i => page_url idx.m_sk (idx.m_meta.page_index + i) := by
  intro n
  induction n with
  | zero => intro idx; rfl
  | succ n ih =>
    intro idx
    unfold index.generate_urls
    simp only [generate_page_url_eq]
    rw [ih, List.range_succ_eq_map, List.map_cons, List.map_map]
    simp only [Nat.add_zero, List.cons.injEq, true_and]
    apply List.map_congr_left
    intro i _
    simp only [Function.comp]
    congr 1
    omega

/-- C33: `generate_page_url` returns the url with the bucket of the start
key and the key `sk.key + "." +` the decimal representation of `page_index`
(digits only, that spell the number, `"0"` for zero and no leading zero
otherwise) and adds one to `page_index`; the urls of any number of calls in a
row are pairwise distinct, and none is the start key or the meta key. -/
theorem generate_page_url_spec (idx : index) (n : Nat) :
    idx.generate_page_url.1 =
      ⟨idx.m_sk.bucket, idx.m_sk.key ++ ascii "." ++ lexical_cast idx.m_meta.page_index⟩ ∧
    idx.generate_page_url.2.m_meta.page_index = idx.m_meta.page_index + 1 ∧
    idx.generate_page_url.2.m_sk = idx.m_sk ∧
    (parse_dec (lexical_cast n) = n ∧ (∀ c ∈ lexical_cast n, 48 ≤ c ∧ c ≤ 57) ∧
      lexical_cast 0 = ascii "0" ∧ (0 < n → (lexical_cast n).head? ≠ some 48)) ∧
    (idx.generate_urls n).1.Nodup ∧
    (idx.generate_urls n).1.length = n ∧
    (idx.generate_urls n).2.m_meta.page_index = idx.m_meta.page_index + n ∧
    ∀ u ∈ (idx.generate_urls n).1, u ≠ idx.m_sk ∧ u ≠ idx.meta_key := by
  refine ⟨rfl, rfl, rfl, ⟨parse_lexical_cast n, lexical_cast_digits n, rfl, ?_⟩, ?_, ?_, ?_, ?_⟩
  · intro hn
    unfold lexical_cast
    rw [if_neg (by omega)]
    exact (lexical_cast_loop_head n n [] (le_refl _) hn).1
  · rw [generate_urls_eq]
    apply List.Nodup.map_on _ (List.nodup_range n)
    intro a _ b _ hab
    have := page_url_injective _ _ _ hab
    omega
  · rw [generate_urls_eq]
    simp
  · clear * -
    induction n generalizing idx with
    | zero => rfl
    | succ n ih =>
      unfold index.generate_urls
      simp only [generate_page_url_eq]
      rw [ih]
      simp only
      omega
  · intro u hu
    rw [generate_urls_eq] at hu
    simp only [List.mem_map, List.mem_range] at hu
    obtain ⟨i, _, rfl⟩ := hu
    exact ⟨page_url_ne_sk _ _, page_url_ne_meta idx _⟩

/-! ## Where `begin` stands -/

theorem read_from_error (t : transport) (u : eurl) :
    ∀ (gs : List Int) (last code : Int), t.read_from gs u last = .error code →
      code = last ∨ code = NO_GROUP ∨ code = - ENOENT := by
  intro gs
  induction gs with
  | nil =>
    intro last code h
    simp only [transport.read_from, Except.error.injEq] at h
    exact Or.inl h.symm
  | cons g gs ih =>
    intro last code h
    unfold transport.read_from at h
    split at h
    · rcases ih _ _ h with h1 | h1 | h1
      · exact Or.inr (Or.inl h1)
      · exact Or.inr (Or.inl h1)
      · exact Or.inr (Or.inr h1)
    · split at h
      · exact absurd h (by simp)
      · rcases ih _ _ h with h1 | h1 | h1
        · exact Or.inr (Or.inr h1)
        · exact Or.inr (Or.inl h1)
        · exact Or.inr (Or.inr h1)

theorem read_error_negative (t : transport) (u : eurl) (code : Int)
    (h : t.read u = .error code) : code < 0 := by
  rcases read_from_error t u _ _ _ h with h1 | h1 | h1 <;> rw [h1] <;> decide

/-- What the descent returns: a negative position, or a leaf with the
position `search_node` found in it. -/
theorem search_at_result (obj : key) :
    ∀ (fuel : Nat) (t : transport) (page_key : eurl) (p : page) (pos : Int),
      index.search_at fuel t page_key obj = .ok (p, pos) →
      (pos < 0 ∧ (p.is_leaf = true → pos = p.search_node obj)) ∨
        (p.is_leaf = true ∧ pos = p.search_node obj ∧ 0 ≤ pos) := by
  intro fuel
  induction fuel with
  | zero => intro t page_key p pos h; simp [index.search_at] at h
  | succ fuel ih =>
    intro t page_key p pos h
    unfold index.search_at at h
    cases hread : t.read page_key with
    | error code =>
      rw [hread] at h
      simp only [Except.ok.injEq, Prod.mk.injEq] at h
      left
      rw [← h.2, ← h.1]
      exact ⟨read_error_negative t page_key code hread,
        fun hl => absurd hl (by rw [new_page_not_leaf]; simp)⟩
    | ok b =>
      rw [hread] at h
      simp only at h
      cases hload : page.load b with
      | error e => rw [hload] at h; simp at h
      | ok p0 =>
        rw [hload] at h
        simp only at h
        by_cases hneg : p0.search_node obj < 0
        · rw [if_pos hneg] at h
          simp only [Except.ok.injEq, Prod.mk.injEq] at h
          left
          rw [← h.1, ← h.2]
          exact ⟨hneg, fun _ => rfl⟩
        · rw [if_neg hneg] at h
          by_cases hl0 : p0.is_leaf = true
          · rw [if_pos hl0] at h
            simp only [Except.ok.injEq, Prod.mk.injEq] at h
            right
            rw [← h.1, ← h.2]
            exact ⟨hl0, rfl, by omega⟩
          · rw [if_neg hl0] at h
            exact ih _ _ _ _ h

/-- On a leaf, the position `search_node` returns holds an entry with the id
of the probe. -/
theorem search_node_leaf_at (p : page) (obj : key) (hl : p.is_leaf = true)
    (h : 0 ≤ p.search_node obj) :
    ∃ e, p.objects.get? (p.search_node obj).toNat = some e ∧ e.id = obj.id := by
  rw [search_node_leaf p obj hl] at h ⊢
  unfold page.search_leaf at h ⊢
  have hl1 : (!p.is_leaf) = false := by simp [hl]
  simp only [hl1, Bool.false_eq_true, if_false] at h ⊢
  by_cases hit : lower_bound p.objects obj < p.objects.length
  · rw [dif_pos hit] at h ⊢
    by_cases hne : (p.objects.get ⟨lower_bound p.objects obj, hit⟩).ne obj = true
    · rw [if_pos hne] at h; omega
    · rw [if_neg hne]
      refine ⟨p.objects.get ⟨lower_bound p.objects obj, hit⟩, ?_, ?_⟩
      · rw [Int.toNat_ofNat, List.get?_eq_get hit]
      · simpa [key.ne] using hne
  · rw [dif_neg hit] at h; omega

/-- On a leaf with ascending ids, `search_node` finds every stored id. -/
theorem search_node_leaf_finds (p : page) (obj : key) (hl : p.is_leaf = true)
    (hs : ids_sorted p.objects) (hm : ∃ e ∈ p.objects, e.id = obj.id) :
    0 ≤ p.search_node obj := by
  obtain ⟨e, he, hid⟩ := hm
  obtain ⟨i, hget⟩ := List.mem_iff_get.mp he
  have hid1 : (p.objects.get ⟨i.1, i.2⟩).id = obj.id := by rw [← hid, ← hget]
  have hlb := lower_bound_of_mem p.objects obj hs i.1 i.2 hid1
  rw [search_node_leaf p obj hl]
  unfold page.search_leaf
  have hl1 : (!p.is_leaf) = false := by simp [hl]
  simp only [hl1, Bool.false_eq_true, if_false]
  have hit : lower_bound p.objects obj < p.objects.length := by rw [hlb]; exact i.2
  rw [dif_pos hit]
  have hne : ¬ (p.objects.get ⟨lower_bound p.objects obj, hit⟩).ne obj = true := by
    have : (p.objects.get ⟨lower_bound p.objects obj, hit⟩).id = obj.id := by
      simp only [hlb]; exact hid1
    simpa [key.ne] using this
  rw [if_neg hne]
  omega

/-- C28, as amended: when the descent for the probe key with the id
`start_id` ends at the page `p`, `begin(start_id)` returns an iterator that
holds `p`.  Its position is that of an entry with the id `start_id`, or else
0; it is such an entry whenever `p` is a leaf with ascending ids that holds
one; it is 0 when no entry of `p` has the id, and when `p` is not a leaf. -/
theorem begin_stands_at_match_or_first (fuel : Nat) (idx : index) (t : transport)
    (start_id : Str) (p : page) (pos : Int)
    (h : index.search_at fuel t idx.m_sk { id := start_id, url := default } = .ok (p, pos)) :
    ∃ n, idx.begin fuel t start_id =
        .ok { m_page := p, m_page_index := 0, m_page_internal_index := n } ∧
      ((∃ e, p.objects.get? n = some e ∧ e.id = start_id) ∨ n = 0) ∧
      (p.is_leaf = true → ids_sorted p.objects → (∃ e ∈ p.objects, e.id = start_id) →
        ∃ e, p.objects.get? n = some e ∧ e.id = start_id) ∧
      ((∀ e ∈ p.objects, e.id ≠ start_id) → n = 0) ∧
      (p.is_leaf = false → n = 0) := by
  refine ⟨if pos < 0 then 0 else pos.toNat, ?_, ?_⟩
  · unfold index.begin
    rw [h]
  · rcases search_at_result _ fuel t idx.m_sk p pos h with ⟨hneg, hleaf⟩ | ⟨hl, hpos, hge⟩
    · rw [if_pos hneg]
      refine ⟨Or.inr rfl, ?_, fun _ => rfl, fun _ => rfl⟩
      intro hl hs hm
      have := search_node_leaf_finds p { id := start_id, url := default } hl hs hm
      rw [← hleaf hl] at this
      omega
    · rw [if_neg (by omega)]
      have hat := search_node_leaf_at p { id := start_id, url := default } hl
        (by rw [← hpos]; exact hge)
      rw [← hpos] at hat
      refine ⟨Or.inl hat, fun _ _ _ => hat, ?_, ?_⟩
      · intro hno
        obtain ⟨e, he, hid⟩ := hat
        exact absurd hid (hno e (List.get?_mem he))
      · intro hnl
        rw [hl] at hnl
        cases hnl
/-! ## Writes that some group accepts -/

theorem check_write (t : transport) (u : eurl) (b : blob) :
    index.check (t.write u b) =
      (if t.up_groups.isEmpty then - EIO_code else 0,
        (t.write_to t.groups u b).1.set_groups t.up_groups) := by
  unfold index.check transport.write
  simp only [write_to_replies]
  rfl

theorem check_write_code (t : transport) (u : eurl) (b : blob) (h : t.up_groups ≠ []) :
    (index.check (t.write u b)).1 = 0 := by
  rw [check_write]
  simp [h]

theorem check_write_down (t : transport) (u : eurl) (b : blob) :
    (index.check (t.write u b)).2.down = t.down := by
  rw [check_write]
  simp only [transport.set_groups]
  exact write_to_down _ _ _ _

theorem check_write_groups (t : transport) (u : eurl) (b : blob) :
    (index.check (t.write u b)).2.groups = t.up_groups := by
  rw [check_write]
  rfl

theorem check_write_up (t : transport) (u : eurl) (b : blob) :
    (index.check (t.write u b)).2.up_groups = t.up_groups := by
  unfold transport.up_groups
  rw [check_write_groups, check_write_down]
  unfold transport.up_groups
  rw [List.filter_filter]
  simp

theorem check_write_lookup (t : transport) (u : eurl) (b : blob) (g : Int) (v : eurl) :
    (index.check (t.write u b)).2.lookup g v =
      if g ∈ t.groups ∧ g ∉ t.down ∧ v = u then some b else t.lookup g v := by
  rw [check_write]
  have : ((t.write_to t.groups u b).1.set_groups t.up_groups).lookup g v =
      (t.write_to t.groups u b).1.lookup g v := rfl
  rw [this, lookup_write_to]

theorem mem_up_groups (t : transport) (g : Int) :
    g ∈ t.up_groups ↔ g ∈ t.groups ∧ g ∉ t.down := by
  unfold transport.up_groups
  simp [List.mem_filter]

theorem default_key_not_set : (default : key).to_bool = false := by decide

theorem insert_finish_up (idx : index) (t : transport) (page_key : eurl) (p split : page)
    (out : Int × transport × index × recursion)
    (h : idx.insert_finish t page_key p split = .ok out) :
    out.2.1.down = t.down ∧ out.2.1.up_groups = t.up_groups ∧
      idx.m_meta.num_pages ≤ out.2.2.1.m_meta.num_pages ∧
      (t.up_groups ≠ [] → out.2.2.2.split_key.to_bool = true →
        idx.m_meta.num_pages + 1 ≤ out.2.2.1.m_meta.num_pages) := by
  unfold index.insert_finish at h
  split at h
  · exact Except.noConfusion h
  · split at h
    · rw [← Except.ok.inj h]
      refine ⟨check_write_down _ _ _, check_write_up _ _ _, le_refl _, fun _ hk => ?_⟩
      exact absurd hk (by rw [default_key_not_set]; simp)
    · lift_lets at h
      extract_lets g split_key r split1 p1 c s4 s3 idx1 g2 old_root_key c2 n1 n2 s2 s1 s0 c2b at h
      have hcd : c.2.down = t.down := check_write_down _ _ _
      have hcu : c.2.up_groups = t.up_groups := check_write_up _ _ _
      have hc2d : c2.2.down = t.down := by rw [← hcd]; exact check_write_down _ _ _
      have hc2u : c2.2.up_groups = t.up_groups := by rw [← hcu]; exact check_write_up _ _ _
      have hbd : c2b.2.down = t.down := by rw [← hcd]; exact check_write_down _ _ _
      have hbu : c2b.2.up_groups = t.up_groups := by rw [← hcu]; exact check_write_up _ _ _
      have hg : g.2.m_meta.num_pages = idx.m_meta.num_pages := rfl
      have hg1 : idx1.m_meta.num_pages = idx.m_meta.num_pages + 1 := rfl
      have hg2 : g2.2.m_meta.num_pages = idx.m_meta.num_pages + 1 := rfl
      split at h
      · rename_i hne
        rw [← Except.ok.inj h]
        refine ⟨hcd, hcu, by rw [hg], fun hup _ => ?_⟩
        exact absurd (check_write_code _ _ _ hup) hne
      · split at h
        · split at h
          · rw [← Except.ok.inj h]
            exact ⟨hc2d, hc2u, by rw [hg2]; omega, fun _ _ => by rw [hg2]⟩
          · cases hn : n2.1.objects with
            | nil =>
              simp only [hn] at h
              exact Except.noConfusion h
            | cons root_front tail =>
              simp only [hn] at h
              have h3d : ∀ x : blob, (index.check (c2.2.write idx.m_sk x)).2.down = t.down :=
                fun x => by rw [← hc2d]; exact check_write_down _ _ _
              have h3u : ∀ x : blob,
                  (index.check (c2.2.write idx.m_sk x)).2.up_groups = t.up_groups :=
                fun x => by rw [← hc2u]; exact check_write_up _ _ _
              split at h
              · rw [← Except.ok.inj h]
                exact ⟨h3d _, h3u _, by rw [hg2]; omega, fun _ _ => by rw [hg2]⟩
              · rw [← Except.ok.inj h]
                refine ⟨h3d _, h3u _, ?_, fun _ _ => ?_⟩
                · show idx.m_meta.num_pages ≤ g2.2.m_meta.num_pages + 1
                  rw [hg2]; omega
                · show idx.m_meta.num_pages + 1 ≤ g2.2.m_meta.num_pages + 1
                  rw [hg2]; omega
        · rw [← Except.ok.inj h]
          exact ⟨hbd, hbu, by rw [hg1]; omega, fun _ _ => by rw [hg1]⟩

theorem insert_first_leaf_up (idx : index) (t : transport) (r : recursion)
    (page_key : eurl) (p : page) (obj : key) :
    (idx.insert_first_leaf t r page_key p obj).2.1.down = t.down ∧
      (idx.insert_first_leaf t r page_key p obj).2.1.up_groups = t.up_groups ∧
      idx.m_meta.num_pages ≤ (idx.insert_first_leaf t r page_key p obj).2.2.1.m_meta.num_pages ∧
      (idx.insert_first_leaf t r page_key p obj).2.2.2 = r := by
  unfold index.insert_first_leaf
  lift_lets
  extract_lets g leaf_key l c q s p1 c2 s1 s2
  have hcd : c.2.down = t.down := check_write_down _ _ _
  have hcu : c.2.up_groups = t.up_groups := check_write_up _ _ _
  have hc2d : c2.2.down = t.down := by rw [← hcd]; exact check_write_down _ _ _
  have hc2u : c2.2.up_groups = t.up_groups := by rw [← hcu]; exact check_write_up _ _ _
  have hg : g.2.m_meta.num_pages = idx.m_meta.num_pages := rfl
  split
  · exact ⟨hcd, hcu, by rw [hg], rfl⟩
  · split
    · exact ⟨hc2d, hc2u, by rw [hg], rfl⟩
    · refine ⟨hc2d, hc2u, ?_, rfl⟩
      show idx.m_meta.num_pages ≤ g.2.m_meta.num_pages + 1
      rw [hg]; omega

theorem insert_at_up (obj : key) :
    ∀ (fuel : Nat) (idx : index) (t : transport) (r : recursion) (page_key : eurl)
      (out : Int × transport × index × recursion),
      index.insert_at fuel idx t r page_key obj = .ok out →
      out.2.1.down = t.down ∧ out.2.1.up_groups = t.up_groups ∧
        idx.m_meta.num_pages ≤ out.2.2.1.m_meta.num_pages ∧
        (t.up_groups ≠ [] → r.split_key.to_bool = false →
          out.2.2.2.split_key.to_bool = true →
          idx.m_meta.num_pages + 1 ≤ out.2.2.1.m_meta.num_pages) := by
  intro fuel
  induction fuel with
  | zero => intro idx t r page_key out h; simp [index.insert_at] at h
  | succ fuel ih =>
    intro idx t r page_key out h
    unfold index.insert_at at h
    cases hread : t.read page_key with
    | error code =>
      rw [hread] at h
      simp only [Except.ok.injEq] at h
      subst h
      exact ⟨rfl, rfl, le_refl _, fun _ h1 h2 => by rw [h1] at h2; cases h2⟩
    | ok b =>
      rw [hread] at h
      simp only at h
      cases hload : page.load b with
      | error e => rw [hload] at h; simp at h
      | ok p =>
        rw [hload] at h
        simp only at h
        by_cases hl : (!p.is_leaf) = true
        · rw [if_pos hl] at h
          by_cases hneg : p.search_node obj < 0
          · rw [if_pos hneg] at h
            simp only [Except.ok.injEq] at h
            subst h
            obtain ⟨h1, h2, h3, h4⟩ := insert_first_leaf_up idx t r page_key p obj
            exact ⟨h1, h2, h3, fun _ h5 h6 => by rw [h4, h5] at h6; cases h6⟩
          · rw [if_neg hneg] at h
            cases hrec : index.insert_at fuel idx t r
                (p.objects.getD (p.search_node obj).toNat default).url obj with
            | error e => rw [hrec] at h; simp at h
            | ok o =>
              obtain ⟨c1, t1, idx1, r1⟩ := o
              rw [hrec] at h
              simp only at h
              obtain ⟨h1, h2, h3, _⟩ := ih idx t r _ _ hrec
              simp only at h1 h2 h3
              split at h
              · simp only [Except.ok.injEq] at h
                subst h
                exact ⟨h1, h2, h3, fun _ _ h6 => by
                  rw [default_key_not_set] at h6; cases h6⟩
              · obtain ⟨f1, f2, f3, f4⟩ := insert_finish_up _ _ _ _ _ _ h
                refine ⟨by rw [f1, h1], by rw [f2, h2], le_trans h3 f3, fun hup _ hk => ?_⟩
                have := f4 (by rw [h2]; exact hup) hk
                omega
        · rw [if_neg hl] at h
          obtain ⟨f1, f2, f3, f4⟩ := insert_finish_up _ _ _ _ _ _ h
          exact ⟨f1, f2, f3, fun hup _ hk => f4 hup hk⟩

/-! ## `page_index` never falls -/

theorem insert_finish_page_index (idx : index) (t : transport) (page_key : eurl) (p split : page)
    (out : Int × transport × index × recursion)
    (h : idx.insert_finish t page_key p split = .ok out) :
    idx.m_meta.page_index ≤ out.2.2.1.m_meta.page_index := by
  unfold index.insert_finish at h
  split at h
  · exact Except.noConfusion h
  · split at h
    · rw [← Except.ok.inj h]
    · lift_lets at h
      extract_lets g split_key r split1 p1 c s4 s3 idx1 g2 old_root_key c2 n1 n2 s2 s1 s0 c2b at h
      have hg : idx.m_meta.page_index ≤ g.2.m_meta.page_index := by
        dsimp only [g, index.generate_page_url]; omega
      have hg1 : idx.m_meta.page_index ≤ idx1.m_meta.page_index := by
        dsimp only [idx1, s3, g, index.generate_page_url]; omega
      have hg2 : idx.m_meta.page_index ≤ g2.2.m_meta.page_index := by
        dsimp only [g2, idx1, s3, g, index.generate_page_url]; omega
      split at h
      · rw [← Except.ok.inj h]; exact hg
      · split at h
        · split at h
          · rw [← Except.ok.inj h]; exact hg2
          · cases hn : n2.1.objects with
            | nil =>
              simp only [hn] at h
              exact Except.noConfusion h
            | cons root_front tail =>
              simp only [hn] at h
              split at h
              · rw [← Except.ok.inj h]; exact hg2
              · rw [← Except.ok.inj h]
                dsimp only [s0]
                exact hg2
        · rw [← Except.ok.inj h]; exact hg1

theorem insert_first_leaf_page_index (idx : index) (t : transport) (r : recursion)
    (page_key : eurl) (p : page) (obj : key) :
    idx.m_meta.page_index ≤
      (idx.insert_first_leaf t r page_key p obj).2.2.1.m_meta.page_index := by
  unfold index.insert_first_leaf
  lift_lets
  extract_lets g leaf_key l c q s p1 c2 s1 s2
  have hg : idx.m_meta.page_index ≤ g.2.m_meta.page_index := by
    dsimp only [g, index.generate_page_url]; omega
  split
  · exact hg
  · split
    · exact hg
    · dsimp only [s2]
      exact hg

theorem insert_at_page_index (obj : key) :
    ∀ (fuel : Nat) (idx : index) (t : transport) (r : recursion) (page_key : eurl)
      (out : Int × transport × index × recursion),
      index.insert_at fuel idx t r page_key obj = .ok out →
      idx.m_meta.page_index ≤ out.2.2.1.m_meta.page_index := by
  intro fuel
  induction fuel with
  | zero => intro idx t r page_key out h; simp [index.insert_at] at h
  | succ fuel ih =>
    intro idx t r page_key out h
    unfold index.insert_at at h
    cases hread : t.read page_key with
    | error code =>
      rw [hread] at h
      simp only [Except.ok.injEq] at h
      subst h; exact le_refl _
    | ok b =>
      rw [hread] at h
      simp only at h
      cases hload : page.load b with
      | error e => rw [hload] at h; simp at h
      | ok p =>
        rw [hload] at h
        simp only at h
        by_cases hl : (!p.is_leaf) = true
        · rw [if_pos hl] at h
          by_cases hneg : p.search_node obj < 0
          · rw [if_pos hneg] at h
            simp only [Except.ok.injEq] at h
            subst h
            exact insert_first_leaf_page_index idx t r page_key p obj
          · rw [if_neg hneg] at h
            cases hrec : index.insert_at fuel idx t r
                (p.objects.getD (p.search_node obj).toNat default).url obj with
            | error e => rw [hrec] at h; simp at h
            | ok o =>
              obtain ⟨c1, t1, idx1, r1⟩ := o
              rw [hrec] at h
              simp only at h
              have h1 := ih idx t r _ _ hrec
              simp only at h1
              split at h
              · simp only [Except.ok.injEq] at h
                subst h
                exact h1
              · exact le_trans h1 (insert_finish_page_index _ _ _ _ _ _ h)
        · rw [if_neg hl] at h
          exact insert_finish_page_index _ _ _ _ _ _ h

/-- The promotion step on a transport in which some active group answers:
`split` goes to the fresh url S, `p` to the next fresh url U, the new root
with the two routing entries to the start url, in every group that answers;
`num_pages` grows by 2. -/
theorem root_promotion_step (t : transport) (idx : index) (p split : page)
    (front sfront : key) (rest srest : List key) (hup : t.up_groups ≠ [])
    (hp : p.objects = front :: rest) (hs : split.objects = sfront :: srest)
    (hlt : front.id < sfront.id)
    (hfit : (key.mk front.id (page_url idx.m_sk (idx.m_meta.page_index + 1))).size +
      (key.mk sfront.id (page_url idx.m_sk idx.m_meta.page_index)).size ≤ max_page_size) :
    ∃ (t1 : transport) (idx1 : index) (r : recursion) (total : Nat),
      idx.insert_finish t idx.m_sk p split = .ok (0, t1, idx1, r) ∧
      t1.down = t.down ∧ t1.groups = t.up_groups ∧
      (∀ g ∈ t.groups, g ∉ t.down →
        t1.lookup g (page_url idx.m_sk idx.m_meta.page_index) =
          some (blob.page { split with next := p.next }) ∧
        t1.lookup g (page_url idx.m_sk (idx.m_meta.page_index + 1)) =
          some (blob.page { p with next := page_url idx.m_sk idx.m_meta.page_index }) ∧
        t1.lookup g idx.m_sk =
          some (blob.page
            { flags := 0,
              objects := [⟨front.id, page_url idx.m_sk (idx.m_meta.page_index + 1)⟩,
                          ⟨sfront.id, page_url idx.m_sk idx.m_meta.page_index⟩],
              total_size := total,
              next := page_url idx.m_sk (idx.m_meta.page_index + 1) })) ∧
      idx1.m_sk = idx.m_sk ∧
      idx1.m_meta.num_pages = idx.m_meta.num_pages + 2 ∧
      idx1.m_meta.page_index = idx.m_meta.page_index + 2 ∧
      idx1.m_meta.generation_number = idx.m_meta.generation_number := by
  have hk1 : (key.mk front.id (page_url idx.m_sk (idx.m_meta.page_index + 1))).size ≤
      max_page_size := by omega
  have hne1 : page_url idx.m_sk (idx.m_meta.page_index + 1) ≠
      page_url idx.m_sk idx.m_meta.page_index := by
    intro h
    have := page_url_injective _ _ _ h
    omega
  have hne2 : idx.m_sk ≠ page_url idx.m_sk (idx.m_meta.page_index + 1) :=
    fun h => page_url_ne_sk _ _ h.symm
  have hne3 : idx.m_sk ≠ page_url idx.m_sk idx.m_meta.page_index :=
    fun h => page_url_ne_sk _ _ h.symm
  have h2 := new_root_insert_second
    (key.mk front.id (page_url idx.m_sk (idx.m_meta.page_index + 1)))
    (key.mk sfront.id (page_url idx.m_sk idx.m_meta.page_index)) (page.new false) hlt hfit
  have hc1 : ∀ (u : eurl) (x : blob), (index.check (t.write u x)).1 = 0 :=
    fun u x => check_write_code t u x hup
  have hc2 : ∀ (u v : eurl) (x y : blob),
      (index.check ((index.check (t.write u x)).2.write v y)).1 = 0 :=
    fun u v x y => check_write_code _ v y (by rw [check_write_up]; exact hup)
  have hc3 : ∀ (u v w : eurl) (x y z : blob),
      (index.check ((index.check ((index.check (t.write u x)).2.write v y)).2.write w z)).1 =
        0 :=
    fun u v w x y z => check_write_code _ w z (by rw [check_write_up, check_write_up]; exact hup)
  have hzero : ¬ ((0 : Int) ≠ 0) := by simp
  unfold index.insert_finish
  simp only [hp, hs, generate_page_url_eq, page.save, hc1, hc2, hc3, hzero, if_false,
    if_true, new_page_insert_first _ _ hk1, h2]
  refine ⟨?tr1, ?ix1, ?rc1, ?tot1, ?eq1, ?rest1⟩
  case eq1 => exact rfl
  case tot1 =>
    exact (key.mk front.id (page_url idx.m_sk (idx.m_meta.page_index + 1))).size +
      (key.mk sfront.id (page_url idx.m_sk idx.m_meta.page_index)).size
  case rest1 =>
    refine ⟨?_, ?_, ?_, rfl, rfl, rfl, rfl⟩
    · rw [check_write_down, check_write_down, check_write_down]
    · rw [check_write_groups, check_write_up, check_write_up]
    · intro g hg hd
      have hmem : g ∈ t.up_groups := (mem_up_groups t g).2 ⟨hg, hd⟩
      refine ⟨?_, ?_, ?_⟩
      · rw [check_write_lookup, if_neg (fun h => hne3 h.2.2.symm), check_write_lookup,
          if_neg (fun h => hne1 h.2.2.symm), check_write_lookup, if_pos ⟨hg, hd, rfl⟩]
      · rw [check_write_lookup, if_neg (fun h => hne2 h.2.2.symm), check_write_lookup,
          if_pos ⟨by rw [check_write_groups]; exact hmem, by rw [check_write_down]; exact hd,
            rfl⟩]
      · rw [check_write_lookup, if_pos ⟨by rw [check_write_groups, check_write_up]; exact hmem,
          by rw [check_write_down, check_write_down]; exact hd, rfl⟩]

theorem insert_finish_sk (idx : index) (t : transport) (page_key : eurl) (p split : page)
    (out : Int × transport × index × recursion)
    (h : idx.insert_finish t page_key p split = .ok out) : out.2.2.1.m_sk = idx.m_sk := by
  unfold index.insert_finish at h
  split at h
  · exact Except.noConfusion h
  · split at h
    · rw [← Except.ok.inj h]
    · lift_lets at h
      extract_lets g split_key r split1 p1 c s4 s3 idx1 g2 old_root_key c2 n1 n2 s2 s1 s0 c2b at h
      split at h
      · rw [← Except.ok.inj h]; rfl
      · split at h
        · split at h
          · rw [← Except.ok.inj h]; rfl
          · cases hn : n2.1.objects with
            | nil =>
              simp only [hn] at h
              exact Except.noConfusion h
            | cons root_front tail =>
              simp only [hn] at h
              split at h
              · rw [← Except.ok.inj h]; rfl
              · rw [← Except.ok.inj h]; rfl
        · rw [← Except.ok.inj h]; rfl

theorem insert_first_leaf_sk (idx : index) (t : transport) (r : recursion)
    (page_key : eurl) (p : page) (obj : key) :
    (idx.insert_first_leaf t r page_key p obj).2.2.1.m_sk = idx.m_sk := by
  unfold index.insert_first_leaf
  lift_lets
  extract_lets g leaf_key l c q s p1 c2 s1 s2
  split
  · rfl
  · split
    · rfl
    · rfl

theorem insert_at_sk (obj : key) :
    ∀ (fuel : Nat) (idx : index) (t : transport) (r : recursion) (page_key : eurl)
      (out : Int × transport × index × recursion),
      index.insert_at fuel idx t r page_key obj = .ok out → out.2.2.1.m_sk = idx.m_sk := by
  intro fuel
  induction fuel with
  | zero => intro idx t r page_key out h; simp [index.insert_at] at h
  | succ fuel ih =>
    intro idx t r page_key out h
    unfold index.insert_at at h
    cases hread : t.read page_key with
    | error code =>
      rw [hread] at h
      simp only [Except.ok.injEq] at h
      subst h; rfl
    | ok b =>
      rw [hread] at h
      simp only at h
      cases hload : page.load b with
      | error e => rw [hload] at h; simp at h
      | ok p =>
        rw [hload] at h
        simp only at h
        by_cases hl : (!p.is_leaf) = true
        · rw [if_pos hl] at h
          by_cases hneg : p.search_node obj < 0
          · rw [if_pos hneg] at h
            simp only [Except.ok.injEq] at h
            subst h
            exact insert_first_leaf_sk idx t r page_key p obj
          · rw [if_neg hneg] at h
            cases hrec : index.insert_at fuel idx t r
                (p.objects.getD (p.search_node obj).toNat default).url obj with
            | error e => rw [hrec] at h; simp at h
            | ok o =>
              obtain ⟨c1, t1, idx1, r1⟩ := o
              rw [hrec] at h
              simp only at h
              have h1 := ih idx t r _ _ hrec
              simp only at h1
              split at h
              · simp only [Except.ok.injEq] at h
                subst h
                exact h1
              · rw [insert_finish_sk _ _ _ _ _ _ h, h1]
        · rw [if_neg hl] at h
          exact insert_finish_sk _ _ _ _ _ _ h

theorem lookup_meta_write_other (idx : index) (t : transport) (g : Int) (v : eurl)
    (hv : v ≠ idx.meta_key) : (idx.meta_write t).lookup g v = t.lookup g v := by
  unfold index.meta_write transport.write
  rw [lookup_write_to, if_neg (fun h => hv h.2.2)]

/-- C30, as amended: an insert whose descent below the start url returned
with a split key, and for which the page at the start url then splits into
`lower` and `upper`, on a transport in which some active group answers, with
the first id of `lower` below the first id of `upper` and the two routing
entries of the new root fitting in one page.  The insert returns 0.  Every
group that answers then holds `upper` at the fresh url S with the old `next`
of the page, `lower` at the next fresh url U with `next` S, and at the start
url a non-leaf page with exactly the entries (first id of `lower`, U) and
(first id of `upper`, S) and `next` U.  `num_pages` is 2 higher than the
descent left it, and at least 3 higher than before the insert. -/
theorem root_split_insert (fuel : Nat) (idx : index) (t : transport) (obj : key)
    (p p1 lower upper : page) (c1 : Int) (t1 : transport) (idx1 : index) (r1 : recursion)
    (front sfront : key) (rest srest : List key)
    (hup : t.up_groups ≠ [])
    (hread : t.read idx.m_sk = .ok (blob.page p)) (hnl : p.is_leaf = false)
    (hpos : 0 ≤ p.search_node obj)
    (hchild : index.insert_at fuel idx t default
        (p.objects.getD (p.search_node obj).toNat default).url obj = .ok (c1, t1, idx1, r1))
    (hkey : r1.split_key.to_bool = true)
    (hp1 : p1 =
      if (p.objects.getD (p.search_node obj).toNat default).ne r1.page_start then
        { p with objects := (p.objects.set (p.search_node obj).toNat
            (key.mk r1.page_start.id (p.objects.getD (p.search_node obj).toNat default).url)) }
      else p)
    (hsplit : p1.insert_and_split r1.split_key (page.new false) = (lower, upper, true))
    (hlow : lower.objects = front :: rest) (hupper : upper.objects = sfront :: srest)
    (hlt : front.id < sfront.id)
    (hfit : (key.mk front.id (page_url idx.m_sk (idx1.m_meta.page_index + 1))).size +
      (key.mk sfront.id (page_url idx.m_sk idx1.m_meta.page_index)).size ≤ max_page_size) :
    ∃ (t2 : transport) (idx2 : index) (total : Nat),
      index.insert (fuel + 1) idx t obj = .ok (0, t2, idx2) ∧
      (∀ g ∈ t.groups, g ∉ t.down →
        t2.lookup g (page_url idx.m_sk idx1.m_meta.page_index) =
          some (blob.page { upper with next := lower.next }) ∧
        t2.lookup g (page_url idx.m_sk (idx1.m_meta.page_index + 1)) =
          some (blob.page { lower with next := page_url idx.m_sk idx1.m_meta.page_index }) ∧
        t2.lookup g idx.m_sk =
          some (blob.page
            { flags := 0,
              objects := [⟨front.id, page_url idx.m_sk (idx1.m_meta.page_index + 1)⟩,
                          ⟨sfront.id, page_url idx.m_sk idx1.m_meta.page_index⟩],
              total_size := total,
              next := page_url idx.m_sk (idx1.m_meta.page_index + 1) })) ∧
      (page.mk 0 [] 0 default).is_leaf = false ∧
      idx.m_meta.page_index ≤ idx1.m_meta.page_index ∧
      idx2.m_meta.num_pages = idx1.m_meta.num_pages + 2 ∧
      idx.m_meta.num_pages + 3 ≤ idx2.m_meta.num_pages := by
  have hsk : idx1.m_sk = idx.m_sk := insert_at_sk obj fuel idx t default _ _ hchild
  obtain ⟨hd1, hu1, _, hnum⟩ := insert_at_up obj fuel idx t default _ _ hchild
  simp only at hd1 hu1 hnum
  have hn1 : idx.m_meta.num_pages + 1 ≤ idx1.m_meta.num_pages :=
    hnum hup default_key_not_set hkey
  have hup1 : t1.up_groups ≠ [] := by rw [hu1]; exact hup
  have hfit1 : (key.mk front.id (page_url idx1.m_sk (idx1.m_meta.page_index + 1))).size +
      (key.mk sfront.id (page_url idx1.m_sk idx1.m_meta.page_index)).size ≤ max_page_size := by
    rw [hsk]; exact hfit
  obtain ⟨tP, idxP, rP, total, hfin, hPd, hPg, hPl, hPsk, hPn, hPi, hPgen⟩ :=
    root_promotion_step t1 idx1 lower upper front sfront rest srest hup1 hlow hupper hlt hfit1
  have hat : index.insert_at (fuel + 1) idx t default idx.m_sk obj = .ok (0, tP, idxP, rP) := by
    unfold index.insert_at
    rw [hread]
    have hl : (!p.is_leaf) = true := by simp [hnl]
    have hneg : ¬ p.search_node obj < 0 := by omega
    simp only [page.load, hl, if_true, hneg, if_false, hchild, hkey, Bool.not_true,
      Bool.and_false, Bool.false_eq_true, ← hp1, hsplit]
    rw [← hsk]
    exact hfin
  refine ⟨index.meta_write { idxP with m_meta := { idxP.m_meta with
      generation_number := idxP.m_meta.generation_number + 1 } } tP,
    { idxP with m_meta := { idxP.m_meta with
      generation_number := idxP.m_meta.generation_number + 1 } },
    total, ?_, ?_, by decide, ?_, ?_, ?_⟩
  · unfold index.insert
    rw [hat]
    simp only [lt_self_iff_false, if_false]
  · intro g hg hd
    have hmem1 : g ∈ t1.up_groups := by rw [hu1]; exact (mem_up_groups t g).2 ⟨hg, hd⟩
    obtain ⟨hg1, hd1g⟩ := (mem_up_groups t1 g).1 hmem1
    obtain ⟨l1, l2, l3⟩ := hPl g hg1 hd1g
    rw [hsk] at l1 l2 l3
    have hmk : ∀ x : index_meta, (index.mk idxP.m_sk x).meta_key = idx.meta_key := by
      intro x
      unfold index.meta_key
      rw [hPsk, hsk]
    refine ⟨?_, ?_, ?_⟩
    · rw [lookup_meta_write_other _ _ _ _ (by rw [hmk]; exact page_url_ne_meta idx _)]
      exact l1
    · rw [lookup_meta_write_other _ _ _ _ (by rw [hmk]; exact page_url_ne_meta idx _)]
      exact l2
    · rw [lookup_meta_write_other _ _ _ _ (by rw [hmk]; exact sk_ne_meta idx)]
      exact l3
  · exact insert_at_page_index obj fuel idx t default _ _ hchild
  · exact hPn
  · show idx.m_meta.num_pages + 3 ≤ idxP.m_meta.num_pages
    omega

/-! ## The counters and the stored pages -/

theorem allocated_succ (sk : eurl) (n : Nat) :
    allocated sk (n + 1) = allocated sk n ++ [page_url sk n] := by
  unfold allocated
  rw [List.range_succ, List.map_append]
  rfl

theorem allocated_nodup (sk : eurl) (n : Nat) : (allocated sk n).Nodup := by
  unfold allocated
  rw [List.nodup_cons]
  constructor
  · intro h
    simp only [List.mem_map, List.mem_range] at h
    obtain ⟨i, _, hi⟩ := h
    exact page_url_ne_sk sk i hi
  · apply List.Nodup.map_on _ (List.nodup_range n)
    intro a _ b _ hab
    exact page_url_injective sk a b hab

theorem mem_allocated (sk : eurl) (n : Nat) (u : eurl) :
    u ∈ allocated sk n ↔ u = sk ∨ ∃ i, i < n ∧ u = page_url sk i := by
  unfold allocated
  simp only [List.mem_cons, List.mem_map, List.mem_range]
  constructor
  · rintro (h | ⟨i, hi, h⟩)
    · exact Or.inl h
    · exact Or.inr ⟨i, hi, h.symm⟩
  · rintro (h | ⟨i, hi, h⟩)
    · exact Or.inl h
    · exact Or.inr ⟨i, hi, h.symm⟩

theorem mem_allocated_mono (sk : eurl) (n m : Nat) (h : n ≤ m) (u : eurl)
    (hu : u ∈ allocated sk n) : u ∈ allocated sk m := by
  rw [mem_allocated] at hu ⊢
  rcases hu with hu | ⟨i, hi, hu⟩
  · exact Or.inl hu
  · exact Or.inr ⟨i, by omega, hu⟩

theorem fresh_not_allocated (sk : eurl) (n : Nat) : page_url sk n ∉ allocated sk n := by
  rw [mem_allocated]
  rintro (h | ⟨i, hi, h⟩)
  · exact page_url_ne_sk sk n h
  · have := page_url_injective sk n i h
    omega

theorem meta_key_not_allocated (idx : index) (n : Nat) : idx.meta_key ∉ allocated idx.m_sk n := by
  rw [mem_allocated]
  rintro (h | ⟨i, _, h⟩)
  · exact sk_ne_meta idx h.symm
  · exact page_url_ne_meta idx i h.symm

/-- A count over a list without repetitions drops by one when the predicate
is switched off at one member where it held. -/
theorem countP_switch_off {α : Type} [DecidableEq α] (P Q : α → Bool) (a : α) :
    ∀ l : List α, l.Nodup → a ∈ l → P a = true → Q a = false →
      (∀ x, x ≠ a → Q x = P x) → l.countP Q + 1 = l.countP P := by
  intro l
  induction l with
  | nil => intro _ h; cases h
  | cons x xs ih =>
    intro hnd hmem hP hQ hagree
    rw [List.nodup_cons] at hnd
    by_cases hx : x = a
    · subst hx
      have hrest : xs.countP Q = xs.countP P := by
        apply List.countP_congr
        intro y hy
        have : y ≠ x := fun h => hnd.1 (h ▸ hy)
        rw [hagree y this]
      rw [List.countP_cons_of_neg _ _ (by simp [hQ]), List.countP_cons_of_pos _ _ hP, hrest]
    · have hmem2 : a ∈ xs := by
        rcases List.mem_cons.mp hmem with h | h
        · exact absurd h.symm hx
        · exact h
      have := ih hnd.2 hmem2 hP hQ hagree
      rw [List.countP_cons, List.countP_cons, hagree x hx]
      omega

theorem is_leaf_of_flags (p q : page) (h : p.flags = q.flags) : p.is_leaf = q.is_leaf := by
  unfold page.is_leaf
  rw [h]

theorem page_at_filter (g : Int) (b : Blobs) (u v : eurl) :
    page_at g (b.filter fun e => decide (e.1 ≠ (g, u))) v =
      if v = u then none else page_at g b v := by
  unfold page_at
  have hl : List.lookup (g, v) (b.filter fun e => decide (e.1 ≠ (g, u))) =
      if v = u then none else List.lookup (g, v) b := by
    induction b with
    | nil => simp [List.lookup]
    | cons e rest ih =>
      obtain ⟨k, x⟩ := e
      by_cases hk : k = (g, u)
      · subst hk
        rw [List.filter_cons_of_neg (by simp), ih]
        by_cases hv : v = u
        · simp [hv]
        · have : ((g, v) == (g, u)) = false := by simp [hv]
          simp [hv, List.lookup, this]
      · rw [List.filter_cons_of_pos (by simpa using hk)]
        by_cases hkv : (g, v) = k
        · subst hkv
          have hvu : v ≠ u := fun h => hk (by rw [h])
          simp [List.lookup, hvu]
        · have : ((g, v) == k) = false := by simpa using hkv
          simp only [List.lookup, this]
          exact ih
  rw [hl]
  by_cases hv : v = u <;> simp [hv]

theorem holds_page_cons (g : Int) (b : Blobs) (u v : eurl) (p : page) :
    holds_page g (((g, u), blob.page p) :: b) v = if v = u then true else holds_page g b v := by
  unfold holds_page
  rw [page_at_cons_page]
  by_cases h : v = u <;> simp [h]

theorem holds_leaf_cons (g : Int) (b : Blobs) (u v : eurl) (p : page) :
    holds_leaf g (((g, u), blob.page p) :: b) v =
      if v = u then p.is_leaf else holds_leaf g b v := by
  unfold holds_leaf
  rw [page_at_cons_page]
  by_cases h : v = u <;> simp [h]

/-- Writing a page over a stored page of the same kind keeps the counters true. -/
theorem counted_overwrite (g : Int) (sk : eurl) (b : Blobs) (m : index_meta) (u : eurl)
    (p0 p : page) (hc : counted g sk b m) (h0 : page_at g b u = some p0)
    (hl : p.is_leaf = p0.is_leaf) :
    counted g sk (((g, u), blob.page p) :: b) m ∧ pages_kept g b (((g, u), blob.page p) :: b) := by
  obtain ⟨h1, ⟨r, hr, hrl⟩, h3, h4⟩ := hc
  refine ⟨⟨?_, ?_, ?_, ?_⟩, ?_⟩
  · intro v q hq
    rw [page_at_cons_page] at hq
    by_cases hv : v = u
    · subst hv; exact h1 v p0 h0
    · rw [if_neg hv] at hq; exact h1 v q hq
  · by_cases hs : sk = u
    · subst hs
      refine ⟨p, by rw [page_at_cons_page, if_pos rfl], ?_⟩
      rw [hr] at h0
      simp only [Option.some.injEq] at h0
      rw [hl, ← h0, hrl]
    · exact ⟨r, by rw [page_at_cons_page, if_neg hs]; exact hr, hrl⟩
  · rw [h3]
    unfold stored_pages
    apply List.countP_congr
    intro v _
    rw [holds_page_cons]
    by_cases hv : v = u
    · subst hv; simp [holds_page, h0]
    · simp [hv]
  · rw [h4]
    unfold stored_leaves
    apply List.countP_congr
    intro v _
    rw [holds_leaf_cons]
    by_cases hv : v = u
    · subst hv; simp [holds_leaf, h0, hl]
    · simp [hv]
  · intro v q hq
    rw [page_at_cons_page]
    by_cases hv : v = u
    · subst hv
      rw [h0] at hq
      simp only [Option.some.injEq] at hq
      exact ⟨p, by rw [if_pos rfl], by rw [hl, hq]⟩
    · exact ⟨q, by rw [if_neg hv]; exact hq, rfl⟩

/-- Writing a page under the next fresh url, with the counters raised, keeps them true. -/
theorem counted_allocate (g : Int) (sk : eurl) (b : Blobs) (m : index_meta) (p : page)
    (hc : counted g sk b m) :
    counted g sk (((g, page_url sk m.page_index), blob.page p) :: b)
        { m with page_index := m.page_index + 1, num_pages := m.num_pages + 1,
                 num_leaf_pages := if p.is_leaf then m.num_leaf_pages + 1 else m.num_leaf_pages } ∧
      pages_kept g b (((g, page_url sk m.page_index), blob.page p) :: b) := by
  obtain ⟨h1, ⟨r, hr, hrl⟩, h3, h4⟩ := hc
  have hfresh := fresh_not_allocated sk m.page_index
  have hnone : page_at g b (page_url sk m.page_index) = none := by
    cases hq : page_at g b (page_url sk m.page_index) with
    | none => rfl
    | some q => exact absurd (h1 _ q hq) hfresh
  refine ⟨⟨?_, ?_, ?_, ?_⟩, ?_⟩
  · intro v q hq
    rw [page_at_cons_page] at hq
    by_cases hv : v = page_url sk m.page_index
    · subst hv
      rw [allocated_succ]
      simp
    · rw [if_neg hv] at hq
      exact mem_allocated_mono sk _ _ (Nat.le_succ _) v (h1 v q hq)
  · refine ⟨r, ?_, hrl⟩
    rw [page_at_cons_page, if_neg (fun h => page_url_ne_sk sk _ h.symm)]
    exact hr
  · simp only
    unfold stored_pages
    rw [allocated_succ, List.countP_append, h3]
    unfold stored_pages
    have e1 : (allocated sk m.page_index).countP
        (holds_page g (((g, page_url sk m.page_index), blob.page p) :: b)) =
        (allocated sk m.page_index).countP (holds_page g b) := by
      apply List.countP_congr
      intro v hv
      rw [holds_page_cons, if_neg (fun h : v = page_url sk m.page_index => hfresh (h ▸ hv))]
    rw [e1]
    simp [holds_page_cons]
  · simp only
    unfold stored_leaves
    rw [allocated_succ, List.countP_append]
    have e1 : (allocated sk m.page_index).countP
        (holds_leaf g (((g, page_url sk m.page_index), blob.page p) :: b)) =
        (allocated sk m.page_index).countP (holds_leaf g b) := by
      apply List.countP_congr
      intro v hv
      rw [holds_leaf_cons, if_neg (fun h : v = page_url sk m.page_index => hfresh (h ▸ hv))]
    rw [e1]
    by_cases hl : p.is_leaf = true
    · rw [if_pos hl, h4]
      unfold stored_leaves
      simp [holds_leaf_cons, hl]
    · rw [if_neg hl, h4]
      unfold stored_leaves
      simp [holds_leaf_cons, hl]
  · intro v q hq
    rw [page_at_cons_page]
    by_cases hv : v = page_url sk m.page_index
    · subst hv
      rw [hnone] at hq
      cases hq
    · exact ⟨q, by rw [if_neg hv]; exact hq, rfl⟩

/-- Writing the meta keeps the counters true. -/
theorem counted_meta (g : Int) (idx : index) (b : Blobs) (m m1 : index_meta)
    (hc : counted g idx.m_sk b m) :
    counted g idx.m_sk (((g, idx.meta_key), blob.meta m1) :: b) m ∧
      pages_kept g b (((g, idx.meta_key), blob.meta m1) :: b) := by
  have hnone : page_at g b idx.meta_key = none := by
    cases hq : page_at g b idx.meta_key with
    | none => rfl
    | some q => exact absurd (hc.1 _ q hq) (meta_key_not_allocated idx _)
  have hsame : ∀ v, page_at g (((g, idx.meta_key), blob.meta m1) :: b) v = page_at g b v := by
    intro v
    rw [page_at_cons_meta]
    by_cases hv : v = idx.meta_key
    · rw [if_pos hv, hv, hnone]
    · rw [if_neg hv]
  obtain ⟨h1, ⟨r, hr, hrl⟩, h3, h4⟩ := hc
  refine ⟨⟨?_, ?_, ?_, ?_⟩, ?_⟩
  · intro v q hq
    rw [hsame] at hq
    exact h1 v q hq
  · exact ⟨r, by rw [hsame]; exact hr, hrl⟩
  · rw [h3]
    unfold stored_pages
    apply List.countP_congr
    intro v _
    unfold holds_page
    rw [hsame]
  · rw [h4]
    unfold stored_leaves
    apply List.countP_congr
    intro v _
    unfold holds_leaf
    rw [hsame]
  · intro v q hq
    exact ⟨q, by rw [hsame]; exact hq, rfl⟩

theorem pages_kept_refl (g : Int) (b : Blobs) : pages_kept g b b :=
  fun _ p hp => ⟨p, hp, rfl⟩

theorem pages_kept_trans (g : Int) (b1 b2 b3 : Blobs) (h12 : pages_kept g b1 b2)
    (h23 : pages_kept g b2 b3) : pages_kept g b1 b3 := by
  intro u p hp
  obtain ⟨p1, hp1, hl1⟩ := h12 u p hp
  obtain ⟨p2, hp2, hl2⟩ := h23 u p1 hp1
  exact ⟨p2, hp2, hl2.trans hl1⟩

theorem insert_and_split_flags (p : page) (obj : key) (other : page) :
    (p.insert_and_split obj other).1.flags = p.flags ∧
      ((p.insert_and_split obj other).2.1.objects ≠ [] → other.objects = [] →
        (p.insert_and_split obj other).2.1.flags = p.flags) := by
  rcases insert_and_split_objects p obj other with ⟨ts, h⟩ | ⟨ts1, ts2, h⟩
  · rw [h]
    exact ⟨rfl, fun h1 h2 => absurd h2 h1⟩
  · rw [h]
    exact ⟨rfl, fun _ _ => rfl⟩

theorem stored_pages_le (g : Int) (b : Blobs) (sk : eurl) (n : Nat) :
    stored_pages g b sk n ≤ n + 1 := by
  unfold stored_pages
  have := List.countP_le_length (holds_page g b) (l := allocated sk n)
  simpa [allocated] using this

theorem stored_leaves_le (g : Int) (b : Blobs) (sk : eurl) (n : Nat) :
    stored_leaves g b sk n ≤ n + 1 := by
  unfold stored_leaves
  have := List.countP_le_length (holds_leaf g b) (l := allocated sk n)
  simpa [allocated] using this

theorem lookup_of_page_at (g : Int) (b : Blobs) (u : eurl) (p : page)
    (h : page_at g b u = some p) : List.lookup (g, u) b = some (blob.page p) := by
  unfold page_at at h
  split at h
  · rename_i q hq
    simp only [Option.some.injEq] at h
    rw [hq, h]
  · cases h

/-- Removing a stored leaf, with the counters lowered, keeps them true. -/
theorem counted_delete (g : Int) (sk : eurl) (b : Blobs) (m : index_meta) (u : eurl)
    (p0 : page) (hc : counted g sk b m) (h0 : page_at g b u = some p0)
    (hl : p0.is_leaf = true) (hlt : m.page_index + 1 < SIZE_MOD) :
    counted g sk (b.filter fun e => decide (e.1 ≠ (g, u)))
        { m with num_pages := sub64 m.num_pages 1,
                 num_leaf_pages := sub64 m.num_leaf_pages 1 } ∧
      inner_pages_kept g b (b.filter fun e => decide (e.1 ≠ (g, u))) := by
  obtain ⟨h1, ⟨r, hr, hrl⟩, h3, h4⟩ := hc
  have hmem := h1 u p0 h0
  have hus : u ≠ sk := by
    intro h
    rw [h, hr] at h0
    simp only [Option.some.injEq] at h0
    rw [h0, hl] at hrl
    cases hrl
  have hp1 : stored_pages g (b.filter fun e => decide (e.1 ≠ (g, u))) sk m.page_index + 1 =
      stored_pages g b sk m.page_index := by
    unfold stored_pages
    apply countP_switch_off _ _ u _ (allocated_nodup sk _) hmem
    · unfold holds_page; rw [h0]; rfl
    · unfold holds_page; rw [page_at_filter, if_pos rfl]; rfl
    · intro x hx
      unfold holds_page; rw [page_at_filter, if_neg hx]
  have hp2 : stored_leaves g (b.filter fun e => decide (e.1 ≠ (g, u))) sk m.page_index + 1 =
      stored_leaves g b sk m.page_index := by
    unfold stored_leaves
    apply countP_switch_off _ _ u _ (allocated_nodup sk _) hmem
    · unfold holds_leaf; rw [h0]; exact hl
    · unfold holds_leaf; rw [page_at_filter, if_pos rfl]
    · intro x hx
      unfold holds_leaf; rw [page_at_filter, if_neg hx]
  have hb1 := stored_pages_le g b sk m.page_index
  have hb2 := stored_leaves_le g b sk m.page_index
  refine ⟨⟨?_, ?_, ?_, ?_⟩, ?_⟩
  · intro v q hq
    rw [page_at_filter] at hq
    by_cases hv : v = u
    · rw [if_pos hv] at hq; cases hq
    · rw [if_neg hv] at hq; exact h1 v q hq
  · exact ⟨r, by rw [page_at_filter, if_neg (Ne.symm hus)]; exact hr, hrl⟩
  · simp only
    rw [sub64_of_le _ _ (by omega) (by omega)]
    omega
  · simp only
    rw [sub64_of_le _ _ (by omega) (by omega)]
    omega
  · intro v q hq hql
    rw [page_at_filter]
    by_cases hv : v = u
    · subst hv
      rw [h0] at hq
      simp only [Option.some.injEq] at hq
      rw [hq, hql] at hl
      cases hl
    · exact ⟨q, by rw [if_neg hv]; exact hq, hql⟩

theorem insert_and_split_flags1 (p : page) (obj : key) (other : page) :
    (p.insert_and_split obj other).1.flags = p.flags :=
  (insert_and_split_flags p obj other).1
/-! ## The counters on a replicated store -/

theorem page_at_congr (g : Int) (b1 b2 : Blobs) (v : eurl)
    (h : List.lookup (g, v) b2 = List.lookup (g, v) b1) : page_at g b2 v = page_at g b1 v := by
  unfold page_at
  rw [h]

theorem counted_congr (g : Int) (sk : eurl) (b1 b2 : Blobs) (m : index_meta)
    (h : ∀ v, page_at g b2 v = page_at g b1 v) (hc : counted g sk b1 m) :
    counted g sk b2 m := by
  obtain ⟨h1, ⟨r, hr, hrl⟩, h3, h4⟩ := hc
  refine ⟨?_, ⟨r, by rw [h]; exact hr, hrl⟩, ?_, ?_⟩
  · intro u p hp
    rw [h] at hp
    exact h1 u p hp
  · rw [h3]
    unfold stored_pages
    apply List.countP_congr
    intro v _
    unfold holds_page
    rw [h]
  · rw [h4]
    unfold stored_leaves
    apply List.countP_congr
    intro v _
    unfold holds_leaf
    rw [h]

theorem counted_fields (g : Int) (sk : eurl) (b : Blobs) (m m1 : index_meta)
    (hc : counted g sk b m) (h1 : m1.page_index = m.page_index)
    (h2 : m1.num_pages = m.num_pages) (h3 : m1.num_leaf_pages = m.num_leaf_pages) :
    counted g sk b m1 := by
  unfold counted at hc ⊢
  rw [h1, h2, h3]
  exact hc

theorem pages_kept_congr (g : Int) (b b1 b2 : Blobs)
    (h : ∀ v, page_at g b2 v = page_at g b1 v) (hk : pages_kept g b b1) :
    pages_kept g b b2 := by
  intro u p hp
  obtain ⟨p1, hp1, hl⟩ := hk u p hp
  exact ⟨p1, by rw [h]; exact hp1, hl⟩

theorem inner_pages_kept_congr (g : Int) (b b1 b2 : Blobs)
    (h : ∀ v, page_at g b2 v = page_at g b1 v) (hk : inner_pages_kept g b b1) :
    inner_pages_kept g b b2 := by
  intro u p hp hl
  obtain ⟨p1, hp1, hl1⟩ := hk u p hp hl
  exact ⟨p1, by rw [h]; exact hp1, hl1⟩

theorem page_at_checked_write (t : transport) (u : eurl) (x : blob) (g : Int)
    (hg : g ∈ t.up_groups) (v : eurl) :
    page_at g (index.check (t.write u x)).2.blobs v = page_at g (((g, u), x) :: t.blobs) v := by
  apply page_at_congr
  have h1 : List.lookup (g, v) (index.check (t.write u x)).2.blobs =
      (index.check (t.write u x)).2.lookup g v := rfl
  obtain ⟨hg1, hg2⟩ := (mem_up_groups t g).1 hg
  rw [h1, check_write_lookup, lookup_cons_blob]
  by_cases hv : v = u
  · rw [if_pos ⟨hg1, hg2, hv⟩, if_pos hv]
  · rw [if_neg (fun h => hv h.2.2), if_neg hv]
    rfl

theorem replicated_checked_write (t : transport) (u : eurl) (x : blob) (g : Int)
    (hr : replicated g t) : replicated g (index.check (t.write u x)).2 := by
  obtain ⟨hg, ha⟩ := hr
  refine ⟨by rw [check_write_up]; exact hg, ?_⟩
  intro g1 hg1 v
  rw [check_write_up] at hg1
  obtain ⟨a1, a2⟩ := (mem_up_groups t g1).1 hg1
  obtain ⟨b1, b2⟩ := (mem_up_groups t g).1 hg
  rw [check_write_lookup, check_write_lookup]
  by_cases hv : v = u
  · rw [if_pos ⟨a1, a2, hv⟩, if_pos ⟨b1, b2, hv⟩]
  · rw [if_neg (fun h => hv h.2.2), if_neg (fun h => hv h.2.2)]
    exact ha g1 hg1 v

theorem replicated_answers (g : Int) (t : transport) (hr : replicated g t) :
    t.up_groups ≠ [] :=
  List.ne_nil_of_mem hr.1

/-- A checked write over a stored page of the same kind. -/
theorem write_overwrite (g : Int) (sk : eurl) (t : transport) (m : index_meta) (u : eurl)
    (p0 p : page) (hr : replicated g t) (hc : counted g sk t.blobs m)
    (h0 : page_at g t.blobs u = some p0) (hl : p.is_leaf = p0.is_leaf) :
    (index.check (t.write u (blob.page p))).1 = 0 ∧
      replicated g (index.check (t.write u (blob.page p))).2 ∧
      counted g sk (index.check (t.write u (blob.page p))).2.blobs m ∧
      pages_kept g t.blobs (index.check (t.write u (blob.page p))).2.blobs := by
  obtain ⟨c1, k1⟩ := counted_overwrite g sk t.blobs m u p0 p hc h0 hl
  have hpa := page_at_checked_write t u (blob.page p) g hr.1
  exact ⟨check_write_code t u _ (replicated_answers g t hr), replicated_checked_write t u _ g hr,
    counted_congr g sk _ _ m hpa c1, pages_kept_congr g _ _ _ hpa k1⟩

/-- A checked write of a page under the next fresh url. -/
theorem write_allocate (g : Int) (sk : eurl) (t : transport) (m : index_meta) (p : page)
    (hr : replicated g t) (hc : counted g sk t.blobs m) :
    (index.check (t.write (page_url sk m.page_index) (blob.page p))).1 = 0 ∧
      replicated g (index.check (t.write (page_url sk m.page_index) (blob.page p))).2 ∧
      counted g sk (index.check (t.write (page_url sk m.page_index) (blob.page p))).2.blobs
        { m with page_index := m.page_index + 1, num_pages := m.num_pages + 1,
                 num_leaf_pages :=
                   if p.is_leaf then m.num_leaf_pages + 1 else m.num_leaf_pages } ∧
      pages_kept g t.blobs
        (index.check (t.write (page_url sk m.page_index) (blob.page p))).2.blobs := by
  obtain ⟨c1, k1⟩ := counted_allocate g sk t.blobs m p hc
  have hpa := page_at_checked_write t (page_url sk m.page_index) (blob.page p) g hr.1
  exact ⟨check_write_code t _ _ (replicated_answers g t hr), replicated_checked_write t _ _ g hr,
    counted_congr g sk _ _ _ hpa c1, pages_kept_congr g _ _ _ hpa k1⟩
theorem read_from_ok (t : transport) (u : eurl) :
    ∀ (gs : List Int) (last : Int) (bl : blob), t.read_from gs u last = .ok bl →
      ∃ g1 ∈ gs, g1 ∉ t.down ∧ t.lookup g1 u = some bl := by
  intro gs
  induction gs with
  | nil => intro last bl h; simp [transport.read_from] at h
  | cons g0 gs ih =>
    intro last bl h
    unfold transport.read_from at h
    split at h
    · obtain ⟨g1, h1, h2, h3⟩ := ih _ _ h
      exact ⟨g1, List.mem_cons_of_mem _ h1, h2, h3⟩
    · rename_i hd
      split at h
      · rename_i b hb
        simp only [Except.ok.injEq] at h
        exact ⟨g0, List.mem_cons_self _ _, hd, by rw [hb, h]⟩
      · obtain ⟨g1, h1, h2, h3⟩ := ih _ _ h
        exact ⟨g1, List.mem_cons_of_mem _ h1, h2, h3⟩

theorem page_at_of_read (g : Int) (t : transport) (u : eurl) (bl : blob) (p : page)
    (hr : replicated g t) (h : t.read u = .ok bl) (hp : page.load bl = .ok p) :
    page_at g t.blobs u = some p := by
  obtain ⟨g1, h1, h2, h3⟩ := read_from_ok t u _ _ _ h
  have hl : t.lookup g u = some bl := by
    rw [← hr.2 g1 ((mem_up_groups t g1).2 ⟨h1, h2⟩) u]
    exact h3
  have hl2 : List.lookup (g, u) t.blobs = some bl := hl
  unfold page_at
  rw [hl2]
  cases bl with
  | page q =>
    simp only [page.load, Except.ok.injEq] at hp
    rw [hp]
  | meta m => simp [page.load] at hp

theorem insert_leaves_trans (g : Int) (sk : eurl) (t t1 : transport) (m : index_meta)
    (idx1 : index) (t2 : transport) (idx2 : index)
    (hk : pages_kept g t.blobs t1.blobs) (hm : m.page_index ≤ idx1.m_meta.page_index)
    (h : insert_leaves g sk t1 idx1.m_meta t2 idx2) : insert_leaves g sk t m t2 idx2 := by
  obtain ⟨hr, hc, hk2, hs, hle⟩ := h
  exact ⟨hr, hc, pages_kept_trans g _ _ _ hk hk2, hs, le_trans hm hle⟩

theorem new_page_flags (leaf : Bool) : (page.new leaf).is_leaf = leaf := by
  cases leaf <;> decide

theorem insert_finish_counted (g : Int) (idx : index) (t : transport) (page_key : eurl)
    (p split p0 : page) (hr : replicated g t) (hc : counted g idx.m_sk t.blobs idx.m_meta)
    (h0 : page_at g t.blobs page_key = some p0) (hl : p.is_leaf = p0.is_leaf)
    (hsl : split.objects ≠ [] → split.is_leaf = p.is_leaf)
    (out : Int × transport × index × recursion)
    (h : idx.insert_finish t page_key p split = .ok out) :
    insert_leaves g idx.m_sk t idx.m_meta out.2.1 out.2.2.1 := by
  unfold index.insert_finish at h
  split at h
  · exact Except.noConfusion h
  · split at h
    · rw [← Except.ok.inj h]
      obtain ⟨_, w2, w3, w4⟩ := write_overwrite g idx.m_sk t idx.m_meta page_key p0 p hr hc h0 hl
      exact ⟨w2, w3, w4, rfl, le_refl _⟩
    · rename_i sfront srest hso
      lift_lets at h
      extract_lets g0 split_key r split1 p1 c s4 s3 idx1 g2 old_root_key c2 n1 n2 s2 s1 s0 c2b at h
      have hsl2 : split.is_leaf = p.is_leaf := hsl (by rw [hso]; exact List.cons_ne_nil _ _)
      have hs1l : split1.is_leaf = p.is_leaf := hsl2
      have hp1l : p1.is_leaf = p.is_leaf := rfl
      obtain ⟨a1, a2, a3, a4⟩ := write_allocate g idx.m_sk t idx.m_meta split1 hr hc
      have hc0 : c.1 = 0 := a1
      have hcr : replicated g c.2 := a2
      have hcc : counted g idx.m_sk c.2.blobs idx1.m_meta := by
        refine counted_fields g idx.m_sk _ _ _ a3 rfl rfl ?_
        show (if p1.is_leaf = true then _ else _) = (if split1.is_leaf = true then _ else _)
        rw [hs1l, hp1l]
        rfl
      have hck : pages_kept g t.blobs c.2.blobs := a4
      split at h
      · rename_i hne
        exact absurd hc0 hne
      · split at h
        · rename_i hroot
          obtain ⟨_, ⟨rt, hrt, hrtl⟩, _, _⟩ := hc
          have hp0 : p0.is_leaf = false := by
            rw [hroot, hrt] at h0
            simp only [Option.some.injEq] at h0
            rw [← h0]; exact hrtl
          have hpl : p1.is_leaf = false := by rw [hp1l, hl, hp0]
          obtain ⟨b1, b2, b3, b4⟩ := write_allocate g idx.m_sk c.2 idx1.m_meta p1 hcr hcc
          have hc20 : c2.1 = 0 := b1
          have hc2r : replicated g c2.2 := b2
          have hc2k : pages_kept g c.2.blobs c2.2.blobs := b4
          split at h
          · rename_i hne
            exact absurd hc20 hne
          · cases hn : n2.1.objects with
            | nil =>
              simp only [hn] at h
              exact Except.noConfusion h
            | cons root_front tail =>
              simp only [hn] at h
              obtain ⟨pr, hpr, hprl⟩ := (pages_kept_trans g _ _ _ hck hc2k) idx.m_sk rt hrt
              have hnl : ∀ nx : eurl, (page.mk s2.flags s2.objects s2.total_size nx).is_leaf =
                  pr.is_leaf := by
                intro nx
                rw [hprl, hrtl]
                show (page.mk n2.1.flags _ _ _).is_leaf = false
                simp only [n2, n1, page.is_leaf, insert_and_split_flags1, page.new]
                decide
              obtain ⟨d1, d2, d3, d4⟩ := write_overwrite g idx.m_sk c2.2 _ idx.m_sk pr
                (page.mk s2.flags s2.objects s2.total_size root_front.url) hc2r b3 hpr (hnl _)
              split at h
              · rename_i hne
                exact absurd d1 hne
              · rw [← Except.ok.inj h]
                refine ⟨d2, ?_, pages_kept_trans g _ _ _ (pages_kept_trans g _ _ _ hck hc2k) d4,
                  rfl, ?_⟩
                · refine counted_fields g idx.m_sk _ _ _ d3 rfl rfl ?_
                  show s0.num_leaf_pages = (if p1.is_leaf = true then _ else _)
                  rw [hpl]
                  rfl
                · show idx.m_meta.page_index ≤ idx.m_meta.page_index + 1 + 1
                  omega
        · rw [← Except.ok.inj h]
          obtain ⟨pk, hpk, hpkl⟩ := hck page_key p0 h0
          obtain ⟨e1, e2, e3, e4⟩ := write_overwrite g idx.m_sk c.2 idx1.m_meta page_key pk p1
            hcr hcc hpk (by rw [hp1l, hl, hpkl])
          exact ⟨e2, e3, pages_kept_trans g _ _ _ hck e4, rfl, by
            show idx.m_meta.page_index ≤ idx.m_meta.page_index + 1
            omega⟩
theorem insert_first_leaf_counted (g : Int) (idx : index) (t : transport) (r : recursion)
    (page_key : eurl) (p : page) (obj : key) (hr : replicated g t)
    (hc : counted g idx.m_sk t.blobs idx.m_meta)
    (h0 : page_at g t.blobs page_key = some p) :
    insert_leaves g idx.m_sk t idx.m_meta
      (idx.insert_first_leaf t r page_key p obj).2.1
      (idx.insert_first_leaf t r page_key p obj).2.2.1 := by
  unfold index.insert_first_leaf
  lift_lets
  extract_lets g0 leaf_key l c q s p1 c2 s1 s2
  have hleaf : l.1.is_leaf = true := by
    show ((page.new true).insert_and_split obj (page.new false)).1.is_leaf = true
    simp only [page.is_leaf, insert_and_split_flags1, page.new]
    decide
  obtain ⟨a1, a2, a3, a4⟩ := write_allocate g idx.m_sk t idx.m_meta l.1 hr hc
  rw [hleaf] at a3
  simp only [if_true] at a3
  have hc0 : c.1 = 0 := a1
  have hcr : replicated g c.2 := a2
  have hck : pages_kept g t.blobs c.2.blobs := a4
  obtain ⟨pk, hpk, hpkl⟩ := hck page_key p h0
  have hp1l : p1.is_leaf = pk.is_leaf := by
    rw [hpkl]
    show (page.mk (p.insert_and_split leaf_key l.2.1).1.flags _ _ _).is_leaf = p.is_leaf
    simp only [page.is_leaf, insert_and_split_flags1]
  obtain ⟨b1, b2, b3, b4⟩ := write_overwrite g idx.m_sk c.2 _ page_key pk p1 hcr a3 hpk hp1l
  have hc20 : c2.1 = 0 := b1
  split
  · rename_i hne
    exact absurd hc0 hne
  · split
    · rename_i hne
      exact absurd hc20 hne
    · refine ⟨b2, ?_, pages_kept_trans g _ _ _ hck b4, rfl, ?_⟩
      · exact counted_fields g idx.m_sk _ _ _ b3 rfl rfl rfl
      · show idx.m_meta.page_index ≤ idx.m_meta.page_index + 1
        omega

/-- The private `insert` keeps the counters true. -/
theorem insert_at_counted (g : Int) (obj : key) :
    ∀ (fuel : Nat) (idx : index) (t : transport) (r : recursion) (page_key : eurl)
      (out : Int × transport × index × recursion),
      replicated g t → counted g idx.m_sk t.blobs idx.m_meta →
      index.insert_at fuel idx t r page_key obj = .ok out →
      insert_leaves g idx.m_sk t idx.m_meta out.2.1 out.2.2.1 := by
  intro fuel
  induction fuel with
  | zero => intro idx t r page_key out _ _ h; simp [index.insert_at] at h
  | succ fuel ih =>
    intro idx t r page_key out hr hc h
    unfold index.insert_at at h
    cases hread : t.read page_key with
    | error code =>
      rw [hread] at h
      simp only [Except.ok.injEq] at h
      subst h
      exact ⟨hr, hc, pages_kept_refl g _, rfl, le_refl _⟩
    | ok bl =>
      rw [hread] at h
      simp only at h
      cases hload : page.load bl with
      | error e => rw [hload] at h; exact Except.noConfusion h
      | ok p =>
        rw [hload] at h
        simp only at h
        have h0 := page_at_of_read g t page_key bl p hr hread hload
        by_cases hl : (!p.is_leaf) = true
        · rw [if_pos hl] at h
          by_cases hneg : p.search_node obj < 0
          · rw [if_pos hneg] at h
            simp only [Except.ok.injEq] at h
            subst h
            exact insert_first_leaf_counted g idx t r page_key p obj hr hc h0
          · rw [if_neg hneg] at h
            cases hrec : index.insert_at fuel idx t r
                (p.objects.getD (p.search_node obj).toNat default).url obj with
            | error e => rw [hrec] at h; exact Except.noConfusion h
            | ok o =>
              obtain ⟨c1, t1, idx1, r1⟩ := o
              rw [hrec] at h
              simp only at h
              obtain ⟨hr1, hc1, hk1, hs1, hle1⟩ := ih idx t r _ _ hr hc hrec
              simp only at hr1 hc1 hk1 hs1 hle1
              by_cases hsame : (!(p.objects.getD (p.search_node obj).toNat default).ne
                  r1.page_start && !r1.split_key.to_bool) = true
              · rw [if_pos hsame] at h
                simp only [Except.ok.injEq] at h
                subst h
                exact ⟨hr1, hc1, hk1, hs1, hle1⟩
              · rw [if_neg hsame] at h
                obtain ⟨pk, hpk, hpkl⟩ := hk1 page_key p h0
                rw [← hs1] at hc1
                have hfin := insert_finish_counted g idx1 t1 page_key _ _ pk hr1 hc1 hpk ?_ ?_
                  out h
                · rw [hs1] at hfin
                  exact insert_leaves_trans g idx.m_sk t t1 idx.m_meta idx1 _ _ hk1 hle1 hfin
                · rw [hpkl]
                  by_cases hto : r1.split_key.to_bool = true
                  · simp only [hto, if_true]
                    apply is_leaf_of_flags
                    rw [insert_and_split_flags1]
                    by_cases hch : (p.objects.getD (p.search_node obj).toNat default).ne
                        r1.page_start = true
                    · simp only [hch, if_true]
                    · simp only [hch, if_false, Bool.false_eq_true]
                  · simp only [hto, if_false, Bool.false_eq_true]
                    apply is_leaf_of_flags
                    by_cases hch : (p.objects.getD (p.search_node obj).toNat default).ne
                        r1.page_start = true
                    · simp only [hch, if_true]
                    · simp only [hch, if_false, Bool.false_eq_true]
                · intro hne
                  by_cases hto : r1.split_key.to_bool = true
                  · simp only [hto, if_true] at hne ⊢
                    apply is_leaf_of_flags
                    rw [insert_and_split_flags1]
                    exact (insert_and_split_flags _ _ _).2 hne rfl
                  · simp only [hto, if_false, Bool.false_eq_true] at hne
                    exact absurd rfl hne
        · rw [if_neg hl] at h
          have hfin := insert_finish_counted g idx t page_key _ _ p hr hc h0 ?_ ?_ out h
          · exact hfin
          · apply is_leaf_of_flags
            rw [insert_and_split_flags1]
          · intro hne
            apply is_leaf_of_flags
            rw [insert_and_split_flags1]
            exact (insert_and_split_flags _ _ _).2 hne rfl
/-! ## Removing a page from the groups -/

theorem lookup_filter_ne (k k0 : Int × eurl) :
    ∀ b : Blobs, List.lookup k (b.filter fun e => decide (e.1 ≠ k0)) =
      if k = k0 then none else List.lookup k b := by
  intro b
  induction b with
  | nil => simp [List.lookup]
  | cons e rest ih =>
    obtain ⟨k1, x⟩ := e
    by_cases hk : k1 = k0
    · subst hk
      rw [List.filter_cons_of_neg (by simp), ih]
      by_cases hv : k = k1
      · simp [hv]
      · have : (k == k1) = false := by simpa using hv
        simp [hv, List.lookup, this]
    · rw [List.filter_cons_of_pos (by simpa using hk)]
      by_cases hkv : k = k1
      · subst hkv
        simp [List.lookup, hk]
      · have : (k == k1) = false := by simpa using hkv
        simp only [List.lookup, this]
        exact ih

theorem remove_from_down (u : eurl) :
    ∀ (gs : List Int) (t : transport), (t.remove_from gs u).1.down = t.down := by
  intro gs
  induction gs with
  | nil => intro t; rfl
  | cons g gs ih =>
    intro t
    unfold transport.remove_from
    by_cases hd : g ∈ t.down
    · simp only [hd, if_true]; exact ih t
    · simp only [hd, if_false]
      cases hl : t.lookup g u with
      | none => simp only; exact ih t
      | some x => simp only; rw [ih]

theorem remove_from_groups (u : eurl) :
    ∀ (gs : List Int) (t : transport), (t.remove_from gs u).1.groups = t.groups := by
  intro gs
  induction gs with
  | nil => intro t; rfl
  | cons g gs ih =>
    intro t
    unfold transport.remove_from
    by_cases hd : g ∈ t.down
    · simp only [hd, if_true]; exact ih t
    · simp only [hd, if_false]
      cases hl : t.lookup g u with
      | none => simp only; exact ih t
      | some x => simp only; rw [ih]

/-- What a group holds after a removal from the groups `gs`. -/
theorem lookup_remove_from (u : eurl) :
    ∀ (gs : List Int) (t : transport) (g : Int) (v : eurl),
      (t.remove_from gs u).1.lookup g v =
        if g ∈ gs ∧ g ∉ t.down ∧ v = u then none else t.lookup g v := by
  intro gs
  induction gs with
  | nil => intro t g v; simp [transport.remove_from]
  | cons g0 gs ih =>
    intro t g v
    unfold transport.remove_from
    by_cases hd : g0 ∈ t.down
    · simp only [hd, if_true]
      rw [ih]
      by_cases hg : g = g0
      · subst hg; simp [hd]
      · simp [hg]
    · simp only [hd, if_false]
      cases hl : t.lookup g0 u with
      | none =>
        simp only
        rw [ih]
        by_cases hg : g = g0
        · subst hg
          by_cases hv : v = u
          · subst hv; simp [hd, hl]
          · simp [hv]
        · simp [hg]
      | some x =>
        simp only
        rw [ih]
        simp only [transport.lookup]
        rw [lookup_filter_ne]
        by_cases hg : g = g0
        · subst hg
          by_cases hv : v = u
          · subst hv; simp [hd]
          · have : (g, v) ≠ (g, u) := fun h => hv (Prod.mk.inj h).2
            simp [hv, this]
        · have : (g, v) ≠ (g0, u) := fun h => hg (Prod.mk.inj h).1
          simp [hg, this]

/-- The groups that confirm a removal are active groups that answer. -/
theorem remove_from_confirmed (u : eurl) :
    ∀ (gs : List Int) (t : transport) (g : Int),
      g ∈ ((t.remove_from gs u).2.filter fun r => decide (r.2 = 0)).map Prod.fst →
      g ∈ gs ∧ g ∉ t.down := by
  intro gs
  induction gs with
  | nil => intro t g h; simp [transport.remove_from] at h
  | cons g0 gs ih =>
    intro t g h
    unfold transport.remove_from at h
    by_cases hd : g0 ∈ t.down
    · simp only [hd, if_true] at h
      rw [List.filter_cons_of_neg (by simp [NO_GROUP])] at h
      obtain ⟨h1, h2⟩ := ih t g h
      exact ⟨List.mem_cons_of_mem _ h1, h2⟩
    · simp only [hd, if_false] at h
      cases hl : t.lookup g0 u with
      | none =>
        rw [hl] at h
        simp only at h
        rw [List.filter_cons_of_neg (by simp [ENOENT])] at h
        obtain ⟨h1, h2⟩ := ih t g h
        exact ⟨List.mem_cons_of_mem _ h1, h2⟩
      | some x =>
        rw [hl] at h
        simp only at h
        rw [List.filter_cons_of_pos (by simp), List.map_cons, List.mem_cons] at h
        rcases h with h | h
        · rw [h]; exact ⟨List.mem_cons_self _ _, hd⟩
        · obtain ⟨h1, h2⟩ := ih _ g h
          exact ⟨List.mem_cons_of_mem _ h1, h2⟩

/-- A group that answers and holds the blob confirms its removal. -/
theorem remove_from_confirms (u : eurl) (g : Int) :
    ∀ (gs : List Int) (t : transport) (x : blob),
      g ∈ gs → g ∉ t.down → t.lookup g u = some x →
      g ∈ ((t.remove_from gs u).2.filter fun r => decide (r.2 = 0)).map Prod.fst := by
  intro gs
  induction gs with
  | nil => intro t x h; cases h
  | cons g0 gs ih =>
    intro t x hg hd hx
    unfold transport.remove_from
    by_cases hd0 : g0 ∈ t.down
    · simp only [hd0, if_true]
      rw [List.filter_cons_of_neg (by simp [NO_GROUP])]
      have hne : g ≠ g0 := fun h => hd (h ▸ hd0)
      rcases List.mem_cons.1 hg with h | h
      · exact absurd h hne
      · exact ih t x h hd hx
    · simp only [hd0, if_false]
      cases hl : t.lookup g0 u with
      | none =>
        simp only
        rw [List.filter_cons_of_neg (by simp [ENOENT])]
        have hne : g ≠ g0 := fun h => by rw [h, hl] at hx; cases hx
        rcases List.mem_cons.1 hg with h | h
        · exact absurd h hne
        · exact ih t x h hd hx
      | some y =>
        simp only
        rw [List.filter_cons_of_pos (by simp), List.map_cons, List.mem_cons]
        by_cases hgg : g = g0
        · exact Or.inl hgg
        · right
          rcases List.mem_cons.1 hg with h | h
          · exact absurd h hgg
          · refine ih _ x h hd ?_
            simp only [transport.lookup]
            rw [lookup_filter_ne, if_neg (fun h => hgg (Prod.mk.inj h).1)]
            exact hx

/-- A checked removal of a stored leaf, with the counters lowered. -/
theorem remove_delete (g : Int) (sk : eurl) (t : transport) (m : index_meta) (u : eurl)
    (p0 : page) (hr : replicated g t) (hc : counted g sk t.blobs m)
    (h0 : page_at g t.blobs u = some p0) (hl : p0.is_leaf = true)
    (hlt : m.page_index + 1 < SIZE_MOD) :
    (index.check (t.remove u)).1 = 0 ∧
      replicated g (index.check (t.remove u)).2 ∧
      counted g sk (index.check (t.remove u)).2.blobs
        { m with num_pages := sub64 m.num_pages 1,
                 num_leaf_pages := sub64 m.num_leaf_pages 1 } ∧
      inner_pages_kept g t.blobs (index.check (t.remove u)).2.blobs := by
  obtain ⟨hg, ha⟩ := hr
  obtain ⟨hg1, hg2⟩ := (mem_up_groups t g).1 hg
  have hx : t.lookup g u = some (blob.page p0) := lookup_of_page_at g t.blobs u p0 h0
  have hconf := remove_from_confirms u g t.groups t _ hg1 hg2 hx
  have hcheck : index.check (t.remove u) =
      (if (((t.remove_from t.groups u).2.filter fun r => decide (r.2 = 0)).map
            Prod.fst).isEmpty then - EIO_code else 0,
        (t.remove_from t.groups u).1.set_groups
          (((t.remove_from t.groups u).2.filter fun r => decide (r.2 = 0)).map Prod.fst)) := rfl
  have hdown : (index.check (t.remove u)).2.down = t.down := by
    rw [hcheck]
    exact remove_from_down u _ _
  have hgroups : (index.check (t.remove u)).2.groups =
      ((t.remove_from t.groups u).2.filter fun r => decide (r.2 = 0)).map Prod.fst := by
    rw [hcheck]
    rfl
  have hlook : ∀ g1 v, (index.check (t.remove u)).2.lookup g1 v =
      if g1 ∈ t.groups ∧ g1 ∉ t.down ∧ v = u then none else t.lookup g1 v := by
    intro g1 v
    rw [hcheck]
    exact lookup_remove_from u _ _ _ _
  have hup : ∀ g1, g1 ∈ (index.check (t.remove u)).2.up_groups → g1 ∈ t.up_groups := by
    intro g1 h1
    obtain ⟨h2, h3⟩ := (mem_up_groups _ g1).1 h1
    rw [hgroups] at h2
    exact (mem_up_groups t g1).2 (remove_from_confirmed u _ _ _ h2)
  have hpa : ∀ v, page_at g (index.check (t.remove u)).2.blobs v =
      page_at g (t.blobs.filter fun e => decide (e.1 ≠ (g, u))) v := by
    intro v
    rw [page_at_filter]
    have h1 : page_at g (index.check (t.remove u)).2.blobs v =
        match (index.check (t.remove u)).2.lookup g v with
        | some (blob.page p) => some p
        | _ => none := rfl
    rw [h1, hlook]
    by_cases hv : v = u
    · rw [if_pos ⟨hg1, hg2, hv⟩, if_pos hv]
    · rw [if_neg (fun h => hv h.2.2), if_neg hv]
      rfl
  obtain ⟨c1, k1⟩ := counted_delete g sk t.blobs m u p0 hc h0 hl hlt
  refine ⟨?_, ⟨?_, ?_⟩, counted_congr g sk _ _ _ hpa c1, inner_pages_kept_congr g _ _ _ hpa k1⟩
  · rw [hcheck]
    have : ¬ ((((t.remove_from t.groups u).2.filter fun r => decide (r.2 = 0)).map
        Prod.fst).isEmpty = true) := by
      intro he
      rw [List.isEmpty_iff] at he
      rw [he] at hconf
      cases hconf
    simp only [this, if_false, Bool.false_eq_true]
  · apply (mem_up_groups _ g).2
    rw [hgroups, hdown]
    exact ⟨hconf, hg2⟩
  · intro g1 h1 v
    have h2 := hup g1 h1
    obtain ⟨a1, a2⟩ := (mem_up_groups t g1).1 h2
    rw [hlook, hlook]
    by_cases hv : v = u
    · rw [if_pos ⟨a1, a2, hv⟩, if_pos ⟨hg1, hg2, hv⟩]
    · rw [if_neg (fun h => hv h.2.2), if_neg (fun h => hv h.2.2)]
      exact ha g1 h2 v
theorem inner_of_pages_kept (g : Int) (b b1 : Blobs) (h : pages_kept g b b1) :
    inner_pages_kept g b b1 := by
  intro u p hp hl
  obtain ⟨p1, hp1, hl1⟩ := h u p hp
  exact ⟨p1, hp1, by rw [hl1, hl]⟩

theorem inner_pages_kept_refl (g : Int) (b : Blobs) : inner_pages_kept g b b :=
  fun _ p hp hl => ⟨p, hp, hl⟩

theorem inner_pages_kept_trans (g : Int) (b1 b2 b3 : Blobs) (h12 : inner_pages_kept g b1 b2)
    (h23 : inner_pages_kept g b2 b3) : inner_pages_kept g b1 b3 := by
  intro u p hp hl
  obtain ⟨p1, hp1, hl1⟩ := h12 u p hp hl
  exact h23 u p1 hp1 hl1

theorem remove_finish_counted (g : Int) (idx : index) (t : transport) (r : remove_recursion)
    (page_key : eurl) (p p0 : page) (found_pos : Nat) (hr : replicated g t)
    (hc : counted g idx.m_sk t.blobs idx.m_meta)
    (h0 : page_at g t.blobs page_key = some p0) (hl : p.is_leaf = p0.is_leaf)
    (he : p.objects = [] → p.is_leaf = true)
    (hlt : idx.m_meta.page_index + 1 < SIZE_MOD) :
    remove_leaves g idx.m_sk t idx.m_meta
      (idx.remove_finish t r page_key p found_pos).2.1
      (idx.remove_finish t r page_key p found_pos).2.2.1 := by
  unfold index.remove_finish
  split
  · lift_lets
    extract_lets cleared0 cleared r1 c
    obtain ⟨a1, a2, a3, a4⟩ := write_overwrite g idx.m_sk t idx.m_meta page_key p0 p hr hc h0 hl
    have hc0 : c.1 = 0 := a1
    split
    · rename_i hne
      exact absurd hc0 hne
    · exact ⟨a2, a3, inner_of_pages_kept g _ _ a4, rfl, rfl⟩
  · rename_i hnil
    lift_lets
    extract_lets cleared0 cleared r1 c m0
    have hpl : p.is_leaf = true := he hnil
    obtain ⟨a1, a2, a3, a4⟩ := remove_delete g idx.m_sk t idx.m_meta page_key p0 hr hc h0
      (by rw [← hl]; exact hpl) hlt
    have hc0 : c.1 = 0 := a1
    split
    · rename_i hne
      exact absurd hc0 hne
    · refine ⟨a2, ?_, a4, rfl, rfl⟩
      exact counted_fields g idx.m_sk _ _ _ a3 rfl rfl rfl

theorem remove_leaves_trans (g : Int) (sk : eurl) (t t1 : transport) (m : index_meta)
    (idx1 : index) (t2 : transport) (idx2 : index)
    (hk : inner_pages_kept g t.blobs t1.blobs) (hm : idx1.m_meta.page_index = m.page_index)
    (h : remove_leaves g sk t1 idx1.m_meta t2 idx2) : remove_leaves g sk t m t2 idx2 := by
  obtain ⟨hr, hc, hk2, hs, he⟩ := h
  exact ⟨hr, hc, inner_pages_kept_trans g _ _ _ hk hk2, hs, he.trans hm⟩

theorem search_node_objects (p : page) (obj : key) (h : ¬ p.search_node obj < 0) :
    p.objects ≠ [] := by
  intro he
  rw [search_node_empty p obj he] at h
  exact h (by decide)

theorem page_remove_flags (p : page) (pos : Nat) : (p.remove pos).1.flags = p.flags := rfl

/-- The private `remove` keeps the counters true. -/
theorem remove_at_counted (g : Int) (obj : key) :
    ∀ (fuel : Nat) (idx : index) (t : transport) (r : remove_recursion) (page_key : eurl)
      (out : Int × transport × index × remove_recursion),
      replicated g t → counted g idx.m_sk t.blobs idx.m_meta → r.removed = false →
      idx.m_meta.page_index + 1 < SIZE_MOD →
      index.remove_at fuel idx t r page_key obj = .ok out →
      remove_leaves g idx.m_sk t idx.m_meta out.2.1 out.2.2.1 := by
  intro fuel
  induction fuel with
  | zero => intro idx t r page_key out _ _ _ _ h; simp [index.remove_at] at h
  | succ fuel ih =>
    intro idx t r page_key out hr hc hrem hlt h
    unfold index.remove_at at h
    cases hread : t.read page_key with
    | error code =>
      rw [hread] at h
      simp only [Except.ok.injEq] at h
      subst h
      exact ⟨hr, hc, inner_pages_kept_refl g _, rfl, rfl⟩
    | ok bl =>
      rw [hread] at h
      simp only at h
      cases hload : page.load bl with
      | error e => rw [hload] at h; exact Except.noConfusion h
      | ok p =>
        rw [hload] at h
        simp only at h
        have h0 := page_at_of_read g t page_key bl p hr hread hload
        by_cases hneg : p.search_node obj < 0
        · rw [if_pos hneg] at h
          simp only [Except.ok.injEq] at h
          subst h
          exact ⟨hr, hc, inner_pages_kept_refl g _, rfl, rfl⟩
        · rw [if_neg hneg] at h
          by_cases hcond : (p.is_leaf || r.removed) = true
          · rw [if_pos hcond] at h
            simp only [Except.ok.injEq] at h
            subst h
            have hpl : p.is_leaf = true := by
              rw [hrem] at hcond
              simpa using hcond
            have hfl : (p.remove (p.search_node obj).toNat).1.is_leaf = p.is_leaf :=
              is_leaf_of_flags _ _ (page_remove_flags _ _)
            exact remove_finish_counted g idx t r page_key _ p _ hr hc h0 hfl
              (fun _ => by rw [hfl]; exact hpl) hlt
          · rw [if_neg hcond] at h
            have hpnl : p.is_leaf = false := by
              cases hp : p.is_leaf with
              | false => rfl
              | true => rw [hp] at hcond; simp at hcond
            cases hrec : index.remove_at fuel idx t r
                (p.objects.getD (p.search_node obj).toNat default).url obj with
            | error e => rw [hrec] at h; exact Except.noConfusion h
            | ok o =>
              obtain ⟨c1, t1, idx1, r1⟩ := o
              rw [hrec] at h
              simp only at h
              obtain ⟨hr1, hc1, hk1, hs1, hp1⟩ := ih idx t r _ _ hr hc hrem hlt hrec
              simp only at hr1 hc1 hk1 hs1 hp1
              split at h
              · simp only [Except.ok.injEq] at h
                subst h
                exact ⟨hr1, hc1, hk1, hs1, hp1⟩
              · split at h
                · simp only [Except.ok.injEq] at h
                  subst h
                  exact ⟨hr1, hc1, hk1, hs1, hp1⟩
                · simp only [Except.ok.injEq] at h
                  subst h
                  obtain ⟨pk, hpk, hpkl⟩ := hk1 page_key p h0 hpnl
                  rw [← hs1] at hc1
                  have hfin := remove_finish_counted g idx1 t1 r1 page_key
                    { p with objects := (p.objects.set (p.search_node obj).toNat
                        (key.mk r1.page_start.id
                          (p.objects.getD (p.search_node obj).toNat default).url)) }
                    pk (p.search_node obj).toNat hr1 hc1 hpk
                    (by rw [hpkl]; exact hpnl)
                    (fun hnil => by
                      exfalso
                      have hlen := congrArg List.length hnil
                      simp only [List.length_set, List.length_nil] at hlen
                      exact search_node_objects p obj hneg (List.length_eq_zero.1 hlen))
                    (by rw [hp1]; exact hlt)
                  rw [hs1] at hfin
                  exact remove_leaves_trans g idx.m_sk t t1 idx.m_meta idx1 _ _ hk1 hp1 hfin
theorem insert_page_index (fuel : Nat) (idx : index) (t : transport) (obj : key)
    (r : Int × transport × index) (h : index.insert fuel idx t obj = .ok r) :
    idx.m_meta.page_index ≤ r.2.2.m_meta.page_index := by
  unfold index.insert at h
  cases hrec : index.insert_at fuel idx t default idx.m_sk obj with
  | error e => rw [hrec] at h; simp at h
  | ok o =>
    obtain ⟨c1, t1, idx1, r1⟩ := o
    rw [hrec] at h
    simp only at h
    have h1 := insert_at_page_index obj fuel idx t default idx.m_sk _ hrec
    simp only at h1
    split at h
    · simp only [Except.ok.injEq] at h
      subst h
      exact h1
    · simp only [Except.ok.injEq] at h
      subst h
      exact h1

theorem remove_finish_page_index (idx : index) (t : transport) (r : remove_recursion)
    (page_key : eurl) (p : page) (found_pos : Nat) :
    (idx.remove_finish t r page_key p found_pos).2.2.1.m_meta.page_index =
      idx.m_meta.page_index := by
  unfold index.remove_finish
  split
  · lift_lets
    extract_lets cleared0 cleared r1 c
    split
    · dsimp only
    · dsimp only
  · lift_lets
    extract_lets cleared0 cleared r1 c m0
    split
    · dsimp only
    · dsimp only [m0]

theorem remove_at_page_index (obj : key) :
    ∀ (fuel : Nat) (idx : index) (t : transport) (r : remove_recursion) (page_key : eurl)
      (out : Int × transport × index × remove_recursion),
      index.remove_at fuel idx t r page_key obj = .ok out →
      out.2.2.1.m_meta.page_index = idx.m_meta.page_index := by
  intro fuel
  induction fuel with
  | zero => intro idx t r page_key out h; simp [index.remove_at] at h
  | succ fuel ih =>
    intro idx t r page_key out h
    unfold index.remove_at at h
    cases hread : t.read page_key with
    | error code =>
      rw [hread] at h
      simp only [Except.ok.injEq] at h
      subst h; rfl
    | ok b =>
      rw [hread] at h
      simp only at h
      cases hload : page.load b with
      | error e => rw [hload] at h; simp at h
      | ok p =>
        rw [hload] at h
        simp only at h
        by_cases hneg : p.search_node obj < 0
        · rw [if_pos hneg] at h
          simp only [Except.ok.injEq] at h
          subst h; rfl
        · rw [if_neg hneg] at h
          by_cases hc : (p.is_leaf || r.removed) = true
          · rw [if_pos hc] at h
            simp only [Except.ok.injEq] at h
            subst h
            exact remove_finish_page_index _ _ _ _ _ _
          · rw [if_neg hc] at h
            cases hrec : index.remove_at fuel idx t r
                (p.objects.getD (p.search_node obj).toNat default).url obj with
            | error e => rw [hrec] at h; simp at h
            | ok o =>
              obtain ⟨c1, t1, idx1, r1⟩ := o
              rw [hrec] at h
              simp only at h
              have h1 := ih idx t r _ _ hrec
              simp only at h1
              split at h
              · simp only [Except.ok.injEq] at h
                subst h; exact h1
              · split at h
                · simp only [Except.ok.injEq] at h
                  subst h; exact h1
                · simp only [Except.ok.injEq] at h
                  subst h
                  rw [remove_finish_page_index, h1]

theorem remove_page_index (fuel : Nat) (idx : index) (t : transport) (obj : key)
    (r : Int × transport × index) (h : index.remove fuel idx t obj = .ok r) :
    r.2.2.m_meta.page_index = idx.m_meta.page_index := by
  unfold index.remove at h
  cases hrec : index.remove_at fuel idx t default idx.m_sk obj with
  | error e => rw [hrec] at h; simp at h
  | ok o =>
    obtain ⟨c1, t1, idx1, r1⟩ := o
    rw [hrec] at h
    simp only at h
    have h1 := remove_at_page_index obj fuel idx t default idx.m_sk _ hrec
    simp only at h1
    split at h
    · simp only [Except.ok.injEq] at h
      subst h
      exact h1
    · simp only [Except.ok.injEq] at h
      subst h
      exact h1

theorem run_ops_page_index (fuel : Nat) :
    ∀ (ops : List op) (idx : index) (t : transport) (out : List Int × index × transport),
      run_ops fuel ops idx t = .ok out →
      idx.m_meta.page_index ≤ out.2.1.m_meta.page_index := by
  intro ops
  induction ops with
  | nil =>
    intro idx t out h
    simp only [run_ops, Except.ok.injEq] at h
    subst h
    exact le_refl _
  | cons o ops ih =>
    intro idx t out h
    cases o with
    | insert k =>
      unfold run_ops at h
      cases h1 : index.insert fuel idx t k with
      | error e => rw [h1] at h; simp at h
      | ok r =>
        rw [h1] at h
        simp only at h
        cases h2 : run_ops fuel ops r.2.2 r.2.1 with
        | error e => rw [h2] at h; simp at h
        | ok q =>
          rw [h2] at h
          simp only [Except.ok.injEq] at h
          subst h
          exact le_trans (insert_page_index fuel idx t k r h1) (ih _ _ q h2)
    | remove k =>
      unfold run_ops at h
      cases h1 : index.remove fuel idx t k with
      | error e => rw [h1] at h; simp at h
      | ok r =>
        rw [h1] at h
        simp only at h
        cases h2 : run_ops fuel ops r.2.2 r.2.1 with
        | error e => rw [h2] at h; simp at h
        | ok q =>
          rw [h2] at h
          simp only [Except.ok.injEq] at h
          subst h
          have := ih _ _ q h2
          rw [remove_page_index fuel idx t k r h1] at this
          exact this
/-! ## The public calls, and the states a fresh open reaches -/

theorem page_at_meta_write (g : Int) (idx : index) (t : transport) (hg : g ∈ t.up_groups)
    (v : eurl) :
    page_at g (idx.meta_write t).blobs v =
      page_at g (((g, idx.meta_key), blob.meta idx.m_meta) :: t.blobs) v := by
  apply page_at_congr
  have h1 : List.lookup (g, v) (idx.meta_write t).blobs = (idx.meta_write t).lookup g v := rfl
  obtain ⟨hg1, hg2⟩ := (mem_up_groups t g).1 hg
  rw [h1, lookup_cons_blob]
  unfold index.meta_write transport.write
  rw [lookup_write_to]
  by_cases hv : v = idx.meta_key
  · rw [if_pos ⟨hg1, hg2, hv⟩, if_pos hv]
  · rw [if_neg (fun h => hv h.2.2), if_neg hv]
    rfl

theorem meta_write_up (idx : index) (t : transport) :
    (idx.meta_write t).up_groups = t.up_groups := by
  unfold transport.up_groups
  rw [meta_write_groups, meta_write_down]

theorem meta_write_counted (g : Int) (idx : index) (t : transport) (m : index_meta)
    (hr : replicated g t) (hc : counted g idx.m_sk t.blobs m) :
    replicated g (idx.meta_write t) ∧ counted g idx.m_sk (idx.meta_write t).blobs m := by
  obtain ⟨hg, ha⟩ := hr
  refine ⟨⟨by rw [meta_write_up]; exact hg, ?_⟩, ?_⟩
  · intro g1 hg1 v
    rw [meta_write_up] at hg1
    obtain ⟨a1, a2⟩ := (mem_up_groups t g1).1 hg1
    obtain ⟨b1, b2⟩ := (mem_up_groups t g).1 hg
    unfold index.meta_write transport.write
    rw [lookup_write_to, lookup_write_to]
    by_cases hv : v = idx.meta_key
    · rw [if_pos ⟨a1, a2, hv⟩, if_pos ⟨b1, b2, hv⟩]
    · rw [if_neg (fun h => hv h.2.2), if_neg (fun h => hv h.2.2)]
      exact ha g1 hg1 v
  · exact counted_congr g idx.m_sk _ _ m (page_at_meta_write g idx t hg)
      (counted_meta g idx t.blobs m idx.m_meta hc).1

/-- The public `insert` keeps the counters true. -/
theorem insert_counted (g : Int) (fuel : Nat) (idx : index) (t : transport) (obj : key)
    (res : Int × transport × index) (hr : replicated g t)
    (hc : counted g idx.m_sk t.blobs idx.m_meta)
    (h : index.insert fuel idx t obj = .ok res) :
    replicated g res.2.1 ∧ counted g res.2.2.m_sk res.2.1.blobs res.2.2.m_meta := by
  unfold index.insert at h
  cases hrec : index.insert_at fuel idx t default idx.m_sk obj with
  | error e => rw [hrec] at h; simp at h
  | ok o =>
    obtain ⟨c1, t1, idx1, r1⟩ := o
    rw [hrec] at h
    simp only at h
    obtain ⟨hr1, hc1, _, hs1, _⟩ := insert_at_counted g obj fuel idx t default idx.m_sk _ hr hc hrec
    simp only at hr1 hc1 hs1
    rw [← hs1] at hc1
    split at h
    · simp only [Except.ok.injEq] at h
      subst h
      exact ⟨hr1, hc1⟩
    · simp only [Except.ok.injEq] at h
      subst h
      exact meta_write_counted g
        { idx1 with m_meta := { idx1.m_meta with
            generation_number := idx1.m_meta.generation_number + 1 } } t1 _ hr1
        (counted_fields g idx1.m_sk _ _ _ hc1 rfl rfl rfl)

/-- The public `remove` keeps the counters true. -/
theorem remove_counted (g : Int) (fuel : Nat) (idx : index) (t : transport) (obj : key)
    (res : Int × transport × index) (hr : replicated g t)
    (hc : counted g idx.m_sk t.blobs idx.m_meta)
    (hlt : idx.m_meta.page_index + 1 < SIZE_MOD)
    (h : index.remove fuel idx t obj = .ok res) :
    replicated g res.2.1 ∧ counted g res.2.2.m_sk res.2.1.blobs res.2.2.m_meta := by
  unfold index.remove at h
  cases hrec : index.remove_at fuel idx t default idx.m_sk obj with
  | error e => rw [hrec] at h; simp at h
  | ok o =>
    obtain ⟨c1, t1, idx1, r1⟩ := o
    rw [hrec] at h
    simp only at h
    obtain ⟨hr1, hc1, _, hs1, _⟩ :=
      remove_at_counted g obj fuel idx t default idx.m_sk _ hr hc rfl hlt hrec
    simp only at hr1 hc1 hs1
    rw [← hs1] at hc1
    split at h
    · simp only [Except.ok.injEq] at h
      subst h
      exact ⟨hr1, hc1⟩
    · simp only [Except.ok.injEq] at h
      subst h
      exact meta_write_counted g
        { idx1 with m_meta := { idx1.m_meta with
            generation_number := idx1.m_meta.generation_number + 1 } } t1 _ hr1
        (counted_fields g idx1.m_sk _ _ _ hc1 rfl rfl rfl)

/-- A run of public calls keeps the counters true, as long as `page_index`
stays below the top of its range. -/
theorem run_ops_counted (g : Int) (fuel : Nat) :
    ∀ (ops : List op) (idx : index) (t : transport) (out : List Int × index × transport),
      replicated g t → counted g idx.m_sk t.blobs idx.m_meta →
      run_ops fuel ops idx t = .ok out →
      out.2.1.m_meta.page_index + 1 < SIZE_MOD →
      replicated g out.2.2 ∧ counted g out.2.1.m_sk out.2.2.blobs out.2.1.m_meta := by
  intro ops
  induction ops with
  | nil =>
    intro idx t out hr hc h _
    simp only [run_ops, Except.ok.injEq] at h
    subst h
    exact ⟨hr, hc⟩
  | cons o ops ih =>
    intro idx t out hr hc h hlt
    cases o with
    | insert k =>
      unfold run_ops at h
      cases h1 : index.insert fuel idx t k with
      | error e => rw [h1] at h; simp at h
      | ok r =>
        rw [h1] at h
        simp only at h
        cases h2 : run_ops fuel ops r.2.2 r.2.1 with
        | error e => rw [h2] at h; simp at h
        | ok q =>
          rw [h2] at h
          simp only [Except.ok.injEq] at h
          subst h
          obtain ⟨a1, a2⟩ := insert_counted g fuel idx t k r hr hc h1
          exact ih _ _ q a1 a2 h2 hlt
    | remove k =>
      unfold run_ops at h
      cases h1 : index.remove fuel idx t k with
      | error e => rw [h1] at h; simp at h
      | ok r =>
        rw [h1] at h
        simp only at h
        cases h2 : run_ops fuel ops r.2.2 r.2.1 with
        | error e => rw [h2] at h; simp at h
        | ok q =>
          rw [h2] at h
          simp only [Except.ok.injEq] at h
          subst h
          have hp := run_ops_page_index fuel ops _ _ q h2
          have hq := remove_page_index fuel idx t k r h1
          obtain ⟨a1, a2⟩ := remove_counted g fuel idx t k r hr hc
            (by simp only at hlt; omega) h1
          exact ih _ _ q a1 a2 h2 hlt
theorem up_groups_eq (t1 t : transport) (hgr : t1.groups = t.up_groups)
    (hdn : t1.down = t.down) : t1.up_groups = t.up_groups := by
  have h1 : t1.up_groups = t1.groups.filter fun g => decide (g ∉ t1.down) := rfl
  have h2 : t.up_groups = t.groups.filter fun g => decide (g ∉ t.down) := rfl
  rw [h1, hgr, hdn, h2, List.filter_filter]
  simp

/-- Opening an index on storage without its meta, some active group
answering: the transport and the meta the constructor returns. -/
theorem ctor_fresh (fuel : Nat) (t : transport) (sk : eurl)
    (h : t.holds_nothing (index.meta_key ⟨sk, default⟩)) (hne : t.up_groups ≠ []) :
    index.ctor fuel t sk =
      .ok ((index.mk sk fresh_meta).meta_write
          ((index.mk sk default).start_page_init (t.set_groups t.up_groups)).1,
        ⟨sk, fresh_meta⟩) := by
  unfold index.ctor
  simp only [transport.read_all]
  rw [collect_meta_nothing t _ t.groups h]
  have hup0 : (t.groups.filter fun g => decide (g ∉ t.down)) = t.up_groups := rfl
  rw [hup0]
  cases hup : t.up_groups with
  | nil => exact absurd hup hne
  | cons g0 gs =>
    simp only [List.map_cons]
    have hh : index.highest_generation
        ((g0, (default : index_meta)) :: gs.map fun g => (g, default)) 0 default = (0, default) :=
      highest_generation_default _ (by
        intro e he
        simp only [List.mem_cons, List.mem_map] at he
        rcases he with he | ⟨g, _, he⟩
        · rw [he]
        · rw [← he])
    simp only [hh, if_true]
    have hgood : (List.map Prod.fst
        (List.filter (fun e : Int × index_meta => decide (e.2.generation_number = 0))
          ((g0, (default : index_meta)) :: List.map (fun g => (g, default)) gs))) = g0 :: gs := by
      have : ∀ l : List Int, List.map Prod.fst
          (List.filter (fun e : Int × index_meta => decide (e.2.generation_number = 0))
            (List.map (fun g => (g, (default : index_meta))) l)) = l := by
        intro l
        induction l with
        | nil => rfl
        | cons a l ih =>
          simp only [List.map_cons, List.filter]
          have : decide ((default : index_meta).generation_number = 0) = true := by decide
          simp only [this, List.map_cons, ih]
      exact this (g0 :: gs)
    rw [hgood]
    rfl

/-- On storage that holds nothing, the state a fresh open leaves has the
counters true. -/
theorem ctor_counted (g : Int) (fuel : Nat) (t : transport) (sk : eurl) (hb : t.blobs = [])
    (hg : g ∈ t.up_groups) (o : transport × index) (h : index.ctor fuel t sk = .ok o) :
    replicated g o.1 ∧ counted g o.2.m_sk o.1.blobs o.2.m_meta := by
  have hnone : ∀ g1 v, t.lookup g1 v = none := by
    intro g1 v
    unfold transport.lookup
    rw [hb]
    rfl
  rw [ctor_fresh fuel t sk (fun g1 _ _ => hnone g1 _) (List.ne_nil_of_mem hg)] at h
  simp only [Except.ok.injEq] at h
  subst h
  have hmk : sk ≠ index.meta_key ⟨sk, fresh_meta⟩ := sk_ne_meta ⟨sk, fresh_meta⟩
  have hgr : ((index.mk sk fresh_meta).meta_write
      ((index.mk sk default).start_page_init (t.set_groups t.up_groups)).1).groups =
      t.up_groups := by
    rw [meta_write_groups, start_page_init_groups]
    rfl
  have hdn : ((index.mk sk fresh_meta).meta_write
      ((index.mk sk default).start_page_init (t.set_groups t.up_groups)).1).down = t.down := by
    rw [meta_write_down, start_page_init_down]
    rfl
  have hupg : ((index.mk sk fresh_meta).meta_write
      ((index.mk sk default).start_page_init (t.set_groups t.up_groups)).1).up_groups =
      t.up_groups := up_groups_eq _ t hgr hdn
  have hlook : ∀ g1 ∈ t.up_groups, ∀ v,
      ((index.mk sk fresh_meta).meta_write
        ((index.mk sk default).start_page_init (t.set_groups t.up_groups)).1).lookup g1 v =
      if v = index.meta_key ⟨sk, fresh_meta⟩ then some (blob.meta fresh_meta)
      else if v = sk then some (blob.page (page.new false)) else none := by
    intro g1 hg1 v
    obtain ⟨_, a2⟩ := (mem_up_groups t g1).1 hg1
    unfold index.meta_write index.start_page_init transport.write
    simp only
    rw [lookup_write_to, lookup_write_to, write_to_groups, write_to_down]
    have hd0 : (t.set_groups t.up_groups).down = t.down := rfl
    have hg0 : (t.set_groups t.up_groups).groups = t.up_groups := rfl
    have hl0 : (t.set_groups t.up_groups).lookup g1 v = none := hnone g1 v
    rw [hd0, hg0, hl0]
    by_cases hv : v = index.meta_key ⟨sk, fresh_meta⟩
    · rw [if_pos ⟨hg1, a2, hv⟩, if_pos hv]
    · rw [if_neg (fun h => hv h.2.2), if_neg hv]
      by_cases hs : v = sk
      · rw [if_pos ⟨hg1, a2, hs⟩, if_pos hs]
        rfl
      · rw [if_neg (fun h => hs h.2.2), if_neg hs]
  have hpa : ∀ v, page_at g ((index.mk sk fresh_meta).meta_write
      ((index.mk sk default).start_page_init (t.set_groups t.up_groups)).1).blobs v =
      if v = sk then some (page.new false) else none := by
    intro v
    have h1 : page_at g ((index.mk sk fresh_meta).meta_write
        ((index.mk sk default).start_page_init (t.set_groups t.up_groups)).1).blobs v =
        match ((index.mk sk fresh_meta).meta_write
          ((index.mk sk default).start_page_init (t.set_groups t.up_groups)).1).lookup g v with
        | some (blob.page p) => some p
        | _ => none := rfl
    rw [h1, hlook g hg v]
    by_cases hv : v = index.meta_key ⟨sk, fresh_meta⟩
    · rw [if_pos hv, if_neg (fun h : v = sk => hmk (h.symm.trans hv))]
    · rw [if_neg hv]
      by_cases hs : v = sk
      · rw [if_pos hs, if_pos hs]
      · rw [if_neg hs, if_neg hs]
  refine ⟨⟨by rw [hupg]; exact hg, ?_⟩, ?_, ?_, ?_, ?_⟩
  · intro g1 hg1 v
    rw [hupg] at hg1
    rw [hlook g1 hg1 v, hlook g hg v]
  · intro u p hp
    rw [hpa] at hp
    by_cases hu : u = sk
    · rw [hu]
      exact List.mem_cons_self _ _
    · rw [if_neg hu] at hp
      cases hp
  · exact ⟨page.new false, by rw [hpa, if_pos rfl], new_page_not_leaf⟩
  · show 1 = stored_pages g _ sk 0
    unfold stored_pages allocated holds_page
    simp [hpa]
  · show 0 = stored_leaves g _ sk 0
    unfold stored_leaves allocated holds_leaf
    simp [hpa, new_page_not_leaf]

/-! ### No group answers -/

theorem read_from_dead (t : transport) (u : eurl) :
    ∀ (gs : List Int) (last : Int), (∀ g ∈ gs, g ∈ t.down) →
      ∃ code, t.read_from gs u last = .error code := by
  intro gs
  induction gs with
  | nil => intro last _; exact ⟨last, rfl⟩
  | cons g gs ih =>
    intro last h
    unfold transport.read_from
    rw [if_pos (h g (List.mem_cons_self _ _))]
    exact ih _ (fun g1 hg1 => h g1 (List.mem_cons_of_mem _ hg1))

theorem read_dead (t : transport) (u : eurl) (h : t.up_groups = []) :
    ∃ code, t.read u = .error code ∧ code < 0 := by
  have hall : ∀ g ∈ t.groups, g ∈ t.down := by
    intro g hg
    by_contra hd
    have := (mem_up_groups t g).2 ⟨hg, hd⟩
    rw [h] at this
    cases this
  obtain ⟨code, hc⟩ := read_from_dead t u t.groups NO_GROUP hall
  exact ⟨code, hc, read_error_negative t u code hc⟩

theorem insert_dead (fuel : Nat) (idx : index) (t : transport) (obj : key)
    (res : Int × transport × index) (hd : t.up_groups = [])
    (h : index.insert fuel idx t obj = .ok res) : res.2.1 = t ∧ res.2.2 = idx := by
  obtain ⟨code, hc, hneg⟩ := read_dead t idx.m_sk hd
  cases fuel with
  | zero => simp [index.insert, index.insert_at] at h
  | succ fuel =>
    unfold index.insert index.insert_at at h
    rw [hc] at h
    simp only [hneg, if_true, Except.ok.injEq] at h
    subst h
    exact ⟨rfl, rfl⟩

theorem remove_dead (fuel : Nat) (idx : index) (t : transport) (obj : key)
    (res : Int × transport × index) (hd : t.up_groups = [])
    (h : index.remove fuel idx t obj = .ok res) : res.2.1 = t ∧ res.2.2 = idx := by
  obtain ⟨code, hc, hneg⟩ := read_dead t idx.m_sk hd
  cases fuel with
  | zero => simp [index.remove, index.remove_at] at h
  | succ fuel =>
    unfold index.remove index.remove_at at h
    rw [hc] at h
    simp only [hneg, if_true, Except.ok.injEq] at h
    subst h
    exact ⟨rfl, rfl⟩

theorem run_ops_dead (fuel : Nat) :
    ∀ (ops : List op) (idx : index) (t : transport) (out : List Int × index × transport),
      t.up_groups = [] → run_ops fuel ops idx t = .ok out → out.2.1 = idx := by
  intro ops
  induction ops with
  | nil =>
    intro idx t out _ h
    simp only [run_ops, Except.ok.injEq] at h
    subst h
    rfl
  | cons o ops ih =>
    intro idx t out hd h
    cases o with
    | insert k =>
      unfold run_ops at h
      cases h1 : index.insert fuel idx t k with
      | error e => rw [h1] at h; simp at h
      | ok r =>
        rw [h1] at h
        simp only at h
        cases h2 : run_ops fuel ops r.2.2 r.2.1 with
        | error e => rw [h2] at h; simp at h
        | ok q =>
          rw [h2] at h
          simp only [Except.ok.injEq] at h
          subst h
          obtain ⟨e1, e2⟩ := insert_dead fuel idx t k r hd h1
          rw [e1, e2] at h2
          exact ih idx t q hd h2
    | remove k =>
      unfold run_ops at h
      cases h1 : index.remove fuel idx t k with
      | error e => rw [h1] at h; simp at h
      | ok r =>
        rw [h1] at h
        simp only at h
        cases h2 : run_ops fuel ops r.2.2 r.2.1 with
        | error e => rw [h2] at h; simp at h
        | ok q =>
          rw [h2] at h
          simp only [Except.ok.injEq] at h
          subst h
          obtain ⟨e1, e2⟩ := remove_dead fuel idx t k r hd h1
          rw [e1, e2] at h2
          exact ih idx t q hd h2
/-- Opening an index on storage without its meta when no group answers. -/
theorem ctor_dead (fuel : Nat) (t : transport) (sk : eurl)
    (h : t.holds_nothing (index.meta_key ⟨sk, default⟩)) (hd : t.up_groups = []) :
    index.ctor fuel t sk =
      .ok ((index.mk sk fresh_meta).meta_write ((index.mk sk default).start_page_init t).1,
        ⟨sk, fresh_meta⟩) := by
  unfold index.ctor
  simp only [transport.read_all]
  rw [collect_meta_nothing t _ t.groups h]
  have hup0 : (t.groups.filter fun g => decide (g ∉ t.down)) = t.up_groups := rfl
  rw [hup0, hd]
  rfl

theorem stored_leaves_le_pages (g : Int) (b : Blobs) (sk : eurl) (n : Nat) :
    stored_leaves g b sk n ≤ stored_pages g b sk n := by
  unfold stored_leaves stored_pages
  apply List.countP_mono_left
  intro u _ hu
  unfold holds_leaf at hu
  unfold holds_page
  cases hp : page_at g b u with
  | none => rw [hp] at hu; cases hu
  | some p => rfl

theorem stored_pages_pos (g : Int) (sk : eurl) (b : Blobs) (m : index_meta)
    (hc : counted g sk b m) : 1 ≤ stored_pages g b sk m.page_index := by
  obtain ⟨_, ⟨r, hr, _⟩, _, _⟩ := hc
  unfold stored_pages
  apply List.countP_pos_iff.2
  refine ⟨sk, List.mem_cons_self _ _, ?_⟩
  unfold holds_page
  rw [hr]
  rfl

/-- C18: in every state that a sequence of `insert` and `remove` calls
reaches from an index opened on storage that holds nothing, whatever the
groups of the transport and whichever of them are down, as long as
`page_index` is below the top of its 64-bit range: `num_leaf_pages` is at
most `num_pages`, `num_pages` is at least 1 and at most `page_index + 1`, so
neither counter has wrapped, and in every group that answers the two counters
are the numbers of pages and of leaf pages the group stores for the index. -/
theorem leaf_pages_within_pages (fuel : Nat) (groups down : List Int) (sk : eurl)
    (ops : List op) (codes : List Int) (idx : index) (t1 : transport)
    (h : open_and_run fuel ⟨groups, down, []⟩ sk ops = .ok (codes, idx, t1))
    (hlt : idx.m_meta.page_index + 1 < SIZE_MOD) :
    idx.m_meta.num_leaf_pages ≤ idx.m_meta.num_pages ∧
      1 ≤ idx.m_meta.num_pages ∧
      idx.m_meta.num_pages ≤ idx.m_meta.page_index + 1 ∧
      idx.m_meta.num_pages < SIZE_MOD ∧ idx.m_meta.num_leaf_pages < SIZE_MOD ∧
      ∀ g ∈ (transport.mk groups down []).up_groups,
        idx.m_meta.num_pages = stored_pages g t1.blobs idx.m_sk idx.m_meta.page_index ∧
        idx.m_meta.num_leaf_pages =
          stored_leaves g t1.blobs idx.m_sk idx.m_meta.page_index := by
  have hnone : (transport.mk groups down []).holds_nothing (index.meta_key ⟨sk, default⟩) :=
    fun _ _ _ => rfl
  unfold open_and_run at h
  cases hup : (transport.mk groups down []).up_groups with
  | nil =>
    rw [ctor_dead fuel _ sk hnone hup] at h
    simp only at h
    have hdead : ((index.mk sk fresh_meta).meta_write
        ((index.mk sk default).start_page_init (transport.mk groups down [])).1).up_groups =
        [] := by
      rw [meta_write_up]
      have : ((index.mk sk default).start_page_init (transport.mk groups down [])).1.up_groups =
          (transport.mk groups down []).up_groups := by
        unfold transport.up_groups
        rw [start_page_init_groups, start_page_init_down]
      rw [this, hup]
    have := run_ops_dead fuel ops _ _ _ hdead h
    simp only at this
    rw [this]
    refine ⟨?_, ?_, ?_, ?_, ?_, ?_⟩
    · show (0 : Nat) ≤ 1
      omega
    · show (1 : Nat) ≤ 1
      omega
    · show (1 : Nat) ≤ 0 + 1
      omega
    · show (1 : Nat) < SIZE_MOD
      unfold SIZE_MOD
      norm_num
    · show (0 : Nat) < SIZE_MOD
      unfold SIZE_MOD
      norm_num
    · intro g hg
      cases hg
  | cons g0 gs =>
    have hg0 : g0 ∈ (transport.mk groups down []).up_groups := by
      rw [hup]; exact List.mem_cons_self _ _
    rw [ctor_fresh fuel _ sk hnone (List.ne_nil_of_mem hg0)] at h
    simp only at h
    have hall : ∀ g ∈ (transport.mk groups down []).up_groups,
        counted g idx.m_sk t1.blobs idx.m_meta := by
      intro g hg
      obtain ⟨a1, a2⟩ := ctor_counted g fuel (transport.mk groups down []) sk rfl hg _
        (ctor_fresh fuel _ sk hnone (List.ne_nil_of_mem hg))
      exact (run_ops_counted g fuel ops _ _ _ a1 a2 h hlt).2
    have hc := hall g0 hg0
    have h1 := stored_leaves_le_pages g0 t1.blobs idx.m_sk idx.m_meta.page_index
    have h2 := stored_pages_pos g0 idx.m_sk t1.blobs idx.m_meta hc
    have h3 := stored_pages_le g0 t1.blobs idx.m_sk idx.m_meta.page_index
    obtain ⟨_, _, e1, e2⟩ := hc
    rw [← hup]
    refine ⟨by omega, by omega, by omega, by omega, by omega, ?_⟩
    intro g hg
    exact ⟨(hall g hg).2.2.1, (hall g hg).2.2.2⟩

/-! ## The chain of pages -/

theorem links_congr (f f1 : eurl → Option page) (nx : eurl) :
    ∀ l : List eurl, (∀ u ∈ l, f1 u = f u) → links f l nx → links f1 l nx := by
  intro l
  induction l with
  | nil => intro _ _; trivial
  | cons u rest ih =>
    intro h hl
    obtain ⟨⟨p, hp, hn⟩, hr⟩ := hl
    refine ⟨⟨p, ?_, hn⟩, ih (fun v hv => h v (List.mem_cons_of_mem _ hv)) hr⟩
    rw [h u (List.mem_cons_self _ _)]
    exact hp

theorem links_append (f : eurl → Option page) (nx : eurl) :
    ∀ a b : List eurl, links f (a ++ b) nx ↔ links f a (b.headD nx) ∧ links f b nx := by
  intro a
  induction a with
  | nil => intro b; simp [links]
  | cons u rest ih =>
    intro b
    have hh : (rest ++ b).headD nx = rest.headD (b.headD nx) := by
      cases rest <;> rfl
    show ((∃ p, f u = some p ∧ p.next = (rest ++ b).headD nx) ∧ links f (rest ++ b) nx) ↔
      ((∃ p, f u = some p ∧ p.next = rest.headD (b.headD nx)) ∧ links f rest (b.headD nx)) ∧
        links f b nx
    rw [hh, ih]
    tauto

theorem links_stored (f : eurl → Option page) (nx : eurl) :
    ∀ l : List eurl, links f l nx → ∀ u ∈ l, ∃ p, f u = some p := by
  intro l
  induction l with
  | nil => intro _ u hu; cases hu
  | cons v rest ih =>
    intro hl u hu
    obtain ⟨⟨p, hp, _⟩, hr⟩ := hl
    rcases List.mem_cons.1 hu with h | h
    · exact ⟨p, by rw [h]; exact hp⟩
    · exact ih hr u h

theorem fwd_congr (f f1 : eurl → Option page) (tail : List eurl) :
    ∀ l : List eurl, (∀ u ∈ l, f1 u = f u) → fwd f l tail → fwd f1 l tail := by
  intro l
  induction l with
  | nil => intro _ _; trivial
  | cons u rest ih =>
    intro h hl
    obtain ⟨h1, hr⟩ := hl
    refine ⟨?_, ih (fun v hv => h v (List.mem_cons_of_mem _ hv)) hr⟩
    intro p hp
    rw [h u (List.mem_cons_self _ _)] at hp
    exact h1 p hp

theorem fwd_mono (f : eurl → Option page) (tail tail1 : List eurl)
    (hsub : ∀ v ∈ tail, v ∈ tail1) :
    ∀ l : List eurl, fwd f l tail → fwd f l tail1 := by
  intro l
  induction l with
  | nil => intro _; trivial
  | cons u rest ih =>
    intro hl
    obtain ⟨h1, hr⟩ := hl
    refine ⟨?_, ih hr⟩
    intro p hp hnl e he
    rcases List.mem_append.1 (h1 p hp hnl e he) with h | h
    · exact List.mem_append_left _ h
    · exact List.mem_append_right _ (hsub _ h)

theorem fwd_append (f : eurl → Option page) (tail : List eurl) :
    ∀ a b : List eurl, fwd f (a ++ b) tail ↔ fwd f a (b ++ tail) ∧ fwd f b tail := by
  intro a
  induction a with
  | nil => intro b; simp [fwd]
  | cons u rest ih =>
    intro b
    show ((∀ p, f u = some p → p.is_leaf = false → ∀ e ∈ p.objects,
        e.url ∈ (rest ++ b) ++ tail) ∧ fwd f (rest ++ b) tail) ↔
      ((∀ p, f u = some p → p.is_leaf = false → ∀ e ∈ p.objects,
        e.url ∈ rest ++ (b ++ tail)) ∧ fwd f rest (b ++ tail)) ∧ fwd f b tail
    rw [ih, List.append_assoc]
    tauto

theorem fwd_at (f : eurl → Option page) (tail : List eurl) :
    ∀ (a b : List eurl) (u : eurl) (p : page), fwd f (a ++ u :: b) tail → f u = some p →
      p.is_leaf = false → ∀ e ∈ p.objects, e.url ∈ b ++ tail := by
  intro a b u p h hp hnl e he
  exact ((fwd_append f tail a (u :: b)).1 h).2.1 p hp hnl e he
theorem page_at_write (t : transport) (u : eurl) (x : page) (g : Int)
    (hg : g ∈ t.up_groups) (v : eurl) :
    page_at g (index.check (t.write u (blob.page x))).2.blobs v =
      if v = u then some x else page_at g t.blobs v := by
  rw [page_at_checked_write t u (blob.page x) g hg v, page_at_cons_page]

/-- What `insert_finish` leaves stored, case by case. -/
theorem insert_finish_pages (g : Int) (idx : index) (t : transport) (page_key : eurl)
    (p split : page) (out : Int × transport × index × recursion) (hr : replicated g t)
    (h : idx.insert_finish t page_key p split = .ok out) :
    ∃ front rest, p.objects = front :: rest ∧ out.2.2.2.page_start = front ∧
      ((split.objects = [] ∧ out.2.2.2.split_key = default ∧ out.2.2.1 = idx ∧
          ∀ v, page_at g out.2.1.blobs v =
            if v = page_key then some p else page_at g t.blobs v) ∨
        ∃ sf srest, split.objects = sf :: srest ∧
          out.2.2.2.split_key = ⟨sf.id, page_url idx.m_sk idx.m_meta.page_index⟩ ∧
          ((page_key ≠ idx.m_sk ∧
              out.2.2.1.m_meta.page_index = idx.m_meta.page_index + 1 ∧
              ∀ v, page_at g out.2.1.blobs v =
                if v = page_key then
                  some { p with next := page_url idx.m_sk idx.m_meta.page_index }
                else if v = page_url idx.m_sk idx.m_meta.page_index then
                  some { split with next := p.next }
                else page_at g t.blobs v) ∨
            (page_key = idx.m_sk ∧
              out.2.2.1.m_meta.page_index = idx.m_meta.page_index + 2 ∧
              ∃ (n2 : page) (root_front : key) (tl : List key),
                n2 = (((page.new false).insert_and_split
                    ⟨front.id, page_url idx.m_sk (idx.m_meta.page_index + 1)⟩
                    (page.new false)).1.insert_and_split
                  ⟨sf.id, page_url idx.m_sk idx.m_meta.page_index⟩
                  ((page.new false).insert_and_split
                    ⟨front.id, page_url idx.m_sk (idx.m_meta.page_index + 1)⟩
                    (page.new false)).2.1).1 ∧
                n2.objects = root_front :: tl ∧
                ∀ v, page_at g out.2.1.blobs v =
                  if v = idx.m_sk then some { n2 with next := root_front.url }
                  else if v = page_url idx.m_sk (idx.m_meta.page_index + 1) then
                    some { p with next := page_url idx.m_sk idx.m_meta.page_index }
                  else if v = page_url idx.m_sk idx.m_meta.page_index then
                    some { split with next := p.next }
                  else page_at g t.blobs v))) := by
  unfold index.insert_finish at h
  split at h
  · exact Except.noConfusion h
  · rename_i front rest hpo
    refine ⟨front, rest, hpo, ?_⟩
    split at h
    · rename_i hso
      rw [← Except.ok.inj h]
      refine ⟨rfl, Or.inl ⟨hso, rfl, rfl, ?_⟩⟩
      intro v
      exact page_at_write t page_key p g hr.1 v
    · rename_i sfront srest hso
      lift_lets at h
      extract_lets g0 split_key r split1 p1 c s4 s3 idx1 g2 old_root_key c2 n1 n2 s2 s1 s0 c2b at h
      have hc0 : c.1 = 0 := check_write_code t _ _ (replicated_answers g t hr)
      have hcr : replicated g c.2 := replicated_checked_write t _ _ g hr
      have hpc : ∀ v, page_at g c.2.blobs v =
          if v = page_url idx.m_sk idx.m_meta.page_index then some split1
          else page_at g t.blobs v := fun v => page_at_write t _ split1 g hr.1 v
      split at h
      · rename_i hne
        exact absurd hc0 hne
      · split at h
        · rename_i hroot
          have hc20 : c2.1 = 0 := check_write_code c.2 _ _ (replicated_answers g _ hcr)
          have hc2r : replicated g c2.2 := replicated_checked_write c.2 _ _ g hcr
          have hpc2 : ∀ v, page_at g c2.2.blobs v =
              if v = page_url idx.m_sk (idx.m_meta.page_index + 1) then some p1
              else page_at g c.2.blobs v := fun v => page_at_write c.2 _ p1 g hcr.1 v
          split at h
          · rename_i hne
            exact absurd hc20 hne
          · cases hn : n2.1.objects with
            | nil =>
              simp only [hn] at h
              exact Except.noConfusion h
            | cons root_front tail =>
              simp only [hn] at h
              have hc30 : (index.check (c2.2.write idx.m_sk
                  (page.save { n2.1 with next := root_front.url }))).1 = 0 :=
                check_write_code c2.2 _ _ (replicated_answers g _ hc2r)
              split at h
              · rename_i hne
                exact absurd hc30 hne
              · rw [← Except.ok.inj h]
                refine ⟨rfl, Or.inr ⟨sfront, srest, hso, rfl, Or.inr ⟨hroot, rfl, n2.1,
                  root_front, tail, rfl, hn, ?_⟩⟩⟩
                intro v
                have h3 := page_at_write c2.2 idx.m_sk { n2.1 with next := root_front.url } g
                  hc2r.1 v
                rw [hpc2 v, hpc v] at h3
                exact h3
        · rename_i hroot
          rw [← Except.ok.inj h]
          refine ⟨rfl, Or.inr ⟨sfront, srest, hso, rfl, Or.inl ⟨hroot, rfl, ?_⟩⟩⟩
          intro v
          have h2 := page_at_write c.2 page_key p1 g hcr.1 v
          rw [hpc v] at h2
          exact h2
theorem heads_congr (f f1 : eurl → Option page) (e : key) (h : f1 e.url = f e.url)
    (hh : heads f e) : heads f1 e := by
  obtain ⟨c, fr, rs, h1, h2, h3⟩ := hh
  exact ⟨c, fr, rs, by rw [h]; exact h1, h2, h3⟩

theorem heads_stored (f : eurl → Option page) (e : key) (hh : heads f e) :
    f e.url ≠ none := by
  obtain ⟨c, fr, rs, h1, _, _⟩ := hh
  rw [h1]
  exact Option.some_ne_none _

/-- The tree after some pages were written: the written pages are in order
and their entries are accounted for, the others are as before. -/
theorem shaped_written (sk : eurl) (n : Nat) (f f1 : eurl → Option page) (wr : eurl → Prop)
    (pk : eurl) (hsame : ∀ v, ¬ wr v → f1 v = f v) (hpk : wr pk)
    (hfresh : ∀ k, wr k → k = pk ∨ f k = none)
    (hok : ∀ u q, f u = some q → page_ok sk n q)
    (hfr : ∀ u q, f u = some q → q.is_leaf = false → u ≠ pk → ∀ e ∈ q.objects,
      e.url ≠ pk → heads f e)
    (hsg : ∀ u1 u2 x, owns f u1 x → owns f u2 x → u1 = u2)
    (w1 : ∀ k q, wr k → f1 k = some q → page_ok sk n q)
    (w2 : ∀ k q, wr k → f1 k = some q → q.is_leaf = false → ∀ e ∈ q.objects,
      e.url ≠ pk → heads f1 e)
    (w3 : ∀ k1 k2 x, wr k1 → wr k2 → owns f1 k1 x → owns f1 k2 x → k1 = k2)
    (w4 : ∀ k x u2, wr k → owns f1 k x → ¬ wr u2 → ¬ owns f u2 x) :
    shaped sk n f1 (fun _ x => x = pk) := by
  have hown : ∀ u x, ¬ wr u → owns f1 u x → owns f u x := by
    intro u x hu ⟨q, e, hq, hl, he, hx⟩
    exact ⟨q, e, by rw [← hsame u hu]; exact hq, hl, he, hx⟩
  refine ⟨?_, ?_, ?_⟩
  · intro u q hq
    by_cases hu : wr u
    · exact w1 u q hu hq
    · rw [hsame u hu] at hq
      exact hok u q hq
  · intro u q hq hl e he hsk
    by_cases hu : wr u
    · exact w2 u q hu hq hl e he hsk
    · rw [hsame u hu] at hq
      have hupk : u ≠ pk := fun h => hu (h ▸ hpk)
      have hh := hfr u q hq hl hupk e he hsk
      refine heads_congr f f1 e (hsame _ ?_) hh
      intro hw
      rcases hfresh _ hw with h1 | h1
      · exact hsk h1
      · exact heads_stored f e hh h1
  · intro u1 u2 x h1 h2
    by_cases hu1 : wr u1
    · by_cases hu2 : wr u2
      · exact w3 u1 u2 x hu1 hu2 h1 h2
      · exact absurd (hown u2 x hu2 h2) (w4 u1 x u2 hu1 h1 hu2)
    · by_cases hu2 : wr u2
      · exact absurd (hown u1 x hu1 h1) (w4 u2 x u1 hu2 h2 hu1)
      · exact hsg u1 u2 x (hown u1 x hu1 h1) (hown u2 x hu2 h2)
theorem owns_written (f1 : eurl → Option page) (k x : eurl) (q : page)
    (hq : f1 k = some q) (h : owns f1 k x) :
    q.is_leaf = false ∧ ∃ e ∈ q.objects, e.url = x := by
  obtain ⟨q1, e, h1, h2, h3, h4⟩ := h
  rw [hq] at h1
  cases h1
  exact ⟨h2, e, h3, h4⟩

/-- A page of the chain is written back with its `next` unchanged. -/
theorem tree_keep (sk : eurl) (n : Nat) (f f1 : eurl → Option page) (pk : eurl)
    (a b : List eurl) (p p0 : page)
    (hch : chained f sk (a ++ pk :: b)) (hp0 : f pk = some p0) (hnext : p.next = p0.next)
    (hok : ∀ u q, f u = some q → page_ok sk n q)
    (hfr : ∀ u q, f u = some q → q.is_leaf = false → u ≠ pk → ∀ e ∈ q.objects,
      e.url ≠ pk → heads f e)
    (hsg : ∀ u1 u2 x, owns f u1 x → owns f u2 x → u1 = u2)
    (hne : p.objects ≠ []) (hEs : ids_sorted p.objects)
    (hEf : ∀ e ∈ p.objects, fits sk n e.id)
    (hEn : p.is_leaf = false → (p.objects.map key.url).Nodup)
    (hEa : p.is_leaf = false → ∀ e ∈ p.objects, e.url ∈ b)
    (hEh : p.is_leaf = false → ∀ e ∈ p.objects, heads f e)
    (hEu : p.is_leaf = false → ∀ e ∈ p.objects, ∀ u2, owns f u2 e.url → u2 = pk)
    (hf1 : ∀ v, f1 v = if v = pk then some p else f v) :
    chained f1 sk (a ++ pk :: b) ∧ (∀ v ∈ a, f1 v = f v) ∧
      shaped sk n f1 (fun _ x => x = pk) := by
  have hpab : pk ∉ a ++ b := (List.nodup_cons.1 (List.nodup_middle.1 hch.nodup)).1
  have hpa : pk ∉ a := fun h => hpab (List.mem_append_left _ h)
  have hpb : pk ∉ b := fun h => hpab (List.mem_append_right _ h)
  have hfa : ∀ v ∈ a, f1 v = f v := by
    intro v hv
    rw [hf1, if_neg (ne_of_mem_of_not_mem hv hpa)]
  have hfb : ∀ v ∈ b, f1 v = f v := by
    intro v hv
    rw [hf1, if_neg (ne_of_mem_of_not_mem hv hpb)]
  have hfpk : f1 pk = some p := by rw [hf1, if_pos rfl]
  obtain ⟨la, ⟨q0, hq0, hq0n⟩, lb⟩ := (links_append f default a (pk :: b)).1 hch.linked
  rw [hp0] at hq0
  cases hq0
  obtain ⟨fa, _, fb⟩ := (fwd_append f [] a (pk :: b)).1 hch.ahead
  refine ⟨⟨hch.start, hch.nodup, ?_, ?_, ?_⟩, hfa, ?_⟩
  · exact (links_append f1 default a (pk :: b)).2 ⟨links_congr f f1 _ a hfa la,
      ⟨p, hfpk, hnext.trans hq0n⟩, links_congr f f1 _ b hfb lb⟩
  · refine (fwd_append f1 [] a (pk :: b)).2 ⟨fwd_congr f f1 _ a hfa fa, ?_,
      fwd_congr f f1 _ b hfb fb⟩
    intro q hq hl e he
    rw [hfpk] at hq
    cases hq
    exact List.mem_append_left _ (hEa hl e he)
  · intro u q hq
    rw [hf1] at hq
    by_cases hu : u = pk
    · rw [hu]
      exact List.mem_append_right _ (List.mem_cons_self _ _)
    · rw [if_neg hu] at hq
      exact hch.cover u q hq
  · refine shaped_written sk n f f1 (fun v => v = pk) pk ?_ rfl (fun k hk => Or.inl hk)
      hok hfr hsg ?_ ?_ ?_ ?_
    · intro v hv
      rw [hf1, if_neg hv]
    · intro k q hk hq
      rw [hk, hfpk] at hq
      cases hq
      exact ⟨hne, hEs, hEf, hEn⟩
    · intro k q hk hq hl e he hsk
      rw [hk, hfpk] at hq
      cases hq
      refine heads_congr f f1 e ?_ (hEh hl e he)
      rw [hf1, if_neg hsk]
    · intro k1 k2 x h1 h2 _ _
      exact h1.trans h2.symm
    · intro k x u2 hk ho hu2 ho2
      rw [hk] at ho
      obtain ⟨hl, e, he, hx⟩ := owns_written f1 pk x p hfpk ho
      rw [← hx] at ho2
      exact hu2 (hEu hl e he u2 ho2)
theorem page_ok_part (sk : eurl) (n : Nat) (q : page) (es : List key) (leaf : Bool)
    (hsub : q.objects.Sublist es) (hne : q.objects ≠ []) (hl : q.is_leaf = leaf)
    (hEs : ids_sorted es) (hEf : ∀ e ∈ es, fits sk n e.id)
    (hEn : leaf = false → (es.map key.url).Nodup) : page_ok sk n q := by
  refine ⟨hne, List.Pairwise.sublist hsub hEs, fun e he => hEf e (hsub.subset he), ?_⟩
  intro hq
  exact List.Nodup.sublist (List.Sublist.map _ hsub) (hEn (hl.symm.trans hq))

/-- A page of the chain splits: its upper half goes under a fresh url,
which is linked in right after it. -/
theorem tree_split (sk : eurl) (n : Nat) (f f1 : eurl → Option page) (pk s : eurl)
    (a b : List eurl) (p split p0 : page)
    (hch : chained f sk (a ++ pk :: b)) (hp0 : f pk = some p0) (hnext : p.next = p0.next)
    (hok : ∀ u q, f u = some q → page_ok sk n q)
    (hfr : ∀ u q, f u = some q → q.is_leaf = false → u ≠ pk → ∀ e ∈ q.objects,
      e.url ≠ pk → heads f e)
    (hsg : ∀ u1 u2 x, owns f u1 x → owns f u2 x → u1 = u2)
    (hs : f s = none) (hpne : p.objects ≠ []) (hsne : split.objects ≠ [])
    (hsf : split.flags = p.flags)
    (hEs : ids_sorted (p.objects ++ split.objects))
    (hEf : ∀ e ∈ p.objects ++ split.objects, fits sk n e.id)
    (hEn : p.is_leaf = false → ((p.objects ++ split.objects).map key.url).Nodup)
    (hEa : p.is_leaf = false → ∀ e ∈ p.objects ++ split.objects, e.url ∈ b)
    (hEh : p.is_leaf = false → ∀ e ∈ p.objects ++ split.objects, heads f e)
    (hEu : p.is_leaf = false → ∀ e ∈ p.objects ++ split.objects, ∀ u2,
      owns f u2 e.url → u2 = pk)
    (hf1 : ∀ v, f1 v = if v = pk then some { p with next := s }
      else if v = s then some { split with next := p.next } else f v) :
    chained f1 sk (a ++ pk :: s :: b) ∧ (∀ v ∈ a, f1 v = f v) ∧
      shaped sk n f1 (fun _ x => x = pk) ∧ ∀ u, ¬ owns f1 u s := by
  have hpab : pk ∉ a ++ b := (List.nodup_cons.1 (List.nodup_middle.1 hch.nodup)).1
  have hpa : pk ∉ a := fun h => hpab (List.mem_append_left _ h)
  have hpb : pk ∉ b := fun h => hpab (List.mem_append_right _ h)
  have hsl : s ∉ a ++ pk :: b := by
    intro h
    obtain ⟨q, hq⟩ := links_stored f default _ hch.linked s h
    rw [hs] at hq
    cases hq
  have hsa : s ∉ a := fun h => hsl (List.mem_append_left _ h)
  have hsb : s ∉ b := fun h => hsl (List.mem_append_right _ (List.mem_cons_of_mem _ h))
  have hspk : s ≠ pk := by
    intro h
    apply hsl
    rw [h]
    exact List.mem_append_right _ (List.mem_cons_self _ _)
  have hfa : ∀ v ∈ a, f1 v = f v := by
    intro v hv
    rw [hf1, if_neg (ne_of_mem_of_not_mem hv hpa), if_neg (ne_of_mem_of_not_mem hv hsa)]
  have hfb : ∀ v ∈ b, f1 v = f v := by
    intro v hv
    rw [hf1, if_neg (ne_of_mem_of_not_mem hv hpb), if_neg (ne_of_mem_of_not_mem hv hsb)]
  have hfpk : f1 pk = some { p with next := s } := by rw [hf1, if_pos rfl]
  have hfs : f1 s = some { split with next := p.next } := by
    rw [hf1, if_neg hspk, if_pos rfl]
  have hsl1 : (page.mk split.flags split.objects split.total_size p.next).is_leaf =
      p.is_leaf := is_leaf_of_flags _ _ hsf
  obtain ⟨la, ⟨q0, hq0, hq0n⟩, lb⟩ := (links_append f default a (pk :: b)).1 hch.linked
  rw [hp0] at hq0
  cases hq0
  obtain ⟨fa, _, fb⟩ := (fwd_append f [] a (pk :: b)).1 hch.ahead
  have hwe : ∀ k x, (k = pk ∨ k = s) → owns f1 k x →
      p.is_leaf = false ∧ ∃ e ∈ p.objects ++ split.objects, e.url = x := by
    intro k x hk ho
    rcases hk with hk | hk
    · rw [hk] at ho
      obtain ⟨hl, e, he, hx⟩ := owns_written f1 pk x _ hfpk ho
      exact ⟨hl, e, List.mem_append_left _ he, hx⟩
    · rw [hk] at ho
      obtain ⟨hl, e, he, hx⟩ := owns_written f1 s x _ hfs ho
      exact ⟨hsl1.symm.trans hl, e, List.mem_append_right _ he, hx⟩
  refine ⟨⟨?_, ?_, ?_, ?_, ?_⟩, hfa, ?_, ?_⟩
  · have h0 := hch.start
    cases a with
    | nil => exact h0
    | cons x a1 => exact h0
  · have e1 : a ++ pk :: s :: b = (a ++ [pk]) ++ s :: b := by simp
    have e2 : (a ++ [pk]) ++ b = a ++ pk :: b := by simp
    rw [e1]
    refine List.nodup_middle.2 (List.nodup_cons.2 ⟨?_, ?_⟩)
    · rw [e2]
      exact hsl
    · rw [e2]
      exact hch.nodup
  · refine (links_append f1 default a (pk :: s :: b)).2 ⟨links_congr f f1 _ a hfa la,
      ⟨_, hfpk, rfl⟩, ⟨_, hfs, ?_⟩, links_congr f f1 _ b hfb lb⟩
    exact hnext.trans hq0n
  · refine (fwd_append f1 [] a (pk :: s :: b)).2 ⟨?_, ?_, ?_, fwd_congr f f1 _ b hfb fb⟩
    · refine fwd_mono f1 _ _ ?_ a (fwd_congr f f1 _ a hfa fa)
      intro v hv
      rw [List.append_nil] at hv ⊢
      rcases List.mem_cons.1 hv with h | h
      · rw [h]
        exact List.mem_cons_self _ _
      · exact List.mem_cons_of_mem _ (List.mem_cons_of_mem _ h)
    · intro q hq hl e he
      rw [hfpk] at hq
      cases hq
      exact List.mem_append_left _ (List.mem_cons_of_mem _
        (hEa hl e (List.mem_append_left _ he)))
    · intro q hq hl e he
      rw [hfs] at hq
      cases hq
      exact List.mem_append_left _ (hEa (hsl1.symm.trans hl) e (List.mem_append_right _ he))
  · intro u q hq
    rw [hf1] at hq
    by_cases hu : u = pk
    · rw [hu]
      exact List.mem_append_right _ (List.mem_cons_self _ _)
    · rw [if_neg hu] at hq
      by_cases hu2 : u = s
      · rw [hu2]
        exact List.mem_append_right _ (List.mem_cons_of_mem _ (List.mem_cons_self _ _))
      · rw [if_neg hu2] at hq
        rcases List.mem_append.1 (hch.cover u q hq) with h | h
        · exact List.mem_append_left _ h
        · rcases List.mem_cons.1 h with h | h
          · exact absurd h hu
          · exact List.mem_append_right _
              (List.mem_cons_of_mem _ (List.mem_cons_of_mem _ h))
  · refine shaped_written sk n f f1 (fun v => v = pk ∨ v = s) pk ?_ (Or.inl rfl) ?_
      hok hfr hsg ?_ ?_ ?_ ?_
    · intro v hv
      rw [hf1, if_neg (fun h => hv (Or.inl h)), if_neg (fun h => hv (Or.inr h))]
    · intro k hk
      rcases hk with hk | hk
      · exact Or.inl hk
      · exact Or.inr (by rw [hk]; exact hs)
    · intro k q hk hq
      rcases hk with hk | hk
      · rw [hk, hfpk] at hq
        cases hq
        exact page_ok_part sk n _ _ p.is_leaf (List.sublist_append_left _ _) hpne rfl
          hEs hEf hEn
      · rw [hk, hfs] at hq
        cases hq
        exact page_ok_part sk n _ _ p.is_leaf (List.sublist_append_right _ _) hsne hsl1
          hEs hEf hEn
    · intro k q hk hq hl e he hsk
      obtain ⟨hl1, e1, he1, hx1⟩ := hwe k e.url hk ⟨q, e, hq, hl, he, rfl⟩
      have hh : heads f e := by
        obtain ⟨c, fr, rs, c1, c2, c3⟩ := hEh hl1 e1 he1
        rw [hx1] at c1
        rcases hk with hk | hk
        · rw [hk, hfpk] at hq
          cases hq
          exact hEh hl1 e (List.mem_append_left _ he)
        · rw [hk, hfs] at hq
          cases hq
          exact hEh hl1 e (List.mem_append_right _ he)
      refine heads_congr f f1 e ?_ hh
      rw [hf1, if_neg hsk, if_neg]
      intro h
      exact heads_stored f e hh (by rw [h]; exact hs)
    · intro k1 k2 x h1 h2 o1 o2
      rcases h1 with h1 | h1 <;> rcases h2 with h2 | h2
      · exact h1.trans h2.symm
      · exfalso
        rw [h1] at o1
        rw [h2] at o2
        obtain ⟨hl, e1, he1, hx1⟩ := owns_written f1 pk x _ hfpk o1
        obtain ⟨_, e2, he2, hx2⟩ := owns_written f1 s x _ hfs o2
        have hnd := hEn hl
        rw [List.map_append] at hnd
        exact List.disjoint_of_nodup_append hnd (List.mem_map.2 ⟨e1, he1, hx1⟩)
          (List.mem_map.2 ⟨e2, he2, hx2⟩)
      · exfalso
        rw [h1] at o1
        rw [h2] at o2
        obtain ⟨hl, e1, he1, hx1⟩ := owns_written f1 pk x _ hfpk o2
        obtain ⟨_, e2, he2, hx2⟩ := owns_written f1 s x _ hfs o1
        have hnd := hEn hl
        rw [List.map_append] at hnd
        exact List.disjoint_of_nodup_append hnd (List.mem_map.2 ⟨e1, he1, hx1⟩)
          (List.mem_map.2 ⟨e2, he2, hx2⟩)
      · exact h1.trans h2.symm
    · intro k x u2 hk ho hu2 ho2
      obtain ⟨hl, e, he, hx⟩ := hwe k x hk ho
      rw [← hx] at ho2
      exact hu2 (Or.inl (hEu hl e he u2 ho2))
  · intro u ho
    have hwr : ∀ u, (u = pk ∨ u = s) → ¬ owns f1 u s := by
      intro u hu ho
      obtain ⟨hl, e, he, hx⟩ := hwe u s hu ho
      have hb := hEa hl e he
      rw [hx] at hb
      exact hsb hb
    by_cases hu1 : u = pk
    · exact hwr u (Or.inl hu1) ho
    · by_cases hu2 : u = s
      · exact hwr u (Or.inr hu2) ho
      · obtain ⟨q, e, hq, hl, he, hx⟩ := ho
        rw [hf1, if_neg hu1, if_neg hu2] at hq
        have hne : e.url ≠ pk := by
          rw [hx]
          exact hspk
        have hh := hfr u q hq hl hu1 e he hne
        apply heads_stored f e hh
        rw [hx]
        exact hs
/-- The page at the start url splits: both halves go under fresh urls and
are linked in right after the new root, which names the two of them. -/
theorem tree_promote (sk : eurl) (n : Nat) (f f1 : eurl → Option page) (u1 s : eurl)
    (b : List eurl) (p split p0 root : page) (front sf : key) (rest srest tl : List key)
    (hch : chained f sk (sk :: b)) (hp0 : f sk = some p0) (hnext : p.next = p0.next)
    (hok : ∀ u q, f u = some q → page_ok sk n q)
    (hfr : ∀ u q, f u = some q → q.is_leaf = false → u ≠ sk → ∀ e ∈ q.objects,
      e.url ≠ sk → heads f e)
    (hsg : ∀ u1 u2 x, owns f u1 x → owns f u2 x → u1 = u2)
    (hs : f s = none) (hu1 : f u1 = none) (hne : u1 ≠ s)
    (hpo : p.objects = front :: rest) (hso : split.objects = sf :: srest)
    (hsf : split.flags = p.flags)
    (hro : root.objects = ⟨front.id, u1⟩ :: tl) (htl : tl = [] ∨ tl = [⟨sf.id, s⟩])
    (hrn : root.next = u1)
    (hEs : ids_sorted (p.objects ++ split.objects))
    (hEf : ∀ e ∈ p.objects ++ split.objects, fits sk n e.id)
    (hEn : p.is_leaf = false → ((p.objects ++ split.objects).map key.url).Nodup)
    (hEa : p.is_leaf = false → ∀ e ∈ p.objects ++ split.objects, e.url ∈ b)
    (hEh : p.is_leaf = false → ∀ e ∈ p.objects ++ split.objects, heads f e)
    (hEu : p.is_leaf = false → ∀ e ∈ p.objects ++ split.objects, ∀ u2,
      owns f u2 e.url → u2 = sk)
    (hf1 : ∀ v, f1 v = if v = sk then some root
      else if v = u1 then some { p with next := s }
      else if v = s then some { split with next := p.next } else f v) :
    chained f1 sk (sk :: u1 :: s :: b) ∧ shaped sk n f1 (fun _ x => x = sk) := by
  have hskb : sk ∉ b := (List.nodup_cons.1 hch.nodup).1
  have hst : ∀ v, f v = none → v ∉ sk :: b := by
    intro v hv h
    obtain ⟨q, hq⟩ := links_stored f default _ hch.linked v h
    rw [hv] at hq
    cases hq
  have hsl := hst s hs
  have hul := hst u1 hu1
  have hsb : s ∉ b := fun h => hsl (List.mem_cons_of_mem _ h)
  have hub : u1 ∉ b := fun h => hul (List.mem_cons_of_mem _ h)
  have hssk : s ≠ sk := fun h => hsl (by rw [h]; exact List.mem_cons_self _ _)
  have husk : u1 ≠ sk := fun h => hul (by rw [h]; exact List.mem_cons_self _ _)
  have hfb : ∀ v ∈ b, f1 v = f v := by
    intro v hv
    rw [hf1, if_neg (ne_of_mem_of_not_mem hv hskb), if_neg (ne_of_mem_of_not_mem hv hub),
      if_neg (ne_of_mem_of_not_mem hv hsb)]
  have hfsk : f1 sk = some root := by rw [hf1, if_pos rfl]
  have hfu : f1 u1 = some { p with next := s } := by rw [hf1, if_neg husk, if_pos rfl]
  have hfs : f1 s = some { split with next := p.next } := by
    rw [hf1, if_neg hssk, if_neg (Ne.symm hne), if_pos rfl]
  have hsl1 : (page.mk split.flags split.objects split.total_size p.next).is_leaf =
      p.is_leaf := is_leaf_of_flags _ _ hsf
  obtain ⟨⟨q0, hq0, hq0n⟩, lb⟩ := hch.linked
  rw [hp0] at hq0
  cases hq0
  obtain ⟨_, fb⟩ := hch.ahead
  have hlt : front.id < sf.id := by
    rw [hpo, hso] at hEs
    have h1 := List.pairwise_append.1 hEs
    exact h1.2.2 front (List.mem_cons_self _ _) sf (List.mem_cons_self _ _)
  have hrt : ∀ e ∈ root.objects, e = ⟨front.id, u1⟩ ∨ e = ⟨sf.id, s⟩ := by
    intro e he
    rw [hro] at he
    rcases List.mem_cons.1 he with h | h
    · exact Or.inl h
    · rcases htl with h0 | h0
      · rw [h0] at h
        cases h
      · rw [h0] at h
        exact Or.inr (List.mem_singleton.1 h)
  have hroot : ∀ x, owns f1 sk x → x = u1 ∨ x = s := by
    intro x ho
    obtain ⟨_, e, he, hx⟩ := owns_written f1 sk x root hfsk ho
    rcases hrt e he with h | h
    · rw [h] at hx
      exact Or.inl hx.symm
    · rw [h] at hx
      exact Or.inr hx.symm
  have hwe : ∀ k x, (k = u1 ∨ k = s) → owns f1 k x →
      p.is_leaf = false ∧ ∃ e ∈ p.objects ++ split.objects, e.url = x := by
    intro k x hk ho
    rcases hk with hk | hk
    · rw [hk] at ho
      obtain ⟨hl, e, he, hx⟩ := owns_written f1 u1 x _ hfu ho
      exact ⟨hl, e, List.mem_append_left _ he, hx⟩
    · rw [hk] at ho
      obtain ⟨hl, e, he, hx⟩ := owns_written f1 s x _ hfs ho
      exact ⟨hsl1.symm.trans hl, e, List.mem_append_right _ he, hx⟩
  have hfreshx : ∀ x, x = u1 ∨ x = s → f x = none := by
    intro x hx
    rcases hx with hx | hx
    · rw [hx]; exact hu1
    · rw [hx]; exact hs
  have hstored : ∀ k x, (k = u1 ∨ k = s) → owns f1 k x → f x ≠ none := by
    intro k x hk ho
    obtain ⟨hl, e, he, hx⟩ := hwe k x hk ho
    rw [← hx]
    exact heads_stored f e (hEh hl e he)
  refine ⟨⟨rfl, ?_, ?_, ?_, ?_⟩, ?_⟩
  · refine List.nodup_cons.2 ⟨?_, List.nodup_cons.2 ⟨?_, List.nodup_cons.2 ⟨hsb, ?_⟩⟩⟩
    · intro h
      rcases List.mem_cons.1 h with h | h
      · exact husk h.symm
      · rcases List.mem_cons.1 h with h | h
        · exact hssk h.symm
        · exact hskb h
    · intro h
      rcases List.mem_cons.1 h with h | h
      · exact hne h
      · exact hub h
    · exact (List.nodup_cons.1 hch.nodup).2
  · exact ⟨⟨root, hfsk, hrn⟩, ⟨_, hfu, rfl⟩, ⟨_, hfs, hnext.trans hq0n⟩,
      links_congr f f1 _ b hfb lb⟩
  · refine ⟨?_, ?_, ?_, fwd_congr f f1 _ b hfb fb⟩
    · intro q hq _ e he
      rw [hfsk] at hq
      cases hq
      rw [List.append_nil]
      rcases hrt e he with h | h
      · rw [h]
        exact List.mem_cons_self _ _
      · rw [h]
        exact List.mem_cons_of_mem _ (List.mem_cons_self _ _)
    · intro q hq hl e he
      rw [hfu] at hq
      cases hq
      exact List.mem_append_left _ (List.mem_cons_of_mem _
        (hEa hl e (List.mem_append_left _ he)))
    · intro q hq hl e he
      rw [hfs] at hq
      cases hq
      exact List.mem_append_left _ (hEa (hsl1.symm.trans hl) e (List.mem_append_right _ he))
  · intro u q hq
    rw [hf1] at hq
    by_cases h1 : u = sk
    · rw [h1]
      exact List.mem_cons_self _ _
    · rw [if_neg h1] at hq
      by_cases h2 : u = u1
      · rw [h2]
        exact List.mem_cons_of_mem _ (List.mem_cons_self _ _)
      · rw [if_neg h2] at hq
        by_cases h3 : u = s
        · rw [h3]
          exact List.mem_cons_of_mem _ (List.mem_cons_of_mem _ (List.mem_cons_self _ _))
        · rw [if_neg h3] at hq
          rcases List.mem_cons.1 (hch.cover u q hq) with h | h
          · exact absurd h h1
          · exact List.mem_cons_of_mem _ (List.mem_cons_of_mem _ (List.mem_cons_of_mem _ h))
  · refine shaped_written sk n f f1 (fun v => v = sk ∨ v = u1 ∨ v = s) sk ?_ (Or.inl rfl) ?_
      hok hfr hsg ?_ ?_ ?_ ?_
    · intro v hv
      rw [hf1, if_neg (fun h => hv (Or.inl h)), if_neg (fun h => hv (Or.inr (Or.inl h))),
        if_neg (fun h => hv (Or.inr (Or.inr h)))]
    · intro k hk
      rcases hk with hk | hk
      · exact Or.inl hk
      · exact Or.inr (hfreshx k hk)
    · intro k q hk hq
      rcases hk with hk | hk | hk
      · rw [hk, hfsk] at hq
        cases hq
        refine ⟨by rw [hro]; exact List.cons_ne_nil _ _, ?_, ?_, ?_⟩
        · rw [hro]
          rcases htl with h0 | h0
          · rw [h0]
            exact List.pairwise_singleton _ _
          · rw [h0]
            exact List.pairwise_pair.2 hlt
        · intro e he
          rcases hrt e he with h | h
          · rw [h]
            exact hEf front (by rw [hpo]; exact List.mem_append_left _ (List.mem_cons_self _ _))
          · rw [h]
            exact hEf sf (by rw [hso]; exact List.mem_append_right _ (List.mem_cons_self _ _))
        · intro _
          rw [hro]
          rcases htl with h0 | h0
          · rw [h0]
            exact List.nodup_singleton _
          · rw [h0]
            exact List.nodup_cons.2 ⟨by
              intro h
              exact hne (List.mem_singleton.1 h), List.nodup_singleton _⟩
      · rw [hk, hfu] at hq
        cases hq
        exact page_ok_part sk n _ _ p.is_leaf (List.sublist_append_left _ _)
          (by rw [hpo]; exact List.cons_ne_nil _ _) rfl hEs hEf hEn
      · rw [hk, hfs] at hq
        cases hq
        exact page_ok_part sk n _ _ p.is_leaf (List.sublist_append_right _ _)
          (by rw [hso]; exact List.cons_ne_nil _ _) hsl1 hEs hEf hEn
    · intro k q hk hq hl e he hsk
      rcases hk with hk | hk
      · rw [hk, hfsk] at hq
        cases hq
        rcases hrt e he with h | h
        · rw [h]
          exact ⟨_, front, rest, hfu, hpo, rfl⟩
        · rw [h]
          exact ⟨_, sf, srest, hfs, hso, rfl⟩
      · obtain ⟨hl1, _, _, _⟩ := hwe k e.url hk ⟨q, e, hq, hl, he, rfl⟩
        have hh : heads f e := by
          rcases hk with hk | hk
          · rw [hk, hfu] at hq
            cases hq
            exact hEh hl1 e (List.mem_append_left _ he)
          · rw [hk, hfs] at hq
            cases hq
            exact hEh hl1 e (List.mem_append_right _ he)
        refine heads_congr f f1 e ?_ hh
        have hst1 := heads_stored f e hh
        rw [hf1, if_neg hsk, if_neg (fun h => hst1 (by rw [h]; exact hu1)),
          if_neg (fun h => hst1 (by rw [h]; exact hs))]
    · intro k1 k2 x h1 h2 o1 o2
      rcases h1 with h1 | h1
      · rcases h2 with h2 | h2
        · exact h1.trans h2.symm
        · exfalso
          rw [h1] at o1
          exact hstored k2 x h2 o2 (hfreshx x (hroot x o1))
      · rcases h2 with h2 | h2
        · exfalso
          rw [h2] at o2
          exact hstored k1 x h1 o1 (hfreshx x (hroot x o2))
        · rcases h1 with h1 | h1 <;> rcases h2 with h2 | h2
          · exact h1.trans h2.symm
          · exfalso
            rw [h1] at o1
            rw [h2] at o2
            obtain ⟨hl, e1, he1, hx1⟩ := owns_written f1 u1 x _ hfu o1
            obtain ⟨_, e2, he2, hx2⟩ := owns_written f1 s x _ hfs o2
            have hnd := hEn hl
            rw [List.map_append] at hnd
            exact List.disjoint_of_nodup_append hnd (List.mem_map.2 ⟨e1, he1, hx1⟩)
              (List.mem_map.2 ⟨e2, he2, hx2⟩)
          · exfalso
            rw [h1] at o1
            rw [h2] at o2
            obtain ⟨hl, e1, he1, hx1⟩ := owns_written f1 u1 x _ hfu o2
            obtain ⟨_, e2, he2, hx2⟩ := owns_written f1 s x _ hfs o1
            have hnd := hEn hl
            rw [List.map_append] at hnd
            exact List.disjoint_of_nodup_append hnd (List.mem_map.2 ⟨e1, he1, hx1⟩)
              (List.mem_map.2 ⟨e2, he2, hx2⟩)
          · exact h1.trans h2.symm
    · intro k x u2 hk ho hu2 ho2
      rcases hk with hk | hk
      · rw [hk] at ho
        have hx := hroot x ho
        obtain ⟨q, e, hq, hl, he, hxe⟩ := ho2
        have hxsk : e.url ≠ sk := by
          rw [hxe]
          rcases hx with hx | hx
          · rw [hx]; exact husk
          · rw [hx]; exact hssk
        have hh := hfr u2 q hq hl (fun h => hu2 (Or.inl h)) e he hxsk
        apply heads_stored f e hh
        rw [hxe]
        exact hfreshx x hx
      · obtain ⟨hl, e, he, hx⟩ := hwe k x hk ho
        rw [← hx] at ho2
        exact hu2 (Or.inl (hEu hl e he u2 ho2))
/-- The entries of the new root: the entry of the old root page first, then
the split key when both fit. -/
theorem new_root_objects (ko ks : key) (hk : ko.size ≤ max_page_size) (hlt : ko.id < ks.id) :
    (((page.new false).insert_and_split ko (page.new false)).1.insert_and_split ks
        ((page.new false).insert_and_split ko (page.new false)).2.1).1.objects = [ko, ks] ∨
      (((page.new false).insert_and_split ko (page.new false)).1.insert_and_split ks
        ((page.new false).insert_and_split ko (page.new false)).2.1).1.objects = [ko] := by
  rw [new_page_insert_first ko (page.new false) hk]
  have e : insert_sorted ks [ko] = [ko, ks] := by
    unfold insert_sorted
    rw [if_neg (not_le.mpr hlt)]
    rfl
  rcases insert_and_split_objects (page.mk 0 [ko] ko.size default) ks (page.new false) with
    ⟨ts, h⟩ | ⟨ts1, ts2, h⟩
  · left
    rw [h]
    exact e
  · right
    rw [h]
    show List.take ((insert_sorted ks [ko]).length / 2) (insert_sorted ks [ko]) = [ko]
    rw [e]
    simp

theorem head_of_chain (sk pk : eurl) (a b : List eurl)
    (hs : (a ++ pk :: b).head? = some sk) (hnd : (a ++ pk :: b).Nodup) (hpk : pk = sk) :
    a = [] := by
  cases a with
  | nil => rfl
  | cons x a1 =>
    exfalso
    have hx : x = sk := by
      simp only [List.cons_append, List.head?_cons, Option.some.injEq] at hs
      exact hs
    have hpab : pk ∉ (x :: a1) ++ b := (List.nodup_cons.1 (List.nodup_middle.1 hnd)).1
    apply hpab
    rw [hpk, hx]
    exact List.mem_append_left _ (List.mem_cons_self _ _)

/-- What `insert_finish` does to the chain and to the tree. -/
theorem insert_finish_tree (g : Int) (n : Nat) (idx : index) (t : transport) (pk : eurl)
    (p split p0 : page) (a b : List eurl) (out : Int × transport × index × recursion)
    (hr : replicated g t) (hc : counted g idx.m_sk t.blobs idx.m_meta)
    (hch : chained (page_at g t.blobs) idx.m_sk (a ++ pk :: b))
    (hp0 : page_at g t.blobs pk = some p0) (hnext : p.next = p0.next)
    (hsf : split.objects ≠ [] → split.flags = p.flags)
    (hok : ∀ u q, page_at g t.blobs u = some q → page_ok idx.m_sk n q)
    (hfr : ∀ u q, page_at g t.blobs u = some q → q.is_leaf = false → u ≠ pk →
      ∀ e ∈ q.objects, e.url ≠ pk → heads (page_at g t.blobs) e)
    (hsg : ∀ u1 u2 x, owns (page_at g t.blobs) u1 x → owns (page_at g t.blobs) u2 x → u1 = u2)
    (hEs : ids_sorted (p.objects ++ split.objects))
    (hEf : ∀ e ∈ p.objects ++ split.objects, fits idx.m_sk n e.id)
    (hEn : p.is_leaf = false → ((p.objects ++ split.objects).map key.url).Nodup)
    (hEa : p.is_leaf = false → ∀ e ∈ p.objects ++ split.objects, e.url ∈ b)
    (hEh : p.is_leaf = false → ∀ e ∈ p.objects ++ split.objects, heads (page_at g t.blobs) e)
    (hEu : p.is_leaf = false → ∀ e ∈ p.objects ++ split.objects, ∀ u2,
      owns (page_at g t.blobs) u2 e.url → u2 = pk)
    (hn : out.2.2.1.m_meta.page_index ≤ n)
    (h : idx.insert_finish t pk p split = .ok out) :
    ∃ b1, chained (page_at g out.2.1.blobs) idx.m_sk (a ++ pk :: b1) ∧
      (∀ v ∈ b, v ∈ b1) ∧
      (∀ v ∈ a, page_at g out.2.1.blobs v = page_at g t.blobs v) ∧
      shaped idx.m_sk n (page_at g out.2.1.blobs) (fun _ x => x = pk) ∧
      (∃ q fr rs, page_at g out.2.1.blobs pk = some q ∧ q.objects = fr :: rs ∧
        fr.id = out.2.2.2.page_start.id) ∧
      (∃ rest, p.objects = out.2.2.2.page_start :: rest) ∧
      (pk ≠ idx.m_sk → out.2.2.2.split_key.to_bool = true →
        out.2.2.2.split_key.url ∈ b1 ∧
        page_at g t.blobs out.2.2.2.split_key.url = none ∧
        heads (page_at g out.2.1.blobs) out.2.2.2.split_key ∧
        out.2.2.2.page_start.id < out.2.2.2.split_key.id ∧
        ∀ u, ¬ owns (page_at g out.2.1.blobs) u out.2.2.2.split_key.url) := by
  have hfresh : ∀ i, idx.m_meta.page_index ≤ i →
      page_at g t.blobs (page_url idx.m_sk i) = none := by
    intro i hi
    cases hq : page_at g t.blobs (page_url idx.m_sk i) with
    | none => rfl
    | some q =>
      exfalso
      have h1 := hc.1 _ q hq
      exact fresh_not_allocated idx.m_sk i (mem_allocated_mono _ _ _ hi _ h1)
  obtain ⟨front, rest, hpo, hps, hcase⟩ := insert_finish_pages g idx t pk p split out hr h
  rcases hcase with ⟨hso, hsk, _, hf1⟩ | ⟨sf, srest, hso, hsk, hcase2⟩
  · rw [hso, List.append_nil] at hEs hEf hEn hEa hEh hEu
    obtain ⟨c1, c2, c3⟩ := tree_keep idx.m_sk n _ _ pk a b p p0 hch hp0 hnext hok hfr hsg
      (by rw [hpo]; exact List.cons_ne_nil _ _) hEs hEf hEn hEa hEh hEu hf1
    refine ⟨b, c1, fun v hv => hv, c2, c3, ⟨p, front, rest, ?_, hpo, by rw [hps]⟩,
      ⟨rest, by rw [hps]; exact hpo⟩, ?_⟩
    · rw [hf1, if_pos rfl]
    · intro _ hto
      rw [hsk, default_key_not_set] at hto
      cases hto
  · have hsne : split.objects ≠ [] := by rw [hso]; exact List.cons_ne_nil _ _
    have hpne : p.objects ≠ [] := by rw [hpo]; exact List.cons_ne_nil _ _
    have hlt : front.id < sf.id := by
      have h0 := hEs
      rw [hpo, hso] at h0
      exact (List.pairwise_append.1 h0).2.2 front (List.mem_cons_self _ _) sf
        (List.mem_cons_self _ _)
    rcases hcase2 with ⟨hroot, _, hf1⟩ | ⟨hroot, hpi, n2, root_front, tl, hn2, hro, hf1⟩
    · obtain ⟨c1, c2, c3, c4⟩ := tree_split idx.m_sk n _ _ pk
        (page_url idx.m_sk idx.m_meta.page_index) a b p split p0 hch hp0 hnext hok hfr hsg
        (hfresh _ (le_refl _)) hpne hsne (hsf hsne) hEs hEf hEn hEa hEh hEu hf1
      refine ⟨page_url idx.m_sk idx.m_meta.page_index :: b, c1,
        fun v hv => List.mem_cons_of_mem _ hv, c2, c3,
        ⟨{ p with next := page_url idx.m_sk idx.m_meta.page_index }, front, rest, ?_, hpo,
          by rw [hps]⟩,
        ⟨rest, by rw [hps]; exact hpo⟩, ?_⟩
      · rw [hf1, if_pos rfl]
      · intro _ _
        rw [hsk, hps]
        refine ⟨List.mem_cons_self _ _, hfresh _ (le_refl _), ?_, hlt, c4⟩
        have hspk : page_url idx.m_sk idx.m_meta.page_index ≠ pk := by
          intro h0
          have := hfresh _ (le_refl idx.m_meta.page_index)
          rw [h0, hp0] at this
          cases this
        refine ⟨{ split with next := p.next }, sf, srest, ?_, hso, rfl⟩
        show page_at g out.2.1.blobs (page_url idx.m_sk idx.m_meta.page_index) = _
        rw [hf1, if_neg hspk, if_pos rfl]
    · have ha : a = [] := head_of_chain idx.m_sk pk a b hch.start hch.nodup hroot
      subst ha
      subst hroot
      simp only [List.nil_append] at hch ⊢
      have hfit : (key.mk front.id (page_url idx.m_sk (idx.m_meta.page_index + 1))).size ≤
          max_page_size := by
        have h1 := hEf front (by rw [hpo]; exact List.mem_append_left _ (List.mem_cons_self _ _))
        exact h1 _ (by omega)
      have hobj := new_root_objects ⟨front.id, page_url idx.m_sk (idx.m_meta.page_index + 1)⟩
        ⟨sf.id, page_url idx.m_sk idx.m_meta.page_index⟩ hfit hlt
      rw [← hn2, hro] at hobj
      have hrf : root_front = ⟨front.id, page_url idx.m_sk (idx.m_meta.page_index + 1)⟩ := by
        rcases hobj with h0 | h0
        · exact (List.cons.inj h0).1
        · exact (List.cons.inj h0).1
      have htl : tl = [] ∨ tl = [⟨sf.id, page_url idx.m_sk idx.m_meta.page_index⟩] := by
        rcases hobj with h0 | h0
        · exact Or.inr (List.cons.inj h0).2
        · exact Or.inl (List.cons.inj h0).2
      rw [hrf] at hro
      have hne : page_url idx.m_sk (idx.m_meta.page_index + 1) ≠
          page_url idx.m_sk idx.m_meta.page_index := by
        intro h0
        have := page_url_injective _ _ _ h0
        omega
      obtain ⟨c1, c3⟩ := tree_promote idx.m_sk n _ _
        (page_url idx.m_sk (idx.m_meta.page_index + 1))
        (page_url idx.m_sk idx.m_meta.page_index) b p split p0
        { n2 with next := root_front.url } front sf rest srest tl
        hch hp0 hnext hok hfr hsg (hfresh _ (le_refl _)) (hfresh _ (Nat.le_succ _)) hne
        hpo hso (hsf hsne) hro htl (by rw [hrf]) hEs hEf hEn hEa hEh hEu hf1
      have hnil : ∀ v ∈ ([] : List eurl),
          page_at g out.2.1.blobs v = page_at g t.blobs v := by
        intro v hv
        cases hv
      refine ⟨_, c1, (fun v hv => List.mem_cons_of_mem _ (List.mem_cons_of_mem _ hv)),
        hnil, c3, ?_, ⟨rest, by rw [hps]; exact hpo⟩, ?_⟩
      · refine ⟨{ n2 with next := root_front.url }, _, tl, ?_, hro, by rw [hps]⟩
        rw [hf1, if_pos rfl]
      · intro hx
        exact absurd rfl hx
theorem read_from_replicated (t : transport) (u : eurl) (bl : blob) :
    ∀ (gs : List Int) (last : Int), (∃ g1 ∈ gs, g1 ∉ t.down) →
      (∀ g1 ∈ gs, g1 ∉ t.down → t.lookup g1 u = some bl) →
      t.read_from gs u last = .ok bl := by
  intro gs
  induction gs with
  | nil =>
    intro last ⟨g1, h1, _⟩
    cases h1
  | cons g0 gs ih =>
    intro last hex hall
    unfold transport.read_from
    by_cases hd : g0 ∈ t.down
    · rw [if_pos hd]
      apply ih
      · obtain ⟨g1, h1, h2⟩ := hex
        rcases List.mem_cons.1 h1 with h | h
        · rw [h] at h2
          exact absurd hd h2
        · exact ⟨g1, h, h2⟩
      · intro g1 h1 h2
        exact hall g1 (List.mem_cons_of_mem _ h1) h2
    · rw [if_neg hd, hall g0 (List.mem_cons_self _ _) hd]

/-- Reading a page that the answering groups hold. -/
theorem read_of_page_at (g : Int) (t : transport) (u : eurl) (p : page)
    (hr : replicated g t) (h : page_at g t.blobs u = some p) :
    t.read u = .ok (blob.page p) := by
  unfold transport.read
  obtain ⟨hg1, hg2⟩ := (mem_up_groups t g).1 hr.1
  apply read_from_replicated t u _ t.groups _ ⟨g, hg1, hg2⟩
  intro g1 h1 h2
  rw [hr.2 g1 ((mem_up_groups t g1).2 ⟨h1, h2⟩) u]
  exact lookup_of_page_at g t.blobs u p h

/-- Where `search_node` sends a key on a non-leaf page that holds an entry. -/
theorem search_node_at (p : page) (obj front : key) (rest : List key)
    (hl : p.is_leaf = false) (hpo : p.objects = front :: rest) :
    ∃ i : Nat, p.search_node obj = (i : Int) ∧ ∃ h : i < p.objects.length,
      (i = 0 ∨ (p.objects.get ⟨i, h⟩).id ≤ obj.id) := by
  unfold page.search_node
  rw [hpo]
  simp only [hl, Bool.false_eq_true, if_false]
  by_cases hle : obj.le front = true
  · rw [if_pos hle]
    exact ⟨0, rfl, by simp, Or.inl rfl⟩
  · rw [if_neg hle]
    have hlt : front.id < obj.id := by
      unfold key.le at hle
      simpa using hle
    have hlb : 0 < lower_bound (front :: rest) obj := by
      unfold lower_bound
      have : front.lt obj = true := by
        unfold key.lt
        simpa using hlt
      rw [if_pos this]
      omega
    by_cases hin : lower_bound (front :: rest) obj < (front :: rest).length
    · rw [dif_pos hin]
      by_cases heq : ((front :: rest).get ⟨lower_bound (front :: rest) obj, hin⟩).eq obj = true
      · rw [if_pos heq]
        refine ⟨lower_bound (front :: rest) obj, rfl, hin, Or.inr ?_⟩
        unfold key.eq at heq
        have : ((front :: rest).get ⟨lower_bound (front :: rest) obj, hin⟩).id = obj.id := by
          simpa using heq
        rw [this]
      · rw [if_neg heq]
        have hlt2 : lower_bound (front :: rest) obj - 1 < (front :: rest).length := by omega
        refine ⟨lower_bound (front :: rest) obj - 1, by omega, hlt2, Or.inr ?_⟩
        exact le_of_lt (lower_bound_before obj (front :: rest) _ hlt2 (by omega))
    · rw [dif_neg hin]
      have hlen : (front :: rest).length - 1 < (front :: rest).length := by
        simp
      refine ⟨(front :: rest).length - 1, ?_, hlen, Or.inr ?_⟩
      · simp
      · have := lower_bound_le_length obj (front :: rest)
        exact le_of_lt (lower_bound_before obj (front :: rest) _ hlen (by omega))

theorem mem_insert_sorted (obj : key) :
    ∀ (es : List key) (e : key), e ∈ insert_sorted obj es → e = obj ∨ e ∈ es := by
  intro es
  induction es with
  | nil =>
    intro e he
    simp only [insert_sorted, List.mem_singleton] at he
    exact Or.inl he
  | cons it rest ih =>
    intro e he
    unfold insert_sorted at he
    by_cases h1 : obj.id ≤ it.id
    · rw [if_pos h1] at he
      by_cases h2 : obj.id = it.id
      · rw [if_pos h2] at he
        rcases List.mem_cons.1 he with h | h
        · exact Or.inl h
        · exact Or.inr (List.mem_cons_of_mem _ h)
      · rw [if_neg h2] at he
        rcases List.mem_cons.1 he with h | h
        · exact Or.inl h
        · exact Or.inr h
    · rw [if_neg h1] at he
      rcases List.mem_cons.1 he with h | h
      · exact Or.inr (by rw [h]; exact List.mem_cons_self _ _)
      · rcases ih e h with h3 | h3
        · exact Or.inl h3
        · exact Or.inr (List.mem_cons_of_mem _ h3)

theorem insert_sorted_urls (obj : key) :
    ∀ es : List key, (es.map key.url).Nodup → obj.url ∉ es.map key.url →
      ((insert_sorted obj es).map key.url).Nodup := by
  intro es
  induction es with
  | nil =>
    intro _ _
    exact List.nodup_singleton _
  | cons it rest ih =>
    intro hnd hnot
    rw [List.map_cons, List.nodup_cons] at hnd
    rw [List.map_cons, List.mem_cons, not_or] at hnot
    unfold insert_sorted
    by_cases h1 : obj.id ≤ it.id
    · rw [if_pos h1]
      by_cases h2 : obj.id = it.id
      · rw [if_pos h2, List.map_cons, List.nodup_cons]
        exact ⟨hnot.2, hnd.2⟩
      · rw [if_neg h2, List.map_cons, List.map_cons, List.nodup_cons, List.nodup_cons]
        refine ⟨?_, hnd.1, hnd.2⟩
        rw [List.mem_cons, not_or]
        exact hnot
    · rw [if_neg h1, List.map_cons, List.nodup_cons]
      refine ⟨?_, ih hnd.2 hnot.2⟩
      intro hm
      obtain ⟨e, he, hu⟩ := List.mem_map.1 hm
      rcases mem_insert_sorted obj rest e he with h3 | h3
      · rw [h3] at hu
        exact hnot.1 hu
      · exact hnd.1 (List.mem_map.2 ⟨e, h3, hu⟩)

theorem insert_sorted_head (obj o : key) (rest : List key) (h : o.id < obj.id) :
    insert_sorted obj (o :: rest) = o :: insert_sorted obj rest := by
  show (if obj.id ≤ o.id then _ else _) = _
  rw [if_neg (not_le.mpr h)]

theorem insert_and_split_next1 (p : page) (obj : key) (other : page) :
    (p.insert_and_split obj other).1.next = p.next := by
  rcases insert_and_split_objects p obj other with ⟨ts, h⟩ | ⟨ts1, ts2, h⟩
  · rw [h]
  · rw [h]

theorem set_entry_urls (x : key) :
    ∀ (l : List key) (i : Nat), x.url = (l.getD i default).url → i < l.length →
      (l.set i x).map key.url = l.map key.url := by
  intro l
  induction l with
  | nil => intro i _ h; cases h
  | cons a rest ih =>
    intro i hx hi
    cases i with
    | zero =>
      show x.url :: rest.map key.url = a.url :: rest.map key.url
      rw [hx]
      rfl
    | succ j =>
      show a.url :: (rest.set j x).map key.url = a.url :: rest.map key.url
      rw [ih j hx (by simpa using hi)]

theorem mem_set_entry (x : key) :
    ∀ (l : List key) (i : Nat) (e : key), (l.map key.url).Nodup → i < l.length →
      e ∈ l.set i x → e = x ∨ (e ∈ l ∧ e.url ≠ (l.getD i default).url) := by
  intro l
  induction l with
  | nil => intro i e _ h; cases h
  | cons a rest ih =>
    intro i e hnd hi he
    rw [List.map_cons, List.nodup_cons] at hnd
    cases i with
    | zero =>
      rcases List.mem_cons.1 he with h | h
      · exact Or.inl h
      · refine Or.inr ⟨List.mem_cons_of_mem _ h, ?_⟩
        intro hu
        exact hnd.1 (List.mem_map.2 ⟨e, h, hu⟩)
    | succ j =>
      have he2 : e ∈ a :: rest.set j x := he
      rcases List.mem_cons.1 he2 with h | h
      · refine Or.inr ⟨by rw [h]; exact List.mem_cons_self _ _, ?_⟩
        intro hu
        have hj : j < rest.length := by simpa using hi
        have hg : (a :: rest).getD (j + 1) default = rest.getD j default := rfl
        rw [hg, h] at hu
        have hm : rest.getD j default ∈ rest := by
          rw [getD_eq_get rest j hj]
          exact List.get_mem _ _ _
        exact hnd.1 (List.mem_map.2 ⟨_, hm, hu.symm⟩)
      · rcases ih j e hnd.2 (by simpa using hi) h with h3 | ⟨h3, h4⟩
        · exact Or.inl h3
        · exact Or.inr ⟨List.mem_cons_of_mem _ h3, h4⟩

theorem set_same :
    ∀ (l : List key) (i : Nat), i < l.length → l.set i (l.getD i default) = l := by
  intro l
  induction l with
  | nil => intro i h; cases h
  | cons a rest ih =>
    intro i hi
    cases i with
    | zero => rfl
    | succ j =>
      show a :: rest.set j (rest.getD j default) = a :: rest
      rw [ih j (by simpa using hi)]
theorem set_entry_ids (x : key) :
    ∀ (l : List key) (i : Nat), x.id = (l.getD i default).id → i < l.length →
      (l.set i x).map key.id = l.map key.id := by
  intro l
  induction l with
  | nil => intro i _ h; cases h
  | cons a rest ih =>
    intro i hx hi
    cases i with
    | zero =>
      show x.id :: rest.map key.id = a.id :: rest.map key.id
      rw [hx]
      rfl
    | succ j =>
      show a.id :: (rest.set j x).map key.id = a.id :: rest.map key.id
      rw [ih j hx (by simpa using hi)]

theorem ids_sorted_map (l : List key) :
    ids_sorted l ↔ (l.map key.id).Pairwise (fun x y => x < y) := by
  unfold ids_sorted
  rw [List.pairwise_map]

theorem set_entry_sorted (x : key) (l : List key) (i : Nat) (hs : ids_sorted l)
    (hi : i < l.length)
    (hx : x.id = (l.getD i default).id ∨ (i = 0 ∧ x.id < (l.getD i default).id)) :
    ids_sorted (l.set i x) := by
  rcases hx with hx | ⟨h0, hx⟩
  · rw [ids_sorted_map, set_entry_ids x l i hx hi, ← ids_sorted_map]
    exact hs
  · subst h0
    cases l with
    | nil => cases hi
    | cons a rest =>
      have hx2 : x.id < a.id := hx
      show ids_sorted (x :: rest)
      unfold ids_sorted at hs ⊢
      rw [List.pairwise_cons] at hs ⊢
      exact ⟨fun b hb => lt_trans hx2 (hs.1 b hb), hs.2⟩

theorem eq_of_url (l : List key) (hnd : (l.map key.url).Nodup) (e1 e2 : key)
    (h1 : e1 ∈ l) (h2 : e2 ∈ l) (hu : e1.url = e2.url) : e1 = e2 :=
  List.inj_on_of_nodup_map hnd h1 h2 hu
/-- An insert into a leaf page of the chain. -/
theorem insert_leaf_tree (g : Int) (n : Nat) (obj : key) (idx : index) (t : transport)
    (pk : eurl) (out : Int × transport × index × recursion) (a b : List eurl) (p0 : page)
    (hobj : fits idx.m_sk n obj.id) (hr : replicated g t)
    (hc : counted g idx.m_sk t.blobs idx.m_meta)
    (hch : chained (page_at g t.blobs) idx.m_sk (a ++ pk :: b))
    (hsh : shaped idx.m_sk n (page_at g t.blobs) (fun _ _ => False))
    (hp0 : page_at g t.blobs pk = some p0) (hleaf : p0.is_leaf = true)
    (hn : out.2.2.1.m_meta.page_index ≤ n)
    (h : idx.insert_finish t pk (p0.insert_and_split obj (page.new false)).1
      (p0.insert_and_split obj (page.new false)).2.1 = .ok out) :
    ∃ b1, chained (page_at g out.2.1.blobs) idx.m_sk (a ++ pk :: b1) ∧
      (∀ v ∈ b, v ∈ b1) ∧
      (∀ v ∈ a, page_at g out.2.1.blobs v = page_at g t.blobs v) ∧
      shaped idx.m_sk n (page_at g out.2.1.blobs) (fun _ x => x = pk) ∧
      (∃ q fr rs, page_at g out.2.1.blobs pk = some q ∧ q.objects = fr :: rs ∧
        fr.id = out.2.2.2.page_start.id) ∧
      (∃ q0 fr0 rs0, page_at g t.blobs pk = some q0 ∧ q0.objects = fr0 :: rs0 ∧
        (out.2.2.2.page_start.id = fr0.id ∨
          (out.2.2.2.page_start.id = obj.id ∧ obj.id < fr0.id))) ∧
      (pk ≠ idx.m_sk → out.2.2.2.split_key.to_bool = true →
        out.2.2.2.split_key.url ∈ b1 ∧
        page_at g t.blobs out.2.2.2.split_key.url = none ∧
        heads (page_at g out.2.1.blobs) out.2.2.2.split_key ∧
        out.2.2.2.page_start.id < out.2.2.2.split_key.id ∧
        ∀ u, ¬ owns (page_at g out.2.1.blobs) u out.2.2.2.split_key.url) := by
  have hE := insert_and_split_append p0 obj (page.new false) rfl
  obtain ⟨hne, hso, hft, _⟩ := hsh.ok pk p0 hp0
  have hl1 : (p0.insert_and_split obj (page.new false)).1.is_leaf = true := by
    rw [is_leaf_of_flags _ p0 (insert_and_split_flags1 p0 obj (page.new false))]
    exact hleaf
  have hnl : ∀ {q : Prop}, (p0.insert_and_split obj (page.new false)).1.is_leaf = false → q := by
    intro q hq
    rw [hl1] at hq
    cases hq
  obtain ⟨b1, c1, c2, c3, c4, c5, ⟨rest, c6⟩, c7⟩ := insert_finish_tree g n idx t pk
    (p0.insert_and_split obj (page.new false)).1 (p0.insert_and_split obj (page.new false)).2.1
    p0 a b out hr hc hch hp0 (insert_and_split_next1 p0 obj _)
    (fun hne2 => ((insert_and_split_flags p0 obj (page.new false)).2 hne2 rfl).trans
      (insert_and_split_flags1 p0 obj (page.new false)).symm)
    hsh.ok (fun u q hq hl _ e he _ => hsh.fronts u q hq hl e he not_false) hsh.single
    (by rw [hE]; exact insert_sorted_sorted obj _ hso)
    (by
      rw [hE]
      intro e he
      rcases mem_insert_sorted obj _ e he with h1 | h1
      · rw [h1]
        exact hobj
      · exact hft e h1)
    (fun hq => hnl hq) (fun hq => hnl hq) (fun hq => hnl hq) (fun hq => hnl hq) hn h
  refine ⟨b1, c1, c2, c3, c4, c5, ?_, c7⟩
  cases hpo : p0.objects with
  | nil => exact absurd hpo hne
  | cons fr0 rs0 =>
    refine ⟨p0, fr0, rs0, hp0, hpo, ?_⟩
    rw [c6, hpo] at hE
    unfold insert_sorted at hE
    by_cases h1 : obj.id ≤ fr0.id
    · rw [if_pos h1] at hE
      by_cases h2 : obj.id = fr0.id
      · rw [if_pos h2] at hE
        have := (List.cons.inj hE).1
        rw [this]
        exact Or.inl h2
      · rw [if_neg h2] at hE
        have := (List.cons.inj hE).1
        rw [this]
        exact Or.inr ⟨rfl, lt_of_le_of_ne h1 h2⟩
    · rw [if_neg h1] at hE
      have := (List.cons.inj hE).1
      rw [this]
      exact Or.inl rfl
theorem later_ne_start (sk pk v : eurl) (a rest : List eurl)
    (hs : (a ++ pk :: rest).head? = some sk) (hnd : (a ++ pk :: rest).Nodup)
    (hv : v ∈ rest) : v ≠ sk := by
  intro hvs
  have hpab : pk ∉ a ++ rest := (List.nodup_cons.1 (List.nodup_middle.1 hnd)).1
  have hnd2 : (a ++ rest).Nodup := (List.nodup_cons.1 (List.nodup_middle.1 hnd)).2
  cases a with
  | nil =>
    have hx : pk = sk := by
      simp only [List.nil_append, List.head?_cons, Option.some.injEq] at hs
      exact hs
    apply hpab
    rw [hx, ← hvs]
    exact hv
  | cons x a1 =>
    have hx : x = sk := by
      simp only [List.cons_append, List.head?_cons, Option.some.injEq] at hs
      exact hs
    have h1 : x ∉ a1 ++ rest := (List.nodup_cons.1 hnd2).1
    apply h1
    rw [hx, ← hvs]
    exact List.mem_append_right _ hv

/-- An insert below a non-leaf page of the chain, once the call on the
child has returned. -/
theorem insert_inner_tree (g : Int) (n : Nat) (obj : key) (idx : index) (t : transport)
    (pk : eurl) (out : Int × transport × index × recursion) (a b2 b3 b3n : List eurl)
    (p0 : page) (i : Nat) (hi : i < p0.objects.length)
    (t1 : transport) (idx1 : index) (r1 : recursion) (p1 : page) (s : page × page × Bool)
    (hsh : shaped idx.m_sk n (page_at g t.blobs) (fun _ _ => False))
    (hp0 : page_at g t.blobs pk = some p0) (hnl : p0.is_leaf = false)
    (hrt : i = 0 ∨ (p0.objects.getD i default).id ≤ obj.id)
    (hs1 : idx1.m_sk = idx.m_sk) (hr1 : replicated g t1)
    (hc1 : counted g idx.m_sk t1.blobs idx1.m_meta)
    (hk1 : pages_kept g t.blobs t1.blobs)
    (c1 : chained (page_at g t1.blobs) idx.m_sk
      ((a ++ pk :: b2) ++ (p0.objects.getD i default).url :: b3n))
    (c2 : ∀ v ∈ b3, v ∈ b3n)
    (c3 : ∀ v ∈ a ++ pk :: b2, page_at g t1.blobs v = page_at g t.blobs v)
    (c4 : shaped idx.m_sk n (page_at g t1.blobs)
      (fun _ x => x = (p0.objects.getD i default).url))
    (c5 : ∃ q fr rs, page_at g t1.blobs (p0.objects.getD i default).url = some q ∧
      q.objects = fr :: rs ∧ fr.id = r1.page_start.id)
    (c6 : ∃ q0 fr0 rs0, page_at g t.blobs (p0.objects.getD i default).url = some q0 ∧
      q0.objects = fr0 :: rs0 ∧
      (r1.page_start.id = fr0.id ∨ (r1.page_start.id = obj.id ∧ obj.id < fr0.id)))
    (c7 : (p0.objects.getD i default).url ≠ idx.m_sk → r1.split_key.to_bool = true →
      r1.split_key.url ∈ b3n ∧
      page_at g t.blobs r1.split_key.url = none ∧
      heads (page_at g t1.blobs) r1.split_key ∧
      r1.page_start.id < r1.split_key.id ∧
      ∀ u, ¬ owns (page_at g t1.blobs) u r1.split_key.url)
    (hp1 : p1 = if (p0.objects.getD i default).ne r1.page_start then
        { p0 with objects :=
            p0.objects.set i { (p0.objects.getD i default) with id := r1.page_start.id } }
      else p0)
    (hs : s = if r1.split_key.to_bool then p1.insert_and_split r1.split_key (page.new false)
      else (p1, page.new false, false))
    (hn : out.2.2.1.m_meta.page_index ≤ n)
    (h : (if !(p0.objects.getD i default).ne r1.page_start && !r1.split_key.to_bool then
          (.ok (0, t1, idx1,
            { page_start := p0.objects.headD default, split_key := default }) :
            Run (Int × transport × index × recursion))
        else index.insert_finish idx1 t1 pk s.1 s.2.1) = .ok out) :
    ∃ b1, chained (page_at g out.2.1.blobs) idx.m_sk (a ++ pk :: b1) ∧
      (∀ v ∈ b2 ++ (p0.objects.getD i default).url :: b3, v ∈ b1) ∧
      (∀ v ∈ a, page_at g out.2.1.blobs v = page_at g t.blobs v) ∧
      shaped idx.m_sk n (page_at g out.2.1.blobs) (fun _ x => x = pk) ∧
      (∃ q fr rs, page_at g out.2.1.blobs pk = some q ∧ q.objects = fr :: rs ∧
        fr.id = out.2.2.2.page_start.id) ∧
      (∃ q0 fr0 rs0, page_at g t.blobs pk = some q0 ∧ q0.objects = fr0 :: rs0 ∧
        (out.2.2.2.page_start.id = fr0.id ∨
          (out.2.2.2.page_start.id = obj.id ∧ obj.id < fr0.id))) ∧
      (pk ≠ idx.m_sk → out.2.2.2.split_key.to_bool = true →
        out.2.2.2.split_key.url ∈ b1 ∧
        page_at g t.blobs out.2.2.2.split_key.url = none ∧
        heads (page_at g out.2.1.blobs) out.2.2.2.split_key ∧
        out.2.2.2.page_start.id < out.2.2.2.split_key.id ∧
        ∀ u, ¬ owns (page_at g out.2.1.blobs) u out.2.2.2.split_key.url) := by
  obtain ⟨found, hfd⟩ : ∃ found, found = p0.objects.getD i default := ⟨_, rfl⟩
  rw [← hfd] at hrt c1 c4 c5 c6 c7 hp1 h ⊢
  have hfm : found ∈ p0.objects := by
    rw [hfd, getD_eq_get _ _ hi]
    exact List.get_mem _ _ _
  obtain ⟨hne0, hso0, hft0, hnd0⟩ := hsh.ok pk p0 hp0
  have hnd0 := hnd0 hnl
  -- the id the entry of the child gets
  obtain ⟨cq, cfr, crs, hcq, hcqo, hcfr⟩ := c5
  have hdis : r1.page_start.id = found.id ∨
      (r1.page_start.id = obj.id ∧ obj.id < found.id) := by
    obtain ⟨C0, fa, ra, hC0, hC0o, hfa⟩ := hsh.fronts pk p0 hp0 hnl found hfm not_false
    obtain ⟨q0, fr0, rs0, hq0, hq0o, hd⟩ := c6
    rw [hC0] at hq0
    cases hq0
    rw [hC0o] at hq0o
    cases hq0o
    rw [hfa] at hd
    exact hd
  have hid : r1.page_start.id = found.id ∨ (i = 0 ∧ r1.page_start.id < found.id) := by
    rcases hdis with h1 | ⟨h1, h2⟩
    · exact Or.inl h1
    · rcases hrt with h3 | h3
      · exact Or.inr ⟨h3, by rw [h1]; exact h2⟩
      · exact absurd h2 (not_lt.mpr h3)
  -- the entries of the page before the split key goes in
  have hp1f : p1.objects = p0.objects.set i ⟨r1.page_start.id, found.url⟩ ∧
      p1.flags = p0.flags ∧ p1.next = p0.next := by
    by_cases hch : found.ne r1.page_start = true
    · rw [if_pos hch] at hp1
      rw [hp1]
      exact ⟨rfl, rfl, rfl⟩
    · rw [if_neg hch] at hp1
      rw [hp1]
      refine ⟨?_, rfl, rfl⟩
      have he : found.id = r1.page_start.id := by
        unfold key.ne at hch
        simpa using hch
      have hx : (⟨r1.page_start.id, found.url⟩ : key) = found := by
        rw [← he]
      rw [hx, hfd, set_same _ _ hi]
  obtain ⟨hp1o, hp1fl, hp1n⟩ := hp1f
  have hurl : (p0.objects.set i ⟨r1.page_start.id, found.url⟩).map key.url =
      p0.objects.map key.url := set_entry_urls _ p0.objects i (by rw [hfd]) hi
  have hO1s : ids_sorted (p0.objects.set i ⟨r1.page_start.id, found.url⟩) :=
    set_entry_sorted _ p0.objects i hso0 hi (by rw [← hfd]; exact hid)
  have hL : (a ++ pk :: b2) ++ found.url :: b3n = a ++ pk :: (b2 ++ found.url :: b3n) := by
    rw [List.append_assoc, List.cons_append]
  rw [hL] at c1
  have hf1pk : page_at g t1.blobs pk = some p0 := by
    rw [c3 pk (List.mem_append_right _ (List.mem_cons_self _ _))]
    exact hp0
  have hcb : found.url ∈ b2 ++ found.url :: b3n :=
    List.mem_append_right _ (List.mem_cons_self _ _)
  have hpkb : pk ∉ b2 ++ found.url :: b3n := fun hm =>
    (List.nodup_cons.1 (List.nodup_middle.1 c1.nodup)).1 (List.mem_append_right _ hm)
  have hcpk : found.url ≠ pk := fun h0 => hpkb (h0 ▸ hcb)
  have hcsk : found.url ≠ idx.m_sk := later_ne_start _ pk _ a _ c1.start c1.nodup hcb
  have hown : ∀ e ∈ p0.objects.set i ⟨r1.page_start.id, found.url⟩,
      ∃ e0 ∈ p0.objects, e0.url = e.url := by
    intro e he
    have hm : e.url ∈ (p0.objects.set i ⟨r1.page_start.id, found.url⟩).map key.url :=
      List.mem_map.2 ⟨e, he, rfl⟩
    rw [hurl] at hm
    exact List.mem_map.1 hm
  have hO1a : ∀ e ∈ p0.objects.set i ⟨r1.page_start.id, found.url⟩,
      e.url ∈ b2 ++ found.url :: b3n := by
    intro e he
    obtain ⟨e0, he0, hu⟩ := hown e he
    have := fwd_at _ [] a _ pk p0 c1.ahead hf1pk hnl e0 he0
    rw [List.append_nil, hu] at this
    exact this
  have hO1h : ∀ e ∈ p0.objects.set i ⟨r1.page_start.id, found.url⟩,
      heads (page_at g t1.blobs) e := by
    intro e he
    rcases mem_set_entry _ p0.objects i e hnd0 hi he with h1 | ⟨h1, h2⟩
    · rw [h1]
      exact ⟨cq, cfr, crs, hcq, hcqo, hcfr⟩
    · rw [← hfd] at h2
      exact c4.fronts pk p0 hf1pk hnl e h1 h2
  have hO1u : ∀ e ∈ p0.objects.set i ⟨r1.page_start.id, found.url⟩, ∀ u2,
      owns (page_at g t1.blobs) u2 e.url → u2 = pk := by
    intro e he u2 ho
    obtain ⟨e0, he0, hu⟩ := hown e he
    exact c4.single u2 pk e.url ho ⟨p0, e0, hf1pk, hnl, he0, hu⟩
  have hO1f : ∀ e ∈ p0.objects.set i ⟨r1.page_start.id, found.url⟩,
      fits idx.m_sk n e.id := by
    intro e he
    rcases mem_set_entry _ p0.objects i e hnd0 hi he with h1 | ⟨h1, _⟩
    · rw [h1]
      show fits idx.m_sk n r1.page_start.id
      rw [← hcfr]
      exact (c4.ok _ cq hcq).2.2.1 cfr (by rw [hcqo]; exact List.mem_cons_self _ _)
    · exact hft0 e h1
  -- the first entry
  have hhead : ∃ o restO fr0 rs0, p0.objects.set i ⟨r1.page_start.id, found.url⟩ = o :: restO ∧
      p0.objects = fr0 :: rs0 ∧
      (o.id = r1.page_start.id ∨ o.id < r1.page_start.id) ∧
      (o.id = fr0.id ∨ (o.id = obj.id ∧ obj.id < fr0.id)) := by
    cases hpo : p0.objects with
    | nil => exact absurd hpo hne0
    | cons fr0 rs0 =>
      cases i with
      | zero =>
        have hf0 : found = fr0 := by
          rw [hfd, hpo]
          rfl
        refine ⟨⟨r1.page_start.id, found.url⟩, rs0, fr0, rs0, rfl, rfl, Or.inl rfl, ?_⟩
        rw [← hf0]
        exact hdis
      | succ j =>
        have hfr : found ∈ rs0 := by
          have hj : j < rs0.length := by
            rw [hpo] at hi
            simpa using hi
          have : found = rs0.getD j default := by
            rw [hfd, hpo]
            rfl
          rw [this, getD_eq_get rs0 j hj]
          exact List.get_mem _ _ _
        have hlt : fr0.id < found.id := by
          rw [hpo] at hso0
          exact (List.pairwise_cons.1 hso0).1 found hfr
        have hnid : r1.page_start.id = found.id := by
          rcases hid with h1 | ⟨h1, _⟩
          · exact h1
          · cases h1
        refine ⟨fr0, rs0.set j ⟨r1.page_start.id, found.url⟩, fr0, rs0, rfl, rfl, Or.inr ?_,
          Or.inl rfl⟩
        rw [hnid]
        exact hlt
  obtain ⟨o, restO, fr0, rs0, hO1, hpo, ho1, ho2⟩ := hhead
  by_cases hsame : (!found.ne r1.page_start && !r1.split_key.to_bool) = true
  · rw [if_pos hsame] at h
    rw [← Except.ok.inj h]
    simp only [Bool.and_eq_true, Bool.not_eq_eq_eq_not, Bool.not_true] at hsame
    have he : found.id = r1.page_start.id := by
      have := hsame.1
      unfold key.ne at this
      simpa using this
    refine ⟨b2 ++ found.url :: b3n, c1, ?_, fun v hv => c3 v (List.mem_append_left _ hv),
      ⟨c4.ok, ?_, c4.single⟩, ⟨p0, fr0, rs0, hf1pk, hpo, by rw [hpo]; rfl⟩,
      ⟨p0, fr0, rs0, hp0, hpo, Or.inl (by rw [hpo]; rfl)⟩, ?_⟩
    · intro v hv
      rcases List.mem_append.1 hv with h1 | h1
      · exact List.mem_append_left _ h1
      · rcases List.mem_cons.1 h1 with h2 | h2
        · rw [h2]
          exact hcb
        · exact List.mem_append_right _ (List.mem_cons_of_mem _ (c2 v h2))
    · intro u q hq hl e he1 _
      by_cases hec : e.url = found.url
      · have hu : u = pk := c4.single u pk found.url ⟨q, e, hq, hl, he1, hec⟩
          ⟨p0, found, hf1pk, hnl, hfm, rfl⟩
        rw [hu, hf1pk] at hq
        cases hq
        have hef : e = found := eq_of_url p0.objects hnd0 e found he1 hfm hec
        rw [hef]
        exact ⟨cq, cfr, crs, hcq, hcqo, hcfr.trans he.symm⟩
      · exact c4.fronts u q hq hl e he1 hec
    · intro _ hto
      rw [default_key_not_set] at hto
      cases hto
  · rw [if_neg hsame] at h
    -- the entries that `insert_finish` gets
    have hE : ∃ es restE, s.1.objects ++ s.2.1.objects = es ∧ es = o :: restE ∧
        ids_sorted es ∧ (es.map key.url).Nodup ∧
        (∀ e ∈ es, e ∈ p0.objects.set i ⟨r1.page_start.id, found.url⟩ ∨
          (r1.split_key.to_bool = true ∧ e = r1.split_key)) ∧
        s.1.next = p0.next ∧ (s.2.1.objects ≠ [] → s.2.1.flags = s.1.flags) := by
      by_cases hto : r1.split_key.to_bool = true
      · rw [if_pos hto] at hs
        obtain ⟨_, _, _, k4, k5⟩ := c7 hcsk hto
        have happ := insert_and_split_append p1 r1.split_key (page.new false) rfl
        rw [hp1o] at happ
        have hlt : o.id < r1.split_key.id := by
          rcases ho1 with h1 | h1
          · rw [h1]
            exact k4
          · exact lt_trans h1 k4
        refine ⟨_, insert_sorted r1.split_key restO, rfl, ?_, ?_, ?_, ?_, ?_, ?_⟩
        · rw [hs, happ, hO1]
          exact insert_sorted_head _ _ _ hlt
        · rw [hs, happ]
          exact insert_sorted_sorted _ _ hO1s
        · rw [hs, happ]
          apply insert_sorted_urls _ _ (by rw [hurl]; exact hnd0)
          intro hm
          obtain ⟨e, he, hu⟩ := List.mem_map.1 hm
          obtain ⟨e0, he0, hu0⟩ := hown e he
          exact k5 pk ⟨p0, e0, hf1pk, hnl, he0, hu0.trans hu⟩
        · intro e he
          rw [hs, happ] at he
          rcases mem_insert_sorted _ _ e he with h1 | h1
          · exact Or.inr ⟨hto, h1⟩
          · exact Or.inl h1
        · rw [hs, insert_and_split_next1]
          exact hp1n
        · intro hne2
          rw [hs] at hne2 ⊢
          exact ((insert_and_split_flags p1 r1.split_key (page.new false)).2 hne2 rfl).trans
            (insert_and_split_flags1 p1 r1.split_key (page.new false)).symm
      · rw [if_neg hto] at hs
        have happ : s.1.objects ++ s.2.1.objects =
            p0.objects.set i ⟨r1.page_start.id, found.url⟩ := by
          rw [hs]
          show p1.objects ++ [] = _
          rw [List.append_nil, hp1o]
        refine ⟨_, restO, rfl, ?_, ?_, ?_, ?_, ?_, ?_⟩
        · rw [happ, hO1]
        · rw [happ]
          exact hO1s
        · rw [happ, hurl]
          exact hnd0
        · intro e he
          rw [happ] at he
          exact Or.inl he
        · rw [hs]
          exact hp1n
        · intro hne2
          rw [hs] at hne2
          exact absurd rfl hne2
    obtain ⟨es, restE, hes, hes0, hEs, hEn, hEm, hsn, hsfl⟩ := hE
    rw [← hs1] at hsh hc1 c1 c4 hO1f ⊢
    have hsplit : ∀ e ∈ es, e ∉ p0.objects.set i ⟨r1.page_start.id, found.url⟩ →
        r1.split_key.to_bool = true ∧ e = r1.split_key := by
      intro e he hno
      rcases hEm e he with h1 | h1
      · exact absurd h1 hno
      · exact h1
    obtain ⟨b1, d1, d2, d3, d4, d5, ⟨rest, d6⟩, d7⟩ := insert_finish_tree g n idx1 t1 pk
      s.1 s.2.1 p0 a (b2 ++ found.url :: b3n) out hr1 hc1 c1 hf1pk hsn
      hsfl c4.ok
      (by
        intro u q hq hl hu e he1 hne1
        by_cases hec : e.url = found.url
        · exact absurd (c4.single u pk found.url ⟨q, e, hq, hl, he1, hec⟩
            ⟨p0, found, hf1pk, hnl, hfm, rfl⟩) hu
        · exact c4.fronts u q hq hl e he1 hec)
      c4.single
      (by rw [hes]; exact hEs)
      (by
        rw [hes]
        intro e he
        rcases hEm e he with h1 | ⟨h1, h2⟩
        · exact hO1f e h1
        · obtain ⟨_, _, ⟨kq, kfr, krs, hkq, hkqo, hkfr⟩, _, _⟩ := c7 hcsk h1
          rw [h2, ← hkfr]
          exact (c4.ok _ kq hkq).2.2.1 kfr (by rw [hkqo]; exact List.mem_cons_self _ _))
      (by rw [hes]; exact fun _ => hEn)
      (by
        rw [hes]
        intro _ e he
        rcases hEm e he with h1 | ⟨h1, h2⟩
        · exact hO1a e h1
        · obtain ⟨k1, _, _, _, _⟩ := c7 hcsk h1
          rw [h2]
          exact List.mem_append_right _ (List.mem_cons_of_mem _ k1))
      (by
        rw [hes]
        intro _ e he
        rcases hEm e he with h1 | ⟨h1, h2⟩
        · exact hO1h e h1
        · obtain ⟨_, _, k3, _, _⟩ := c7 hcsk h1
          rw [h2]
          exact k3)
      (by
        rw [hes]
        intro _ e he u2 ho
        rcases hEm e he with h1 | ⟨h1, h2⟩
        · exact hO1u e h1 u2 ho
        · obtain ⟨_, _, _, _, k5⟩ := c7 hcsk h1
          rw [h2] at ho
          exact absurd ho (k5 u2))
      hn h
    have hps : out.2.2.2.page_start = o := by
      rw [d6, hes0] at hes
      exact (List.cons.inj hes).1
    refine ⟨b1, d1, ?_, fun v hv => (d3 v hv).trans (c3 v (List.mem_append_left _ hv)), d4, d5,
      ⟨p0, fr0, rs0, hp0, hpo, by rw [hps]; exact ho2⟩, ?_⟩
    · intro v hv
      apply d2
      rcases List.mem_append.1 hv with h1 | h1
      · exact List.mem_append_left _ h1
      · rcases List.mem_cons.1 h1 with h2 | h2
        · rw [h2]
          exact hcb
        · exact List.mem_append_right _ (List.mem_cons_of_mem _ (c2 v h2))
    · intro hpk hto
      obtain ⟨e1, e2, e3, e4, e5⟩ := d7 hpk hto
      refine ⟨e1, ?_, e3, e4, e5⟩
      cases hq : page_at g t.blobs out.2.2.2.split_key.url with
      | none => rfl
      | some q =>
        obtain ⟨q1, hq1, _⟩ := hk1 _ q hq
        rw [e2] at hq1
        cases hq1
/-- The private `insert` keeps the chain and the tree. -/
theorem insert_at_tree (g : Int) (n : Nat) (obj : key) :
    ∀ (fuel : Nat) (idx : index) (t : transport) (r : recursion) (pk : eurl)
      (out : Int × transport × index × recursion) (a b : List eurl),
      fits idx.m_sk n obj.id → replicated g t → counted g idx.m_sk t.blobs idx.m_meta →
      chained (page_at g t.blobs) idx.m_sk (a ++ pk :: b) →
      shaped idx.m_sk n (page_at g t.blobs) (fun _ _ => False) →
      out.2.2.1.m_meta.page_index ≤ n →
      index.insert_at fuel idx t r pk obj = .ok out →
      ∃ b1, chained (page_at g out.2.1.blobs) idx.m_sk (a ++ pk :: b1) ∧
        (∀ v ∈ b, v ∈ b1) ∧
        (∀ v ∈ a, page_at g out.2.1.blobs v = page_at g t.blobs v) ∧
        shaped idx.m_sk n (page_at g out.2.1.blobs) (fun _ x => x = pk) ∧
        (∃ q fr rs, page_at g out.2.1.blobs pk = some q ∧ q.objects = fr :: rs ∧
          fr.id = out.2.2.2.page_start.id) ∧
        (∃ q0 fr0 rs0, page_at g t.blobs pk = some q0 ∧ q0.objects = fr0 :: rs0 ∧
          (out.2.2.2.page_start.id = fr0.id ∨
            (out.2.2.2.page_start.id = obj.id ∧ obj.id < fr0.id))) ∧
        (pk ≠ idx.m_sk → out.2.2.2.split_key.to_bool = true →
          out.2.2.2.split_key.url ∈ b1 ∧
          page_at g t.blobs out.2.2.2.split_key.url = none ∧
          heads (page_at g out.2.1.blobs) out.2.2.2.split_key ∧
          out.2.2.2.page_start.id < out.2.2.2.split_key.id ∧
          ∀ u, ¬ owns (page_at g out.2.1.blobs) u out.2.2.2.split_key.url) := by
  intro fuel
  induction fuel with
  | zero =>
    intro idx t r pk out a b _ _ _ _ _ _ h
    simp [index.insert_at] at h
  | succ fuel ih =>
    intro idx t r pk out a b hobj hr hc hch hsh hn h
    obtain ⟨p0, hp0⟩ := links_stored _ default _ hch.linked pk
      (List.mem_append_right _ (List.mem_cons_self _ _))
    have hread := read_of_page_at g t pk p0 hr hp0
    unfold index.insert_at at h
    rw [hread] at h
    simp only [page.load] at h
    by_cases hl : (!p0.is_leaf) = true
    · rw [if_pos hl] at h
      have hnl : p0.is_leaf = false := by simpa using hl
      obtain ⟨hne0, _, _, _⟩ := hsh.ok pk p0 hp0
      cases hpo : p0.objects with
      | nil => exact absurd hpo hne0
      | cons fr0 rs0 =>
        obtain ⟨i, hsn, hi, hrt⟩ := search_node_at p0 obj fr0 rs0 hnl hpo
        have hneg : ¬ p0.search_node obj < 0 := by
          rw [hsn]
          omega
        have htn : (p0.search_node obj).toNat = i := by
          rw [hsn]
          exact Int.toNat_ofNat i
        rw [if_neg hneg, htn] at h
        rw [← getD_eq_get p0.objects i hi] at hrt
        have hfm : p0.objects.getD i default ∈ p0.objects := by
          rw [getD_eq_get _ _ hi]
          exact List.get_mem _ _ _
        have hcb : (p0.objects.getD i default).url ∈ b := by
          have := fwd_at _ [] a b pk p0 hch.ahead hp0 hnl _ hfm
          rw [List.append_nil] at this
          exact this
        obtain ⟨b2, b3, hb⟩ := List.append_of_mem hcb
        have hL : a ++ pk :: b = (a ++ pk :: b2) ++ (p0.objects.getD i default).url :: b3 := by
          rw [hb, List.append_assoc, List.cons_append]
        cases hrec : index.insert_at fuel idx t r (p0.objects.getD i default).url obj with
        | error e =>
          rw [hrec] at h
          exact Except.noConfusion h
        | ok o =>
          obtain ⟨c1, t1, idx1, r1⟩ := o
          rw [hrec] at h
          simp only at h
          obtain ⟨hr1, hc1, hk1, hs1, _⟩ := insert_at_counted g obj fuel idx t r _ _ hr hc hrec
          simp only at hr1 hc1 hk1 hs1
          have hle : idx1.m_meta.page_index ≤ out.2.2.1.m_meta.page_index := by
            by_cases hsame : (!(p0.objects.getD i default).ne r1.page_start &&
                !r1.split_key.to_bool) = true
            · rw [if_pos hsame] at h
              rw [← Except.ok.inj h]
            · rw [if_neg hsame] at h
              exact insert_finish_page_index idx1 t1 pk _ _ out h
          rw [hL] at hch
          obtain ⟨b3n, e1, e2, e3, e4, e5, e6, e7⟩ := ih idx t r _ (c1, t1, idx1, r1)
            (a ++ pk :: b2) b3 hobj hr hc hch hsh (le_trans hle hn) hrec
          rw [hb]
          exact insert_inner_tree g n obj idx t pk out a b2 b3 b3n p0 i hi t1 idx1 r1 _ _
            hsh hp0 hnl hrt hs1 hr1 hc1 hk1 e1 e2 e3 e4 e5 e6 e7 rfl rfl hn h
    · rw [if_neg hl] at h
      exact insert_leaf_tree g n obj idx t pk out a b p0 hobj hr hc hch hsh hp0
        (by simpa using hl) hn h
theorem page_at_meta_write_same (g : Int) (idx : index) (t : transport) (m : index_meta)
    (hr : replicated g t) (hc : counted g idx.m_sk t.blobs m) (v : eurl) :
    page_at g (idx.meta_write t).blobs v = page_at g t.blobs v := by
  rw [page_at_meta_write g idx t hr.1 v, page_at_cons_meta]
  by_cases hv : v = idx.meta_key
  · rw [if_pos hv]
    cases hq : page_at g t.blobs v with
    | none => rfl
    | some q =>
      exfalso
      have := hc.1 v q hq
      rw [hv] at this
      exact meta_key_not_allocated idx _ this
  · rw [if_neg hv]

theorem fwd_tail (f : eurl → Option page) (tail : List eurl) :
    ∀ (l : List eurl) (x : eurl), fwd f (x :: l) tail → ∀ u ∈ x :: l, ∀ p, f u = some p →
      p.is_leaf = false → ∀ e ∈ p.objects, e.url ∈ l ++ tail := by
  intro l
  induction l with
  | nil =>
    intro x h u hu p hp hl e he
    rcases List.mem_cons.1 hu with h1 | h1
    · rw [h1] at hp
      exact h.1 p hp hl e he
    · cases h1
  | cons y rest ih =>
    intro x h u hu p hp hl e he
    rcases List.mem_cons.1 hu with h1 | h1
    · rw [h1] at hp
      exact h.1 p hp hl e he
    · have := ih y h.2 u h1 p hp hl e he
      rw [List.cons_append]
      exact List.mem_cons_of_mem _ this

/-- No entry names the start url. -/
theorem start_not_owned (f : eurl → Option page) (sk : eurl) (b : List eurl)
    (hch : chained f sk (sk :: b)) (u : eurl) : ¬ owns f u sk := by
  intro ⟨p, e, hp, hl, he, hx⟩
  have hu := hch.cover u p hp
  have := fwd_tail f [] b sk hch.ahead u hu p hp hl e he
  rw [List.append_nil, hx] at this
  exact (List.nodup_cons.1 hch.nodup).1 this

theorem shaped_top (f : eurl → Option page) (sk : eurl) (n : Nat) (b : List eurl)
    (hch : chained f sk (sk :: b)) (hsh : shaped sk n f (fun _ x => x = sk)) :
    shaped sk n f (fun _ _ => False) := by
  refine ⟨hsh.ok, ?_, hsh.single⟩
  intro u p hp hl e he _
  apply hsh.fronts u p hp hl e he
  intro hx
  exact start_not_owned f sk b hch u ⟨p, e, hp, hl, he, hx⟩

theorem chain_starts (f : eurl → Option page) (sk : eurl) (chain : List eurl)
    (hch : chained f sk chain) : ∃ b, chain = sk :: b := by
  cases chain with
  | nil =>
    have := hch.start
    cases this
  | cons x b =>
    have := hch.start
    simp only [List.head?_cons, Option.some.injEq] at this
    exact ⟨b, by rw [this]⟩

/-- The public `insert` keeps the chain and the tree. -/
theorem insert_grown (g : Int) (n fuel : Nat) (idx : index) (t : transport) (obj : key)
    (res : Int × transport × index) (hg : grown g idx.m_sk n t idx.m_meta)
    (hobj : fits idx.m_sk n obj.id) (h : index.insert fuel idx t obj = .ok res)
    (hn : res.2.2.m_meta.page_index ≤ n) :
    res.2.2.m_sk = idx.m_sk ∧ grown g idx.m_sk n res.2.1 res.2.2.m_meta := by
  obtain ⟨hr, hc, chain, hch, hsh⟩ := hg
  obtain ⟨b, hb⟩ := chain_starts _ _ _ hch
  subst hb
  obtain ⟨ic1, ic2⟩ := insert_counted g fuel idx t obj res hr hc h
  unfold index.insert at h
  cases hrec : index.insert_at fuel idx t default idx.m_sk obj with
  | error e => rw [hrec] at h; simp at h
  | ok o =>
    obtain ⟨c1, t1, idx1, r1⟩ := o
    rw [hrec] at h
    simp only at h
    obtain ⟨hr1, hc1, _, hs1, _⟩ := insert_at_counted g obj fuel idx t default idx.m_sk _ hr hc hrec
    simp only at hr1 hc1 hs1
    have hpi : idx1.m_meta.page_index = res.2.2.m_meta.page_index := by
      split at h
      · rw [← Except.ok.inj h]
      · rw [← Except.ok.inj h]
    have hsk : res.2.2.m_sk = idx.m_sk := by
      split at h
      · rw [← Except.ok.inj h]
        exact hs1
      · rw [← Except.ok.inj h]
        exact hs1
    obtain ⟨b1, e1, _, _, e4, _, _, _⟩ := insert_at_tree g n obj fuel idx t default idx.m_sk
      (c1, t1, idx1, r1) [] b hobj hr hc hch hsh (by rw [hpi]; exact hn) hrec
    simp only [List.nil_append] at e1 e4
    have hpa : page_at g res.2.1.blobs = page_at g t1.blobs := by
      funext v
      split at h
      · rw [← Except.ok.inj h]
      · rw [← Except.ok.inj h]
        exact page_at_meta_write_same g _ t1 idx1.m_meta hr1 (by
          show counted g idx1.m_sk t1.blobs idx1.m_meta
          rw [hs1]
          exact hc1) v
    rw [hsk] at ic2
    refine ⟨hsk, ic1, ic2, idx.m_sk :: b1, ?_, ?_⟩
    · rw [hpa]
      exact e1
    · rw [hpa]
      exact shaped_top _ _ n b1 e1 e4
theorem new_leaf_insert_first (k : key) (other : page) (hk : k.size ≤ max_page_size) :
    (page.new true).insert_and_split k other =
      ({ flags := PAGE_LEAF, objects := [k], total_size := k.size, next := default },
        other, false) := by
  have h := (insert_and_split_spec (page.new true) k other rfl (by
    show 0 + k.size < SIZE_MOD
    unfold max_page_size at hk
    unfold SIZE_MOD
    omega)).1
  have e : insert_sorted k (page.new true).objects = [k] := rfl
  rw [e] at h
  have := h (by simpa [entries_size_cons, entries_size_nil] using hk)
  rw [this]
  simp [page.new, entries_size_cons, entries_size_nil]

/-- What `insert_first_leaf` leaves stored. -/
theorem insert_first_leaf_pages (g : Int) (idx : index) (t : transport) (r : recursion)
    (pk : eurl) (p : page) (obj : key) (hr : replicated g t) :
    (idx.insert_first_leaf t r pk p obj).2.2.1.m_meta.page_index =
        idx.m_meta.page_index + 1 ∧
      ∀ v, page_at g (idx.insert_first_leaf t r pk p obj).2.1.blobs v =
        if v = pk then
          some { (p.insert_and_split ⟨obj.id, page_url idx.m_sk idx.m_meta.page_index⟩
              ((page.new true).insert_and_split obj (page.new false)).2.1).1 with
            next := page_url idx.m_sk idx.m_meta.page_index }
        else if v = page_url idx.m_sk idx.m_meta.page_index then
          some ((page.new true).insert_and_split obj (page.new false)).1
        else page_at g t.blobs v := by
  unfold index.insert_first_leaf
  lift_lets
  extract_lets g0 leaf_key l c q s p1 c2 s1 s2
  have hc0 : c.1 = 0 := check_write_code t _ _ (replicated_answers g t hr)
  have hcr : replicated g c.2 := replicated_checked_write t _ _ g hr
  have hc20 : c2.1 = 0 := check_write_code c.2 _ _ (replicated_answers g _ hcr)
  have hpc : ∀ v, page_at g c.2.blobs v =
      if v = page_url idx.m_sk idx.m_meta.page_index then some l.1
      else page_at g t.blobs v := fun v => page_at_write t _ l.1 g hr.1 v
  have hpc2 : ∀ v, page_at g c2.2.blobs v =
      if v = pk then some p1 else page_at g c.2.blobs v :=
    fun v => page_at_write c.2 pk p1 g hcr.1 v
  split
  · rename_i hne
    exact absurd hc0 hne
  · split
    · rename_i hne
      exact absurd hc20 hne
    · refine ⟨rfl, ?_⟩
      intro v
      have := hpc2 v
      rw [hpc v] at this
      exact this
/-- The first insert into a freshly opened index. -/
theorem insert_fresh_grown (g : Int) (n fuel : Nat) (idx : index) (t : transport) (obj : key)
    (res : Int × transport × index) (hr : replicated g t)
    (hc : counted g idx.m_sk t.blobs idx.m_meta)
    (hroot : page_at g t.blobs idx.m_sk = some (page.new false))
    (hpi : idx.m_meta.page_index = 0) (hsz : obj.size ≤ max_page_size)
    (hobj : fits idx.m_sk n obj.id) (h : index.insert fuel idx t obj = .ok res)
    (hn : res.2.2.m_meta.page_index ≤ n) :
    res.2.2.m_sk = idx.m_sk ∧ grown g idx.m_sk n res.2.1 res.2.2.m_meta := by
  obtain ⟨ic1, ic2⟩ := insert_counted g fuel idx t obj res hr hc h
  unfold index.insert at h
  cases hrec : index.insert_at fuel idx t default idx.m_sk obj with
  | error e => rw [hrec] at h; simp at h
  | ok o =>
    obtain ⟨c1, t1, idx1, r1⟩ := o
    rw [hrec] at h
    simp only at h
    obtain ⟨hr1, hc1, _, hs1, _⟩ := insert_at_counted g obj fuel idx t default idx.m_sk _ hr hc hrec
    simp only at hr1 hc1 hs1
    have hpi2 : idx1.m_meta.page_index = res.2.2.m_meta.page_index := by
      split at h
      · rw [← Except.ok.inj h]
      · rw [← Except.ok.inj h]
    have hsk : res.2.2.m_sk = idx.m_sk := by
      split at h
      · rw [← Except.ok.inj h]
        exact hs1
      · rw [← Except.ok.inj h]
        exact hs1
    have hpa : page_at g res.2.1.blobs = page_at g t1.blobs := by
      funext v
      split at h
      · rw [← Except.ok.inj h]
      · rw [← Except.ok.inj h]
        exact page_at_meta_write_same g _ t1 idx1.m_meta hr1 (by
          show counted g idx1.m_sk t1.blobs idx1.m_meta
          rw [hs1]
          exact hc1) v
    cases fuel with
    | zero => simp [index.insert_at] at hrec
    | succ fuel =>
      unfold index.insert_at at hrec
      rw [read_of_page_at g t idx.m_sk (page.new false) hr hroot] at hrec
      simp only [page.load] at hrec
      have h1 : (!(page.new false).is_leaf) = true := by decide
      have h2 : (page.new false).search_node obj < 0 := by
        rw [search_node_empty _ _ rfl]
        decide
      rw [if_pos h1, if_pos h2] at hrec
      have hout := Except.ok.inj hrec
      obtain ⟨hp1, hpa1⟩ := insert_first_leaf_pages g idx t default idx.m_sk (page.new false)
        obj hr
      rw [hout] at hp1 hpa1
      simp only at hp1 hpa1
      rw [hpi] at hp1 hpa1
      have hn1 : 0 < n := by
        rw [← hpi2, hp1] at hn
        omega
      have hlk : (key.mk obj.id (page_url idx.m_sk 0)).size ≤ max_page_size := hobj 0 hn1
      rw [new_leaf_insert_first obj (page.new false) hsz] at hpa1
      simp only at hpa1
      rw [new_page_insert_first _ (page.new false) hlk] at hpa1
      simp only at hpa1
      have hnone : ∀ v, v ≠ idx.m_sk → page_at g t.blobs v = none := by
        intro v hv
        cases hq : page_at g t.blobs v with
        | none => rfl
        | some q =>
          exfalso
          have hm := hc.1 v q hq
          rw [hpi, mem_allocated] at hm
          rcases hm with h0 | ⟨i, hi, _⟩
          · exact hv h0
          · omega
      have hu0 : page_url idx.m_sk 0 ≠ idx.m_sk := page_url_ne_sk _ _
      have hfsk : page_at g t1.blobs idx.m_sk =
          some { flags := 0, objects := [⟨obj.id, page_url idx.m_sk 0⟩],
                 total_size := (key.mk obj.id (page_url idx.m_sk 0)).size,
                 next := page_url idx.m_sk 0 } := by
        rw [hpa1, if_pos rfl]
      have hfu : page_at g t1.blobs (page_url idx.m_sk 0) =
          some { flags := PAGE_LEAF, objects := [obj], total_size := obj.size,
                 next := default } := by
        rw [hpa1, if_neg hu0, if_pos rfl]
      have hfo : ∀ v q, page_at g t1.blobs v = some q → v = idx.m_sk ∨ v = page_url idx.m_sk 0 := by
        intro v q hq
        rw [hpa1] at hq
        by_cases hv : v = idx.m_sk
        · exact Or.inl hv
        · rw [if_neg hv] at hq
          by_cases hv2 : v = page_url idx.m_sk 0
          · exact Or.inr hv2
          · rw [if_neg hv2, hnone v hv] at hq
            cases hq
      have hleaf : (page.mk PAGE_LEAF [obj] obj.size default).is_leaf = true :=
        (is_leaf_of_flags _ (page.new true) rfl).trans (by decide)
      have hown : ∀ u x, owns (page_at g t1.blobs) u x → u = idx.m_sk := by
        intro u x ⟨q, e, hq, hl, _, _⟩
        rcases hfo u q hq with h0 | h0
        · exact h0
        · rw [h0, hfu] at hq
          cases hq
          rw [hleaf] at hl
          cases hl
      rw [hsk] at ic2
      refine ⟨hsk, ic1, ic2, [idx.m_sk, page_url idx.m_sk 0], ?_, ?_⟩
      · rw [hpa]
        refine ⟨rfl, ?_, ⟨⟨_, hfsk, rfl⟩, ⟨_, hfu, rfl⟩, trivial⟩, ⟨?_, ?_, trivial⟩, ?_⟩
        · exact List.nodup_cons.2 ⟨by
            intro hm
            exact hu0 (List.mem_singleton.1 hm).symm, List.nodup_singleton _⟩
        · intro q hq _ e he
          rw [hfsk] at hq
          cases hq
          rw [List.mem_singleton.1 he]
          exact List.mem_append_left _ (List.mem_singleton.2 rfl)
        · intro q hq hl
          rw [hfu] at hq
          cases hq
          rw [hleaf] at hl
          cases hl
        · intro u q hq
          rcases hfo u q hq with h0 | h0
          · rw [h0]
            exact List.mem_cons_self _ _
          · rw [h0]
            exact List.mem_cons_of_mem _ (List.mem_singleton.2 rfl)
      · rw [hpa]
        refine ⟨?_, ?_, ?_⟩
        · intro u q hq
          rcases hfo u q hq with h0 | h0
          · rw [h0, hfsk] at hq
            cases hq
            refine ⟨List.cons_ne_nil _ _, List.pairwise_singleton _ _, ?_,
              fun _ => List.nodup_singleton _⟩
            intro e he
            rw [List.mem_singleton.1 he]
            exact hobj
          · rw [h0, hfu] at hq
            cases hq
            refine ⟨List.cons_ne_nil _ _, List.pairwise_singleton _ _, ?_, ?_⟩
            · intro e he
              rw [List.mem_singleton.1 he]
              exact hobj
            · intro hl
              rw [hleaf] at hl
              cases hl
        · intro u q hq hl e he _
          have hu := hown u e.url ⟨q, e, hq, hl, he, rfl⟩
          rw [hu, hfsk] at hq
          cases hq
          rw [List.mem_singleton.1 he]
          exact ⟨_, obj, [], hfu, rfl, rfl⟩
        · intro u1 u2 x o1 o2
          rw [hown u1 x o1, hown u2 x o2]
theorem run_inserts_grown (g : Int) (n fuel : Nat) :
    ∀ (keys : List key) (idx : index) (t : transport) (out : List Int × index × transport),
      grown g idx.m_sk n t idx.m_meta → (∀ k ∈ keys, fits idx.m_sk n k.id) →
      run_ops fuel (keys.map op.insert) idx t = .ok out →
      out.2.1.m_meta.page_index ≤ n →
      out.2.1.m_sk = idx.m_sk ∧ grown g idx.m_sk n out.2.2 out.2.1.m_meta := by
  intro keys
  induction keys with
  | nil =>
    intro idx t out hg _ h _
    simp only [List.map_nil, run_ops, Except.ok.injEq] at h
    rw [← h]
    exact ⟨rfl, hg⟩
  | cons k rest ih =>
    intro idx t out hg hf h hn
    simp only [List.map_cons, run_ops] at h
    cases hins : index.insert fuel idx t k with
    | error e => rw [hins] at h; exact Except.noConfusion h
    | ok r =>
      rw [hins] at h
      simp only at h
      cases hrun : run_ops fuel (rest.map op.insert) r.2.2 r.2.1 with
      | error e => rw [hrun] at h; exact Except.noConfusion h
      | ok q =>
        rw [hrun] at h
        simp only [Except.ok.injEq] at h
        have hq : out.2 = q.2 := by rw [← h]
        have hle := run_ops_page_index fuel _ _ _ _ hrun
        rw [hq] at hn ⊢
        obtain ⟨hsk, hg1⟩ := insert_grown g n fuel idx t k r hg
          (hf k (List.mem_cons_self _ _)) hins (le_trans hle hn)
        rw [← hsk] at hg1 hf
        obtain ⟨hsk2, hg2⟩ := ih r.2.2 r.2.1 q hg1
          (fun k1 hk1 => hf k1 (List.mem_cons_of_mem _ hk1)) hrun hn
        rw [hsk] at hsk2 hg2
        exact ⟨hsk2, hg2⟩

/-- What a fresh open leaves at the start url. -/
theorem ctor_fresh_pages (g : Int) (fuel : Nat) (t : transport) (sk : eurl)
    (hb : t.blobs = []) (hg : g ∈ t.up_groups) (o : transport × index)
    (h : index.ctor fuel t sk = .ok o) :
    o.2 = ⟨sk, fresh_meta⟩ ∧ page_at g o.1.blobs sk = some (page.new false) := by
  have hnone : ∀ g1 v, t.lookup g1 v = none := by
    intro g1 v
    unfold transport.lookup
    rw [hb]
    rfl
  obtain ⟨t1, h1, _, h3⟩ := ctor_without_meta fuel t sk (fun g1 _ _ => hnone g1 _)
  rw [h1] at h
  rw [← Except.ok.inj h]
  refine ⟨rfl, ?_⟩
  obtain ⟨a1, a2⟩ := (mem_up_groups t g).1 hg
  have hl : List.lookup (g, sk) t1.blobs = some (blob.page (page.new false)) :=
    (h3 g a1 a2).1
  show page_at g t1.blobs sk = _
  unfold page_at
  rw [hl]

theorem ne_page_end (p : page) (h : p.objects ≠ []) :
    p.ne index.page_end.m_page = true := by
  unfold page.ne
  have : objects_eq p.objects index.page_end.m_page.objects = false := by
    cases hpo : p.objects with
    | nil => exact absurd hpo h
    | cons x xs => rfl
  rw [this]
  simp

/-- The loop of the page walk along a chain. -/
theorem page_count_loop_chain (g : Int) (t : transport) (hr : replicated g t) :
    ∀ (l : List eurl) (fuel : Nat) (it : page_iterator) (pn ln : Nat),
      l.length < fuel →
      (match l with
        | [] => it.m_page = page.new false
        | u :: _ => page_at g t.blobs u = some it.m_page) →
      links (page_at g t.blobs) l default →
      (∀ u ∈ l, ∀ p, page_at g t.blobs u = some p → p.objects ≠ []) →
      (∀ u ∈ l.tail, u.empty = false) →
      pn + l.length < SIZE_MOD → ln + l.length < SIZE_MOD →
      page_count_loop fuel t it pn ln =
        .ok (pn + l.length, ln + l.countP (holds_leaf g t.blobs)) := by
  intro l
  induction l with
  | nil =>
    intro fuel it pn ln hf hit _ _ _ _ _
    cases fuel with
    | zero => cases hf
    | succ k =>
      unfold page_count_loop
      simp only at hit
      rw [hit]
      have : (page.new false).ne index.page_end.m_page = false := by decide
      rw [this]
      rfl
  | cons u rest ih =>
    intro fuel it pn ln hf hit hl hne hemp hpn hln
    cases fuel with
    | zero => cases hf
    | succ k =>
      simp only at hit
      obtain ⟨⟨p, hp, hnx⟩, hrest⟩ := hl
      rw [hit] at hp
      cases hp
      unfold page_count_loop
      rw [ne_page_end _ (hne u (List.mem_cons_self _ _) _ hit), if_pos rfl]
      simp only [List.length_cons] at hpn hln hf
      have hpn1 : add64 pn 1 = pn + 1 := add64_of_lt _ _ (by omega)
      have hleafc : (if it.m_page.is_leaf = true then add64 ln 1 else ln) =
          ln + (if holds_leaf g t.blobs u = true then 1 else 0) := by
        have hh : holds_leaf g t.blobs u = it.m_page.is_leaf := by
          unfold holds_leaf
          rw [hit]
        rw [hh]
        by_cases hlf : it.m_page.is_leaf = true
        · rw [if_pos hlf, if_pos hlf]
          exact add64_of_lt _ _ (by omega)
        · rw [if_neg hlf, if_neg hlf]
          rfl
      simp only
      rw [hpn1, hleafc]
      have hcount : (u :: rest).countP (holds_leaf g t.blobs) =
          rest.countP (holds_leaf g t.blobs) +
            (if holds_leaf g t.blobs u = true then 1 else 0) := List.countP_cons _ _ _
      have hcle : rest.countP (holds_leaf g t.blobs) ≤ rest.length := List.countP_le_length _
      cases rest with
      | nil =>
        have hnx2 : it.m_page.next = default := hnx
        have hstep : it.try_loading_next_page t = .ok
            { m_page := page.new false, m_page_index := it.m_page_index + 1,
              m_url := default } := by
          unfold page_iterator.try_loading_next_page
          rw [hnx2]
          rfl
        rw [hstep]
        simp only
        rw [ih k _ (pn + 1) (ln + (if holds_leaf g t.blobs u = true then 1 else 0))
          (by simp only [List.length_nil]; omega) rfl trivial
          (fun v hv => by cases hv) (fun v hv => by cases hv)
          (by simp only [List.length_nil]; omega)
          (by
            simp only [List.length_nil]
            split <;> omega)]
        rw [hcount]
        simp only [List.length_nil, List.length_cons, List.countP_nil]
        congr 2
        omega
      | cons v rest2 =>
        have hnx2 : it.m_page.next = v := hnx
        obtain ⟨pv, hpv, _⟩ := hrest.1
        have hve : v.empty = false := hemp v (List.mem_cons_self _ _)
        have hstep : it.try_loading_next_page t = .ok
            { m_page := pv, m_page_index := it.m_page_index + 1, m_url := v } := by
          unfold page_iterator.try_loading_next_page
          rw [hnx2, hve, read_of_page_at g t v pv hr hpv]
          rfl
        rw [hstep]
        simp only
        rw [ih k _ (pn + 1) (ln + (if holds_leaf g t.blobs u = true then 1 else 0))
          (by simp only [List.length_cons] at hf ⊢; omega) hpv hrest
          (fun w hw => hne w (List.mem_cons_of_mem _ hw))
          (fun w hw => hemp w (List.mem_cons_of_mem _ hw))
          (by simp only [List.length_cons] at hpn ⊢; omega)
          (by
            simp only [List.length_cons] at hln ⊢
            split <;> omega)]
        rw [hcount]
        simp only [List.length_cons]
        congr 2
        · omega
        · omega
/-- On a grown index the page walk counts what the meta says. -/
theorem walk_grown (g : Int) (n fuel : Nat) (idx : index) (t : transport)
    (hg : grown g idx.m_sk n t idx.m_meta) (hlt : idx.m_meta.page_index + 1 < SIZE_MOD)
    (hfuel : idx.m_meta.num_pages < fuel) :
    test_page_iterator fuel idx t =
      .ok (idx.m_meta.num_pages, idx.m_meta.num_leaf_pages) := by
  obtain ⟨hr, hc, chain, hch, hsh⟩ := hg
  obtain ⟨b, hb⟩ := chain_starts _ _ _ hch
  subst hb
  have hmem : ∀ u, u ∈ idx.m_sk :: b ↔
      u ∈ (allocated idx.m_sk idx.m_meta.page_index).filter (holds_page g t.blobs) := by
    intro u
    rw [List.mem_filter]
    constructor
    · intro hu
      obtain ⟨p, hp⟩ := links_stored _ default _ hch.linked u hu
      refine ⟨hc.1 u p hp, ?_⟩
      unfold holds_page
      rw [hp]
      rfl
    · intro ⟨_, hu⟩
      unfold holds_page at hu
      cases hp : page_at g t.blobs u with
      | none =>
        rw [hp] at hu
        cases hu
      | some p => exact hch.cover u p hp
  have hperm : List.Perm (idx.m_sk :: b)
      ((allocated idx.m_sk idx.m_meta.page_index).filter (holds_page g t.blobs)) :=
    (List.perm_ext_iff_of_nodup hch.nodup ((allocated_nodup _ _).filter _)).2 hmem
  have hlen : (idx.m_sk :: b).length = idx.m_meta.num_pages := by
    rw [hc.2.2.1, hperm.length_eq]
    unfold stored_pages
    rw [List.countP_eq_length_filter]
  have hleaves : (idx.m_sk :: b).countP (holds_leaf g t.blobs) = idx.m_meta.num_leaf_pages := by
    rw [hc.2.2.2, hperm.countP_eq, List.countP_filter]
    unfold stored_leaves
    apply List.countP_congr
    intro u _
    unfold holds_leaf holds_page
    cases page_at g t.blobs u with
    | none => simp
    | some p => simp
  have hbound : (idx.m_sk :: b).length < SIZE_MOD := by
    rw [hlen, hc.2.2.1]
    have := stored_pages_le g t.blobs idx.m_sk idx.m_meta.page_index
    omega
  obtain ⟨p0, hp0, _⟩ := hch.linked.1
  unfold test_page_iterator index.page_begin page_iterator.at_url
  rw [read_of_page_at g t idx.m_sk p0 hr hp0]
  simp only [page.load]
  rw [page_count_loop_chain g t hr (idx.m_sk :: b) fuel _ 0 0 (by rw [hlen]; exact hfuel) hp0
    hch.linked (fun u _ p hp => (hsh.ok u p hp).1) ?_ (by omega) (by omega)]
  · rw [hlen, hleaves, Nat.zero_add, Nat.zero_add]
  · intro u hu
    have hu1 : u ∈ b := hu
    have hne : u ≠ idx.m_sk := fun h0 => (List.nodup_cons.1 hch.nodup).1 (h0 ▸ hu1)
    obtain ⟨p, hp⟩ := links_stored _ default _ hch.linked u (List.mem_cons_of_mem _ hu1)
    have hm := hc.1 u p hp
    rw [mem_allocated] at hm
    rcases hm with h0 | ⟨i, _, h0⟩
    · exact absurd h0 hne
    · rw [h0]
      exact page_url_not_empty _ _

/-- C17: keys are inserted into an index opened on storage that holds
nothing, with some active group answering; the first key fits into a page
and so does a routing entry made of the id of any of the keys and any page
url handed out.  Then the walk of `test_page_iterator` from `page_begin()`
to `page_end()` returns, whenever its bound exceeds `num_pages`, and it
counts exactly `meta.num_pages` pages, of which exactly
`meta.num_leaf_pages` have the leaf flag.  The ids need not differ and none
has to be non-empty for this. -/
theorem page_walk_counts_the_meta (fuel fuel2 : Nat) (groups down : List Int) (sk : eurl)
    (keys : List key) (codes : List Int) (idx : index) (t1 : transport)
    (hup : (transport.mk groups down []).up_groups ≠ [])
    (hkeys : keys ≠ [])
    (hleaf : ∀ k ∈ keys, k.size ≤ max_page_size)
    (hroute : ∀ k ∈ keys, ∀ i < idx.m_meta.page_index,
      (key.mk k.id (page_url sk i)).size ≤ max_page_size)
    (h : open_and_run fuel ⟨groups, down, []⟩ sk (keys.map op.insert) = .ok (codes, idx, t1))
    (hlt : idx.m_meta.page_index + 1 < SIZE_MOD)
    (hfuel : idx.m_meta.num_pages < fuel2) :
    test_page_iterator fuel2 idx t1 =
      .ok (idx.m_meta.num_pages, idx.m_meta.num_leaf_pages) := by
  obtain ⟨g, hg⟩ := List.exists_mem_of_ne_nil _ hup
  unfold open_and_run at h
  cases hctor : index.ctor fuel ⟨groups, down, []⟩ sk with
  | error e => rw [hctor] at h; exact Except.noConfusion h
  | ok o =>
    rw [hctor] at h
    simp only at h
    obtain ⟨hr, hc⟩ := ctor_counted g fuel _ sk rfl hg o hctor
    obtain ⟨ho, hroot⟩ := ctor_fresh_pages g fuel _ sk rfl hg o hctor
    cases keys with
    | nil => exact absurd rfl hkeys
    | cons k0 rest =>
      simp only [List.map_cons, run_ops] at h
      cases hins : index.insert fuel o.2 o.1 k0 with
      | error e => rw [hins] at h; exact Except.noConfusion h
      | ok r =>
        rw [hins] at h
        simp only at h
        cases hrun : run_ops fuel (rest.map op.insert) r.2.2 r.2.1 with
        | error e => rw [hrun] at h; exact Except.noConfusion h
        | ok q =>
          rw [hrun] at h
          simp only [Except.ok.injEq, Prod.mk.injEq] at h
          have hq1 : q.2.1 = idx := by rw [h.2]
          have hq2 : q.2.2 = t1 := by rw [h.2]
          have hsk0 : o.2.m_sk = sk := by rw [ho]
          have hle := run_ops_page_index fuel _ _ _ _ hrun
          rw [hq1] at hle
          have hfits : ∀ k ∈ k0 :: rest, fits o.2.m_sk idx.m_meta.page_index k.id := by
            intro k hk
            rw [hsk0]
            exact hroute k hk
          obtain ⟨hsk1, hg1⟩ := insert_fresh_grown g idx.m_meta.page_index fuel o.2 o.1 k0 r
            hr hc (by rw [hsk0]; exact hroot) (by rw [ho]; rfl)
            (hleaf k0 (List.mem_cons_self _ _)) (hfits k0 (List.mem_cons_self _ _)) hins hle
          rw [← hsk1] at hg1 hfits
          obtain ⟨hsk2, hg2⟩ := run_inserts_grown g idx.m_meta.page_index fuel rest r.2.2 r.2.1
            q hg1 (fun k hk => hfits k (List.mem_cons_of_mem _ hk)) hrun
            (by rw [hq1])
          rw [hq1, hq2] at hg2
          rw [hq1] at hsk2
          rw [← hsk2] at hg2
          exact walk_grown g _ fuel2 idx t1 hg2 hlt hfuel

/-! ## Runs on which a law of the specification fails -/

/-- C1, failing input: on a fresh index `insert(a)`, `remove(a)` and
`insert(b)` all return 0, and the search for `b` that follows returns the
empty key.  The remove deleted the only leaf and left the root entry that
names it; the insert then descends into the missing page, drops the read
error of the recursive call and reports success. -/
theorem insert_after_emptying_remove_is_lost :
    run_then_search 6 ops_reinsert (short_key "b" "data.b") = .ok ([0, 0, 0], default) := by
  decide!

/-- C2, failing input: every call of `ops_stale_copy` returns 0, the last one
being `remove(ac)`, and the search for `ac` that follows still returns `ac`
with its url: a second copy of the key sits in a subtree that the root
routes to once the remove has raised the routing id of the other one. -/
theorem search_after_remove_finds_stale_copy :
    run_stale_copy 8 = .ok ([0, 0, 0, 0, 0, 0, 0, 0, 0, 0, 0], wide_key "ac") := by
  decide!

/-- C3, failing input: two keys with distinct ids of 2100 bytes are inserted
into a fresh index, both inserts return 0, nothing is removed, and the search
for the second key returns the empty key.  The root splits, and the new root
built by the promotion splits again on its second entry, which is dropped. -/
theorem second_long_key_not_found :
    run_then_search 6 ops_two_long (long_key 98 "data.1") = .ok ([0, 0], default) := by
  decide!

/-- C4, failing input: after the two long keys and the key `c` were inserted
into a fresh index, the walk from `begin()` to `end()` yields `c` before the
second long key, although the id of that key is the smaller one. -/
theorem walk_out_of_order :
    run_then_keys 6 ops_two_long_short =
        .ok ([0, 0, 0], [long_key 97 "data.0", short_key "c" "data.2", long_key 98 "data.1"]) ∧
      (long_key 98 "data.1").id < (short_key "c" "data.2").id := by
  decide!

/-- C5, failing input: after `insert(a)`, `remove(a)`, `insert(b)`, all
returning 0, the walk over the leaf chain yields no key, while `b` was
inserted and not removed. -/
theorem walk_after_reinsert_is_empty :
    run_then_keys 6 ops_reinsert = .ok ([0, 0, 0], []) := by
  decide!

theorem intersect_long_read_other :
    build_then_intersect 6 ops_two_long_short [sk_idx] INT_MAX 0 =
      .ok (true, [(sk_idx,
        [long_key 97 "data.0", short_key "c" "data.2", long_key 98 "data.1"])], []) := by
  decide!

theorem intersect_long_read_cap :
    build_then_intersect 6 ops_two_long_short [sk_idx] INT_MAX INT_MAX =
      .ok (false, [], List.replicate 2100 97) := by
  decide!

/-- C6, failing input: the intersection of the single index built from the
two long keys and `c` lists `c` before the second long key, so the list is
not in ascending key order.  This is so whatever number other than the cap
the undefined read of the first cap check yields; when it yields the cap,
the call returns no key at all. -/
theorem intersect_out_of_order (undef : Nat) :
    build_then_intersect 6 ops_two_long_short [sk_idx] INT_MAX undef =
        .ok (if undef = INT_MAX then (false, [], List.replicate 2100 97)
          else (true, [(sk_idx,
            [long_key 97 "data.0", short_key "c" "data.2", long_key 98 "data.1"])], [])) ∧
      (long_key 98 "data.1").id < (short_key "c" "data.2").id := by
  refine ⟨?_, by decide!⟩
  by_cases h : undef = INT_MAX
  · rw [if_pos h, h]
    exact intersect_long_read_cap
  · rw [if_neg h, build_then_intersect_undef 6 _ _ INT_MAX undef 0
      ⟨fun h1 => absurd h1 h, fun h1 => absurd h1 (by decide)⟩]
    exact intersect_long_read_other

theorem paginate_reads_1 :
    build_then_paginate 6 ops_two_long_short [1] =
      .ok [(false, [], List.replicate 2100 97)] := by
  decide!

theorem paginate_reads_01 :
    build_then_paginate 6 ops_two_long_short [0, 1] =
      .ok [(false, [(sk_idx, [long_key 97 "data.0"])], ascii "c"),
           (false, [], ascii "c")] := by
  decide!

theorem paginate_reads_001 :
    build_then_paginate 6 ops_two_long_short [0, 0, 1] =
      .ok [(false, [(sk_idx, [long_key 97 "data.0"])], ascii "c"),
           (false, [(sk_idx, [short_key "c" "data.2"])], List.replicate 2100 98),
           (false, [], List.replicate 2100 97)] := by
  decide!

theorem paginate_reads_000 :
    build_then_paginate 6 ops_two_long_short [0, 0, 0] =
      .ok [(false, [(sk_idx, [long_key 97 "data.0"])], ascii "c"),
           (false, [(sk_idx, [short_key "c" "data.2"])], List.replicate 2100 98),
           (false, [(sk_idx, [long_key 97 "data.0"])], ascii "c")] := by
  decide!

/-- C7, failing input: on the index built from the two long keys and `c`,
the paginated loop with `num = 1` makes up to three calls, `u0`, `u1`, `u2`
being what the undefined read of the first cap check yields in each.  When
none of them is 1, the calls return the first long key, then `c`, then the
first long key again, none completed: the resume token of the second call is
the id of the second long key, which the descent does not reach, so the third
call starts over at the head of the leaf.  When one of them is 1, that call
returns no key though it is not completed, and the loop ends there, before
the second long key was returned. -/
theorem pagination_repeats_a_key (u0 u1 u2 : Nat) :
    build_then_paginate 6 ops_two_long_short [u0, u1, u2] =
      .ok (if u0 = 1 then [(false, [], List.replicate 2100 97)]
        else if u1 = 1 then
          [(false, [(sk_idx, [long_key 97 "data.0"])], ascii "c"),
           (false, [], ascii "c")]
        else if u2 = 1 then
          [(false, [(sk_idx, [long_key 97 "data.0"])], ascii "c"),
           (false, [(sk_idx, [short_key "c" "data.2"])], List.replicate 2100 98),
           (false, [], List.replicate 2100 97)]
        else
          [(false, [(sk_idx, [long_key 97 "data.0"])], ascii "c"),
           (false, [(sk_idx, [short_key "c" "data.2"])], List.replicate 2100 98),
           (false, [(sk_idx, [long_key 97 "data.0"])], ascii "c")]) := by
  have hz : ∀ u : Nat, u ≠ 1 → (u = 1 ↔ (0 : Nat) = 1) :=
    fun u hu => ⟨fun h => absurd h hu, fun h => absurd h (by decide)⟩
  by_cases h0 : u0 = 1
  · rw [if_pos h0, h0]
    exact build_then_paginate_stopped 6 _ [1] [u1, u2] _ _ paginate_reads_1 rfl rfl
  · rw [if_neg h0]
    by_cases h1 : u1 = 1
    · rw [if_pos h1, h1, build_then_paginate_undefs 6 _ [u0, 1, u2] [0, 1, u2]
        (List.Forall₂.cons (hz u0 h0) (List.Forall₂.cons Iff.rfl
          (List.Forall₂.cons Iff.rfl List.Forall₂.nil)))]
      exact build_then_paginate_stopped 6 _ [0, 1] [u2] _ _ paginate_reads_01 rfl rfl
    · rw [if_neg h1]
      by_cases h2 : u2 = 1
      · rw [if_pos h2, h2, build_then_paginate_undefs 6 _ [u0, u1, 1] [0, 0, 1]
          (List.Forall₂.cons (hz u0 h0) (List.Forall₂.cons (hz u1 h1)
            (List.Forall₂.cons Iff.rfl List.Forall₂.nil)))]
        exact paginate_reads_001
      · rw [if_neg h2, build_then_paginate_undefs 6 _ [u0, u1, u2] [0, 0, 0]
          (List.Forall₂.cons (hz u0 h0) (List.Forall₂.cons (hz u1 h1)
            (List.Forall₂.cons (hz u2 h2) List.Forall₂.nil)))]
        exact paginate_reads_000

theorem duplicate_index_read_other :
    build_then_intersect 6 [op.insert (short_key "a" "data.a")] [sk_idx, sk_idx] 1 0 =
      .ok (true, [(sk_idx, [short_key "a" "data.a", short_key "a" "data.a"])], []) := by
  decide!

theorem duplicate_index_read_cap :
    build_then_intersect 6 [op.insert (short_key "a" "data.a")] [sk_idx, sk_idx] 1 1 =
      .ok (false, [], ascii "a") := by
  decide!

/-- C8, failing input: with the index `b/idx`, holding the one key `a`,
listed twice and `num = 1`, the list returned for `b/idx` holds two keys,
whatever number other than 1 the undefined read of the first cap check
yields; when it yields 1, the call returns no key and is not completed. -/
theorem intersect_duplicate_index_exceeds_cap (undef : Nat) :
    build_then_intersect 6 [op.insert (short_key "a" "data.a")] [sk_idx, sk_idx] 1 undef =
        .ok (if undef = 1 then (false, [], ascii "a")
          else (true, [(sk_idx, [short_key "a" "data.a", short_key "a" "data.a"])], [])) ∧
      1 < [short_key "a" "data.a", short_key "a" "data.a"].length := by
  refine ⟨?_, by decide⟩
  by_cases h : undef = 1
  · rw [if_pos h, h]
    exact duplicate_index_read_cap
  · rw [if_neg h, build_then_intersect_undef 6 _ _ 1 undef 0
      ⟨fun h1 => absurd h1 h, fun h1 => absurd h1 (by decide)⟩]
    exact duplicate_index_read_other

theorem one_key_read_other :
    build_then_intersect 6 [op.insert (short_key "a" "data.a")] [sk_idx] 1 0 =
      .ok (true, [(sk_idx, [short_key "a" "data.a"])], []) := by
  decide!

theorem one_key_read_cap :
    build_then_intersect 6 [op.insert (short_key "a" "data.a")] [sk_idx] 1 1 =
      .ok (false, [], ascii "a") := by
  decide!

/-- C9, failing input: on the index with the one key `a`, `intersect` with
`num = 1` reads the size of the first list of the still empty result map.
When this undefined read yields 1, the call returns no key, fewer than `num`,
and yet the result is not completed and `start` is left at `a`; when it
yields any other number, the call returns `a`, completed, with an empty
`start`. -/
theorem short_result_not_completed (undef : Nat) :
    build_then_intersect 6 [op.insert (short_key "a" "data.a")] [sk_idx] 1 undef =
      .ok (if undef = 1 then (false, [], ascii "a")
        else (true, [(sk_idx, [short_key "a" "data.a"])], [])) := by
  by_cases h : undef = 1
  · rw [if_pos h, h]
    exact one_key_read_cap
  · rw [if_neg h, build_then_intersect_undef 6 _ _ 1 undef 0
      ⟨fun h1 => absurd h1 h, fun h1 => absurd h1 (by decide)⟩]
    exact one_key_read_other

/-- The call on `two_indexes` with `num = 1` stops at the cap: one key per
index, not completed, `start` left at the next common key. -/
theorem two_indexes_call_one :
    (two_indexes_call 1 0).1 =
        ⟨false, [(sk_idx, [short_key "b" "i.b"]), (sk_jdx, [short_key "b" "j.b"])]⟩ ∧
      (two_indexes_call 1 0).2.1 = ascii "c" := by
  decide!

/-- The call on `two_indexes` with `num = 5` returns both common keys and is
completed. -/
theorem two_indexes_call_five :
    (two_indexes_call 5 0).1 =
        ⟨true, [(sk_idx, [short_key "b" "i.b", short_key "c" "i.c"]),
                (sk_jdx, [short_key "b" "j.b", short_key "c" "j.c"])]⟩ ∧
      (two_indexes_call 5 0).2.1 = [] := by
  decide!

/-- An instance of `distinct_capped_unless_read_num`: the call on
`two_indexes` with `num = 1` and a read that yields 0. -/
theorem distinct_capped_on_two_indexes :
    (intersect 6 two_indexes [sk_idx, sk_jdx] [] 1 0 = .ok (two_indexes_call 1 0) ∧
      [sk_idx, sk_jdx].Nodup ∧
      ∀ a ∈ [sk_idx, sk_jdx], ∀ b ∈ [sk_idx, sk_jdx], a.bucket = b.bucket) ∧
    ((∀ e ∈ (two_indexes_call 1 0).1.keys,
        e.1 ∈ [sk_idx, sk_jdx] ∧ e.2 = (two_indexes_call 1 0).1.returned e.1) ∧
      ∀ name ∈ [sk_idx, sk_jdx], ((two_indexes_call 1 0).1.returned name).length ≤ 1 ∧
        ((two_indexes_call 1 0).1.completed = false →
          ((two_indexes_call 1 0).1.returned name).length = 1)) :=
  ⟨⟨by decide!, by decide, by decide⟩,
    distinct_capped_unless_read_num 6 two_indexes [sk_idx, sk_jdx] [] 1 0 (two_indexes_call 1 0)
      (by decide!) (by decide) (by decide) (by decide) (by decide)⟩

/-- An instance of `short_result_completed_unless_read_num`: the call on
`two_indexes` with `num = 5` and a read that yields 0, which returns two keys
per index. -/
theorem short_result_on_two_indexes :
    intersect 6 two_indexes [sk_idx, sk_jdx] [] 5 0 = .ok (two_indexes_call 5 0) ∧
    (((∀ name ∈ [sk_idx, sk_jdx], ((two_indexes_call 5 0).1.returned name).length < 5) →
        (two_indexes_call 5 0).1.completed = true ∧ (two_indexes_call 5 0).2.1 = []) ∧
      ((two_indexes_call 5 0).1.completed = true → (two_indexes_call 5 0).2.1 = [])) :=
  ⟨by decide!,
    short_result_completed_unless_read_num 6 two_indexes [sk_idx, sk_jdx] [] 5 0
      (two_indexes_call 5 0) (by decide!) (by decide)⟩

/-- C11, counterexample: after `b/idx` was opened on the empty transport the
page at the start key is stored with flags 0, so its LEAF flag is not set;
the meta is {0, 1, 0, 0}. -/
theorem fresh_start_page_is_not_leaf :
    fresh_open 1 = .ok (some (blob.page ⟨0, [], 0, default⟩), ⟨0, 1, 0, 0⟩) ∧
      (page.mk 0 [] 0 default).is_leaf = false := by
  decide

/-- Witness of `open_writes_empty_nonleaf_start_page`: the empty transport. -/
theorem open_writes_empty_nonleaf_start_page_witness :
    empty_transport.holds_nothing (index.meta_key ⟨sk_idx, default⟩) ∧
    ∃ t1 : transport, index.ctor 1 empty_transport sk_idx = .ok (t1, ⟨sk_idx, ⟨0, 1, 0, 0⟩⟩) ∧
      ∀ g ∈ empty_transport.groups, g ∉ empty_transport.down →
        ∃ p : page, t1.lookup g sk_idx = some (blob.page p) ∧ p.objects = [] ∧
          p.is_leaf = false :=
  ⟨fun _ _ _ => rfl,
    open_writes_empty_nonleaf_start_page 1 empty_transport sk_idx (fun _ _ _ => rfl)⟩

/-- Witness of `generation_counts_successful_calls`: insert `a`, remove `a`,
insert `b` on the index just opened. -/
theorem generation_counts_successful_calls_witness :
    run_ops 6 ops_reinsert opened.2 opened.1 = .ok after_reinsert ∧
    ((∀ c ∈ after_reinsert.1, c = 0 ∨ c < 0) ∧
      after_reinsert.2.1.m_meta.generation_number =
        opened.2.m_meta.generation_number + count_ok op.is_insert ops_reinsert after_reinsert.1 +
          count_ok op.is_remove ops_reinsert after_reinsert.1 ∧
      ∀ (fuel0 : Nat) (t0 : transport), t0.holds_nothing opened.2.meta_key →
        index.ctor fuel0 t0 opened.2.m_sk = .ok (opened.1, opened.2) →
        after_reinsert.2.1.m_meta.generation_number =
          count_ok op.is_insert ops_reinsert after_reinsert.1 +
            count_ok op.is_remove ops_reinsert after_reinsert.1) :=
  ⟨by decide!,
    generation_counts_successful_calls 6 opened.2 opened.1 ops_reinsert after_reinsert.1
      after_reinsert.2.1 after_reinsert.2.2 (by decide!)⟩

/-- C13, failing input: on the index left by insert `a`, remove `a`, the root
holds the entry `a` for `b/idx.0`, and a read of `b/idx.0` fails with code -2;
`insert b` descends to that page, yet it returns 0, rewrites the page at the
start key and raises the generation from 2 to 3. -/
theorem insert_drops_child_read_error :
    insert_observed 6 ops_insert_remove (short_key "b" "data.b") =
      .ok (some ⟨0, [⟨ascii "a", page_url sk_idx 0⟩], 7, page_url sk_idx 0⟩,
        some (-2), 0,
        some ⟨0, [⟨[], page_url sk_idx 0⟩], 7, page_url sk_idx 0⟩, 2, 3) := by
  decide!

/-- Witness of `remove_absent_changes_nothing`: removing `b` from the index
that holds `a`. -/
theorem remove_absent_changes_nothing_witness :
    (index.search_at 6 after_one_insert.2.2 after_one_insert.2.1.m_sk (short_key "b" "data.b") =
        .ok (⟨1, [short_key "a" "data.a"], 8, default⟩, -1) ∧
      (page.mk 1 [short_key "a" "data.a"] 8 default).is_leaf = true ∧
      ∀ e ∈ (page.mk 1 [short_key "a" "data.a"] 8 default).objects,
        e.id ≠ (short_key "b" "data.b").id) ∧
    index.remove 6 after_one_insert.2.1 after_one_insert.2.2 (short_key "b" "data.b") =
      .ok (- ENOENT, after_one_insert.2.2, after_one_insert.2.1) :=
  ⟨⟨by decide!, by decide, by decide⟩,
    remove_absent_changes_nothing 6 after_one_insert.2.1 after_one_insert.2.2
      (short_key "b" "data.b") ⟨1, [short_key "a" "data.a"], 8, default⟩ (-1)
      (by decide!) (by decide) (by decide)⟩

/-- C15, failing input: after insert `a`, remove `a` (both return 0) the page
at the start key still holds the entry `a` for `b/idx.0`, and nothing is
stored under `b/idx.0`. -/
theorem root_entry_names_deleted_page :
    root_and_first_child 6 ops_insert_remove =
      .ok ([0, 0], some ⟨0, [⟨ascii "a", page_url sk_idx 0⟩], 7, page_url sk_idx 0⟩, none) := by
  decide!

/-- C16, failing input: after insert `bb`, insert `a` the page at the start
key holds the one entry `a` for `b/idx.0`, of size 7, with `total_size` 8. -/
theorem root_total_size_drifts :
    root_and_first_child 6 ops_smaller_second =
        .ok ([0, 0], some ⟨0, [⟨ascii "a", page_url sk_idx 0⟩], 8, page_url sk_idx 0⟩,
          some (blob.page ⟨1, [short_key "a" "data.a", short_key "bb" "data.b"], 17, default⟩)) ∧
      entries_size [⟨ascii "a", page_url sk_idx 0⟩] = 7 := by
  decide!

/-- Witness of `reopen_keeps_generation`: `b/idx` opened on the empty transport. -/
theorem reopen_keeps_generation_witness :
    index.ctor 1 empty_transport sk_idx = .ok (opened.1, opened.2) ∧
    ((∃ t2 idx2, index.ctor 1 opened.1 sk_idx = .ok (t2, idx2) ∧
        idx2.m_meta.generation_number = opened.2.m_meta.generation_number) ∧
      (opened.2.m_meta.generation_number = 0 ∨
        ∃ g ∈ empty_transport.groups, ∃ m : index_meta,
          empty_transport.lookup g (index.meta_key ⟨sk_idx, default⟩) = some (blob.meta m) ∧
            m.generation_number = opened.2.m_meta.generation_number)) :=
  ⟨by decide!, reopen_keeps_generation 1 1 empty_transport sk_idx opened.1 opened.2 (by decide!)⟩

/-- Witness of `search_node_routes`: the key `c` on the page with the
entries `b` and `d`. -/
theorem search_node_routes_witness :
    (routing_page.is_leaf = false ∧
      routing_page.objects = ⟨ascii "b", page_url sk_idx 0⟩ :: [⟨ascii "d", page_url sk_idx 1⟩] ∧
      ids_sorted routing_page.objects) ∧
    ((ascii "c" ≤ ascii "b" → routing_page.search_node ⟨ascii "c", default⟩ = 0) ∧
      (ascii "b" < ascii "c" → ∃ i : Nat, routing_page.search_node ⟨ascii "c", default⟩ = (i : Int) ∧
        ∃ h : i < routing_page.objects.length,
          (routing_page.objects.get ⟨i, h⟩).id ≤ ascii "c" ∧
            ∀ (j : Nat) (hj : j < routing_page.objects.length),
              (routing_page.objects.get ⟨j, hj⟩).id ≤ ascii "c" → j ≤ i)) :=
  ⟨⟨by decide, rfl, by unfold ids_sorted; decide⟩,
    search_node_routes routing_page ⟨ascii "c", default⟩ ⟨ascii "b", page_url sk_idx 0⟩
      [⟨ascii "d", page_url sk_idx 1⟩] (by decide) rfl (by unfold ids_sorted; decide)⟩

/-- C27, failing input: for the urls `a/b` and `b/a` both `a/b < b/a` and
`b/a < a/b` hold, so `operator<` is not asymmetric. -/
theorem eurl_lt_holds_both_ways :
    eurl.lt ⟨ascii "a", ascii "b"⟩ ⟨ascii "b", ascii "a"⟩ = true ∧
      eurl.lt ⟨ascii "b", ascii "a"⟩ ⟨ascii "a", ascii "b"⟩ = true ∧
      (⟨ascii "a", ascii "b"⟩ : eurl) ≠ ⟨ascii "b", ascii "a"⟩ := by
  decide

/-- C28, counterexample: on the index with the keys `a` and `c`, `begin("b")`
holds the leaf with `a` and `c` at position 0, the entry `a`; the first entry
whose id is not below `b` is at position 1. -/
theorem begin_clamps_to_first_entry :
    begin_observed 6 [op.insert (short_key "a" "data.a"), op.insert (short_key "c" "data.c")]
        (ascii "b") =
      .ok ([0, 0], [short_key "a" "data.a", short_key "c" "data.c"], 0) ∧
    List.findIdx (fun e : key => decide (ascii "b" ≤ e.id))
      [short_key "a" "data.a", short_key "c" "data.c"] = 1 := by
  decide!

/-- C29, failing input: on the index that holds `a`, `remove a` returns 0 and
deletes the leaf `b/idx.0`, and the page at the start key keeps its entry for
`b/idx.0`. -/
theorem remove_keeps_entry_of_deleted_child :
    remove_observed 6 [op.insert (short_key "a" "data.a")] (short_key "a" "data.a") =
      .ok (some ⟨0, [⟨ascii "a", page_url sk_idx 0⟩], 7, page_url sk_idx 0⟩,
        some (blob.page ⟨1, [short_key "a" "data.a"], 8, default⟩), 0, none,
        some ⟨0, [⟨ascii "a", page_url sk_idx 0⟩], 7, page_url sk_idx 0⟩) := by
  decide!

/-- C30, counterexample: on the index with the start key `sk_wide` that
holds `a`, `b`, `c`, the page at the start key holds two entries and
`num_pages` is 3; `insert d` splits a leaf and then that page, returns 0 and
leaves at the start key the two entries for the urls 4 and 3, with
`num_pages` 6: three higher. -/
theorem root_split_adds_three_pages :
    root_split_observed 8 ops_three_wide (wide_key "d") =
      .ok ([⟨ascii "a", page_url sk_wide 0⟩, ⟨ascii "b", page_url sk_wide 1⟩], 3, 0,
        some ⟨0, [⟨ascii "a", page_url sk_wide 4⟩, ⟨ascii "b", page_url sk_wide 3⟩], 2808,
          page_url sk_wide 4⟩, 6) := by
  decide!

theorem cap_checks_read_other :
    cap_checks_observed 6 [op.insert (short_key "a" "data.a")] [sk_idx] 1 0 = .ok [(0, 1)] := by
  decide!

theorem cap_checks_read_cap :
    cap_checks_observed 6 [op.insert (short_key "a" "data.a")] [sk_idx] 1 1 = .ok [(0, 1)] := by
  decide!

/-- C35, failing input: on the index with the one key `a`, `intersect` with
`num = 1` reaches its cap check once, with `pos` of length 1 and a result map
that holds no list, so `res.keys.begin()` is `end()` when it is read; this is
so whatever the read yields. -/
theorem cap_check_reads_empty_map (undef : Nat) :
    cap_checks_observed 6 [op.insert (short_key "a" "data.a")] [sk_idx] 1 undef =
      .ok [(0, 1)] := by
  by_cases h : undef = 1
  · rw [h]
    exact cap_checks_read_cap
  · rw [cap_checks_observed_undef 6 _ _ 1 undef 0
      ⟨fun h1 => absurd h1 h, fun h1 => absurd h1 (by decide)⟩]
    exact cap_checks_read_other

/-- Witness of `search_node_leaf_exact`: the key `c` on the leaf with `a` and `c`. -/
theorem search_node_leaf_exact_witness :
    (leaf_page.is_leaf = true ∧ ids_sorted leaf_page.objects) ∧
    ((∀ i : Nat, leaf_page.search_node (short_key "c" "x") = (i : Int) ↔
        ∃ h : i < leaf_page.objects.length,
          (leaf_page.objects.get ⟨i, h⟩).eq (short_key "c" "x") = true) ∧
      (leaf_page.search_node (short_key "c" "x") = -1 ↔
        ∀ e ∈ leaf_page.objects, e.eq (short_key "c" "x") = false) ∧
      (leaf_page.search_node (short_key "c" "x") = -1 ∨
        ∃ i : Nat, leaf_page.search_node (short_key "c" "x") = (i : Int)) ∧
      ∀ q : page, q.objects = [] → q.search_node (short_key "c" "x") = -1) :=
  ⟨⟨by decide, by unfold ids_sorted; decide⟩,
    search_node_leaf_exact leaf_page (short_key "c" "x") (by decide)
      (by unfold ids_sorted; decide)⟩

/-- Witness of `insert_and_split_inserts_in_order`: the key `b` into the leaf
with `a` and `c`. -/
theorem insert_and_split_inserts_in_order_witness :
    (ids_sorted leaf_page.objects ∧ (page.new false).objects = []) ∧
    (leaf_page.insert_and_split (short_key "b" "data.b") (page.new false)).1.objects ++
        (leaf_page.insert_and_split (short_key "b" "data.b") (page.new false)).2.1.objects =
      inserted_in_order (short_key "b" "data.b") leaf_page.objects :=
  ⟨⟨by unfold ids_sorted; decide, rfl⟩,
    (insert_and_split_inserts_in_order leaf_page (short_key "b" "data.b") (page.new false)
      (by unfold ids_sorted; decide) rfl).1⟩

/-- Witness of `insert_and_split_split_rule`: a second key of half a page
into `long_leaf`, which splits it. -/
theorem insert_and_split_split_rule_witness :
    (long_leaf.total_size = entries_size long_leaf.objects ∧
      long_leaf.total_size + (long_key 98 "data.1").size < SIZE_MOD) ∧
    ((long_leaf.insert_and_split (long_key 98 "data.1") (page.new false)).2.2 = true ↔
      max_page_size < entries_size (insert_sorted (long_key 98 "data.1") long_leaf.objects)) :=
  ⟨⟨by decide!, by decide!⟩,
    (insert_and_split_split_rule long_leaf (long_key 98 "data.1") (page.new false)
      (by decide!) (by decide!)).1⟩

/-- Witness of `page_remove_spec`: removing the entry at position 1 of the
leaf with `a` and `c`. -/
theorem page_remove_spec_witness :
    (leaf_page.total_size = entries_size leaf_page.objects ∧ leaf_page.total_size < SIZE_MOD ∧
      1 < leaf_page.objects.length) ∧
    (leaf_page.remove 1).1.objects = leaf_page.objects.eraseIdx 1 ∧
    ((leaf_page.remove 1).2 = true ↔ (leaf_page.remove 1).1.total_size < max_page_size / 3) :=
  ⟨⟨by decide, by decide, by decide⟩,
    (page_remove_spec leaf_page 1 (by decide) (by decide) (by decide)).1,
    (page_remove_spec leaf_page 1 (by decide) (by decide) (by decide)).2.2.1⟩

/-- Witness of `timestamp_round_trip`: 5 seconds and 7 nanoseconds. -/
theorem timestamp_round_trip_witness :
    ((0 : Int) ≤ 5 ∧ (5 : Int) < 2 ^ 34) ∧
    ((hkey.mk [] default 0 []).set_timestamp 5 7).timestamp < SIZE_MOD :=
  ⟨⟨by decide, by decide⟩,
    (timestamp_round_trip (hkey.mk [] default 0 []) 5 7 (by decide) (by decide)).2.2⟩

/-- Witness of `page_operations_keep_order`: the key `b` into the leaf with
`a` and `c`. -/
theorem page_operations_keep_order_witness :
    ids_sorted leaf_page.objects ∧
    ids_sorted (leaf_page.insert_and_split (short_key "b" "data.b") (page.new false)).1.objects :=
  ⟨by unfold ids_sorted; decide,
    (page_operations_keep_order leaf_page (short_key "b" "data.b") (page.new false)
      (by unfold ids_sorted; decide)).1⟩

/-- Witness of `page_operations_keep_size`: the key `b` into the leaf with
`a` and `c`. -/
theorem page_operations_keep_size_witness :
    (leaf_page.total_size = entries_size leaf_page.objects ∧
      leaf_page.total_size + (short_key "b" "data.b").size < SIZE_MOD) ∧
    (leaf_page.insert_and_split (short_key "b" "data.b") (page.new false)).1.total_size =
      entries_size
        (leaf_page.insert_and_split (short_key "b" "data.b") (page.new false)).1.objects :=
  ⟨⟨by decide, by decide⟩,
    (page_operations_keep_size leaf_page (short_key "b" "data.b") (page.new false)
      (by decide) (by decide)).1⟩

/-- Witness of `split_halves_hold_an_entry`: a second key of half a page
into `long_leaf`. -/
theorem split_halves_hold_an_entry_witness :
    (long_leaf.total_size = entries_size long_leaf.objects ∧
      (∀ e ∈ long_leaf.objects, e.size ≤ max_page_size) ∧
      (long_key 98 "data.1").size ≤ max_page_size ∧
      (long_leaf.insert_and_split (long_key 98 "data.1") (page.new false)).2.2 = true) ∧
    ((long_leaf.insert_and_split (long_key 98 "data.1") (page.new false)).1.objects ≠ [] ∧
      (long_leaf.insert_and_split (long_key 98 "data.1") (page.new false)).2.1.objects ≠ []) :=
  ⟨⟨by decide!, by decide!, by decide!, by decide!⟩,
    split_halves_hold_an_entry long_leaf (long_key 98 "data.1") (page.new false)
      (by decide!) (by decide!) (by decide!) (by decide!)⟩

/-- Witness of `begin_stands_at_match_or_first`: `begin("c")` on the index
with the keys `a` and `c`, whose descent ends at the leaf with both keys at
position 1. -/
theorem begin_stands_at_match_or_first_witness :
    index.search_at 6 after_two_inserts.2.2 after_two_inserts.2.1.m_sk
        { id := ascii "c", url := default } = .ok (leaf_page, 1) ∧
    ∃ n, after_two_inserts.2.1.begin 6 after_two_inserts.2.2 (ascii "c") =
        .ok { m_page := leaf_page, m_page_index := 0, m_page_internal_index := n } ∧
      ((∃ e, leaf_page.objects.get? n = some e ∧ e.id = ascii "c") ∨ n = 0) ∧
      (leaf_page.is_leaf = true → ids_sorted leaf_page.objects →
        (∃ e ∈ leaf_page.objects, e.id = ascii "c") →
        ∃ e, leaf_page.objects.get? n = some e ∧ e.id = ascii "c") ∧
      ((∀ e ∈ leaf_page.objects, e.id ≠ ascii "c") → n = 0) ∧
      (leaf_page.is_leaf = false → n = 0) :=
  ⟨by decide!,
    begin_stands_at_match_or_first 6 after_two_inserts.2.1 after_two_inserts.2.2 (ascii "c")
      leaf_page 1 (by decide!)⟩

theorem three_wide_answers : wide_store.up_groups ≠ [] := by
  decide

theorem three_wide_root :
    wide_store.read wide_index.m_sk = .ok (blob.page wide_root) := by
  decide!

theorem three_wide_descent :
    index.insert_at 7 wide_index wide_store default
        (wide_root.objects.getD (wide_root.search_node (wide_key "d")).toNat default).url
        (wide_key "d") =
      .ok (descent_of_d.1, descent_of_d.2.1, descent_of_d.2.2.1, descent_of_d.2.2.2) := by
  decide!

theorem three_wide_split_key : descent_of_d.2.2.2.split_key.to_bool = true := by
  decide!

theorem three_wide_root_kept :
    wide_root =
      if (wide_root.objects.getD (wide_root.search_node (wide_key "d")).toNat default).ne
          descent_of_d.2.2.2.page_start then
        { wide_root with objects := (wide_root.objects.set
            (wide_root.search_node (wide_key "d")).toNat
            (key.mk descent_of_d.2.2.2.page_start.id
              (wide_root.objects.getD (wide_root.search_node (wide_key "d")).toNat
                default).url)) }
      else wide_root := by
  decide!

theorem three_wide_root_splits :
    wide_root.insert_and_split descent_of_d.2.2.2.split_key (page.new false) =
      (wide_lower, wide_upper, true) := by
  decide!

theorem three_wide_entries_fit :
    (key.mk (key.mk (ascii "a") (page_url sk_wide 0)).id
        (page_url wide_index.m_sk (descent_of_d.2.2.1.m_meta.page_index + 1))).size +
      (key.mk (key.mk (ascii "b") (page_url sk_wide 1)).id
        (page_url wide_index.m_sk descent_of_d.2.2.1.m_meta.page_index)).size ≤
      max_page_size := by
  decide!

/-- Witness of `root_split_insert`: `insert d` on the index at `sk_wide`
that holds `a`, `b`, `c`, its pages held by group 1.  The descent splits the leaf of `b` and `c` and
returns the split key `c`; the page at the start url, with the entries `a`
and `b`, takes the entry `c` and splits into the page with `a` and the page
with `b` and `c`. -/
theorem root_split_insert_witness :
    (wide_store.up_groups ≠ [] ∧
      wide_store.read wide_index.m_sk = .ok (blob.page wide_root) ∧
      wide_root.is_leaf = false ∧
      0 ≤ wide_root.search_node (wide_key "d") ∧
      index.insert_at 7 wide_index wide_store default
          (wide_root.objects.getD (wide_root.search_node (wide_key "d")).toNat default).url
          (wide_key "d") =
        .ok (descent_of_d.1, descent_of_d.2.1, descent_of_d.2.2.1, descent_of_d.2.2.2) ∧
      descent_of_d.2.2.2.split_key.to_bool = true ∧
      wide_root.insert_and_split descent_of_d.2.2.2.split_key (page.new false) =
        (wide_lower, wide_upper, true) ∧
      (key.mk (ascii "a") (page_url sk_wide 0)).id <
        (key.mk (ascii "b") (page_url sk_wide 1)).id ∧
      (key.mk (key.mk (ascii "a") (page_url sk_wide 0)).id
          (page_url wide_index.m_sk
            (descent_of_d.2.2.1.m_meta.page_index + 1))).size +
        (key.mk (key.mk (ascii "b") (page_url sk_wide 1)).id
          (page_url wide_index.m_sk descent_of_d.2.2.1.m_meta.page_index)).size ≤
        max_page_size) ∧
    ∃ (t2 : transport) (idx2 : index) (total : Nat),
      index.insert (7 + 1) wide_index wide_store (wide_key "d") =
        .ok (0, t2, idx2) ∧
      (∀ g ∈ wide_store.groups, g ∉ wide_store.down →
        t2.lookup g (page_url wide_index.m_sk descent_of_d.2.2.1.m_meta.page_index) =
          some (blob.page { wide_upper with next := wide_lower.next }) ∧
        t2.lookup g
            (page_url wide_index.m_sk (descent_of_d.2.2.1.m_meta.page_index + 1)) =
          some (blob.page
            { wide_lower with
              next := page_url wide_index.m_sk
                descent_of_d.2.2.1.m_meta.page_index }) ∧
        t2.lookup g wide_index.m_sk =
          some (blob.page
            { flags := 0,
              objects :=
                [⟨(key.mk (ascii "a") (page_url sk_wide 0)).id,
                    page_url wide_index.m_sk
                      (descent_of_d.2.2.1.m_meta.page_index + 1)⟩,
                 ⟨(key.mk (ascii "b") (page_url sk_wide 1)).id,
                    page_url wide_index.m_sk descent_of_d.2.2.1.m_meta.page_index⟩],
              total_size := total,
              next := page_url wide_index.m_sk
                (descent_of_d.2.2.1.m_meta.page_index + 1) })) ∧
      (page.mk 0 [] 0 default).is_leaf = false ∧
      wide_index.m_meta.page_index ≤ descent_of_d.2.2.1.m_meta.page_index ∧
      idx2.m_meta.num_pages = descent_of_d.2.2.1.m_meta.num_pages + 2 ∧
      wide_index.m_meta.num_pages + 3 ≤ idx2.m_meta.num_pages :=
  ⟨⟨three_wide_answers, three_wide_root, by decide, by decide, three_wide_descent,
      three_wide_split_key, three_wide_root_splits, by decide, three_wide_entries_fit⟩,
    root_split_insert 7 wide_index wide_store (wide_key "d")
      wide_root wide_root wide_lower wide_upper
      descent_of_d.1 descent_of_d.2.1 descent_of_d.2.2.1 descent_of_d.2.2.2
      ⟨ascii "a", page_url sk_wide 0⟩ ⟨ascii "b", page_url sk_wide 1⟩ []
      [⟨ascii "c", page_url sk_wide 2⟩]
      three_wide_answers three_wide_root (by decide) (by decide) three_wide_descent
      three_wide_split_key three_wide_root_kept three_wide_root_splits rfl rfl (by decide)
      three_wide_entries_fit⟩

/-- Witness of `leaf_pages_within_pages`: insert `a`, insert `c`, remove `a`
on three groups of which one is down; the run ends with two pages, one of
them a leaf. -/
theorem leaf_pages_within_pages_witness :
    (open_and_run 6 ⟨[1, 2, 3], [2], []⟩ sk_idx ops_mixed =
        .ok (after_mixed.1, after_mixed.2.1, after_mixed.2.2) ∧
      after_mixed.2.1.m_meta.page_index + 1 < SIZE_MOD ∧
      after_mixed.1 = [0, 0, 0] ∧ after_mixed.2.1.m_meta = ⟨1, 2, 1, 3⟩) ∧
    (after_mixed.2.1.m_meta.num_leaf_pages ≤ after_mixed.2.1.m_meta.num_pages ∧
      1 ≤ after_mixed.2.1.m_meta.num_pages ∧
      after_mixed.2.1.m_meta.num_pages ≤ after_mixed.2.1.m_meta.page_index + 1 ∧
      after_mixed.2.1.m_meta.num_pages < SIZE_MOD ∧
      after_mixed.2.1.m_meta.num_leaf_pages < SIZE_MOD ∧
      ∀ g ∈ (transport.mk [1, 2, 3] [2] []).up_groups,
        after_mixed.2.1.m_meta.num_pages =
          stored_pages g after_mixed.2.2.blobs after_mixed.2.1.m_sk
            after_mixed.2.1.m_meta.page_index ∧
        after_mixed.2.1.m_meta.num_leaf_pages =
          stored_leaves g after_mixed.2.2.blobs after_mixed.2.1.m_sk
            after_mixed.2.1.m_meta.page_index) :=
  ⟨⟨by decide!, by decide!, by decide!, by decide!⟩,
    leaf_pages_within_pages 6 [1, 2, 3] [2] sk_idx ops_mixed after_mixed.1 after_mixed.2.1
      after_mixed.2.2 (by decide!) (by decide!)⟩

/-! ### The page walk after four inserts -/

theorem four_wide_run :
    open_and_run 7 ⟨[1, 2], [2], []⟩ sk_wide (keys_four_wide.map op.insert) =
      .ok (after_four_wide.1, after_four_wide.2.1, after_four_wide.2.2) := by decide!

theorem four_wide_meta :
    after_four_wide.1 = [0, 0, 0, 0] ∧ after_four_wide.2.1.m_meta = ⟨5, 6, 3, 4⟩ := by decide!

theorem four_wide_keys_fit : ∀ k ∈ keys_four_wide, k.size ≤ max_page_size := by decide!

theorem four_wide_entries_fit :
    ∀ k ∈ keys_four_wide, ∀ i < after_four_wide.2.1.m_meta.page_index,
      (key.mk k.id (page_url sk_wide i)).size ≤ max_page_size := by decide!

theorem four_wide_page_index : after_four_wide.2.1.m_meta.page_index + 1 < SIZE_MOD := by
  decide!

theorem four_wide_bound : after_four_wide.2.1.m_meta.num_pages < 7 := by decide!

/-- Witness of `page_walk_counts_the_meta`: `a`, `b`, `c`, `d` are inserted
with payloads of a third of a page under a start key of 1400 bytes, on two
groups of which one is down.  The third insert splits a leaf, the fourth
splits a leaf and the page at the start key, and the run ends with six
pages, three of them leaves; the walk counts six and three. -/
theorem page_walk_counts_the_meta_witness :
    ((transport.mk [1, 2] [2] []).up_groups ≠ [] ∧ keys_four_wide ≠ [] ∧
      (∀ k ∈ keys_four_wide, k.size ≤ max_page_size) ∧
      (∀ k ∈ keys_four_wide, ∀ i < after_four_wide.2.1.m_meta.page_index,
        (key.mk k.id (page_url sk_wide i)).size ≤ max_page_size) ∧
      open_and_run 7 ⟨[1, 2], [2], []⟩ sk_wide (keys_four_wide.map op.insert) =
        .ok (after_four_wide.1, after_four_wide.2.1, after_four_wide.2.2) ∧
      after_four_wide.2.1.m_meta.page_index + 1 < SIZE_MOD ∧
      after_four_wide.2.1.m_meta.num_pages < 7 ∧
      after_four_wide.1 = [0, 0, 0, 0] ∧ after_four_wide.2.1.m_meta = ⟨5, 6, 3, 4⟩) ∧
    test_page_iterator 7 after_four_wide.2.1 after_four_wide.2.2 =
      .ok (after_four_wide.2.1.m_meta.num_pages, after_four_wide.2.1.m_meta.num_leaf_pages) :=
  ⟨⟨by decide, by decide, four_wide_keys_fit, four_wide_entries_fit, four_wide_run,
      four_wide_page_index, four_wide_bound, four_wide_meta⟩,
    page_walk_counts_the_meta 7 7 [1, 2] [2] sk_wide keys_four_wide after_four_wide.1
      after_four_wide.2.1 after_four_wide.2.2 (by decide) (by decide) four_wide_keys_fit
      four_wide_entries_fit four_wide_run four_wide_page_index four_wide_bound⟩

end Greylock
